import Mathlib

/-!
# Oct-tree partitioning of `stk_search` (`OctTreeOps.cpp`)

A shallow embedding of the box covering, the weight accumulation, the recursive
range partitioner and the processor lookup of `stk_search/OctTreeOps.cpp`,
together with the properties proved about them.  The namespace `Zoltan2` holds the
integer range list validator of `Zoltan2_Parameters.hpp`.

Conventions of the embedding

* `float`/`double` values are read as exact rationals (`ℚ`); a division whose
  divisor is zero is modelled explicitly where the source compares its result.
  The namespace `stk.ieee` holds `accumulate_weights`, `partition` and
  `oct_tree_partition_private` once more, in the IEEE arithmetic of the source: every
  operation rounded to `float` or `double`, with the infinities and "not a number".
* `unsigned` values are natural numbers; a wrap-around is written `% 2 ^ 32`
  at the places where the source can reach it.
* The `weights` and `cuts` arrays are lists; a read outside the array gives `0` (the root
  key), a write outside the array is dropped.
-/

namespace stk

/-! ## Keys -/

/-- Modelled from the spec: the key type `stk::OctTreeKey` (the "SpatialKey"), whose header is
not among the sources.  A key is a sequence of `MaxDepth` digits, one per tree level; a digit
in `1..8` selects a child, the digit `0` means "unset".  `MaxDepth` is the configuration
constant `OctTreeKey::MaxDepth`, kept as a parameter. -/
structure OctTreeKey (MaxDepth : Nat) where
  digits : List Nat
  length_eq : digits.length = MaxDepth
deriving DecidableEq

namespace OctTreeKey

variable {MaxDepth : Nat}

/-- Modelled from the spec: the default-constructed key `OctTreeKey()`, the root of the tree
(no digit set). -/
def root (MaxDepth : Nat) : OctTreeKey MaxDepth :=
  ⟨List.replicate MaxDepth 0, List.length_replicate _ _⟩

/-- Modelled from the spec: `index(level)`, the digit stored for a level; levels are counted
from `1`.  A level that is not stored reads as unset. -/
def index (k : OctTreeKey MaxDepth) (level : Nat) : Nat :=
  match level with
  | 0 => 0
  | l + 1 => k.digits.getD l 0

/-- Modelled from the spec: `set_index(level, value)`.  A level outside `1..MaxDepth` leaves
the key as it is. -/
def set_index (k : OctTreeKey MaxDepth) (level value : Nat) : OctTreeKey MaxDepth :=
  match level with
  | 0 => k
  | l + 1 => ⟨k.digits.set l value, by rw [List.length_set]; exact k.length_eq⟩

/-- Modelled from the spec: `clear_index(level)` unsets the digit of a level. -/
def clear_index (k : OctTreeKey MaxDepth) (level : Nat) : OctTreeKey MaxDepth :=
  k.set_index level 0

/-- Modelled from the spec: `depth()`, the number of set digits. -/
def depth (k : OctTreeKey MaxDepth) : Nat :=
  k.digits.countP (fun d => d != 0)

/-- Digit sequences compared left to right, the unset digit `0` being the smallest. -/
def digits_less : List Nat → List Nat → Bool
  | [], [] => false
  | [], _ :: _ => true
  | _ :: _, [] => false
  | a :: as, b :: bs => if a < b then true else if b < a then false else digits_less as bs

/-- Modelled from the spec: the order of keys, digit sequences compared left to right. -/
instance : LT (OctTreeKey MaxDepth) := ⟨fun a b => digits_less a.digits b.digits = true⟩

/-- The non-strict order: `a ≤ b` when `b` is not before `a`. -/
instance : LE (OctTreeKey MaxDepth) := ⟨fun a b => digits_less b.digits a.digits = false⟩

instance (a b : OctTreeKey MaxDepth) : Decidable (a < b) :=
  inferInstanceAs (Decidable (digits_less a.digits b.digits = true))

instance (a b : OctTreeKey MaxDepth) : Decidable (a ≤ b) :=
  inferInstanceAs (Decidable (digits_less b.digits a.digits = false))

/-- A key built by appending digits from the root: every digit is at most `8` and no digit
is set after an unset one. -/
def wf_digits : List Nat → Bool
  | [] => true
  | d :: ds => if d = 0 then ds.all (fun x => x == 0) else decide (d ≤ 8) && wf_digits ds

/-- No digit is set after an unset one (the digits themselves are not bounded). -/
def shaped_digits : List Nat → Bool
  | [] => true
  | d :: ds => if d = 0 then ds.all (fun x => x == 0) else shaped_digits ds

/-- Keys built by appending digits to the root, whatever the digits. -/
def Shaped (k : OctTreeKey MaxDepth) : Prop := shaped_digits k.digits = true

/-- Well-formed keys: the keys that denote a node of the tree. -/
def WellFormed (k : OctTreeKey MaxDepth) : Prop := wf_digits k.digits = true

instance (k : OctTreeKey MaxDepth) : Decidable k.WellFormed :=
  inferInstanceAs (Decidable (wf_digits k.digits = true))

end OctTreeKey

/-! ## Tree linearisation -/

/-- Modelled from the spec: `oct_tree_size(depth)`, the number of nodes of the full 8-ary
tree with `depth` levels below the root. -/
def oct_tree_size : Nat → Nat
  | 0 => 1
  | d + 1 => 1 + 8 * oct_tree_size d

/-- Offset of a digit sequence in the depth-first numbering of a tree with `d` levels left:
each set digit `i` skips the node itself and the `i - 1` subtrees before it. -/
def offset_of_digits : Nat → List Nat → Nat
  | 0, _ => 0
  | _ + 1, [] => 0
  | d + 1, x :: xs =>
    if x = 0 then 0 else 1 + (x - 1) * oct_tree_size d + offset_of_digits d xs

/-- Modelled from the spec: `oct_tree_offset(depth, key)`, the "leaf offset": the position of
the key in the depth-first linearisation of the full tree of the given depth. -/
def oct_tree_offset {MaxDepth : Nat} (depth : Nat) (k : OctTreeKey MaxDepth) : Nat :=
  offset_of_digits depth k.digits

/-! ## Processor lookup -/

/-- The search loop of `std::upper_bound` on `[first, first + len)`: the range is halved
until it is empty; `fuel` bounds the number of rounds. -/
def upper_bound_loop {MaxDepth : Nat} (cuts : List (OctTreeKey MaxDepth))
    (key : OctTreeKey MaxDepth) : Nat → Nat → Nat → Nat
  | 0, first, _ => first
  | fuel + 1, first, len =>
    if len = 0 then first
    else
      let half := len / 2
      let middle := first + half
      if key < cuts.getD middle (OctTreeKey.root MaxDepth) then
        upper_bound_loop cuts key fuel first half
      else
        upper_bound_loop cuts key fuel (middle + 1) (len - half - 1)

/-- The call `std::upper_bound(cuts_b, cuts_e, key)`, as a position in the array. -/
def upper_bound {MaxDepth : Nat} (cuts : List (OctTreeKey MaxDepth))
    (key : OctTreeKey MaxDepth) : Nat :=
  upper_bound_loop cuts key cuts.length 0 cuts.length

/-- The function `processor`: the error is the `std::runtime_error` "Bad cut-key array". -/
def processor {MaxDepth : Nat} (cuts : List (OctTreeKey MaxDepth))
    (key : OctTreeKey MaxDepth) : Option Nat :=
  let cuts_p := upper_bound cuts key
  if cuts_p = 0 then none else some (cuts_p - 1)

/-- The cut array is in non-decreasing key order. -/
def SortedCuts {MaxDepth : Nat} (cuts : List (OctTreeKey MaxDepth)) : Prop :=
  cuts.Pairwise (fun a b => a ≤ b)

instance {MaxDepth : Nat} (cuts : List (OctTreeKey MaxDepth)) : Decidable (SortedCuts cuts) :=
  inferInstanceAs (Decidable (cuts.Pairwise (fun a b => a ≤ b)))

/-! ## Weight accumulation -/

/-- The `weights` array: slot `2 * offset` holds the own weight of a node, slot
`2 * offset + 1` the weight of its descendants. -/
abbrev Weights := List ℚ

/-- The read `weights[i]`. -/
def Weights.at (weights : Weights) (i : Nat) : ℚ := weights.getD i 0

/-- The assignment `weights[i] = v`. -/
def Weights.put (weights : Weights) (i : Nat) (v : ℚ) : Weights := weights.set i v

/-- State of the child loops of `accumulate_weights`: the key `k_node` as mutated so far,
the running sum `w` and the array. -/
structure AccState (MaxDepth : Nat) where
  k_node : OctTreeKey MaxDepth
  w : ℚ
  weights : Weights

/-- The loop `for ( ++i ; i <= 8 ; ++i )` of `accumulate_weights`, over the list of the
values `i` takes; `recurse` is the nested call, with the lower bound already fixed. -/
def accumulate_children {MaxDepth : Nat}
    (recurse : OctTreeKey MaxDepth → Weights → Weights)
    (d1 ord_end depth : Nat) : List Nat → AccState MaxDepth → AccState MaxDepth
  | [], st => st
  | i :: rest, st =>
    let k_node := st.k_node.set_index d1 i
    let ord := oct_tree_offset depth k_node
    let ord_2 := ord * 2
    if ord < ord_end then
      let weights := recurse k_node st.weights
      accumulate_children recurse d1 ord_end depth rest
        ⟨k_node, st.w + (weights.at ord_2 + weights.at (ord_2 + 1)), weights⟩
    else
      accumulate_children recurse d1 ord_end depth rest ⟨k_node, st.w, st.weights⟩

/-- The function `accumulate_weights`; `fuel` bounds the nesting of the calls (one level of
the tree per call), and a call without fuel leaves the array as it is. -/
def accumulate_weights_fuel {MaxDepth : Nat} :
    Nat → OctTreeKey MaxDepth → OctTreeKey MaxDepth → Nat → Nat → Weights → Weights
  | 0, _, _, _, _, weights => weights
  | fuel + 1, k_node, k_first, ord_end, depth, weights =>
    let ord_node_2 := 2 * oct_tree_offset depth k_node
    if k_node.depth < depth then
      let d1 := k_node.depth + 1
      let i := k_first.index d1
      let st : AccState MaxDepth × OctTreeKey MaxDepth :=
        if i ≠ 0 then
          let k_node1 := k_node.set_index d1 i
          let ord := oct_tree_offset depth k_node1
          let ord_2 := ord * 2
          let weights1 := accumulate_weights_fuel fuel k_node1 k_first ord_end depth weights
          (⟨k_node1, 0 + (weights1.at ord_2 + weights1.at (ord_2 + 1)), weights1⟩,
            OctTreeKey.root MaxDepth)
        else (⟨k_node, 0, weights⟩, k_first)
      let st2 := accumulate_children
        (fun k w => accumulate_weights_fuel fuel k st.2 ord_end depth w)
        d1 ord_end depth (List.range' (i + 1) (8 - i)) st.1
      st2.weights.put (ord_node_2 + 1) st2.w
    else weights

/-- The call `accumulate_weights(k_node, k_first, ord_end, depth, weights)`: the nesting is
one call per level, so `depth + 1` nested calls are provided for. -/
def accumulate_weights {MaxDepth : Nat} (k_node k_first : OctTreeKey MaxDepth)
    (ord_end depth : Nat) (weights : Weights) : Weights :=
  accumulate_weights_fuel (depth + 1) k_node k_first ord_end depth weights

/-! ## Splitting keys -/

/-- The loops `while ( d && v == key_upper.index(d) ) { key_upper.clear_index(d); --d; }` of
`oct_key_split`: returns the final `d` and key. -/
def strip_trailing {MaxDepth : Nat} (v : Nat) :
    Nat → OctTreeKey MaxDepth → Nat × OctTreeKey MaxDepth
  | 0, k => (0, k)
  | d + 1, k =>
    if v = k.index (d + 1) then strip_trailing v d (k.clear_index (d + 1)) else (d + 1, k)

/-- The function `oct_key_split`, returning `key_upper`. -/
def oct_key_split {MaxDepth : Nat} (key : OctTreeKey MaxDepth) (upper_ord : Nat) :
    OctTreeKey MaxDepth :=
  let d := key.depth
  if upper_ord = 1 then (strip_trailing 1 d key).2
  else if 8 < upper_ord then
    let r := strip_trailing 8 d key
    if r.1 ≠ 0 then r.2.set_index r.1 (r.2.index r.1 + 1) else r.2
  else key.set_index (d + 1) upper_ord

/-- The loop of `calculate_key_using_offset`; `n` is `depthLevel + 1`.  The subtraction
`offset - 1` is an `unsigned` one. -/
def calculate_key_loop {MaxDepth : Nat} (depth : Nat) :
    Nat → Nat → OctTreeKey MaxDepth → OctTreeKey MaxDepth
  | 0, _, localKey => localKey
  | depthLevel + 1, offset, localKey =>
    let max := oct_tree_size depthLevel
    let index := ((offset + 2 ^ 32 - 1) % 2 ^ 32) / max
    if index > 0 ∧ offset > 0 then
      calculate_key_loop depth depthLevel (offset - (max * index + 1))
        (localKey.set_index (depth - depthLevel) (index + 1))
    else if offset > 0 then
      calculate_key_loop depth depthLevel (offset - 1)
        (localKey.set_index (depth - depthLevel) 1)
    else
      calculate_key_loop depth depthLevel offset localKey

/-- The function `calculate_key_using_offset`, returning `kUpper`. -/
def calculate_key_using_offset (MaxDepth : Nat) (depth offset : Nat) : OctTreeKey MaxDepth :=
  calculate_key_loop depth depth offset (OctTreeKey.root MaxDepth)

/-! ## The recursive key search -/

/-- How a call that can throw ends: with a value, with an exception of the key type (a digit
outside `0..8` is rejected), or because the model ran out of `fuel`. -/
inductive Outcome (α : Type) where
  | ok : α → Outcome α
  | raised : Outcome α
  | no_fuel : Outcome α
deriving DecidableEq

/-- The loop `while ( i_end <= oct_tree_offset( depth , k_upp ) ) k_upp.set_index( d1 , --j )`
of `partition`, started at `j`.  When the test still holds at `j = 0` the decrement wraps
around and the key rejects the digit. -/
def find_j {MaxDepth : Nat} (i_end depth d1 : Nat) (key : OctTreeKey MaxDepth) :
    Nat → Option Nat
  | 0 => if i_end ≤ oct_tree_offset depth (key.set_index d1 0) then none else some 0
  | j + 1 =>
    if i_end ≤ oct_tree_offset depth (key.set_index d1 (j + 1)) then
      find_j i_end depth d1 key j
    else some (j + 1)

/-- State of the loop `while ( i < j )` of `partition`. -/
structure SplitState where
  i : Nat
  j : Nat
  w_lower : ℚ
  w_upper : ℚ

/-- The loop `while ( i < j )` of `partition`; every round moves `i` up or `j` down, so
`j - i` rounds are enough and `rounds` is started there. -/
def balance_loop {MaxDepth : Nat} (key : OctTreeKey MaxDepth) (d1 depth : Nat)
    (weights : Weights) (target_ratio : ℚ) : Nat → SplitState → SplitState
  | 0, st => st
  | rounds + 1, st =>
    if st.i < st.j then
      let ki := key.set_index d1 st.i
      let kj := key.set_index d1 st.j
      let vali := weights.at (2 * oct_tree_offset depth ki)
        + weights.at (2 * oct_tree_offset depth ki + 1)
      let valj := weights.at (2 * oct_tree_offset depth kj)
        + weights.at (2 * oct_tree_offset depth kj + 1)
      if 0 < vali ∧ 0 < valj then
        if st.w_lower + vali < target_ratio * (st.w_upper + valj) then
          balance_loop key d1 depth weights target_ratio rounds
            ⟨st.i + 1, st.j, st.w_lower + vali, st.w_upper⟩
        else
          balance_loop key d1 depth weights target_ratio rounds
            ⟨st.i, st.j - 1, st.w_lower, st.w_upper + valj⟩
      else
        balance_loop key d1 depth weights target_ratio rounds
          ⟨if vali ≤ 0 then st.i + 1 else st.i, if valj ≤ 0 then st.j - 1 else st.j,
            st.w_lower, st.w_upper⟩
    else st

/-- The test `- tolerance < diff && diff < tolerance` for `diff = num / den - target_ratio`.
With a zero divisor the quotient of the source is infinite or not a number and the test
fails. -/
def within_tolerance (num den target_ratio tolerance : ℚ) : Bool :=
  if den = 0 then false
  else decide (-tolerance < num / den - target_ratio ∧ num / den - target_ratio < tolerance)

/-- The function `partition`, returning `k_upper`; `fuel` bounds the nesting of the calls. -/
def partition {MaxDepth : Nat} :
    Nat → OctTreeKey MaxDepth → Nat → OctTreeKey MaxDepth → Nat → Weights → ℚ → ℚ → ℚ → ℚ →
      Outcome (OctTreeKey MaxDepth)
  | 0, _, _, _, _, _, _, _, _, _ => Outcome.no_fuel
  | fuel + 1, k_first, i_end, key, depth, weights, tolerance, target_ratio, w_lower, w_upper =>
    if i_end = 1 ∨ i_end = oct_tree_offset depth k_first then Outcome.ok k_first
    else
      let ord_node := oct_tree_offset depth key
      let d1 := key.depth + 1
      let i_first := k_first.index d1
      let i := if i_first ≠ 0 then i_first else 1
      match find_j i_end depth d1 key 8 with
      | none => Outcome.raised
      | some j =>
        let w_lower := if key ≠ OctTreeKey.root MaxDepth then w_lower + weights.at (ord_node * 2)
          else w_lower
        let w_upper := if key ≠ OctTreeKey.root MaxDepth then w_upper + weights.at (ord_node * 2)
          else w_upper
        if key.depth = depth then
          let keyOffset := oct_tree_offset key.depth key
          if k_first = key ∧ keyOffset + 1 ≠ oct_tree_size depth then
            Outcome.ok (calculate_key_using_offset MaxDepth key.depth (keyOffset + 1))
          else Outcome.ok key
        else
          let st := balance_loop key d1 depth weights target_ratio (j - i) ⟨i, j, w_lower, w_upper⟩
          let nested_k_first := if i_first = st.i then k_first else OctTreeKey.root MaxDepth
          let ki := key.set_index d1 st.i
          let vali := weights.at (2 * oct_tree_offset depth ki)
            + weights.at (2 * oct_tree_offset depth ki + 1)
          if vali ≤ 0 then
            let leftSide := oct_tree_offset depth k_first
            let rightSide := i_end
            let middle := (rightSide + leftSide) / 2
            Outcome.ok (calculate_key_using_offset MaxDepth depth middle)
          else
            let accept : Bool × Nat :=
              if st.w_lower < st.w_upper * target_ratio then
                (within_tolerance (st.w_lower + vali) st.w_upper target_ratio tolerance, st.i + 1)
              else
                (within_tolerance st.w_lower (st.w_upper + vali) target_ratio tolerance, st.i)
            if accept.1 then Outcome.ok (oct_key_split key accept.2)
            else partition fuel nested_k_first i_end ki depth weights tolerance target_ratio
              st.w_lower st.w_upper

/-! ## The recursive bisection of the process range -/

/-- What a call of `oct_tree_partition_private` leaves: the two arrays, and the list of the
cut slots it assigned, in the order of the assignments. -/
structure PartitionResult (MaxDepth : Nat) where
  weights : Weights
  cuts : List (OctTreeKey MaxDepth)
  assigned : List Nat
deriving DecidableEq

/-- The function `oct_tree_partition_private`; `fuel` bounds the nesting of the calls. -/
def oct_tree_partition_private {MaxDepth : Nat} :
    Nat → Nat → Nat → Nat → ℚ → Weights → Nat → List (OctTreeKey MaxDepth) →
      Outcome (PartitionResult MaxDepth)
  | 0, _, _, _, _, _, _, _ => Outcome.no_fuel
  | fuel + 1, p_first, p_end, depth, tolerance, weights, cuts_length, cuts =>
    let p_size := p_end - p_first
    let p_upper := (p_end + p_first) / 2
    let target_fraction : ℚ := ((p_upper - p_first : Nat) : ℚ) / ((p_size : Nat) : ℚ)
    let target_ratio := target_fraction / (1 - target_fraction)
    let k_first := cuts.getD p_first (OctTreeKey.root MaxDepth)
    let i_end :=
      if p_end < cuts_length then oct_tree_offset depth (cuts.getD p_end (OctTreeKey.root MaxDepth))
      else oct_tree_size depth
    let weights1 := accumulate_weights (OctTreeKey.root MaxDepth) k_first i_end depth weights
    match partition (depth + 1) k_first i_end (OctTreeKey.root MaxDepth) depth weights1
        tolerance target_ratio 0 0 with
    | Outcome.raised => Outcome.raised
    | Outcome.no_fuel => Outcome.no_fuel
    | Outcome.ok k_upper =>
      let cuts1 := cuts.set p_upper k_upper
      let lower : Outcome (PartitionResult MaxDepth) :=
        if p_first + 1 < p_upper then
          oct_tree_partition_private fuel p_first p_upper depth tolerance weights1 cuts_length cuts1
        else Outcome.ok ⟨weights1, cuts1, []⟩
      match lower with
      | Outcome.raised => Outcome.raised
      | Outcome.no_fuel => Outcome.no_fuel
      | Outcome.ok r1 =>
        let upper : Outcome (PartitionResult MaxDepth) :=
          if p_upper + 1 < p_end then
            oct_tree_partition_private fuel p_upper p_end depth tolerance r1.weights
              cuts_length r1.cuts
          else Outcome.ok ⟨r1.weights, r1.cuts, []⟩
        match upper with
        | Outcome.raised => Outcome.raised
        | Outcome.no_fuel => Outcome.no_fuel
        | Outcome.ok r2 => Outcome.ok ⟨r2.weights, r2.cuts, p_upper :: (r1.assigned ++ r2.assigned)⟩


/-! ## Box covering -/

/-- The value `std::numeric_limits<float>::epsilon()`. -/
def float_epsilon : ℚ := 1 / 2 ^ 23

/-- Modelled from the spec: `OctTreeKey::BitsPerWord`, the number of bits of the `unsigned`
word the cell coordinates are left-justified in. -/
def BitsPerWord : Nat := 32

/-- The conversion `static_cast<unsigned>(x)` of a non-negative value: the fraction is dropped;
a value that does not fit is reduced to 32 bits. -/
def to_unsigned (x : ℚ) : Nat := x.floor.toNat % 2 ^ 32

/-- The helper `log2` of `OctTreeOps.cpp`. -/
def log2 (x : Nat) : Nat :=
  let l := 0
  let s16 : Nat × Nat := if x ≥ 2 ^ 16 then (x / 2 ^ 16, l ||| 16) else (x, l)
  let s8 : Nat × Nat := if s16.1 ≥ 2 ^ 8 then (s16.1 / 2 ^ 8, s16.2 ||| 8) else s16
  let s4 : Nat × Nat := if s8.1 ≥ 2 ^ 4 then (s8.1 / 2 ^ 4, s8.2 ||| 4) else s8
  let s2 : Nat × Nat := if s4.1 ≥ 2 ^ 2 then (s4.1 / 2 ^ 2, s4.2 ||| 2) else s4
  if s2.1 ≥ 2 ^ 1 then s2.2 ||| 1 else s2.2

/-- What the first loop of `hsfc_box_covering` has computed after some axes. -/
structure UnitBox where
  ubox_low : List ℚ
  ubox_up : List ℚ
  unit_size : ℚ
  valid : Bool

/-- One round of the first loop of `hsfc_box_covering`, for the axis `i`. -/
def unit_box_axis (global_box small_box : Nat → ℚ) (scale : ℚ) (st : UnitBox) (i : Nat) :
    UnitBox :=
  let min := float_epsilon
  let max := 1 - min
  let global_low := global_box i
  let global_up := global_box (i + 3)
  let small_low := small_box i
  let small_up := small_box (i + 3)
  if small_up < global_low then
    ⟨st.ubox_low ++ [min], st.ubox_up ++ [min], st.unit_size, false⟩
  else if global_up < small_low then
    ⟨st.ubox_low ++ [max], st.ubox_up ++ [max], st.unit_size, false⟩
  else
    let unit_low0 := (small_low - global_low) * scale
    let unit_up0 := (small_up - global_low) * scale
    let unit_low := if unit_low0 < min then min else unit_low0
    let valid1 := if unit_low0 < min then false else st.valid
    let unit_up := if max < unit_up0 then max else unit_up0
    let valid2 := if max < unit_up0 then false else valid1
    if unit_up < unit_low then
      ⟨st.ubox_low ++ [unit_low], st.ubox_up ++ [unit_low], st.unit_size, false⟩
    else
      let tmp_size := unit_up - unit_low
      ⟨st.ubox_low ++ [unit_low], st.ubox_up ++ [unit_up],
        if st.unit_size < tmp_size then tmp_size else st.unit_size, valid2⟩

/-- The first loop of `hsfc_box_covering`: the unit box, its largest extent and the flag. -/
def unit_box (global_box small_box : Nat → ℚ) (scale : ℚ) : UnitBox :=
  [0, 1, 2].foldl (unit_box_axis global_box small_box scale) ⟨[], [], 0, true⟩

/-- The depth chosen by `hsfc_box_covering` for the largest extent `unit_size`. -/
def covering_depth (MaxDepth : Nat) (unit_size : ℚ) : Nat :=
  if 0 < unit_size then
    let size_inv : Nat := to_unsigned (1 / unit_size)
    let depth : Nat := log2 size_inv
    if depth > MaxDepth then MaxDepth else depth
  else MaxDepth

/-- One round of the second loop of `hsfc_box_covering`: the cell coordinates `low` and `up`
of an axis; `none` is the `std::logic_error` of the consistency check. -/
def cell_axis (depth : Nat) (ubox_low ubox_up : ℚ) : Option (Nat × Nat) :=
  let shift : Nat := BitsPerWord - depth
  let num_cell : Nat := 2 ^ depth % 2 ^ 32
  let low : Nat := to_unsigned (ubox_low * (num_cell : ℚ))
  let up : Nat := to_unsigned (ubox_up * (num_cell : ℚ))
  if (low + 1) % 2 ^ 32 < up then none
  else some (low * 2 ^ shift % 2 ^ 32, up * 2 ^ shift % 2 ^ 32)

/-- The second loop of `hsfc_box_covering`: the arrays `coord_low` and `coord_up`. -/
def cell_coords (depth : Nat) (ub : UnitBox) : Option (List Nat × List Nat) :=
  [0, 1, 2].foldl
    (fun acc i =>
      match acc with
      | none => none
      | some (coord_low, coord_up) =>
        match cell_axis depth (ub.ubox_low.getD i 0) (ub.ubox_up.getD i 0) with
        | none => none
        | some (lo, up) => some (coord_low ++ [lo], coord_up ++ [up]))
    (some ([], []))

/-- One round of the loop over the combinations `i = 1 .. 7`: the corner `coord` is appended
at position `n` unless it repeats an earlier one. -/
def corner_step (coord_low coord_up : List Nat) (st : List (List Nat) × Nat) (i : Nat) :
    List (List Nat) × Nat :=
  let duplicate : Bool :=
    (i &&& 1 != 0 && coord_up.getD 0 0 == coord_low.getD 0 0) ||
    (i &&& 2 != 0 && coord_up.getD 1 0 == coord_low.getD 1 0) ||
    (i &&& 4 != 0 && coord_up.getD 2 0 == coord_low.getD 2 0)
  if !duplicate then
    let coord := [if i &&& 1 != 0 then coord_up.getD 0 0 else coord_low.getD 0 0,
      if i &&& 2 != 0 then coord_up.getD 1 0 else coord_low.getD 1 0,
      if i &&& 4 != 0 then coord_up.getD 2 0 else coord_low.getD 2 0]
    (st.1 ++ [coord], st.2 + 1)
  else st

/-- The corners handed to the encoder, in the order of the array `covering`, and the
counter `n`: combination 0 is the low corner, then the loop over the combinations. -/
def corner_coords (coord_low coord_up : List Nat) : List (List Nat) × Nat :=
  [1, 2, 3, 4, 5, 6, 7].foldl (corner_step coord_low coord_up) ([coord_low], 1)

/-- What `hsfc_box_covering` returns: the flag, the counter `number` and the array
`covering`. -/
structure BoxCovering (MaxDepth : Nat) where
  valid : Bool
  number : Nat
  covering : List (OctTreeKey MaxDepth)
deriving DecidableEq

/-- The function `hsfc_box_covering`.  The encoder `hsfc3d` of the key header is a parameter;
`none` is the `std::logic_error` "depth determination logic error". -/
def hsfc_box_covering {MaxDepth : Nat} (hsfc3d : Nat → List Nat → OctTreeKey MaxDepth)
    (global_box small_box : Nat → ℚ) (scale : ℚ) : Option (BoxCovering MaxDepth) :=
  let ub := unit_box global_box small_box scale
  let depth := covering_depth MaxDepth ub.unit_size
  match cell_coords depth ub with
  | none => none
  | some (coord_low, coord_up) =>
    let corners := corner_coords coord_low coord_up
    some ⟨ub.valid, corners.2, corners.1.map (hsfc3d depth)⟩

/-- Number of axes on which the upper cell coordinate differs from the lower one. -/
def straddled (a0 a1 a2 b0 b1 b2 : Nat) : Nat :=
  (if b0 = a0 then 0 else 1) + (if b1 = a1 then 0 else 1) + (if b2 = a2 then 0 else 1)

/-- The cell coordinate `floor(x * 2^depth)` of a unit-cube coordinate `x`. -/
def cell_coordinate (depth : Nat) (x : ℚ) : Nat := (x * 2 ^ depth).floor.toNat

/-- A cell coordinate left-justified in the word, `c << (BitsPerWord - depth)`. -/
def left_justified (depth c : Nat) : Nat := c * 2 ^ (BitsPerWord - depth) % 2 ^ 32

/-! ### A sample input of the box covering -/

/-- A stand-in for the encoder: the key holds the three coordinates it is given. -/
def sample_encoder : Nat → List Nat → OctTreeKey 3 :=
  fun _ c => ⟨[c.getD 0 0, c.getD 1 0, c.getD 2 0], rfl⟩

/-- The global box `[0,0,0,1,1,1]`. -/
def unit_cube : Nat → ℚ := fun i => [0, 0, 0, 1, 1, 1].getD i 0

/-- The small box `[1/4, 1/2]^3`. -/
def quarter_box : Nat → ℚ := fun i => [1 / 4, 1 / 4, 1 / 4, 1 / 2, 1 / 2, 1 / 2].getD i 0

/-- What `hsfc_box_covering` returns for `quarter_box` in `unit_cube` with `sample_encoder`:
depth `2`, cells `1` and `2` on every axis. -/
def sample_covering : BoxCovering 3 :=
  ⟨true, 8, [⟨[1073741824, 1073741824, 1073741824], rfl⟩,
    ⟨[2147483648, 1073741824, 1073741824], rfl⟩,
    ⟨[1073741824, 2147483648, 1073741824], rfl⟩,
    ⟨[2147483648, 2147483648, 1073741824], rfl⟩,
    ⟨[1073741824, 1073741824, 2147483648], rfl⟩,
    ⟨[2147483648, 1073741824, 2147483648], rfl⟩,
    ⟨[1073741824, 2147483648, 2147483648], rfl⟩,
    ⟨[2147483648, 2147483648, 2147483648], rfl⟩]⟩


/-! ## Weight accumulation on offsets -/

/-- Offset of the child `i` of the node at offset `o` whose children have `h` levels below
them. -/
def child_offset (o h i : Nat) : Nat := o + 1 + (i - 1) * oct_tree_size h

/-- The child loop of `accumulate_weights` read on offsets: `o` is the offset of the node,
`h` the number of levels below its children. -/
def offset_children (recurse : Nat → Weights → Weights) (o h ord_end : Nat) :
    List Nat → ℚ × Weights → ℚ × Weights
  | [], st => st
  | i :: rest, st =>
    let ord := child_offset o h i
    if ord < ord_end then
      let weights := recurse ord st.2
      offset_children recurse o h ord_end rest
        (st.1 + (weights.at (ord * 2) + weights.at (ord * 2 + 1)), weights)
    else offset_children recurse o h ord_end rest st

/-- The function `accumulate_weights` read on offsets: a node is given by its offset `o` and
the number `h` of levels below it, the lower bound by the digits `ds` of `k_first` below
the node. -/
def offset_accumulate : Nat → Nat → List Nat → Nat → Weights → Weights
  | 0, _, _, _, weights => weights
  | h + 1, o, ds, ord_end, weights =>
    let i := ds.headD 0
    let st : (ℚ × Weights) × List Nat :=
      if i ≠ 0 then
        let ord := child_offset o h i
        let weights1 := offset_accumulate h ord ds.tail ord_end weights
        ((0 + (weights1.at (ord * 2) + weights1.at (ord * 2 + 1)), weights1),
          List.replicate (ds.length - 1) 0)
      else ((0, weights), ds.tail)
    let st2 := offset_children (fun ord w => offset_accumulate h ord st.2 ord_end w)
      o h ord_end (List.range' (i + 1) (8 - i)) st.1
    st2.2.put (2 * o + 1) st2.1

/-- The position `(o', h')` (offset, levels below) lies in the subtree of the position
`(o, h)`. -/
inductive Below : Nat → Nat → Nat → Nat → Prop where
  | refl (o h : Nat) : Below o h o h
  | step (o h i o' h' : Nat) : 1 ≤ i → i ≤ 8 → Below (child_offset o h i) h o' h' →
      Below o (h + 1) o' h'

/-- The subtree with offsets `[o, o + size)` meets the offset range `[lo, hi)`: the two
intervals have an offset in common. -/
def Meets (o size lo hi : Nat) : Prop := o < hi ∧ lo < o + size ∧ lo < hi ∧ 0 < size

instance (o size lo hi : Nat) : Decidable (Meets o size lo hi) :=
  inferInstanceAs (Decidable (o < hi ∧ lo < o + size ∧ lo < hi ∧ 0 < size))

/-- Offsets of the leaves below the position `(o, h)`, in depth-first order. -/
def leaf_offsets : Nat → Nat → List Nat
  | 0, o => [o]
  | h + 1, o => (List.range' 1 8).flatMap (fun i => leaf_offsets h (child_offset o h i))

/-- Sum of own plus descendant weight over the children of the position `(o, h + 1)` whose
subtree meets the range `[lo, hi)`. -/
def children_sum (w : Weights) (o h lo hi : Nat) : ℚ :=
  ((List.range' 1 8).map (fun i =>
    if Meets (child_offset o h i) (oct_tree_size h) lo hi then
      w.at (child_offset o h i * 2) + w.at (child_offset o h i * 2 + 1)
    else 0)).sum

/-- The descendant slot of the position `(o, h + 1)` holds the sum over its children that
meet the range. -/
def SumsAt (w : Weights) (o h lo hi : Nat) : Prop :=
  w.at (2 * o + 1) = children_sum w o h lo hi

/-- Sum of the own weights of the leaves below the position `(o, h)` whose offset lies in
`[lo, hi)`. -/
def leaf_weight_sum (w : Weights) (lo hi h o : Nat) : ℚ :=
  (((leaf_offsets h o).filter (fun l => decide (lo ≤ l ∧ l < hi))).map
    (fun l => w.at (2 * l))).sum

/-- Every slot of the weight array reads zero. -/
def AllZero (w : Weights) : Prop := ∀ idx, w.at idx = 0

/-! ### Sample inputs of the weight accumulation -/

/-- The key with the digits `ds`, padded with unset digits to `MaxDepth` levels. -/
def key_of_digits (MaxDepth : Nat) (ds : List Nat) : OctTreeKey MaxDepth :=
  ⟨(ds ++ List.replicate MaxDepth 0).take MaxDepth, by simp⟩

/-- A weight array for the tree of depth `1` (nine nodes): the leaf `(5)` has own weight `7`,
every other slot is zero. -/
def sample_leaf_weights : Weights :=
  [0, 0, 0, 0, 0, 0, 0, 0, 0, 0, 7, 0, 0, 0, 0, 0, 0, 0]

/-- A weight array for the tree of depth `1`: the last leaf `(8)` has own weight `1`, every
other slot is zero. -/
def last_leaf_weights : Weights :=
  [0, 0, 0, 0, 0, 0, 0, 0, 0, 0, 0, 0, 0, 0, 0, 0, 1, 0]

/-- A weight array for the tree of depth `1` in which every slot is zero. -/
def zero_weights : Weights :=
  [0, 0, 0, 0, 0, 0, 0, 0, 0, 0, 0, 0, 0, 0, 0, 0, 0, 0]

/-! ### Cuts along the depth-first order -/

/-- The cut slots `p_first ≤ q < p_end` hold nodes of the tree of depth `depth` whose offsets
lie in `[lo, hi)` and grow strictly with the slot. -/
def CutsIncreasing {MaxDepth : Nat} (depth : Nat) (cuts : List (OctTreeKey MaxDepth))
    (p_first p_end lo hi : Nat) : Prop :=
  ∀ q, p_first ≤ q → q < p_end →
    (cuts.getD q (OctTreeKey.root MaxDepth)).WellFormed ∧
    (cuts.getD q (OctTreeKey.root MaxDepth)).depth ≤ depth ∧
    lo ≤ oct_tree_offset depth (cuts.getD q (OctTreeKey.root MaxDepth)) ∧
    oct_tree_offset depth (cuts.getD q (OctTreeKey.root MaxDepth)) < hi ∧
    ∀ q2, q < q2 → q2 < p_end →
      oct_tree_offset depth (cuts.getD q (OctTreeKey.root MaxDepth)) <
        oct_tree_offset depth (cuts.getD q2 (OctTreeKey.root MaxDepth))

/-! ### The box covering: clipping -/

/-- The axis `i` of the small box is not clipped by the normalization: the box overlaps the
global interval and its normalized ends are ordered and lie in `[eps, 1 - eps]`. -/
def axis_unclipped (global_box small_box : Nat → ℚ) (scale : ℚ) (i : Nat) : Prop :=
  ¬ small_box (i + 3) < global_box i ∧ ¬ global_box (i + 3) < small_box i ∧
  float_epsilon ≤ (small_box i - global_box i) * scale ∧
  (small_box i - global_box i) * scale ≤ (small_box (i + 3) - global_box i) * scale ∧
  (small_box (i + 3) - global_box i) * scale ≤ 1 - float_epsilon

instance (global_box small_box : Nat → ℚ) (scale : ℚ) (i : Nat) :
    Decidable (axis_unclipped global_box small_box scale i) := by
  unfold axis_unclipped; exact inferInstance

/-- The point `(1, 1, 1)`, the upper corner of `unit_cube`, as a box of zero extent. -/
def corner_point : Nat → ℚ := fun _ => 1

/-- The small box `[1/4, 5/8]^3`, of extent `3/8` on every axis. -/
def three_eighths_box : Nat → ℚ :=
  fun i => [1 / 4, 1 / 4, 1 / 4, 5 / 8, 5 / 8, 5 / 8].getD i 0

/-- A weight array for the tree of depth `2` (73 nodes): the leaf `(4,1)`, at the offset `29`,
has the own weight `1`, the node `(6)`, at the offset `46`, the own weight `2`; every other
slot is zero. -/
def two_node_weights : Weights :=
  ((List.replicate 146 0).set 58 1).set 92 2

/-- A weight array of the tree of depth `depth` with own weights on the maximum-depth leaves
only: it has the two slots of every node, the own slot of every inner node is zero and so is
the descendant slot of every leaf. -/
def LeafWeights (depth : Nat) (w : Weights) : Prop :=
  2 * oct_tree_size depth ≤ w.length ∧
  (∀ o h, Below 0 depth o (h + 1) → w.at (2 * o) = 0) ∧
  (∀ o, Below 0 depth o 0 → w.at (2 * o + 1) = 0)

/-- The weight array of the tree of depth `1` whose eight leaves carry the own weight `c`,
every other slot being zero. -/
def octant_weights (c : ℚ) : Weights :=
  [0, 0, c, 0, c, 0, c, 0, c, 0, c, 0, c, 0, c, 0, c, 0]

/-- The first key of the octant `p` of the tree of depth `1`: the root for `p = 0`, the key
with the single digit `p + 1` otherwise. -/
def octant_key (MaxDepth p : Nat) : OctTreeKey MaxDepth :=
  if p = 0 then OctTreeKey.root MaxDepth else (OctTreeKey.root MaxDepth).set_index 1 (p + 1)

/-- The weight array of the tree of depth `1` whose leaves carry the own weight `1`, the last
leaf `(8)` the own weight `2`. -/
def uneven_weights : Weights :=
  [0, 0, 1, 0, 1, 0, 1, 0, 1, 0, 1, 0, 1, 0, 1, 0, 2, 0]

/-- Two weight arrays of the same length with the same own-weight slots (the slots with an
even index). -/
def SameOwnWeights (w w' : Weights) : Prop :=
  w'.length = w.length ∧ ∀ o, w'.at (2 * o) = w.at (2 * o)

/-! ### How the key search ends -/

/-- The four ways a call of `partition` assigns `k_upper`. -/
inductive SearchEnd where
  | first_key : SearchEnd
  | leaf : SearchEnd
  | middle : SearchEnd
  | split : SearchEnd
deriving DecidableEq

/-- The function `partition` once more, returning with `k_upper` the way it was assigned:
`first_key` for the early return `k_upper = k_first`, `leaf` for the branch "at the maximum
depth", `middle` for the key at the middle offset (a child without weight), `split` for
`oct_key_split` after the tolerance test `- tolerance < diff && diff < tolerance`. -/
def partition_end {MaxDepth : Nat} :
    Nat → OctTreeKey MaxDepth → Nat → OctTreeKey MaxDepth → Nat → Weights → ℚ → ℚ → ℚ → ℚ →
      Outcome (OctTreeKey MaxDepth × SearchEnd)
  | 0, _, _, _, _, _, _, _, _, _ => Outcome.no_fuel
  | fuel + 1, k_first, i_end, key, depth, weights, tolerance, target_ratio, w_lower, w_upper =>
    if i_end = 1 ∨ i_end = oct_tree_offset depth k_first then
      Outcome.ok (k_first, SearchEnd.first_key)
    else
      let ord_node := oct_tree_offset depth key
      let d1 := key.depth + 1
      let i_first := k_first.index d1
      let i := if i_first ≠ 0 then i_first else 1
      match find_j i_end depth d1 key 8 with
      | none => Outcome.raised
      | some j =>
        let w_lower := if key ≠ OctTreeKey.root MaxDepth then w_lower + weights.at (ord_node * 2)
          else w_lower
        let w_upper := if key ≠ OctTreeKey.root MaxDepth then w_upper + weights.at (ord_node * 2)
          else w_upper
        if key.depth = depth then
          let keyOffset := oct_tree_offset key.depth key
          if k_first = key ∧ keyOffset + 1 ≠ oct_tree_size depth then
            Outcome.ok (calculate_key_using_offset MaxDepth key.depth (keyOffset + 1),
              SearchEnd.leaf)
          else Outcome.ok (key, SearchEnd.leaf)
        else
          let st := balance_loop key d1 depth weights target_ratio (j - i) ⟨i, j, w_lower, w_upper⟩
          let nested_k_first := if i_first = st.i then k_first else OctTreeKey.root MaxDepth
          let ki := key.set_index d1 st.i
          let vali := weights.at (2 * oct_tree_offset depth ki)
            + weights.at (2 * oct_tree_offset depth ki + 1)
          if vali ≤ 0 then
            let leftSide := oct_tree_offset depth k_first
            let rightSide := i_end
            let middle := (rightSide + leftSide) / 2
            Outcome.ok (calculate_key_using_offset MaxDepth depth middle, SearchEnd.middle)
          else
            let accept : Bool × Nat :=
              if st.w_lower < st.w_upper * target_ratio then
                (within_tolerance (st.w_lower + vali) st.w_upper target_ratio tolerance, st.i + 1)
              else
                (within_tolerance st.w_lower (st.w_upper + vali) target_ratio tolerance, st.i)
            if accept.1 then Outcome.ok (oct_key_split key accept.2, SearchEnd.split)
            else partition_end fuel nested_k_first i_end ki depth weights tolerance target_ratio
              st.w_lower st.w_upper

/-- Total own weight of the nodes with offset in `[a, b)`. -/
def node_weight_sum (w : Weights) (a b : Nat) : ℚ :=
  ((List.range' a (b - a)).map (fun o => w.at (2 * o))).sum

/-- The weight array of the tree of depth `1` with the own weight `1` on the leaf `(1)` and
the own weight `3` on the leaf `(8)`. -/
def two_leaf_weights : Weights :=
  [0, 0, 1, 0, 0, 0, 0, 0, 0, 0, 0, 0, 0, 0, 0, 0, 3, 0]

/-- The weight array of the tree of depth `1` with the own weight `5` on the leaf `(1)`, every
other slot being zero. -/
def first_leaf_weights : Weights :=
  [0, 0, 5, 0, 0, 0, 0, 0, 0, 0, 0, 0, 0, 0, 0, 0, 0, 0]

/-- A weight array of the tree of depth `1` with the own weight `1` on the leaves `(1)` to
`(6)`; every other slot is zero. -/
def six_leaf_weights : Weights :=
  [0, 0, 1, 0, 1, 0, 1, 0, 1, 0, 1, 0, 1, 0, 0, 0, 0, 0]

/-- A weight array of the tree of depth `2` (73 nodes) with whole numbers as own weights on
three of its maximum-depth leaves: `2^24` on `(1,1)` (offset `2`), `1` on `(1,2)` (offset
`3`) and `2^24` on `(8,1)` (offset `65`); every other slot is zero. -/
def rounded_weights : Weights :=
  (((List.replicate 146 0).set 4 16777216).set 6 1).set 130 16777216

/-- Where the lower bound of the key range lies for a call of `partition` on the node `key`
(at the offset `o`, with children of `h` levels, `d = key.depth`): either `k_first` has no
digit below the node and the range starts at or before the node, or the digits `ds` of
`k_first` below the node lead to the start `lo` of the range inside the subtree. -/
def FirstKeyAt {MaxDepth : Nat} (k_first : OctTreeKey MaxDepth) (d lo o h : Nat) : Prop :=
  (k_first.index (d + 1) = 0 ∧ lo ≤ o) ∨
  ∃ ds : List Nat, OctTreeKey.wf_digits ds = true ∧ ds.headD 0 ≠ 0 ∧
    lo = o + offset_of_digits (h + 1) ds ∧ ∀ n, k_first.index (d + 1 + n) = ds.getD n 0

/-- A value of the IEEE 754 formats `float` and `double`: a real number (a rational), one of
the two infinities, or "not a number". The sign of a zero is not kept: it shows only in a
division by zero, and the zero divisors of `partition` and `oct_tree_partition_private` (the
sum `w_upper`, started at the positive zero, and `1.0 - target_fraction`) are positive
zeros. -/
inductive Ieee where
  | real : ℚ → Ieee
  | pos_inf : Ieee
  | neg_inf : Ieee
  | nan : Ieee
deriving DecidableEq

/-- The number of halvings that take `n` below `2`: the position of its leading binary
digit; `fuel` bounds the number of rounds, and `n` rounds are enough. -/
def binary_length : Nat → Nat → Nat
  | 0, _ => 0
  | fuel + 1, n => if 2 ≤ n then binary_length fuel (n / 2) + 1 else 0

/-- Position of the leading binary digit of the positive rational `n / d`: the exponent `e`
with `2^e ≤ n / d < 2^(e+1)`. -/
def leading_exponent (n d : Nat) : Int :=
  let e0 : Int := (binary_length n n : Int) - (binary_length d d : Int)
  if d * 2 ^ e0.toNat ≤ n * 2 ^ (-e0).toNat then e0 else e0 - 1

/-- Rounding of a real number to the nearest value of the binary format with `p` digits and
the exponents `emin .. emax`, a tie going to the even last digit (the rounding of the IEEE
arithmetic); below `2^emin` the last digit has the weight of the subnormal numbers, and a
number that rounds beyond the largest value of the format gives an infinity. -/
def round_to (p : Nat) (emin emax : Int) (q : ℚ) : Ieee :=
  if q = 0 then Ieee.real 0
  else
    let n := q.num.natAbs
    let d := q.den
    let s : Int := max (leading_exponent n d) emin - ((p : Int) - 1)
    let num := n * 2 ^ (-s).toNat
    let den := d * 2 ^ s.toNat
    let m := num / den
    let rest := num % den
    let digits := if den < 2 * rest ∨ (den = 2 * rest ∧ m % 2 = 1) then m + 1 else m
    let v : ℚ := (digits : ℚ) * ((2 ^ s.toNat : Nat) : ℚ) / ((2 ^ (-s).toNat : Nat) : ℚ)
    if ((2 ^ (emax + 1).toNat : Nat) : ℚ) ≤ v then
      (if 0 < q then Ieee.pos_inf else Ieee.neg_inf)
    else Ieee.real (if 0 < q then v else -v)

/-- Rounding to `float`: 24 digits, exponents `-126 .. 127`. -/
def to_float (q : ℚ) : Ieee := round_to 24 (-126) 127 q

/-- Rounding to `double`: 53 digits, exponents `-1022 .. 1023`. -/
def to_double (q : ℚ) : Ieee := round_to 53 (-1022) 1023 q

/-- The largest `float`, `FLT_MAX = (2 - 2^-23) * 2^127`. -/
def FLT_MAX : ℚ := (2 ^ 24 - 1) * 2 ^ 104

namespace Ieee

/-- The sum of two values, the real result rounded by `round`. -/
def add (round : ℚ → Ieee) : Ieee → Ieee → Ieee
  | real a, real b => round (a + b)
  | nan, _ => nan
  | _, nan => nan
  | pos_inf, neg_inf => nan
  | neg_inf, pos_inf => nan
  | pos_inf, _ => pos_inf
  | _, pos_inf => pos_inf
  | neg_inf, _ => neg_inf
  | _, neg_inf => neg_inf

/-- The value with the other sign. -/
def neg : Ieee → Ieee
  | real a => real (-a)
  | pos_inf => neg_inf
  | neg_inf => pos_inf
  | nan => nan

/-- The difference of two values, the real result rounded by `round`. -/
def sub (round : ℚ → Ieee) (a b : Ieee) : Ieee := add round a (neg b)

/-- The sign of a value: `1`, `0` or `-1`; not used for `nan`. -/
def sign : Ieee → Int
  | real a => if 0 < a then 1 else if a < 0 then -1 else 0
  | pos_inf => 1
  | neg_inf => -1
  | nan => 0

/-- The product of two values, the real result rounded by `round`; an infinity times zero is
not a number. -/
def mul (round : ℚ → Ieee) : Ieee → Ieee → Ieee
  | real a, real b => round (a * b)
  | nan, _ => nan
  | _, nan => nan
  | a, b =>
    if sign a * sign b = 0 then nan else if 0 < sign a * sign b then pos_inf else neg_inf

/-- The quotient of two values, the real result rounded by `round`. A zero divisor is the
positive zero: the quotient is an infinity with the sign of the dividend, and not a number
for a zero dividend. -/
def div (round : ℚ → Ieee) : Ieee → Ieee → Ieee
  | nan, _ => nan
  | _, nan => nan
  | real a, real b =>
    if b = 0 then (if 0 < a then pos_inf else if a < 0 then neg_inf else nan)
    else round (a / b)
  | real _, _ => real 0
  | a, real b => if 0 ≤ b then a else neg a
  | _, _ => nan

/-- The comparison `a < b`: false as soon as one side is not a number. -/
def lt : Ieee → Ieee → Bool
  | real a, real b => decide (a < b)
  | nan, _ => false
  | _, nan => false
  | neg_inf, neg_inf => false
  | neg_inf, _ => true
  | _, neg_inf => false
  | pos_inf, _ => false
  | _, pos_inf => true

/-- The comparison `a <= b`: false as soon as one side is not a number. -/
def le : Ieee → Ieee → Bool
  | real a, real b => decide (a ≤ b)
  | nan, _ => false
  | _, nan => false
  | neg_inf, _ => true
  | _, pos_inf => true
  | pos_inf, _ => false
  | _, neg_inf => false

/-- The conversion `static_cast<float>` of a `double`. -/
def cast_float : Ieee → Ieee
  | real a => to_float a
  | a => a

/-- The value is a real number: neither an infinity nor "not a number". -/
def finite : Ieee → Bool
  | real _ => true
  | _ => false

end Ieee

/-! ## The partitioner in IEEE arithmetic -/

namespace ieee

/-- The `weights` array with its `float` values. -/
abbrev Weights := List Ieee

/-- The read `weights[i]`. -/
def Weights.at (weights : Weights) (i : Nat) : Ieee := weights.getD i (Ieee.real 0)

/-- The assignment `weights[i] = v`. -/
def Weights.put (weights : Weights) (i : Nat) (v : Ieee) : Weights := weights.set i v

/-- State of the child loops of `accumulate_weights`: the key `k_node` as mutated so far,
the running sum `w`, a `double`, and the array. -/
structure AccState (MaxDepth : Nat) where
  k_node : OctTreeKey MaxDepth
  w : Ieee
  weights : Weights

/-- The loop `for ( ++i ; i <= 8 ; ++i )` of `accumulate_weights`: the two slots of a child
are added as `float`, their sum is added to `w` as `double`. -/
def accumulate_children {MaxDepth : Nat}
    (recurse : OctTreeKey MaxDepth → Weights → Weights)
    (d1 ord_end depth : Nat) : List Nat → AccState MaxDepth → AccState MaxDepth
  | [], st => st
  | i :: rest, st =>
    let k_node := st.k_node.set_index d1 i
    let ord := oct_tree_offset depth k_node
    let ord_2 := ord * 2
    if ord < ord_end then
      let weights := recurse k_node st.weights
      accumulate_children recurse d1 ord_end depth rest
        ⟨k_node, Ieee.add to_double st.w
          (Ieee.add to_float (weights.at ord_2) (weights.at (ord_2 + 1))), weights⟩
    else
      accumulate_children recurse d1 ord_end depth rest ⟨k_node, st.w, st.weights⟩

/-- The function `accumulate_weights` in IEEE arithmetic; `fuel` bounds the nesting of the
calls, and a call without fuel leaves the array as it is. The sum `w` is stored with
`static_cast<float>`. -/
def accumulate_weights_fuel {MaxDepth : Nat} :
    Nat → OctTreeKey MaxDepth → OctTreeKey MaxDepth → Nat → Nat → Weights → Weights
  | 0, _, _, _, _, weights => weights
  | fuel + 1, k_node, k_first, ord_end, depth, weights =>
    let ord_node_2 := 2 * oct_tree_offset depth k_node
    if k_node.depth < depth then
      let d1 := k_node.depth + 1
      let i := k_first.index d1
      let st : AccState MaxDepth × OctTreeKey MaxDepth :=
        if i ≠ 0 then
          let k_node1 := k_node.set_index d1 i
          let ord := oct_tree_offset depth k_node1
          let ord_2 := ord * 2
          let weights1 := accumulate_weights_fuel fuel k_node1 k_first ord_end depth weights
          (⟨k_node1, Ieee.add to_double (Ieee.real 0)
              (Ieee.add to_float (weights1.at ord_2) (weights1.at (ord_2 + 1))), weights1⟩,
            OctTreeKey.root MaxDepth)
        else (⟨k_node, Ieee.real 0, weights⟩, k_first)
      let st2 := accumulate_children
        (fun k w => accumulate_weights_fuel fuel k st.2 ord_end depth w)
        d1 ord_end depth (List.range' (i + 1) (8 - i)) st.1
      st2.weights.put (ord_node_2 + 1) (Ieee.cast_float st2.w)
    else weights

/-- The call `accumulate_weights(k_node, k_first, ord_end, depth, weights)` in IEEE
arithmetic, with `depth + 1` nested calls provided for. -/
def accumulate_weights {MaxDepth : Nat} (k_node k_first : OctTreeKey MaxDepth)
    (ord_end depth : Nat) (weights : Weights) : Weights :=
  accumulate_weights_fuel (depth + 1) k_node k_first ord_end depth weights

/-- The child loop of `accumulate_weights` in IEEE arithmetic, read on offsets: `o` is the
offset of the node, `h` the number of levels below its children. -/
def offset_children (recurse : Nat → Weights → Weights) (o h ord_end : Nat) :
    List Nat → Ieee × Weights → Ieee × Weights
  | [], st => st
  | i :: rest, st =>
    let ord := child_offset o h i
    if ord < ord_end then
      let weights := recurse ord st.2
      offset_children recurse o h ord_end rest
        (Ieee.add to_double st.1
          (Ieee.add to_float (weights.at (ord * 2)) (weights.at (ord * 2 + 1))), weights)
    else offset_children recurse o h ord_end rest st

/-- The function `accumulate_weights` in IEEE arithmetic, read on offsets: a node is given by
its offset `o` and the number `h` of levels below it, the lower bound by the digits `ds` of
`k_first` below the node. -/
def offset_accumulate : Nat → Nat → List Nat → Nat → Weights → Weights
  | 0, _, _, _, weights => weights
  | h + 1, o, ds, ord_end, weights =>
    let i := ds.headD 0
    let st : (Ieee × Weights) × List Nat :=
      if i ≠ 0 then
        let ord := child_offset o h i
        let weights1 := offset_accumulate h ord ds.tail ord_end weights
        ((Ieee.add to_double (Ieee.real 0)
            (Ieee.add to_float (weights1.at (ord * 2)) (weights1.at (ord * 2 + 1))), weights1),
          List.replicate (ds.length - 1) 0)
      else ((Ieee.real 0, weights), ds.tail)
    let st2 := offset_children (fun ord w => offset_accumulate h ord st.2 ord_end w)
      o h ord_end (List.range' (i + 1) (8 - i)) st.1
    st2.2.put (2 * o + 1) (Ieee.cast_float st2.1)

/-- State of the loop `while ( i < j )` of `partition`; the two sums are `double`s. -/
structure SplitState where
  i : Nat
  j : Nat
  w_lower : Ieee
  w_upper : Ieee
deriving DecidableEq

/-- The loop `while ( i < j )` of `partition` in IEEE arithmetic. A comparison with a value
that is not a number is false, so a round can leave `i` and `j` as they are; `rounds` bounds
the number of rounds, and `none` is the loop still running after them. -/
def balance_loop {MaxDepth : Nat} (key : OctTreeKey MaxDepth) (d1 depth : Nat)
    (weights : Weights) (target_ratio : Ieee) : Nat → SplitState → Option SplitState
  | 0, st => if st.i < st.j then none else some st
  | rounds + 1, st =>
    if st.i < st.j then
      let ki := key.set_index d1 st.i
      let kj := key.set_index d1 st.j
      let vali := Ieee.add to_float (weights.at (2 * oct_tree_offset depth ki))
        (weights.at (2 * oct_tree_offset depth ki + 1))
      let valj := Ieee.add to_float (weights.at (2 * oct_tree_offset depth kj))
        (weights.at (2 * oct_tree_offset depth kj + 1))
      if Ieee.lt (Ieee.real 0) vali = true ∧ Ieee.lt (Ieee.real 0) valj = true then
        if Ieee.lt (Ieee.add to_double st.w_lower vali)
            (Ieee.mul to_double target_ratio (Ieee.add to_double st.w_upper valj)) = true then
          balance_loop key d1 depth weights target_ratio rounds
            ⟨st.i + 1, st.j, Ieee.add to_double st.w_lower vali, st.w_upper⟩
        else
          balance_loop key d1 depth weights target_ratio rounds
            ⟨st.i, st.j - 1, st.w_lower, Ieee.add to_double st.w_upper valj⟩
      else
        balance_loop key d1 depth weights target_ratio rounds
          ⟨if Ieee.le vali (Ieee.real 0) = true then st.i + 1 else st.i,
            if Ieee.le valj (Ieee.real 0) = true then st.j - 1 else st.j,
            st.w_lower, st.w_upper⟩
    else some st

/-- The test `- tolerance < diff && diff < tolerance`. -/
def within_tolerance (diff tolerance : Ieee) : Bool :=
  Ieee.lt (Ieee.neg tolerance) diff && Ieee.lt diff tolerance

/-- The function `partition` in IEEE arithmetic, returning `k_upper`; `fuel` bounds the
nesting of the calls, `rounds` the rounds of each loop `while ( i < j )`. -/
def partition {MaxDepth : Nat} (rounds : Nat) :
    Nat → OctTreeKey MaxDepth → Nat → OctTreeKey MaxDepth → Nat → Weights → Ieee → Ieee →
      Ieee → Ieee → Outcome (OctTreeKey MaxDepth)
  | 0, _, _, _, _, _, _, _, _, _ => Outcome.no_fuel
  | fuel + 1, k_first, i_end, key, depth, weights, tolerance, target_ratio, w_lower, w_upper =>
    if i_end = 1 ∨ i_end = oct_tree_offset depth k_first then Outcome.ok k_first
    else
      let ord_node := oct_tree_offset depth key
      let d1 := key.depth + 1
      let i_first := k_first.index d1
      let i := if i_first ≠ 0 then i_first else 1
      match find_j i_end depth d1 key 8 with
      | none => Outcome.raised
      | some j =>
        let w_lower := if key ≠ OctTreeKey.root MaxDepth then
            Ieee.add to_double w_lower (weights.at (ord_node * 2))
          else w_lower
        let w_upper := if key ≠ OctTreeKey.root MaxDepth then
            Ieee.add to_double w_upper (weights.at (ord_node * 2))
          else w_upper
        if key.depth = depth then
          let keyOffset := oct_tree_offset key.depth key
          if k_first = key ∧ keyOffset + 1 ≠ oct_tree_size depth then
            Outcome.ok (calculate_key_using_offset MaxDepth key.depth (keyOffset + 1))
          else Outcome.ok key
        else
          match balance_loop key d1 depth weights target_ratio rounds ⟨i, j, w_lower, w_upper⟩ with
          | none => Outcome.no_fuel
          | some st =>
            let nested_k_first := if i_first = st.i then k_first else OctTreeKey.root MaxDepth
            let ki := key.set_index d1 st.i
            let vali := Ieee.add to_float (weights.at (2 * oct_tree_offset depth ki))
              (weights.at (2 * oct_tree_offset depth ki + 1))
            if Ieee.le vali (Ieee.real 0) = true then
              let leftSide := oct_tree_offset depth k_first
              let rightSide := i_end
              let middle := (rightSide + leftSide) / 2
              Outcome.ok (calculate_key_using_offset MaxDepth depth middle)
            else
              let step : Ieee × Nat :=
                if Ieee.lt st.w_lower (Ieee.mul to_double st.w_upper target_ratio) = true then
                  (Ieee.sub to_double
                    (Ieee.div to_double (Ieee.add to_double st.w_lower vali) st.w_upper)
                    target_ratio, st.i + 1)
                else
                  (Ieee.sub to_double
                    (Ieee.div to_double st.w_lower (Ieee.add to_double st.w_upper vali))
                    target_ratio, st.i)
              if within_tolerance step.1 tolerance = true then
                Outcome.ok (oct_key_split key step.2)
              else partition rounds fuel nested_k_first i_end ki depth weights tolerance
                target_ratio st.w_lower st.w_upper

/-- The function `partition` in IEEE arithmetic once more, returning with `k_upper` the way it
was assigned: `first_key` for the early return `k_upper = k_first`, `leaf` for the branch "at
the maximum depth", `middle` for the key at the middle offset (a child without weight),
`split` for `oct_key_split` after the tolerance test
`- tolerance < diff && diff < tolerance`. -/
def partition_end {MaxDepth : Nat} (rounds : Nat) :
    Nat → OctTreeKey MaxDepth → Nat → OctTreeKey MaxDepth → Nat → Weights → Ieee → Ieee →
      Ieee → Ieee → Outcome (OctTreeKey MaxDepth × SearchEnd)
  | 0, _, _, _, _, _, _, _, _, _ => Outcome.no_fuel
  | fuel + 1, k_first, i_end, key, depth, weights, tolerance, target_ratio, w_lower, w_upper =>
    if i_end = 1 ∨ i_end = oct_tree_offset depth k_first then
      Outcome.ok (k_first, SearchEnd.first_key)
    else
      let ord_node := oct_tree_offset depth key
      let d1 := key.depth + 1
      let i_first := k_first.index d1
      let i := if i_first ≠ 0 then i_first else 1
      match find_j i_end depth d1 key 8 with
      | none => Outcome.raised
      | some j =>
        let w_lower := if key ≠ OctTreeKey.root MaxDepth then
            Ieee.add to_double w_lower (weights.at (ord_node * 2))
          else w_lower
        let w_upper := if key ≠ OctTreeKey.root MaxDepth then
            Ieee.add to_double w_upper (weights.at (ord_node * 2))
          else w_upper
        if key.depth = depth then
          let keyOffset := oct_tree_offset key.depth key
          if k_first = key ∧ keyOffset + 1 ≠ oct_tree_size depth then
            Outcome.ok (calculate_key_using_offset MaxDepth key.depth (keyOffset + 1),
              SearchEnd.leaf)
          else Outcome.ok (key, SearchEnd.leaf)
        else
          match balance_loop key d1 depth weights target_ratio rounds ⟨i, j, w_lower, w_upper⟩ with
          | none => Outcome.no_fuel
          | some st =>
            let nested_k_first := if i_first = st.i then k_first else OctTreeKey.root MaxDepth
            let ki := key.set_index d1 st.i
            let vali := Ieee.add to_float (weights.at (2 * oct_tree_offset depth ki))
              (weights.at (2 * oct_tree_offset depth ki + 1))
            if Ieee.le vali (Ieee.real 0) = true then
              let leftSide := oct_tree_offset depth k_first
              let rightSide := i_end
              let middle := (rightSide + leftSide) / 2
              Outcome.ok (calculate_key_using_offset MaxDepth depth middle, SearchEnd.middle)
            else
              let step : Ieee × Nat :=
                if Ieee.lt st.w_lower (Ieee.mul to_double st.w_upper target_ratio) = true then
                  (Ieee.sub to_double
                    (Ieee.div to_double (Ieee.add to_double st.w_lower vali) st.w_upper)
                    target_ratio, st.i + 1)
                else
                  (Ieee.sub to_double
                    (Ieee.div to_double st.w_lower (Ieee.add to_double st.w_upper vali))
                    target_ratio, st.i)
              if within_tolerance step.1 tolerance = true then
                Outcome.ok (oct_key_split key step.2, SearchEnd.split)
              else partition_end rounds fuel nested_k_first i_end ki depth weights tolerance
                target_ratio st.w_lower st.w_upper

/-- What a call of `oct_tree_partition_private` leaves: the two arrays. -/
structure PartitionResult (MaxDepth : Nat) where
  weights : Weights
  cuts : List (OctTreeKey MaxDepth)
deriving DecidableEq

/-- The function `oct_tree_partition_private` in IEEE arithmetic; `fuel` bounds the nesting
of the calls, `rounds` the rounds of each loop `while ( i < j )` of `partition`. The two
`unsigned` counts are converted to `double` without rounding. -/
def oct_tree_partition_private {MaxDepth : Nat} (rounds : Nat) :
    Nat → Nat → Nat → Nat → Ieee → Weights → Nat → List (OctTreeKey MaxDepth) →
      Outcome (PartitionResult MaxDepth)
  | 0, _, _, _, _, _, _, _ => Outcome.no_fuel
  | fuel + 1, p_first, p_end, depth, tolerance, weights, cuts_length, cuts =>
    let p_size := p_end - p_first
    let p_upper := (p_end + p_first) / 2
    let target_fraction := Ieee.div to_double (Ieee.real ((p_upper - p_first : Nat) : ℚ))
      (Ieee.real ((p_size : Nat) : ℚ))
    let target_ratio := Ieee.div to_double target_fraction
      (Ieee.sub to_double (Ieee.real 1) target_fraction)
    let k_first := cuts.getD p_first (OctTreeKey.root MaxDepth)
    let i_end :=
      if p_end < cuts_length then oct_tree_offset depth (cuts.getD p_end (OctTreeKey.root MaxDepth))
      else oct_tree_size depth
    let weights1 := accumulate_weights (OctTreeKey.root MaxDepth) k_first i_end depth weights
    match partition rounds (depth + 1) k_first i_end (OctTreeKey.root MaxDepth) depth weights1
        tolerance target_ratio (Ieee.real 0) (Ieee.real 0) with
    | Outcome.raised => Outcome.raised
    | Outcome.no_fuel => Outcome.no_fuel
    | Outcome.ok k_upper =>
      let cuts1 := cuts.set p_upper k_upper
      let lower : Outcome (PartitionResult MaxDepth) :=
        if p_first + 1 < p_upper then
          oct_tree_partition_private rounds fuel p_first p_upper depth tolerance weights1
            cuts_length cuts1
        else Outcome.ok ⟨weights1, cuts1⟩
      match lower with
      | Outcome.raised => Outcome.raised
      | Outcome.no_fuel => Outcome.no_fuel
      | Outcome.ok r1 =>
        if p_upper + 1 < p_end then
          oct_tree_partition_private rounds fuel p_upper p_end depth tolerance r1.weights
            cuts_length r1.cuts
        else Outcome.ok r1

/-- Every slot of the array is a non-negative number or `+infinity`. -/
def NonNegative (w : Weights) : Prop :=
  ∀ idx, Ieee.le (Ieee.real 0) (w.at idx) = true

/-- No sum of the two slots of a node, as `partition` reads it, is "not a number". -/
def SumsAreNumbers (w : Weights) : Prop :=
  ∀ idx, Ieee.add to_float (w.at idx) (w.at (idx + 1)) ≠ Ieee.nan

/-! ### Sample inputs in IEEE arithmetic -/

/-- A weight array of rationals as an array of `float` values. -/
def of_rationals (w : stk.Weights) : Weights := w.map Ieee.real

/-- The weight array of the tree of depth `depth` whose maximum-depth leaves carry the own
weight `c`, every other slot being zero. -/
def leaf_weights (depth : Nat) (c : ℚ) : Weights :=
  (List.range (2 * oct_tree_size depth)).map (fun idx =>
    if idx % 2 = 0 ∧ idx / 2 ∈ leaf_offsets depth 0 then Ieee.real c else Ieee.real 0)

/-- A weight array of the tree of depth `3` (585 nodes) with finite own weights on five of its
nodes: `FLT_MAX` on the leaves `(1,1,1)` and `(1,1,2)` (offsets `3`, `4`), `-FLT_MAX` on the
leaves `(1,2,1)` and `(1,2,2)` (offsets `12`, `13`), and `1` on the node `(8)` (offset `512`);
every other slot is zero. -/
def opposite_weights : Weights :=
  (((((List.replicate 1170 (Ieee.real 0)).set 6 (Ieee.real FLT_MAX)).set 8
    (Ieee.real FLT_MAX)).set 24 (Ieee.real (-FLT_MAX))).set 26 (Ieee.real (-FLT_MAX))).set 1024
    (Ieee.real 1)

/-- The array `opposite_weights` with the sums of the nodes `(1,1)`, `(1,2)` and `(1)` in
their descendant slots: `+infinity`, `-infinity` and "not a number". -/
def opposite_sums : Weights :=
  ((opposite_weights.set 5 Ieee.pos_inf).set 23 Ieee.neg_inf).set 3 Ieee.nan

end ieee

end stk

/-! # The integer range list validator of Zoltan2 (`Zoltan2_Parameters.hpp`)

A shallow embedding of the class `IntegerRangeListValidator<Integral>`.  Strings are lists of
characters; `Integral` is read as the integers (no overflow); a `std::runtime_error` is the
result `none`. -/

namespace Zoltan2

/-- The enumeration `RangeType`: `RANGE_INCLUDES_ALL`. -/
def RANGE_INCLUDES_ALL : Int := 0

/-- The enumeration `RangeType`: `RANGE_IS_EMPTY`. -/
def RANGE_IS_EMPTY : Int := 1

/-- The enumeration `RangeType`: `RANGE_IS_LISTED`. -/
def RANGE_IS_LISTED : Int := 2

/-- The test `std::isspace` in the "C" locale: space, `\t`, `\n`, `\v`, `\f`, `\r`. -/
def isspace (c : Char) : Bool := c.toNat = 32 || (9 ≤ c.toNat && c.toNat ≤ 13)

/-- The test `std::isdigit`. -/
def isdigit (c : Char) : Bool := 48 ≤ c.toNat && c.toNat ≤ 57

/-- The conversion `tolower` in the "C" locale. -/
def tolower (c : Char) : Char :=
  if 65 ≤ c.toNat ∧ c.toNat ≤ 90 then Char.ofNat (c.toNat + 32) else c

/-- The function `checkValid`: `true` when it returns, `false` when it throws "invalid integer
range list". -/
def checkValid (c : Char) : Bool := isspace c || isdigit c || c == ',' || c == '-'

/-- The search `std::string::find(pattern)`: the first position at which the pattern starts,
`none` for `npos`. -/
def find (pattern : List Char) : List Char → Option Nat
  | [] => if pattern = [] then some 0 else none
  | c :: rest =>
    if pattern.isPrefixOf (c :: rest) then some 0
    else (find pattern rest).map (fun n => n + 1)

/-- The function `listSaysAll`, called on the string already put in lower case (the function
lowers its argument in place before the search). -/
def listSaysAll (l : List Char) : Bool := (find ['a', 'l', 'l'] l).isSome

/-- The digits read by `operator>>` into an integer, most significant first. -/
def read_digits : List Char → Nat → Nat × Bool
  | [], acc => (acc, false)
  | c :: rest, acc =>
    if isdigit c then ((read_digits rest (acc * 10 + (c.toNat - 48))).1, true) else (acc, false)

/-- The extraction `std::istringstream(s) >> a` of an integer: white space is skipped, then a
sign and the digits are read; when no digit is found the extraction fails and the value is
`0`. -/
def read_integral (s : List Char) : Int :=
  match s.dropWhile isspace with
  | '-' :: rest => if (read_digits rest 0).2 then - ((read_digits rest 0).1 : Int) else 0
  | '+' :: rest => if (read_digits rest 0).2 then ((read_digits rest 0).1 : Int) else 0
  | rest => ((read_digits rest 0).1 : Int)

/-- The function `breakRange`: the returned count and the strings `from` and `to`. -/
def breakRange (range : List Char) : Nat × List Char × List Char :=
  let halves : List Char × List Char :=
    match find ['-'] range with
    | none => (range, [])
    | some loc => (range.take loc, range.drop (loc + 1))
  let a := read_integral halves.1
  let b := if halves.2.length > 0 then read_integral halves.2 else a
  let swapped : List Char × List Char :=
    if halves.2.length > 0 ∧ b < a then (halves.2, halves.1) else halves
  (if b ≠ a then 2 else 1, swapped.1, swapped.2)

/-- The ranges the loops `while (rangeBegin != valueEnd)` of `validate` and
`validateAndModify` visit: the pieces between the commas; after a comma that ends the string
the loop stops, and on the empty string it does not start.  `cur` holds the characters of the
current piece, last first. -/
def ranges_from : List Char → List Char → List (List Char)
  | [], cur => [cur.reverse]
  | c :: rest, cur =>
    if c = ',' then cur.reverse :: (if rest = [] then [] else ranges_from rest [])
    else ranges_from rest (c :: cur)

/-- The ranges of a range list string. -/
def ranges (inValue : List Char) : List (List Char) :=
  if inValue = [] then [] else ranges_from inValue []

/-- The bounds `a` and `b` read from a range in the loops of `validate` and
`validateAndModify`. -/
def range_bounds (range : List Char) : Int × Int :=
  let r := breakRange range
  let a := read_integral r.2.1
  let b := if r.1 > 1 then read_integral r.2.2 else a
  (a, b)

/-- The class `IntegerRangeListValidator<Integral>`: its two data members. -/
structure IntegerRangeListValidator where
  min_ : Int
  max_ : Int
deriving DecidableEq

/-- The constructor `IntegerRangeListValidator()`, "any Integral is valid". -/
def IntegerRangeListValidator.any : IntegerRangeListValidator := ⟨1, 0⟩

/-- The constructor `IntegerRangeListValidator(validMin, validMax)`, "only Integrals in
[validMin,validMax] are valid": the members are initialised with the arguments, then the body
`if (min_ < max_) std::swap(min_,max_);` runs. -/
def IntegerRangeListValidator.construct (validMin validMax : Int) :
    IntegerRangeListValidator :=
  let min_ := validMin
  let max_ := validMax
  if min_ < max_ then ⟨max_, min_⟩ else ⟨min_, max_⟩

/-- A `Teuchos::ParameterEntry` as the validator sees it: a string, or the array of integers
`validateAndModify` has put in its place. -/
inductive ParameterEntry where
  | string : List Char → ParameterEntry
  | array : List Int → ParameterEntry
deriving DecidableEq

/-- The loop of `validate` over the ranges; `none` is the `std::runtime_error` "input range
exceeds valid range". -/
def validate_ranges (v : IntegerRangeListValidator) : List (List Char) → Option Unit
  | [] => some ()
  | range :: rest =>
    let a := (range_bounds range).1
    let b := (range_bounds range).2
    if a < v.min_ ∨ b > v.max_ then none else validate_ranges v rest

/-- The member function `validate`; `none` is a `std::runtime_error`. -/
def IntegerRangeListValidator.validate (v : IntegerRangeListValidator)
    (entry : ParameterEntry) : Option Unit :=
  match entry with
  | ParameterEntry.array _ => some ()
  | ParameterEntry.string rangeList =>
    let inValue := rangeList.map tolower
    if listSaysAll inValue then some ()
    else if ¬ inValue.all checkValid then none
    else if v.max_ ≥ v.min_ then validate_ranges v (ranges inValue)
    else some ()

/-- The loop `for (Integral i=a; i <=b; i++) valueList.push_back(i)`. -/
def push_range (valueList : List Int) (a b : Int) : List Int :=
  valueList ++ (List.range (b + 1 - a).toNat).map (fun n => a + (n : Int))

/-- The loop of `validateAndModify` over the ranges, filling `valueList`. -/
def modify_ranges (v : IntegerRangeListValidator) :
    List (List Char) → List Int → Option (List Int)
  | [], valueList => some valueList
  | range :: rest, valueList =>
    let a := (range_bounds range).1
    let b := (range_bounds range).2
    if v.max_ ≥ v.min_ ∧ (a < v.min_ ∨ b > v.max_) then none
    else modify_ranges v rest (push_range valueList a b)

/-- Insertion of a value in an increasing list without repetition. -/
def insert_unique (x : Int) : List Int → List Int
  | [] => [x]
  | y :: rest => if x < y then x :: y :: rest else if x = y then y :: rest
    else y :: insert_unique x rest

/-- The step "sort & remove duplicates" of `validateAndModify`. -/
def sort_unique (valueList : List Int) : List Int :=
  valueList.foldr insert_unique []

/-- The member function `validateAndModify`, returning the entry it leaves; `none` is a
`std::runtime_error`. -/
def IntegerRangeListValidator.validateAndModify (v : IntegerRangeListValidator)
    (entry : ParameterEntry) : Option ParameterEntry :=
  match entry with
  | ParameterEntry.array a => some (ParameterEntry.array a)
  | ParameterEntry.string rangeList =>
    let inValue := rangeList.map tolower
    if listSaysAll inValue then some (ParameterEntry.array [RANGE_INCLUDES_ALL])
    else if ¬ inValue.all checkValid then none
    else
      match modify_ranges v (ranges inValue) [] with
      | none => none
      | some valueList0 =>
        let valueList := if valueList0.length > 1 then sort_unique valueList0 else valueList0
        if valueList.length = 0 then some (ParameterEntry.array [RANGE_IS_EMPTY])
        else if v.max_ ≥ v.min_ ∧ (valueList.length : Int) = v.max_ - v.min_ + 1 then
          some (ParameterEntry.array [RANGE_INCLUDES_ALL])
        else some (ParameterEntry.array (valueList ++ [RANGE_IS_LISTED]))

end Zoltan2

namespace stk

/-! ## The order of keys -/

namespace OctTreeKey
variable {MaxDepth : Nat}

theorem digits_less_irrefl : ∀ a : List Nat, digits_less a a = false
  | [] => rfl
  | x :: xs => by simp [digits_less, digits_less_irrefl xs]

theorem digits_less_asymm : ∀ a b : List Nat, digits_less a b = true → digits_less b a = false
  | [], [] => by simp [digits_less]
  | [], _ :: _ => by simp [digits_less]
  | _ :: _, [] => by simp [digits_less]
  | x :: xs, y :: ys => by
    intro h
    simp only [digits_less] at h ⊢
    by_cases hxy : x < y
    · have : ¬ y < x := by omega
      simp [hxy, this]
    · by_cases hyx : y < x
      · simp [hxy, hyx] at h
      · simp only [hxy, hyx, if_false] at h ⊢
        exact digits_less_asymm xs ys h

/-- Comparison property of the digit order. -/
theorem digits_less_cotrans :
    ∀ a b c : List Nat, digits_less a c = true → digits_less a b = true ∨ digits_less b c = true
  | [], [], c => by intro h; right; exact h
  | [], _ :: _, _ => by intro _; left; simp [digits_less]
  | _ :: _, _, [] => by simp [digits_less]
  | x :: xs, [], z :: zs => by intro _; right; simp [digits_less]
  | x :: xs, y :: ys, z :: zs => by
    intro h
    simp only [digits_less] at h ⊢
    by_cases hxy : x < y
    · left; simp [hxy]
    · by_cases hyz : y < z
      · right; simp [hyz]
      · by_cases hyx : y < x
        · -- z ≤ y < x, so x < z is false and z < x
          have h1 : ¬ x < z := by omega
          have h2 : z < x := by omega
          simp [h1, h2] at h
        · by_cases hzy : z < y
          · have h1 : ¬ x < z := by omega
            have h2 : z < x := by omega
            simp [h1, h2] at h
          · have hxz : ¬ x < z := by omega
            have hzx : ¬ z < x := by omega
            simp only [hxy, hyx, hyz, hzy, hxz, hzx, if_false] at h ⊢
            exact digits_less_cotrans xs ys zs h

theorem lt_iff (a b : OctTreeKey MaxDepth) : a < b ↔ digits_less a.digits b.digits = true :=
  Iff.rfl

theorem le_iff (a b : OctTreeKey MaxDepth) : a ≤ b ↔ digits_less b.digits a.digits = false :=
  Iff.rfl

theorem not_lt_iff_le (a b : OctTreeKey MaxDepth) : ¬ a < b ↔ b ≤ a := by
  rw [lt_iff, le_iff]; simp

theorem not_le_iff_lt (a b : OctTreeKey MaxDepth) : ¬ a ≤ b ↔ b < a := by
  rw [lt_iff, le_iff]; simp

theorem key_le_refl (a : OctTreeKey MaxDepth) : a ≤ a := digits_less_irrefl _

theorem key_lt_of_lt_of_le {a b c : OctTreeKey MaxDepth} (h1 : a < b) (h2 : b ≤ c) : a < c := by
  rcases digits_less_cotrans _ c.digits _ h1 with h | h
  · exact h
  · rw [le_iff] at h2; rw [h2] at h; cases h

theorem key_lt_of_le_of_lt {a b c : OctTreeKey MaxDepth} (h1 : a ≤ b) (h2 : b < c) : a < c := by
  rcases digits_less_cotrans _ a.digits _ h2 with h | h
  · rw [le_iff] at h1; rw [h1] at h; cases h
  · exact h

theorem key_le_of_lt {a b : OctTreeKey MaxDepth} (h : a < b) : a ≤ b :=
  digits_less_asymm _ _ h

theorem key_le_trans {a b c : OctTreeKey MaxDepth} (h1 : a ≤ b) (h2 : b ≤ c) : a ≤ c := by
  exact (not_lt_iff_le _ _).1 (fun h => (not_lt_iff_le _ _).2 h1 (key_lt_of_le_of_lt h2 h))

theorem digits_less_replicate_zero : ∀ (n : Nat) (a : List Nat),
    a.length = n → digits_less a (List.replicate n 0) = false
  | 0, [], _ => rfl
  | 0, _ :: _, h => by simp at h
  | n + 1, [], h => by simp at h
  | n + 1, x :: xs, h => by
    simp only [List.replicate, digits_less]
    have : xs.length = n := by simpa using h
    simp [digits_less_replicate_zero n xs this]

/-- The root key is the smallest key. -/
theorem root_le (a : OctTreeKey MaxDepth) : root MaxDepth ≤ a :=
  digits_less_replicate_zero MaxDepth a.digits a.length_eq

end OctTreeKey

open OctTreeKey

/-! ## Processor lookup: the binary search -/

theorem SortedCuts.getD_le {MaxDepth : Nat} {cuts : List (OctTreeKey MaxDepth)}
    (hs : SortedCuts cuts) {i j : Nat} (hij : i ≤ j) (hj : j < cuts.length) :
    cuts.getD i (root MaxDepth) ≤ cuts.getD j (root MaxDepth) := by
  have hi : i < cuts.length := lt_of_le_of_lt hij hj
  rw [List.getD_eq_getElem _ _ hi, List.getD_eq_getElem _ _ hj]
  rcases Nat.lt_or_ge i j with h | h
  · exact (List.pairwise_iff_getElem.1 hs) i j hi hj h
  · have : i = j := le_antisymm hij h
    subst this
    exact key_le_refl _

theorem upper_bound_loop_spec {MaxDepth : Nat} (cuts : List (OctTreeKey MaxDepth))
    (key : OctTreeKey MaxDepth) (hs : SortedCuts cuts) :
    ∀ (fuel first len : Nat), len ≤ fuel → first + len ≤ cuts.length →
      (∀ i, i < first → cuts.getD i (root MaxDepth) ≤ key) →
      (∀ i, first + len ≤ i → i < cuts.length → key < cuts.getD i (root MaxDepth)) →
      upper_bound_loop cuts key fuel first len ≤ cuts.length ∧
      (∀ i, i < upper_bound_loop cuts key fuel first len → cuts.getD i (root MaxDepth) ≤ key) ∧
      (∀ i, upper_bound_loop cuts key fuel first len ≤ i → i < cuts.length →
        key < cuts.getD i (root MaxDepth)) := by
  intro fuel
  induction fuel with
  | zero =>
    intro first len hlen hb hlo hhi
    have : len = 0 := Nat.le_zero.1 hlen
    subst this
    simp only [upper_bound_loop]
    exact ⟨by omega, hlo, fun i hi hil => hhi i (by omega) hil⟩
  | succ fuel ih =>
    intro first len hlen hb hlo hhi
    simp only [upper_bound_loop]
    by_cases h0 : len = 0
    · subst h0
      simp only [if_true]
      exact ⟨by omega, hlo, fun i hi hil => hhi i (by omega) hil⟩
    · simp only [h0, if_false]
      by_cases hk : key < cuts.getD (first + len / 2) (root MaxDepth)
      · simp only [hk, if_true]
        apply ih first (len / 2) (by omega) (by omega) hlo
        intro i hi hil
        by_cases hc : first + len ≤ i
        · exact hhi i hc hil
        · exact key_lt_of_lt_of_le hk (hs.getD_le hi hil)
      · simp only [hk, if_false]
        apply ih (first + len / 2 + 1) (len - len / 2 - 1) (by omega) (by omega)
        · intro i hi
          have hm : first + len / 2 < cuts.length := by omega
          exact key_le_trans (hs.getD_le (by omega) hm) ((not_lt_iff_le _ _).1 hk)
        · intro i hi hil
          exact hhi i (by omega) hil

theorem upper_bound_spec {MaxDepth : Nat} (cuts : List (OctTreeKey MaxDepth))
    (key : OctTreeKey MaxDepth) (hs : SortedCuts cuts) :
    upper_bound cuts key ≤ cuts.length ∧
    (∀ i, i < upper_bound cuts key → cuts.getD i (root MaxDepth) ≤ key) ∧
    (∀ i, upper_bound cuts key ≤ i → i < cuts.length → key < cuts.getD i (root MaxDepth)) :=
  upper_bound_loop_spec cuts key hs cuts.length 0 cuts.length (le_refl _) (by omega)
    (fun i hi => absurd hi (Nat.not_lt_zero i)) (fun i hi hil => absurd hil (by omega))

/-! ## Processor lookup: the claims -/

/-- C3: on a non-empty cut array in non-decreasing order and a key not before `cuts[0]`,
`processor` returns the index `p` of the last cut that is `≤ key`: `cuts[p] ≤ key`, and
`key < cuts[q]` for every later index `q` of the array. -/
theorem processor_returns_last_cut_le {MaxDepth : Nat} (cuts : List (OctTreeKey MaxDepth))
    (key : OctTreeKey MaxDepth) (hne : cuts ≠ []) (hs : SortedCuts cuts)
    (h0 : cuts.getD 0 (root MaxDepth) ≤ key) :
    ∃ p, processor cuts key = some p ∧ p < cuts.length ∧
      cuts.getD p (root MaxDepth) ≤ key ∧
      ∀ q, p < q → q < cuts.length → key < cuts.getD q (root MaxDepth) := by
  obtain ⟨hle, hlo, hhi⟩ := upper_bound_spec cuts key hs
  have hlen : 0 < cuts.length := List.length_pos.2 hne
  have hpos : upper_bound cuts key ≠ 0 := by
    intro h
    have := hhi 0 (by omega) hlen
    exact (not_lt_iff_le _ _).2 h0 this
  refine ⟨upper_bound cuts key - 1, ?_, by omega, hlo _ (by omega), ?_⟩
  · simp [processor, hpos]
  · intro q hq hql
    exact hhi q (by omega) hql

/-- The hypotheses of C3 hold for the cuts `root, (3), (5)` and the key `(4)`. -/
theorem processor_returns_last_cut_le_witness :
    ([⟨[0, 0], rfl⟩, ⟨[3, 0], rfl⟩, ⟨[5, 0], rfl⟩] : List (OctTreeKey 2)) ≠ [] ∧
    SortedCuts ([⟨[0, 0], rfl⟩, ⟨[3, 0], rfl⟩, ⟨[5, 0], rfl⟩] : List (OctTreeKey 2)) ∧
    ∃ p, processor ([⟨[0, 0], rfl⟩, ⟨[3, 0], rfl⟩, ⟨[5, 0], rfl⟩] : List (OctTreeKey 2))
        ⟨[4, 0], rfl⟩ = some p ∧ p < 3 ∧
      List.getD ([⟨[0, 0], rfl⟩, ⟨[3, 0], rfl⟩, ⟨[5, 0], rfl⟩] : List (OctTreeKey 2)) p
        (root 2) ≤ ⟨[4, 0], rfl⟩ ∧
      ∀ q, p < q → q < 3 → (⟨[4, 0], rfl⟩ : OctTreeKey 2) <
        List.getD ([⟨[0, 0], rfl⟩, ⟨[3, 0], rfl⟩, ⟨[5, 0], rfl⟩] : List (OctTreeKey 2)) q (root 2) :=
  ⟨by decide, by decide,
    processor_returns_last_cut_le _ _ (by decide) (by decide) (by decide)⟩

/-- C4: on a cut array in non-decreasing order `processor` throws exactly when no cut is
`≤ key` (the array is empty or `key < cuts[0]`); in every other case it returns an index
smaller than the length of the array; and it never throws on a non-empty array whose first
entry is the root key. -/
theorem processor_throws_iff {MaxDepth : Nat} (cuts : List (OctTreeKey MaxDepth))
    (key : OctTreeKey MaxDepth) (hs : SortedCuts cuts) :
    (processor cuts key = none ↔ (cuts = [] ∨ key < cuts.getD 0 (root MaxDepth))) ∧
    (¬ (cuts = [] ∨ key < cuts.getD 0 (root MaxDepth)) →
      ∃ p, processor cuts key = some p ∧ p < cuts.length) ∧
    (cuts ≠ [] → cuts.getD 0 (root MaxDepth) = root MaxDepth → processor cuts key ≠ none) := by
  obtain ⟨hle, hlo, hhi⟩ := upper_bound_spec cuts key hs
  have hiff : processor cuts key = none ↔ (cuts = [] ∨ key < cuts.getD 0 (root MaxDepth)) := by
    constructor
    · intro h
      have h0 : upper_bound cuts key = 0 := by
        by_contra hc
        simp [processor, hc] at h
      by_cases hne : cuts = []
      · exact Or.inl hne
      · exact Or.inr (hhi 0 (by omega) (List.length_pos.2 hne))
    · rintro (h | h)
      · subst h
        simp [processor, upper_bound, upper_bound_loop]
      · have h0 : upper_bound cuts key = 0 := by
          by_contra hc
          exact (not_lt_iff_le _ _).2 (hlo 0 (by omega)) h
        simp [processor, h0]
  refine ⟨hiff, ?_, ?_⟩
  · intro hn
    have hpos : upper_bound cuts key ≠ 0 := by
      intro h0
      apply hn
      rw [← hiff]
      simp [processor, h0]
    exact ⟨upper_bound cuts key - 1, by simp [processor, hpos], by omega⟩
  · intro hne h0 hnone
    rcases hiff.1 hnone with h | h
    · exact hne h
    · rw [h0] at h
      exact (not_lt_iff_le _ _).2 (root_le key) h

/-- The hypothesis of C4 holds for the cuts `(3), (5)`, on which the key `(4)` is found and the
key `(2)` is rejected. -/
theorem processor_throws_iff_witness :
    SortedCuts ([⟨[3, 0], rfl⟩, ⟨[5, 0], rfl⟩] : List (OctTreeKey 2)) ∧
    processor ([⟨[3, 0], rfl⟩, ⟨[5, 0], rfl⟩] : List (OctTreeKey 2)) ⟨[2, 0], rfl⟩ = none ∧
    ((processor ([⟨[3, 0], rfl⟩, ⟨[5, 0], rfl⟩] : List (OctTreeKey 2)) ⟨[4, 0], rfl⟩ = none ↔
      (([⟨[3, 0], rfl⟩, ⟨[5, 0], rfl⟩] : List (OctTreeKey 2)) = [] ∨
        (⟨[4, 0], rfl⟩ : OctTreeKey 2) <
          List.getD ([⟨[3, 0], rfl⟩, ⟨[5, 0], rfl⟩] : List (OctTreeKey 2)) 0 (root 2))) ∧
    (¬ (([⟨[3, 0], rfl⟩, ⟨[5, 0], rfl⟩] : List (OctTreeKey 2)) = [] ∨
        (⟨[4, 0], rfl⟩ : OctTreeKey 2) <
          List.getD ([⟨[3, 0], rfl⟩, ⟨[5, 0], rfl⟩] : List (OctTreeKey 2)) 0 (root 2)) →
      ∃ p, processor ([⟨[3, 0], rfl⟩, ⟨[5, 0], rfl⟩] : List (OctTreeKey 2)) ⟨[4, 0], rfl⟩ = some p
        ∧ p < List.length ([⟨[3, 0], rfl⟩, ⟨[5, 0], rfl⟩] : List (OctTreeKey 2))) ∧
    (([⟨[3, 0], rfl⟩, ⟨[5, 0], rfl⟩] : List (OctTreeKey 2)) ≠ [] →
      List.getD ([⟨[3, 0], rfl⟩, ⟨[5, 0], rfl⟩] : List (OctTreeKey 2)) 0 (root 2) = root 2 →
      processor ([⟨[3, 0], rfl⟩, ⟨[5, 0], rfl⟩] : List (OctTreeKey 2)) ⟨[4, 0], rfl⟩ ≠ none)) :=
  ⟨by decide, by decide, processor_throws_iff _ _ (by decide)⟩

/-- C5: on a non-empty cut array in non-decreasing order the owner index is monotone in the
key: for keys `k1 ≤ k2` with `cuts[0] ≤ k1` both lookups succeed and
`processor(cuts, k1) ≤ processor(cuts, k2)`. -/
theorem processor_monotone {MaxDepth : Nat} (cuts : List (OctTreeKey MaxDepth))
    (k1 k2 : OctTreeKey MaxDepth) (hne : cuts ≠ []) (hs : SortedCuts cuts)
    (h12 : k1 ≤ k2) (h0 : cuts.getD 0 (root MaxDepth) ≤ k1) :
    ∃ p1 p2, processor cuts k1 = some p1 ∧ processor cuts k2 = some p2 ∧ p1 ≤ p2 := by
  obtain ⟨hle1, hlo1, hhi1⟩ := upper_bound_spec cuts k1 hs
  obtain ⟨hle2, hlo2, hhi2⟩ := upper_bound_spec cuts k2 hs
  have hlen : 0 < cuts.length := List.length_pos.2 hne
  have hpos1 : upper_bound cuts k1 ≠ 0 := by
    intro h
    exact (not_lt_iff_le _ _).2 h0 (hhi1 0 (by omega) hlen)
  have hmono : upper_bound cuts k1 ≤ upper_bound cuts k2 := by
    by_contra hc
    have hlt : upper_bound cuts k2 < upper_bound cuts k1 := by omega
    have ha := hlo1 _ hlt
    have hb := hhi2 _ (le_refl _) (by omega)
    exact (not_lt_iff_le _ _).2 (key_le_trans ha h12) hb
  have hpos2 : upper_bound cuts k2 ≠ 0 := by omega
  exact ⟨upper_bound cuts k1 - 1, upper_bound cuts k2 - 1, by simp [processor, hpos1],
    by simp [processor, hpos2], by omega⟩

/-- The hypotheses of C5 hold for the cuts `root, (3), (5)` and the keys `(3) ≤ (6)`. -/
theorem processor_monotone_witness :
    ([⟨[0, 0], rfl⟩, ⟨[3, 0], rfl⟩, ⟨[5, 0], rfl⟩] : List (OctTreeKey 2)) ≠ [] ∧
    SortedCuts ([⟨[0, 0], rfl⟩, ⟨[3, 0], rfl⟩, ⟨[5, 0], rfl⟩] : List (OctTreeKey 2)) ∧
    (⟨[3, 0], rfl⟩ : OctTreeKey 2) ≤ ⟨[6, 0], rfl⟩ ∧
    ∃ p1 p2,
      processor ([⟨[0, 0], rfl⟩, ⟨[3, 0], rfl⟩, ⟨[5, 0], rfl⟩] : List (OctTreeKey 2))
        ⟨[3, 0], rfl⟩ = some p1 ∧
      processor ([⟨[0, 0], rfl⟩, ⟨[3, 0], rfl⟩, ⟨[5, 0], rfl⟩] : List (OctTreeKey 2))
        ⟨[6, 0], rfl⟩ = some p2 ∧ p1 ≤ p2 :=
  ⟨by decide, by decide, by decide,
    processor_monotone _ _ _ (by decide) (by decide) (by decide) (by decide)⟩

/-! ## Box covering: the corners -/

theorem corner_coords_eq (a0 a1 a2 b0 b1 b2 : Nat) :
    corner_coords [a0, a1, a2] [b0, b1, b2] =
      ((([[a0, a1, a2]] ++ (if b0 = a0 then [] else [[b0, a1, a2]]))
        ++ (if b1 = a1 then [] else
            [[a0, b1, a2]] ++ (if b0 = a0 then [] else [[b0, b1, a2]])))
        ++ (if b2 = a2 then [] else
            ([[a0, a1, b2]] ++ (if b0 = a0 then [] else [[b0, a1, b2]]))
            ++ (if b1 = a1 then [] else
              [[a0, b1, b2]] ++ (if b0 = a0 then [] else [[b0, b1, b2]]))),
       2 ^ straddled a0 a1 a2 b0 b1 b2) := by
  have e1 : (1 &&& 1 : Nat) = 1 := by decide
  have e2 : (1 &&& 2 : Nat) = 0 := by decide
  have e3 : (1 &&& 4 : Nat) = 0 := by decide
  have e4 : (2 &&& 1 : Nat) = 0 := by decide
  have e5 : (2 &&& 2 : Nat) = 2 := by decide
  have e6 : (2 &&& 4 : Nat) = 0 := by decide
  have e7 : (3 &&& 1 : Nat) = 1 := by decide
  have e8 : (3 &&& 2 : Nat) = 2 := by decide
  have e9 : (3 &&& 4 : Nat) = 0 := by decide
  have f1 : (4 &&& 1 : Nat) = 0 := by decide
  have f2 : (4 &&& 2 : Nat) = 0 := by decide
  have f3 : (4 &&& 4 : Nat) = 4 := by decide
  have f4 : (5 &&& 1 : Nat) = 1 := by decide
  have f5 : (5 &&& 2 : Nat) = 0 := by decide
  have f6 : (5 &&& 4 : Nat) = 4 := by decide
  have f7 : (6 &&& 1 : Nat) = 0 := by decide
  have f8 : (6 &&& 2 : Nat) = 2 := by decide
  have f9 : (6 &&& 4 : Nat) = 4 := by decide
  have g1 : (7 &&& 1 : Nat) = 1 := by decide
  have g2 : (7 &&& 2 : Nat) = 2 := by decide
  have g3 : (7 &&& 4 : Nat) = 4 := by decide
  simp only [corner_coords, List.foldl, corner_step, e1, e2, e3, e4, e5, e6, e7, e8, e9,
    f1, f2, f3, f4, f5, f6, f7, f8, f9, g1, g2, g3, straddled, List.getD_cons_zero,
    List.getD_cons_succ]
  by_cases h0 : b0 = a0 <;> by_cases h1 : b1 = a1 <;> by_cases h2 : b2 = a2 <;>
    simp [h0, h1, h2]

theorem corner_coords_nodup (a0 a1 a2 b0 b1 b2 : Nat) :
    (corner_coords [a0, a1, a2] [b0, b1, b2]).1.Nodup := by
  rw [corner_coords_eq]
  by_cases h0 : b0 = a0 <;> by_cases h1 : b1 = a1 <;> by_cases h2 : b2 = a2 <;>
    simp [h0, h1, h2] <;> omega

theorem corner_coords_mem (a0 a1 a2 b0 b1 b2 : Nat) (c : List Nat) :
    c ∈ (corner_coords [a0, a1, a2] [b0, b1, b2]).1 ↔
      ∃ x y z, c = [x, y, z] ∧ (x = a0 ∨ x = b0) ∧ (y = a1 ∨ y = b1) ∧ (z = a2 ∨ z = b2) := by
  rw [corner_coords_eq]
  constructor
  · revert c
    by_cases h0 : b0 = a0 <;> by_cases h1 : b1 = a1 <;> by_cases h2 : b2 = a2 <;>
      simp [h0, h1, h2] <;> (repeat' apply And.intro) <;>
      exact ⟨_, _, _, ⟨rfl, rfl, rfl⟩, by simp, by simp, by simp⟩
  · rintro ⟨x, y, z, rfl, hx, hy, hz⟩
    by_cases h0 : b0 = a0 <;> by_cases h1 : b1 = a1 <;> by_cases h2 : b2 = a2 <;>
      simp [h0, h1, h2] <;> rcases hx with rfl | rfl <;> rcases hy with rfl | rfl <;>
      rcases hz with rfl | rfl <;> simp_all

theorem corner_coords_head (a0 a1 a2 b0 b1 b2 : Nat) :
    (corner_coords [a0, a1, a2] [b0, b1, b2]).1.head? = some [a0, a1, a2] := by
  rw [corner_coords_eq]; simp

theorem corner_coords_length (a0 a1 a2 b0 b1 b2 : Nat) :
    (corner_coords [a0, a1, a2] [b0, b1, b2]).1.length = 2 ^ straddled a0 a1 a2 b0 b1 b2 := by
  rw [corner_coords_eq]
  by_cases h0 : b0 = a0 <;> by_cases h1 : b1 = a1 <;> by_cases h2 : b2 = a2 <;>
    simp [h0, h1, h2, straddled]

theorem straddled_le (a0 a1 a2 b0 b1 b2 : Nat) : straddled a0 a1 a2 b0 b1 b2 ≤ 3 := by
  unfold straddled
  split <;> split <;> split <;> omega

theorem cell_coords_shape (depth : Nat) (ub : UnitBox) (cl cu : List Nat)
    (h : cell_coords depth ub = some (cl, cu)) :
    ∃ a0 a1 a2 b0 b1 b2, cl = [a0, a1, a2] ∧ cu = [b0, b1, b2] ∧
      cell_axis depth (ub.ubox_low.getD 0 0) (ub.ubox_up.getD 0 0) = some (a0, b0) ∧
      cell_axis depth (ub.ubox_low.getD 1 0) (ub.ubox_up.getD 1 0) = some (a1, b1) ∧
      cell_axis depth (ub.ubox_low.getD 2 0) (ub.ubox_up.getD 2 0) = some (a2, b2) := by
  simp only [cell_coords, List.foldl] at h
  generalize cell_axis depth (ub.ubox_low.getD 0 0) (ub.ubox_up.getD 0 0) = r0 at h ⊢
  generalize cell_axis depth (ub.ubox_low.getD 1 0) (ub.ubox_up.getD 1 0) = r1 at h ⊢
  generalize cell_axis depth (ub.ubox_low.getD 2 0) (ub.ubox_up.getD 2 0) = r2 at h ⊢
  rcases r0 with _ | ⟨a0, b0⟩
  · simp at h
  rcases r1 with _ | ⟨a1, b1⟩
  · simp at h
  rcases r2 with _ | ⟨a2, b2⟩
  · simp at h
  simp only [List.nil_append, List.cons_append, Option.some.injEq, Prod.mk.injEq] at h
  exact ⟨a0, a1, a2, b0, b1, b2, h.1.symm, h.2.symm, rfl, rfl, rfl⟩

theorem covering_depth_le (MaxDepth : Nat) (u : ℚ) : covering_depth MaxDepth u ≤ MaxDepth := by
  unfold covering_depth
  split
  · simp only []
    split <;> omega
  · exact le_refl _

/-- The corners encoded by `hsfc_box_covering`: distinct, the combinations of the lower and
upper cell coordinates, the low corner first, and counted by `number`. -/
theorem covering_corners {MaxDepth : Nat}
    (hsfc3d : Nat → List Nat → OctTreeKey MaxDepth) (global_box small_box : Nat → ℚ)
    (scale : ℚ) (r : BoxCovering MaxDepth)
    (h : hsfc_box_covering hsfc3d global_box small_box scale = some r) :
    ∃ a0 a1 a2 b0 b1 b2 : Nat,
      cell_coords (covering_depth MaxDepth (unit_box global_box small_box scale).unit_size)
        (unit_box global_box small_box scale) = some ([a0, a1, a2], [b0, b1, b2]) ∧
      r.covering = (corner_coords [a0, a1, a2] [b0, b1, b2]).1.map
        (hsfc3d (covering_depth MaxDepth (unit_box global_box small_box scale).unit_size)) ∧
      (corner_coords [a0, a1, a2] [b0, b1, b2]).1.Nodup ∧
      (∀ c, c ∈ (corner_coords [a0, a1, a2] [b0, b1, b2]).1 ↔
        ∃ x y z, c = [x, y, z] ∧ (x = a0 ∨ x = b0) ∧ (y = a1 ∨ y = b1) ∧ (z = a2 ∨ z = b2)) ∧
      r.covering.head? = some
        (hsfc3d (covering_depth MaxDepth (unit_box global_box small_box scale).unit_size)
          [a0, a1, a2]) ∧
      r.number = r.covering.length ∧
      r.number = 2 ^ straddled a0 a1 a2 b0 b1 b2 ∧ 1 ≤ r.number ∧ r.number ≤ 8 := by
  unfold hsfc_box_covering at h
  simp only [] at h
  rcases hc : cell_coords (covering_depth MaxDepth (unit_box global_box small_box scale).unit_size)
      (unit_box global_box small_box scale) with _ | ⟨cl, cu⟩
  · rw [hc] at h; cases h
  · rw [hc] at h
    obtain ⟨a0, a1, a2, b0, b1, b2, rfl, rfl, -, -, -⟩ := cell_coords_shape _ _ _ _ hc
    simp only [Option.some.injEq] at h
    subst h
    have hnum : (corner_coords [a0, a1, a2] [b0, b1, b2]).2 = 2 ^ straddled a0 a1 a2 b0 b1 b2 := by
      rw [corner_coords_eq]
    have hs := straddled_le a0 a1 a2 b0 b1 b2
    refine ⟨a0, a1, a2, b0, b1, b2, rfl, rfl, corner_coords_nodup _ _ _ _ _ _,
      corner_coords_mem _ _ _ _ _ _, ?_, ?_, hnum, ?_, ?_⟩
    · simp only [List.head?_map, corner_coords_head, Option.map_some']
    · simp only [List.length_map, corner_coords_length, hnum]
    · simp only [hnum]; exact Nat.one_le_two_pow
    · simp only [hnum]
      calc 2 ^ straddled a0 a1 a2 b0 b1 b2 ≤ 2 ^ 3 := Nat.pow_le_pow_right (by norm_num) hs
        _ = 8 := by norm_num


/-- C10: whenever `hsfc_box_covering` returns, the corners it encodes are pairwise distinct
and are exactly the combinations of the lower and upper cell coordinate of each axis,
`covering[0]` encodes the low corner, and `number` is `2 ^ k` for the number `k` of axes on
which `coord_up` differs from `coord_low`, hence between `1` and `8`. -/
theorem hsfc_box_covering_corners {MaxDepth : Nat}
    (hsfc3d : Nat → List Nat → OctTreeKey MaxDepth) (global_box small_box : Nat → ℚ)
    (scale : ℚ) (r : BoxCovering MaxDepth)
    (h : hsfc_box_covering hsfc3d global_box small_box scale = some r) :
    ∃ a0 a1 a2 b0 b1 b2 : Nat,
      cell_coords (covering_depth MaxDepth (unit_box global_box small_box scale).unit_size)
        (unit_box global_box small_box scale) = some ([a0, a1, a2], [b0, b1, b2]) ∧
      r.covering = (corner_coords [a0, a1, a2] [b0, b1, b2]).1.map
        (hsfc3d (covering_depth MaxDepth (unit_box global_box small_box scale).unit_size)) ∧
      (corner_coords [a0, a1, a2] [b0, b1, b2]).1.Nodup ∧
      (∀ c, c ∈ (corner_coords [a0, a1, a2] [b0, b1, b2]).1 ↔
        ∃ x y z, c = [x, y, z] ∧ (x = a0 ∨ x = b0) ∧ (y = a1 ∨ y = b1) ∧ (z = a2 ∨ z = b2)) ∧
      r.covering.head? = some
        (hsfc3d (covering_depth MaxDepth (unit_box global_box small_box scale).unit_size)
          [a0, a1, a2]) ∧
      r.number = r.covering.length ∧
      r.number = 2 ^ straddled a0 a1 a2 b0 b1 b2 ∧ 1 ≤ r.number ∧ r.number ≤ 8 :=
  covering_corners hsfc3d global_box small_box scale r h

/-- The hypothesis of C10 holds for the box `[1/4, 1/2]^3` in the unit cube, which straddles
two cells on every axis at depth `2`: eight distinct corners. -/
theorem hsfc_box_covering_corners_witness :
    hsfc_box_covering sample_encoder unit_cube quarter_box 1 = some sample_covering ∧
    sample_covering.number = sample_covering.covering.length ∧
    1 ≤ sample_covering.number ∧ sample_covering.number ≤ 8 :=
  ⟨by decide!,
    match hsfc_box_covering_corners sample_encoder unit_cube quarter_box 1 sample_covering
      (by decide!) with
    | ⟨_, _, _, _, _, _, _, _, _, _, _, h1, _, h2, h3⟩ => ⟨h1, h2, h3⟩⟩

/-! ## Box covering: soundness -/

theorem rat_floor_eq (q : ℚ) : q.floor = ⌊q⌋ := rfl

theorem unit_box_axis_valid (global_box small_box : Nat → ℚ) (scale : ℚ) (st : UnitBox)
    (i : Nat) (h : (unit_box_axis global_box small_box scale st i).valid = true) :
    st.valid = true ∧ (unit_box_axis global_box small_box scale st i).unit_size ≥ st.unit_size ∧
    ∃ l u, (unit_box_axis global_box small_box scale st i).ubox_low = st.ubox_low ++ [l] ∧
      (unit_box_axis global_box small_box scale st i).ubox_up = st.ubox_up ++ [u] ∧
      float_epsilon ≤ l ∧ l ≤ u ∧ u ≤ 1 - float_epsilon := by
  by_cases h1 : small_box (i + 3) < global_box i
  · simp [unit_box_axis, h1] at h
  by_cases h2 : global_box (i + 3) < small_box i
  · simp [unit_box_axis, h1, h2] at h
  by_cases h4 : (small_box i - global_box i) * scale < float_epsilon
  · simp only [unit_box_axis, h1, h2, h4, if_true, if_false] at h
    split at h <;> split at h <;> simp at h
  by_cases h5 : 1 - float_epsilon < (small_box (i + 3) - global_box i) * scale
  · simp only [unit_box_axis, h1, h2, h4, h5, if_true, if_false] at h
    split at h <;> simp at h
  by_cases h3 : (small_box (i + 3) - global_box i) * scale < (small_box i - global_box i) * scale
  · simp [unit_box_axis, h1, h2, h4, h5, h3] at h
  simp only [unit_box_axis, h1, h2, h4, h5, h3, if_false] at h ⊢
  refine ⟨h, ?_, _, _, rfl, rfl, le_of_not_lt h4, le_of_not_lt h3, le_of_not_lt h5⟩
  split
  · rename_i h6; exact le_of_lt h6
  · exact le_refl _

theorem unit_box_valid (global_box small_box : Nat → ℚ) (scale : ℚ)
    (h : (unit_box global_box small_box scale).valid = true) (i : Nat) (hi : i < 3) :
    float_epsilon ≤ (unit_box global_box small_box scale).ubox_low.getD i 0 ∧
    (unit_box global_box small_box scale).ubox_low.getD i 0 ≤
      (unit_box global_box small_box scale).ubox_up.getD i 0 ∧
    (unit_box global_box small_box scale).ubox_up.getD i 0 ≤ 1 - float_epsilon := by
  unfold unit_box at h ⊢
  simp only [List.foldl] at h ⊢
  obtain ⟨hv2, -, l2, u2, hl2, hu2, b2⟩ := unit_box_axis_valid _ _ _ _ _ h
  obtain ⟨hv1, -, l1, u1, hl1, hu1, b1⟩ := unit_box_axis_valid _ _ _ _ _ hv2
  obtain ⟨-, -, l0, u0, hl0, hu0, b0⟩ := unit_box_axis_valid _ _ _ _ _ hv1
  rw [hl2, hu2, hl1, hu1, hl0, hu0]
  simp only [List.nil_append, List.cons_append]
  interval_cases i
  · simpa using b0
  · simpa using b1
  · simpa using b2

theorem float_epsilon_pos : 0 < float_epsilon := by
  unfold float_epsilon; norm_num

theorem cell_coordinate_lt (depth : Nat) (x : ℚ) (hx : x < 1) :
    cell_coordinate depth x < 2 ^ depth := by
  unfold cell_coordinate
  rw [rat_floor_eq]
  have h2 : (0 : ℚ) < 2 ^ depth := by positivity
  have hfl : ⌊x * 2 ^ depth⌋ < ((2 ^ depth : ℕ) : ℤ) := by
    apply Int.floor_lt.2
    push_cast
    calc x * 2 ^ depth < 1 * 2 ^ depth := mul_lt_mul_of_pos_right hx h2
      _ = 2 ^ depth := one_mul _
  have hpos : 0 < 2 ^ depth := Nat.pow_pos (by norm_num)
  generalize ⌊x * 2 ^ depth⌋ = z at hfl ⊢
  generalize (2 ^ depth : ℕ) = n at hfl hpos ⊢
  omega

theorem cell_coordinate_mono (depth : Nat) {x y : ℚ} (hxy : x ≤ y) :
    cell_coordinate depth x ≤ cell_coordinate depth y := by
  unfold cell_coordinate
  rw [rat_floor_eq, rat_floor_eq]
  have h2 : (0 : ℚ) ≤ 2 ^ depth := by positivity
  have : ⌊x * 2 ^ depth⌋ ≤ ⌊y * 2 ^ depth⌋ := Int.floor_mono (mul_le_mul_of_nonneg_right hxy h2)
  omega

theorem to_unsigned_cell (depth : Nat) (hd : depth < 32) (x : ℚ) (hx : x < 1) :
    to_unsigned (x * ((2 ^ depth % 2 ^ 32 : Nat) : ℚ)) = cell_coordinate depth x := by
  have hp : 2 ^ depth < 2 ^ 32 := Nat.pow_lt_pow_right (by norm_num) hd
  have hlt := cell_coordinate_lt depth x hx
  unfold to_unsigned
  rw [Nat.mod_eq_of_lt hp]
  push_cast
  unfold cell_coordinate at hlt ⊢
  exact Nat.mod_eq_of_lt (lt_trans hlt hp)

theorem cell_axis_spec (depth : Nat) (hd : depth < 32) (l u : ℚ) (hlu : l ≤ u) (hu : u < 1)
    (a b : Nat) (h : cell_axis depth l u = some (a, b)) :
    a = left_justified depth (cell_coordinate depth l) ∧
    b = left_justified depth (cell_coordinate depth u) ∧
    cell_coordinate depth u ≤ cell_coordinate depth l + 1 := by
  have hl : l < 1 := lt_of_le_of_lt hlu hu
  unfold cell_axis at h
  simp only [to_unsigned_cell depth hd l hl, to_unsigned_cell depth hd u hu] at h
  have hp : 2 ^ depth < 2 ^ 32 := Nat.pow_lt_pow_right (by norm_num) hd
  have h1 := cell_coordinate_lt depth l hl
  have hm : (cell_coordinate depth l + 1) % 2 ^ 32 = cell_coordinate depth l + 1 :=
    Nat.mod_eq_of_lt (by omega)
  rw [hm] at h
  split at h
  · cases h
  · rename_i hc
    simp only [Option.some.injEq, Prod.mk.injEq] at h
    exact ⟨h.1.symm, h.2.symm, by omega⟩

/-- C9 (covering soundness): when `hsfc_box_covering` returns `true`, every point of the
normalized box lies, at the depth chosen, in a cell whose coordinates are on each axis the
lower or the upper cell coordinate of the box, and the left-justified coordinate triple of
that cell is one of the corners handed to the encoder, its key being in `covering`. -/
theorem hsfc_box_covering_sound {MaxDepth : Nat} (hD : MaxDepth < BitsPerWord)
    (hsfc3d : Nat → List Nat → OctTreeKey MaxDepth) (global_box small_box : Nat → ℚ)
    (scale : ℚ) (r : BoxCovering MaxDepth)
    (h : hsfc_box_covering hsfc3d global_box small_box scale = some r)
    (hv : r.valid = true) (p : Nat → ℚ)
    (hp : ∀ i, i < 3 →
      (unit_box global_box small_box scale).ubox_low.getD i 0 ≤ p i ∧
      p i ≤ (unit_box global_box small_box scale).ubox_up.getD i 0) :
    (∀ i, i < 3 →
      cell_coordinate (covering_depth MaxDepth (unit_box global_box small_box scale).unit_size)
          (p i) =
        cell_coordinate (covering_depth MaxDepth (unit_box global_box small_box scale).unit_size)
          ((unit_box global_box small_box scale).ubox_low.getD i 0) ∨
      cell_coordinate (covering_depth MaxDepth (unit_box global_box small_box scale).unit_size)
          (p i) =
        cell_coordinate (covering_depth MaxDepth (unit_box global_box small_box scale).unit_size)
          ((unit_box global_box small_box scale).ubox_up.getD i 0)) ∧
    ∃ a0 a1 a2 b0 b1 b2 : Nat,
      cell_coords (covering_depth MaxDepth (unit_box global_box small_box scale).unit_size)
        (unit_box global_box small_box scale) = some ([a0, a1, a2], [b0, b1, b2]) ∧
      (List.map (fun i => left_justified
          (covering_depth MaxDepth (unit_box global_box small_box scale).unit_size)
          (cell_coordinate
            (covering_depth MaxDepth (unit_box global_box small_box scale).unit_size) (p i)))
        [0, 1, 2]) ∈ (corner_coords [a0, a1, a2] [b0, b1, b2]).1 ∧
      hsfc3d (covering_depth MaxDepth (unit_box global_box small_box scale).unit_size)
        (List.map (fun i => left_justified
          (covering_depth MaxDepth (unit_box global_box small_box scale).unit_size)
          (cell_coordinate
            (covering_depth MaxDepth (unit_box global_box small_box scale).unit_size) (p i)))
        [0, 1, 2]) ∈ r.covering := by
  obtain ⟨a0, a1, a2, b0, b1, b2, hc, hcov, -, hmem, -⟩ :=
    covering_corners hsfc3d global_box small_box scale r h
  have hvalid : (unit_box global_box small_box scale).valid = true := by
    unfold hsfc_box_covering at h
    simp only [hc, Option.some.injEq] at h
    rw [← h] at hv
    exact hv
  have hdepth : covering_depth MaxDepth (unit_box global_box small_box scale).unit_size < 32 :=
    lt_of_le_of_lt (covering_depth_le _ _) hD
  obtain ⟨a0', a1', a2', b0', b1', b2', hcl, hcu, hx0, hx1, hx2⟩ := cell_coords_shape _ _ _ _ hc
  simp only [List.cons.injEq, and_true] at hcl hcu
  obtain ⟨rfl, rfl, rfl⟩ := hcl
  obtain ⟨rfl, rfl, rfl⟩ := hcu
  have he : (0 : ℚ) < float_epsilon := float_epsilon_pos
  have key : ∀ i, i < 3 → ∀ a b,
      cell_axis (covering_depth MaxDepth (unit_box global_box small_box scale).unit_size)
        ((unit_box global_box small_box scale).ubox_low.getD i 0)
        ((unit_box global_box small_box scale).ubox_up.getD i 0) = some (a, b) →
      (cell_coordinate (covering_depth MaxDepth (unit_box global_box small_box scale).unit_size)
          (p i) =
        cell_coordinate (covering_depth MaxDepth (unit_box global_box small_box scale).unit_size)
          ((unit_box global_box small_box scale).ubox_low.getD i 0) ∨
      cell_coordinate (covering_depth MaxDepth (unit_box global_box small_box scale).unit_size)
          (p i) =
        cell_coordinate (covering_depth MaxDepth (unit_box global_box small_box scale).unit_size)
          ((unit_box global_box small_box scale).ubox_up.getD i 0)) ∧
      (left_justified (covering_depth MaxDepth (unit_box global_box small_box scale).unit_size)
        (cell_coordinate (covering_depth MaxDepth (unit_box global_box small_box scale).unit_size)
          (p i)) = a ∨
       left_justified (covering_depth MaxDepth (unit_box global_box small_box scale).unit_size)
        (cell_coordinate (covering_depth MaxDepth (unit_box global_box small_box scale).unit_size)
          (p i)) = b) := by
    intro i hi a b hab
    obtain ⟨h1, h2, h3⟩ := unit_box_valid global_box small_box scale hvalid i hi
    obtain ⟨hpl, hpu⟩ := hp i hi
    have hu1 : (unit_box global_box small_box scale).ubox_up.getD i 0 < 1 := by linarith
    obtain ⟨ha, hb, hstep⟩ := cell_axis_spec _ hdepth _ _ h2 hu1 a b hab
    have m1 := cell_coordinate_mono
      (covering_depth MaxDepth (unit_box global_box small_box scale).unit_size) hpl
    have m2 := cell_coordinate_mono
      (covering_depth MaxDepth (unit_box global_box small_box scale).unit_size) hpu
    have hcase : cell_coordinate
          (covering_depth MaxDepth (unit_box global_box small_box scale).unit_size) (p i) =
        cell_coordinate (covering_depth MaxDepth (unit_box global_box small_box scale).unit_size)
          ((unit_box global_box small_box scale).ubox_low.getD i 0) ∨
      cell_coordinate (covering_depth MaxDepth (unit_box global_box small_box scale).unit_size)
          (p i) =
        cell_coordinate (covering_depth MaxDepth (unit_box global_box small_box scale).unit_size)
          ((unit_box global_box small_box scale).ubox_up.getD i 0) := by omega
    refine ⟨hcase, ?_⟩
    rcases hcase with hc1 | hc1
    · left; rw [hc1, ha]
    · right; rw [hc1, hb]
  have k0 := key 0 (by norm_num) _ _ hx0
  have k1 := key 1 (by norm_num) _ _ hx1
  have k2 := key 2 (by norm_num) _ _ hx2
  refine ⟨?_, a0, a1, a2, b0, b1, b2, hc, ?_, ?_⟩
  · intro i hi
    interval_cases i
    · exact k0.1
    · exact k1.1
    · exact k2.1
  · rw [hmem]
    exact ⟨_, _, _, rfl, k0.2, k1.2, k2.2⟩
  · rw [hcov]
    apply List.mem_map_of_mem
    rw [hmem]
    exact ⟨_, _, _, rfl, k0.2, k1.2, k2.2⟩

/-- The hypotheses of C9 hold for the box `[1/4, 1/2]^3` in the unit cube and the point
`(3/8, 3/8, 3/8)`. -/
theorem hsfc_box_covering_sound_witness :
    3 < BitsPerWord ∧
    hsfc_box_covering sample_encoder unit_cube quarter_box 1 = some sample_covering ∧
    sample_covering.valid = true ∧
    (∀ i, i < 3 → (unit_box unit_cube quarter_box 1).ubox_low.getD i 0 ≤ (3 / 8 : ℚ) ∧
      (3 / 8 : ℚ) ≤ (unit_box unit_cube quarter_box 1).ubox_up.getD i 0) ∧
    ∀ i, i < 3 →
      cell_coordinate (covering_depth 3 (unit_box unit_cube quarter_box 1).unit_size) (3 / 8) =
        cell_coordinate (covering_depth 3 (unit_box unit_cube quarter_box 1).unit_size)
          ((unit_box unit_cube quarter_box 1).ubox_low.getD i 0) ∨
      cell_coordinate (covering_depth 3 (unit_box unit_cube quarter_box 1).unit_size) (3 / 8) =
        cell_coordinate (covering_depth 3 (unit_box unit_cube quarter_box 1).unit_size)
          ((unit_box unit_cube quarter_box 1).ubox_up.getD i 0) :=
  ⟨by decide, by decide!, rfl, by decide!,
    (hsfc_box_covering_sound (by decide) sample_encoder unit_cube quarter_box 1 sample_covering
      (by decide!) rfl (fun _ => 3 / 8) (by decide!)).1⟩


/-! ## Digit sequences of well-formed keys -/

namespace OctTreeKey

theorem all_zero_countP : ∀ ds : List Nat, ds.all (fun x => x == 0) = true →
    ds.countP (fun d => d != 0) = 0
  | [], _ => rfl
  | d :: ds, h => by
    simp only [List.all_cons, Bool.and_eq_true, beq_iff_eq] at h
    rw [List.countP_cons, all_zero_countP ds h.2]
    simp [h.1]

theorem all_zero_wf : ∀ ds : List Nat, ds.all (fun x => x == 0) = true → wf_digits ds = true
  | [], _ => rfl
  | d :: ds, h => by
    simp only [List.all_cons, Bool.and_eq_true, beq_iff_eq] at h
    simp [wf_digits, h.1, h.2]

theorem all_zero_offset (depth : Nat) : ∀ ds : List Nat, ds.all (fun x => x == 0) = true →
    offset_of_digits depth ds = 0
  | [], _ => by cases depth <;> rfl
  | d :: ds, h => by
    simp only [List.all_cons, Bool.and_eq_true, beq_iff_eq] at h
    cases depth with
    | zero => rfl
    | succ n => simp [offset_of_digits, h.1]

theorem all_zero_getD : ∀ (ds : List Nat) (l : Nat), ds.all (fun x => x == 0) = true →
    ds.getD l 0 = 0
  | [], l, _ => by simp
  | d :: ds, l, h => by
    simp only [List.all_cons, Bool.and_eq_true, beq_iff_eq] at h
    cases l with
    | zero => simp [h.1]
    | succ l => simpa using all_zero_getD ds l h.2

theorem replicate_all_zero (n : Nat) : (List.replicate n 0).all (fun x => x == 0) = true := by
  induction n with
  | zero => rfl
  | succ n ih => simp [List.replicate]

/-- Digits of a well-formed key: set and at most `8` before position `depth`, unset after. -/
theorem wf_digits_getD : ∀ (ds : List Nat), wf_digits ds = true → ∀ l,
    (l < ds.countP (fun d => d != 0) → 1 ≤ ds.getD l 0 ∧ ds.getD l 0 ≤ 8) ∧
    (ds.countP (fun d => d != 0) ≤ l → ds.getD l 0 = 0)
  | [], _, l => by simp
  | d :: ds, h, l => by
    simp only [wf_digits] at h
    by_cases hd : d = 0
    · simp only [hd, if_true] at h
      have hc : (d :: ds).countP (fun d => d != 0) = 0 := by
        rw [List.countP_cons, all_zero_countP ds h]; simp [hd]
      rw [hc]
      refine ⟨fun hl => absurd hl (Nat.not_lt_zero _), fun _ => ?_⟩
      cases l with
      | zero => simp [hd]
      | succ l => simpa using all_zero_getD ds l h
    · simp only [hd, if_false, Bool.and_eq_true, decide_eq_true_eq] at h
      have hc : (d :: ds).countP (fun d => d != 0) = ds.countP (fun d => d != 0) + 1 := by
        rw [List.countP_cons]; simp [hd]
      rw [hc]
      cases l with
      | zero =>
        refine ⟨fun _ => ?_, fun hl => absurd hl (by omega)⟩
        simp only [List.getD_cons_zero]
        omega
      | succ l =>
        have ih := wf_digits_getD ds h.2 l
        simp only [List.getD_cons_succ]
        exact ⟨fun hl => ih.1 (by omega), fun hl => ih.2 (by omega)⟩

/-- Appending a digit to a well-formed digit sequence. -/
theorem wf_digits_set : ∀ (ds : List Nat) (i : Nat), wf_digits ds = true →
    ds.countP (fun d => d != 0) < ds.length → 1 ≤ i → i ≤ 8 →
    wf_digits (ds.set (ds.countP (fun d => d != 0)) i) = true ∧
    (ds.set (ds.countP (fun d => d != 0)) i).countP (fun d => d != 0) =
      ds.countP (fun d => d != 0) + 1
  | [], i, _, hl, _, _ => by simp at hl
  | d :: ds, i, h, hl, h1, h8 => by
    simp only [wf_digits] at h
    by_cases hd : d = 0
    · simp only [hd, if_true] at h
      have hc : (d :: ds).countP (fun d => d != 0) = 0 := by
        rw [List.countP_cons, all_zero_countP ds h]; simp [hd]
      rw [hc]
      have hi : i ≠ 0 := by omega
      simp only [List.set_cons_zero, wf_digits, hi, if_false, List.countP_cons,
        all_zero_countP ds h, all_zero_wf ds h]
      simp [hi, h8]
    · simp only [hd, if_false, Bool.and_eq_true, decide_eq_true_eq] at h
      have hc : (d :: ds).countP (fun d => d != 0) = ds.countP (fun d => d != 0) + 1 := by
        rw [List.countP_cons]; simp [hd]
      rw [hc] at hl ⊢
      simp only [List.length_cons, Nat.add_lt_add_iff_right] at hl
      have ih := wf_digits_set ds i h.2 hl h1 h8
      simp only [List.set_cons_succ, wf_digits, hd, if_false, List.countP_cons, ih.1, ih.2]
      simp [hd, h.1]

/-- Offset of a well-formed digit sequence with one more digit appended. -/
theorem offset_of_digits_set : ∀ (depth : Nat) (ds : List Nat) (i : Nat),
    wf_digits ds = true → ds.countP (fun d => d != 0) < depth →
    ds.countP (fun d => d != 0) < ds.length → 1 ≤ i →
    offset_of_digits depth (ds.set (ds.countP (fun d => d != 0)) i) =
      offset_of_digits depth ds + 1 +
        (i - 1) * oct_tree_size (depth - ds.countP (fun d => d != 0) - 1)
  | 0, _, _, _, hdep, _, _ => by omega
  | depth + 1, [], i, _, _, hl, _ => by simp at hl
  | depth + 1, d :: ds, i, h, hdep, hl, h1 => by
    simp only [wf_digits] at h
    by_cases hd : d = 0
    · simp only [hd, if_true] at h
      have hc : (d :: ds).countP (fun d => d != 0) = 0 := by
        rw [List.countP_cons, all_zero_countP ds h]; simp [hd]
      rw [hc]
      have hi : i ≠ 0 := by omega
      simp only [List.set_cons_zero, offset_of_digits, hi, hd, if_true, if_false,
        all_zero_offset depth ds h]
      simp
    · simp only [hd, if_false, Bool.and_eq_true, decide_eq_true_eq] at h
      have hc : (d :: ds).countP (fun d => d != 0) = ds.countP (fun d => d != 0) + 1 := by
        rw [List.countP_cons]; simp [hd]
      rw [hc] at hdep hl ⊢
      simp only [List.length_cons, Nat.add_lt_add_iff_right] at hdep hl
      have ih := offset_of_digits_set depth ds i h.2 hdep hl h1
      simp only [List.set_cons_succ, offset_of_digits, hd, if_false, ih]
      have : depth + 1 - (ds.countP (fun d => d != 0) + 1) - 1 =
          depth - ds.countP (fun d => d != 0) - 1 := by omega
      rw [this]
      ring

theorem depth_le (k : OctTreeKey MaxDepth) : k.depth ≤ MaxDepth := by
  calc k.depth ≤ k.digits.length := List.countP_le_length _
    _ = MaxDepth := k.length_eq

theorem root_wf (MaxDepth : Nat) : (root MaxDepth).WellFormed :=
  all_zero_wf _ (replicate_all_zero MaxDepth)

theorem root_depth (MaxDepth : Nat) : (root MaxDepth).depth = 0 :=
  all_zero_countP _ (replicate_all_zero MaxDepth)

theorem root_index (MaxDepth l : Nat) : (root MaxDepth).index l = 0 := by
  cases l with
  | zero => rfl
  | succ l => exact all_zero_getD _ l (replicate_all_zero MaxDepth)

theorem set_index_set_index (k : OctTreeKey MaxDepth) (l a b : Nat) :
    (k.set_index l a).set_index l b = k.set_index l b := by
  cases l with
  | zero => rfl
  | succ l => simp [set_index, List.set_set]

/-- The child `i` of a well-formed key is well-formed and one level deeper. -/
theorem child_wf (k : OctTreeKey MaxDepth) (hk : k.WellFormed) (hd : k.depth < MaxDepth)
    (i : Nat) (h1 : 1 ≤ i) (h8 : i ≤ 8) :
    (k.set_index (k.depth + 1) i).WellFormed ∧
    (k.set_index (k.depth + 1) i).depth = k.depth + 1 := by
  have hl : k.digits.countP (fun d => d != 0) < k.digits.length := by
    rw [k.length_eq]; exact hd
  exact wf_digits_set k.digits i hk hl h1 h8

theorem index_succ (k : OctTreeKey MaxDepth) (n : Nat) :
    k.index (n + 1) = (k.digits.drop n).headD 0 := by
  simp only [index]
  rw [List.getD_eq_getElem?_getD, List.headD_eq_head?_getD, List.head?_drop]

theorem wf_index (k : OctTreeKey MaxDepth) (hk : k.WellFormed) (l : Nat) :
    k.index l ≤ 8 ∧ (k.depth < l → k.index l = 0) ∧ (1 ≤ l → l ≤ k.depth → 1 ≤ k.index l) := by
  cases l with
  | zero => exact ⟨Nat.zero_le _, fun _ => rfl, fun h => absurd h (by omega)⟩
  | succ l =>
    have h := wf_digits_getD k.digits hk l
    simp only [index, depth]
    refine ⟨?_, fun hl => h.2 (by omega), fun _ hl => (h.1 (by omega)).1⟩
    by_cases hc : l < k.digits.countP (fun d => d != 0)
    · exact (h.1 hc).2
    · rw [h.2 (by omega)]; omega

end OctTreeKey

/-- Offset of the child `i` of a well-formed key above the tree depth. -/
theorem oct_tree_offset_child {MaxDepth : Nat} (depth : Nat) (k : OctTreeKey MaxDepth)
    (hk : k.WellFormed) (hd : k.depth < depth) (hm : k.depth < MaxDepth) (i : Nat)
    (h1 : 1 ≤ i) :
    oct_tree_offset depth (k.set_index (k.depth + 1) i) =
      oct_tree_offset depth k + 1 + (i - 1) * oct_tree_size (depth - k.depth - 1) := by
  have hl : k.digits.countP (fun d => d != 0) < k.digits.length := by
    rw [k.length_eq]; exact hm
  exact offset_of_digits_set depth k.digits i hk hd hl h1

theorem oct_tree_offset_root (MaxDepth depth : Nat) :
    oct_tree_offset depth (root MaxDepth) = 0 :=
  all_zero_offset depth _ (replicate_all_zero MaxDepth)


/-! ## Weight accumulation: from keys to offsets -/

theorem accumulate_children_eq {MaxDepth : Nat} (depth ord_end : Nat)
    (k_node : OctTreeKey MaxDepth) (hk : k_node.WellFormed) (hd : k_node.depth < depth)
    (hm : depth ≤ MaxDepth)
    (recurse : OctTreeKey MaxDepth → Weights → Weights) (recurse2 : Nat → Weights → Weights) :
    ∀ (l : List Nat) (st : AccState MaxDepth),
      (∀ i, i ∈ l → 1 ≤ i ∧ ∀ w, recurse (k_node.set_index (k_node.depth + 1) i) w =
        recurse2 (oct_tree_offset depth k_node + 1 +
          (i - 1) * oct_tree_size (depth - k_node.depth - 1)) w) →
      (∀ i, st.k_node.set_index (k_node.depth + 1) i = k_node.set_index (k_node.depth + 1) i) →
      ((accumulate_children recurse (k_node.depth + 1) ord_end depth l st).w,
        (accumulate_children recurse (k_node.depth + 1) ord_end depth l st).weights) =
      offset_children recurse2 (oct_tree_offset depth k_node) (depth - k_node.depth - 1)
        ord_end l (st.w, st.weights) := by
  intro l
  induction l with
  | nil => intro st _ _; rfl
  | cons i rest ih =>
    intro st hrec hst
    have hi := hrec i (List.mem_cons_self _ _)
    have hoff := oct_tree_offset_child depth k_node hk hd (by omega) i hi.1
    simp only [accumulate_children, offset_children, child_offset, hst i, hoff]
    by_cases hlt : oct_tree_offset depth k_node + 1 +
        (i - 1) * oct_tree_size (depth - k_node.depth - 1) < ord_end
    · simp only [hlt, if_true]
      rw [ih _ (fun j hj => hrec j (List.mem_cons_of_mem _ hj))
        (fun j => by
          show (k_node.set_index (k_node.depth + 1) i).set_index (k_node.depth + 1) j = _
          exact set_index_set_index _ _ _ _)]
      simp only [hi.2]
    · simp only [hlt, if_false]
      rw [ih _ (fun j hj => hrec j (List.mem_cons_of_mem _ hj))
        (fun j => by
          show (k_node.set_index (k_node.depth + 1) i).set_index (k_node.depth + 1) j = _
          exact set_index_set_index _ _ _ _)]

theorem accumulate_weights_fuel_eq {MaxDepth : Nat} (depth ord_end : Nat)
    (hm : depth ≤ MaxDepth) :
    ∀ (fuel : Nat) (k_node k_first : OctTreeKey MaxDepth) (weights : Weights),
      k_node.WellFormed → k_first.WellFormed → k_node.depth ≤ depth →
      depth - k_node.depth < fuel →
      accumulate_weights_fuel fuel k_node k_first ord_end depth weights =
        offset_accumulate (depth - k_node.depth) (oct_tree_offset depth k_node)
          (k_first.digits.drop k_node.depth) ord_end weights := by
  intro fuel
  induction fuel with
  | zero => intro _ _ _ _ _ _ hf; omega
  | succ fuel ih =>
    intro k_node k_first weights hk hf hd hfuel
    rw [accumulate_weights_fuel]
    by_cases hlt : k_node.depth < depth
    · obtain ⟨h, hh⟩ : ∃ h, depth - k_node.depth = h + 1 := ⟨depth - k_node.depth - 1, by omega⟩
      have hh2 : depth - k_node.depth - 1 = h := by omega
      rw [hh, offset_accumulate]
      simp only [hlt, if_true, ← index_succ, child_offset]
      have hidx := wf_index k_first hf (k_node.depth + 1)
      have hlen : (k_first.digits.drop k_node.depth).length - 1 = MaxDepth - (k_node.depth + 1) := by
        rw [List.length_drop, k_first.length_eq]; omega
      have hchild : ∀ i, 1 ≤ i → i ≤ 8 → ∀ (kf : OctTreeKey MaxDepth) w, kf.WellFormed →
          accumulate_weights_fuel fuel (k_node.set_index (k_node.depth + 1) i) kf ord_end depth w =
          offset_accumulate h (oct_tree_offset depth k_node + 1 + (i - 1) * oct_tree_size h)
            (kf.digits.drop (k_node.depth + 1)) ord_end w := by
        intro i h1 h8 kf w hkf
        obtain ⟨hcw, hcd⟩ := child_wf k_node hk (by omega) i h1 h8
        rw [ih _ kf w hcw hkf (by omega) (by omega), hcd,
          oct_tree_offset_child depth k_node hk hlt (by omega) i h1, hh2]
        have e : depth - (k_node.depth + 1) = h := by omega
        rw [e]
      have hrange : ∀ i, i ∈ List.range' (k_first.index (k_node.depth + 1) + 1)
          (8 - k_first.index (k_node.depth + 1)) → 1 ≤ i ∧ i ≤ 8 := by
        intro i hi
        rw [List.mem_range'_1] at hi
        omega
      by_cases hi0 : k_first.index (k_node.depth + 1) = 0
      · simp only [hi0, ne_eq, not_true_eq_false, if_false]
        have hloop := accumulate_children_eq depth ord_end k_node hk hlt hm
          (fun k w => accumulate_weights_fuel fuel k k_first ord_end depth w)
          (fun ord w => offset_accumulate h ord (k_first.digits.drop k_node.depth).tail ord_end w)
          (List.range' (0 + 1) (8 - 0)) ⟨k_node, 0, weights⟩
          (fun i hi => by
            have hr : 1 ≤ i ∧ i ≤ 8 := by
              rw [List.mem_range'_1] at hi; omega
            refine ⟨hr.1, fun w => ?_⟩
            beta_reduce
            rw [hchild i hr.1 hr.2 k_first w hf, hh2, List.tail_drop])
          (fun i => rfl)
        rw [hh2] at hloop
        simp only [Prod.ext_iff] at hloop
        rw [hloop.1, hloop.2]
      · simp only [hi0, ne_eq, not_false_eq_true, if_true]
        have h1 : 1 ≤ k_first.index (k_node.depth + 1) := by omega
        rw [hchild _ h1 hidx.1 k_first weights hf, List.tail_drop]
        have hloop := accumulate_children_eq depth ord_end k_node hk hlt hm
          (fun k w => accumulate_weights_fuel fuel k (root MaxDepth) ord_end depth w)
          (fun ord w => offset_accumulate h ord
            (List.replicate ((k_first.digits.drop k_node.depth).length - 1) 0) ord_end w)
          (List.range' (k_first.index (k_node.depth + 1) + 1)
            (8 - k_first.index (k_node.depth + 1)))
          ⟨k_node.set_index (k_node.depth + 1) (k_first.index (k_node.depth + 1)),
            0 + ((offset_accumulate h (oct_tree_offset depth k_node + 1 +
                (k_first.index (k_node.depth + 1) - 1) * oct_tree_size h)
                (k_first.digits.drop (k_node.depth + 1)) ord_end weights).at
                ((oct_tree_offset depth k_node + 1 +
                  (k_first.index (k_node.depth + 1) - 1) * oct_tree_size h) * 2) +
              (offset_accumulate h (oct_tree_offset depth k_node + 1 +
                (k_first.index (k_node.depth + 1) - 1) * oct_tree_size h)
                (k_first.digits.drop (k_node.depth + 1)) ord_end weights).at
                ((oct_tree_offset depth k_node + 1 +
                  (k_first.index (k_node.depth + 1) - 1) * oct_tree_size h) * 2 + 1)),
            offset_accumulate h (oct_tree_offset depth k_node + 1 +
                (k_first.index (k_node.depth + 1) - 1) * oct_tree_size h)
                (k_first.digits.drop (k_node.depth + 1)) ord_end weights⟩
          (fun i hi => by
            have hr := hrange i hi
            refine ⟨hr.1, fun w => ?_⟩
            beta_reduce
            rw [hchild i hr.1 hr.2 (root MaxDepth) w (root_wf MaxDepth), hh2, hlen]
            simp [root, List.drop_replicate])
          (fun i => by
            show (k_node.set_index (k_node.depth + 1) _).set_index (k_node.depth + 1) i = _
            exact set_index_set_index _ _ _ _)
        rw [hh2] at hloop
        rw [oct_tree_offset_child depth k_node hk hlt (by omega) _ h1, hh2]
        simp only [Prod.ext_iff] at hloop
        rw [hloop.1, hloop.2]
    · have h0 : depth - k_node.depth = 0 := by omega
      rw [h0, offset_accumulate]
      simp only [hlt, if_false]

/-! ## Reading and writing the weights -/

theorem Weights.at_put (w : Weights) (i : Nat) (v : ℚ) (j : Nat) :
    (w.put i v).at j = if i = j ∧ i < w.length then v else w.at j := by
  unfold Weights.at Weights.put
  rw [List.getD_eq_getElem?_getD, List.getD_eq_getElem?_getD, List.getElem?_set]
  by_cases hij : i = j
  · subst hij
    by_cases hl : i < w.length
    · simp [hl]
    · simp [hl]
      rw [List.getElem?_eq_none (by omega)]
      rfl
  · simp [hij]

theorem Weights.at_put_ne (w : Weights) (i : Nat) (v : ℚ) (j : Nat) (h : i ≠ j) :
    (w.put i v).at j = w.at j := by
  rw [Weights.at_put]; simp [h]

theorem Weights.at_put_self (w : Weights) (i : Nat) (v : ℚ) (h : i < w.length) :
    (w.put i v).at i = v := by
  rw [Weights.at_put]; simp [h]

theorem Weights.length_put (w : Weights) (i : Nat) (v : ℚ) : (w.put i v).length = w.length := by
  unfold Weights.put; exact List.length_set _ _ _

/-! ## Positions of the tree -/

theorem oct_tree_size_pos (h : Nat) : 0 < oct_tree_size h := by
  cases h <;> simp [oct_tree_size]

theorem oct_tree_size_succ (h : Nat) : oct_tree_size (h + 1) = 1 + 8 * oct_tree_size h := rfl

theorem child_offset_bounds (o h i : Nat) (h1 : 1 ≤ i) (h8 : i ≤ 8) :
    o < child_offset o h i ∧ child_offset o h i + oct_tree_size h ≤ o + oct_tree_size (h + 1) := by
  unfold child_offset
  rw [oct_tree_size_succ]
  have : (i - 1) * oct_tree_size h + oct_tree_size h ≤ 8 * oct_tree_size h := by
    have : (i - 1) + 1 ≤ 8 := by omega
    calc (i - 1) * oct_tree_size h + oct_tree_size h = ((i - 1) + 1) * oct_tree_size h := by ring
      _ ≤ 8 * oct_tree_size h := Nat.mul_le_mul_right _ this
  omega

theorem child_offset_lt (o h i j : Nat) (hij : i < j) (h1 : 1 ≤ i) :
    child_offset o h i + oct_tree_size h ≤ child_offset o h j := by
  unfold child_offset
  have : (i - 1) * oct_tree_size h + oct_tree_size h ≤ (j - 1) * oct_tree_size h := by
    have : (i - 1) + 1 ≤ j - 1 := by omega
    calc (i - 1) * oct_tree_size h + oct_tree_size h = ((i - 1) + 1) * oct_tree_size h := by ring
      _ ≤ (j - 1) * oct_tree_size h := Nat.mul_le_mul_right _ this
  omega

theorem Below.bounds {o h o' h' : Nat} (hb : Below o h o' h') :
    h' ≤ h ∧ o ≤ o' ∧ o' + oct_tree_size h' ≤ o + oct_tree_size h := by
  induction hb with
  | refl o h => exact ⟨le_refl _, le_refl _, le_refl _⟩
  | step o h i o' h' h1 h8 _ ih =>
    have := child_offset_bounds o h i h1 h8
    omega

theorem Below.strict {o h o' h' : Nat} (hb : Below o h o' h') :
    (o' = o ∧ h' = h) ∨ (o < o' ∧ h' < h) := by
  cases hb with
  | refl => left; exact ⟨rfl, rfl⟩
  | step o h i o' h' h1 h8 hc =>
    right
    have := child_offset_bounds o h i h1 h8
    have := hc.bounds
    omega

theorem Below.trans {o h o1 h1 o2 h2 : Nat} (h12 : Below o h o1 h1) (h23 : Below o1 h1 o2 h2) :
    Below o h o2 h2 := by
  induction h12 with
  | refl => exact h23
  | step o h i o' h' hi1 hi8 _ ih => exact Below.step o h i _ _ hi1 hi8 (ih h23)

theorem Below.child {o h o1 h1 : Nat} (hb : Below o h o1 (h1 + 1)) (i : Nat) (hi1 : 1 ≤ i)
    (hi8 : i ≤ 8) : Below o h (child_offset o1 h1 i) h1 :=
  hb.trans (Below.step o1 h1 i _ _ hi1 hi8 (Below.refl _ _))

/-- A position of a subtree is found at one height only. -/
theorem Below.height_unique : ∀ (h o o' h1 h2 : Nat), Below o h o' h1 → Below o h o' h2 →
    h1 = h2 := by
  intro h
  induction h with
  | zero =>
    intro o o' h1 h2 b1 b2
    have := b1.bounds; have := b2.bounds
    omega
  | succ h ih =>
    intro o o' h1 h2 b1 b2
    cases b1 with
    | refl =>
      rcases b2.strict with ⟨_, e⟩ | ⟨lt, _⟩
      · exact e.symm
      · omega
    | step _ _ i _ _ hi1 hi8 c1 =>
      cases b2 with
      | refl =>
        have := c1.bounds
        have := child_offset_bounds o h i hi1 hi8
        omega
      | step _ _ j _ _ hj1 hj8 c2 =>
        have e1 := c1.bounds
        have e2 := c2.bounds
        have p1 := oct_tree_size_pos h1
        have p2 := oct_tree_size_pos h2
        have hij : i = j := by
          rcases Nat.lt_trichotomy i j with hlt | heq | hgt
          · have := child_offset_lt o h i j hlt hi1; omega
          · exact heq
          · have := child_offset_lt o h j i hgt hj1; omega
        subst hij
        exact ih _ _ _ _ c1 c2

/-! ## Offsets of digit sequences -/

theorem wf_digits_tail : ∀ ds : List Nat, wf_digits ds = true → wf_digits ds.tail = true
  | [], _ => rfl
  | d :: ds, h => by
    simp only [wf_digits] at h
    by_cases hd : d = 0
    · simp only [hd, if_true] at h
      exact all_zero_wf ds h
    · simp only [hd, if_false, Bool.and_eq_true] at h
      exact h.2

theorem wf_digits_head : ∀ ds : List Nat, wf_digits ds = true → ds.headD 0 ≤ 8
  | [], _ => by simp
  | d :: ds, h => by
    simp only [wf_digits] at h
    by_cases hd : d = 0
    · simp [hd]
    · simp only [hd, if_false, Bool.and_eq_true, decide_eq_true_eq] at h
      simpa using h.1

theorem offset_of_digits_head_zero (h : Nat) : ∀ ds : List Nat, ds.headD 0 = 0 →
    offset_of_digits h ds = 0
  | [], _ => by cases h <;> rfl
  | d :: ds, hd => by
    cases h with
    | zero => rfl
    | succ h =>
      simp only [List.headD_cons] at hd
      simp [offset_of_digits, hd]

theorem offset_of_digits_tail_zero (h : Nat) : ∀ ds : List Nat, wf_digits ds = true →
    ds.headD 0 = 0 → offset_of_digits h ds.tail = 0
  | [], _, _ => by cases h <;> rfl
  | d :: ds, hw, hd => by
    simp only [List.headD_cons] at hd
    simp only [wf_digits, hd, if_true] at hw
    exact all_zero_offset h ds hw

theorem offset_of_digits_head_ne (h : Nat) : ∀ ds : List Nat, ds.headD 0 ≠ 0 →
    offset_of_digits (h + 1) ds =
      1 + (ds.headD 0 - 1) * oct_tree_size h + offset_of_digits h ds.tail
  | [], hd => by simp at hd
  | d :: ds, hd => by
    simp only [List.headD_cons] at hd
    simp [offset_of_digits, hd]

theorem offset_of_digits_lt : ∀ (h : Nat) (ds : List Nat), wf_digits ds = true →
    offset_of_digits h ds < oct_tree_size h
  | 0, _, _ => by simp [offset_of_digits, oct_tree_size]
  | h + 1, [], _ => by simp [offset_of_digits, oct_tree_size]
  | h + 1, d :: ds, hw => by
    simp only [wf_digits] at hw
    by_cases hd : d = 0
    · simp [offset_of_digits, hd, oct_tree_size]
    · simp only [hd, if_false, Bool.and_eq_true, decide_eq_true_eq] at hw
      have ih := offset_of_digits_lt h ds hw.2
      simp only [offset_of_digits, hd, if_false, oct_tree_size]
      have : (d - 1) * oct_tree_size h ≤ 7 * oct_tree_size h :=
        Nat.mul_le_mul_right _ (by omega)
      omega

theorem offset_of_digits_replicate (h n : Nat) : offset_of_digits h (List.replicate n 0) = 0 :=
  all_zero_offset h _ (replicate_all_zero n)

theorem wf_digits_replicate (n : Nat) : wf_digits (List.replicate n 0) = true :=
  all_zero_wf _ (replicate_all_zero n)


/-! ## Weight accumulation on offsets: the child loop -/

theorem offset_children_spec (recurse : Nat → Weights → Weights) (o h hi n : Nat)
    (P : Nat → Prop) (Φ : Nat → Weights → Prop)
    (hloc : ∀ i w1 w2, Φ i w1 →
      (∀ idx, 2 * child_offset o h i ≤ idx → idx < 2 * (child_offset o h i + oct_tree_size h) →
        w2.at idx = w1.at idx) → Φ i w2) :
    ∀ (l : List Nat) (st : ℚ × Weights), l.Pairwise (fun a b => a < b) → (∀ i, i ∈ l → 1 ≤ i) →
      st.2.length = n →
      (∀ i, i ∈ l → child_offset o h i < hi → ∀ w : Weights, w.length = n →
        (recurse (child_offset o h i) w).length = n ∧
        (∀ idx, (recurse (child_offset o h i) w).at idx ≠ w.at idx →
          2 * child_offset o h i ≤ idx ∧
          idx < 2 * (child_offset o h i + oct_tree_size h) ∧ P idx) ∧
        Φ i (recurse (child_offset o h i) w)) →
      (offset_children recurse o h hi l st).2.length = n ∧
      (∀ idx, (offset_children recurse o h hi l st).2.at idx ≠ st.2.at idx →
        (∃ i, i ∈ l ∧ 2 * child_offset o h i ≤ idx ∧
          idx < 2 * (child_offset o h i + oct_tree_size h)) ∧ P idx) ∧
      (∀ i, i ∈ l → child_offset o h i < hi → Φ i (offset_children recurse o h hi l st).2) ∧
      (offset_children recurse o h hi l st).1 = st.1 +
        (l.map (fun i => if child_offset o h i < hi then
          (offset_children recurse o h hi l st).2.at (child_offset o h i * 2) +
          (offset_children recurse o h hi l st).2.at (child_offset o h i * 2 + 1) else 0)).sum := by
  intro l
  induction l with
  | nil =>
    intro st _ _ hn _
    simp only [offset_children, List.map_nil, List.sum_nil, add_zero, ne_eq, not_true_eq_false,
      false_implies, implies_true, List.not_mem_nil, and_self, and_true]
    exact hn
  | cons i rest ih =>
    intro st hp h1 hn hrec
    have hp' := List.pairwise_cons.1 hp
    have hrest : ∀ j, j ∈ rest → child_offset o h j < hi → ∀ w : Weights, w.length = n →
        (recurse (child_offset o h j) w).length = n ∧
        (∀ idx, (recurse (child_offset o h j) w).at idx ≠ w.at idx →
          2 * child_offset o h j ≤ idx ∧
          idx < 2 * (child_offset o h j + oct_tree_size h) ∧ P idx) ∧
        Φ j (recurse (child_offset o h j) w) :=
      fun j hj => hrec j (List.mem_cons_of_mem _ hj)
    have hi1 : 1 ≤ i := h1 i (List.mem_cons_self _ _)
    have hsz := oct_tree_size_pos h
    -- indices of the interval of `i` are before the intervals of the later children
    have hdisj : ∀ (w1 w2 : Weights), (∀ idx, w2.at idx ≠ w1.at idx →
        (∃ j, j ∈ rest ∧ 2 * child_offset o h j ≤ idx ∧
          idx < 2 * (child_offset o h j + oct_tree_size h)) ∧ P idx) →
        ∀ idx, idx < 2 * (child_offset o h i + oct_tree_size h) → w2.at idx = w1.at idx := by
      intro w1 w2 hch idx hidx
      by_contra hne
      obtain ⟨⟨j, hj, hj1, _⟩, _⟩ := hch idx hne
      have := child_offset_lt o h i j (hp'.1 j hj) hi1
      omega
    rw [offset_children]
    by_cases hlt : child_offset o h i < hi
    · simp only [hlt, if_true]
      obtain ⟨hlen1, hch1, hΦ1⟩ := hrec i (List.mem_cons_self _ _) hlt st.2 hn
      obtain ⟨ihlen, ihch, ihΦ, ihsum⟩ := ih
        (st.1 + ((recurse (child_offset o h i) st.2).at (child_offset o h i * 2) +
          (recurse (child_offset o h i) st.2).at (child_offset o h i * 2 + 1)),
          recurse (child_offset o h i) st.2) hp'.2
        (fun j hj => h1 j (List.mem_cons_of_mem _ hj)) hlen1 hrest
      have hagree := hdisj _ _ ihch
      refine ⟨ihlen, ?_, ?_, ?_⟩
      · intro idx hne
        by_cases hc : (offset_children recurse o h hi rest
            (st.1 + ((recurse (child_offset o h i) st.2).at (child_offset o h i * 2) +
              (recurse (child_offset o h i) st.2).at (child_offset o h i * 2 + 1)),
              recurse (child_offset o h i) st.2)).2.at idx =
            (recurse (child_offset o h i) st.2).at idx
        · rw [hc] at hne
          obtain ⟨a, b, c⟩ := hch1 idx hne
          exact ⟨⟨i, List.mem_cons_self _ _, a, b⟩, c⟩
        · obtain ⟨⟨j, hj, a, b⟩, c⟩ := ihch idx hc
          exact ⟨⟨j, List.mem_cons_of_mem _ hj, a, b⟩, c⟩
      · intro j hj hjlt
        rcases List.mem_cons.1 hj with rfl | hj
        · exact hloc _ _ _ hΦ1 (fun idx _ h2 => hagree idx h2)
        · exact ihΦ j hj hjlt
      · rw [ihsum, List.map_cons, List.sum_cons]
        simp only [hlt, if_true]
        rw [hagree (child_offset o h i * 2) (by omega),
          hagree (child_offset o h i * 2 + 1) (by omega)]
        ring
    · simp only [hlt, if_false]
      obtain ⟨ihlen, ihch, ihΦ, ihsum⟩ := ih st hp'.2
        (fun j hj => h1 j (List.mem_cons_of_mem _ hj)) hn hrest
      refine ⟨ihlen, ?_, ?_, ?_⟩
      · intro idx hne
        obtain ⟨⟨j, hj, a, b⟩, c⟩ := ihch idx hne
        exact ⟨⟨j, List.mem_cons_of_mem _ hj, a, b⟩, c⟩
      · intro j hj hjlt
        rcases List.mem_cons.1 hj with rfl | hj
        · exact absurd hjlt hlt
        · exact ihΦ j hj hjlt
      · rw [ihsum, List.map_cons, List.sum_cons]
        simp only [hlt, if_false, zero_add]

/-! ## Weight accumulation on offsets: which slots are written -/

theorem range_succ_pairwise (a n : Nat) : (List.range' a n).Pairwise (fun x y => x < y) := by
  have := List.pairwise_lt_range' a n 1 (by norm_num)
  exact this

/-- A call on a position that meets the range writes only descendant slots of inner positions
of its subtree that meet the range, and keeps the length of the array. -/
theorem offset_accumulate_frame (hi : Nat) : ∀ (h o : Nat) (ds : List Nat) (w : Weights),
    wf_digits ds = true → o + offset_of_digits h ds < hi →
    (offset_accumulate h o ds hi w).length = w.length ∧
    ∀ idx, (offset_accumulate h o ds hi w).at idx ≠ w.at idx →
      ∃ o' h', Below o h o' (h' + 1) ∧ idx = 2 * o' + 1 ∧
        Meets o' (oct_tree_size (h' + 1)) (o + offset_of_digits h ds) hi := by
  intro h
  induction h with
  | zero =>
    intro o ds w _ _
    simp [offset_accumulate]
  | succ h ih =>
    intro o ds w hwf hlo
    have hsz := oct_tree_size_pos h
    have hbound := offset_of_digits_lt (h + 1) ds hwf
    -- what the loop over the later children may write
    have hloop : ∀ (i0 : Nat) (ds' : List Nat) (st : ℚ × Weights), wf_digits ds' = true →
        offset_of_digits h ds' = 0 →
        (∀ i, i0 < i → o + offset_of_digits (h + 1) ds < child_offset o h i) →
        (offset_children (fun ord w => offset_accumulate h ord ds' hi w) o h hi
          (List.range' (i0 + 1) (8 - i0)) st).2.length = st.2.length ∧
        ∀ idx, (offset_children (fun ord w => offset_accumulate h ord ds' hi w) o h hi
          (List.range' (i0 + 1) (8 - i0)) st).2.at idx ≠ st.2.at idx →
          ∃ o' h', Below o (h + 1) o' (h' + 1) ∧ idx = 2 * o' + 1 ∧
            Meets o' (oct_tree_size (h' + 1)) (o + offset_of_digits (h + 1) ds) hi := by
      intro i0 ds' st hwf' hz hafter
      have hs := offset_children_spec (fun ord w => offset_accumulate h ord ds' hi w) o h hi
        st.2.length
        (fun idx => ∃ o' h', Below o (h + 1) o' (h' + 1) ∧ idx = 2 * o' + 1 ∧
          Meets o' (oct_tree_size (h' + 1)) (o + offset_of_digits (h + 1) ds) hi)
        (fun _ _ => True) (fun _ _ _ _ _ => trivial)
        (List.range' (i0 + 1) (8 - i0)) st (range_succ_pairwise _ _)
        (fun i hi' => by rw [List.mem_range'_1] at hi'; omega) rfl
        (fun i hi' hlt w' hw' => by
          rw [List.mem_range'_1] at hi'
          have hr := ih (child_offset o h i) ds' w' hwf' (by rw [hz]; exact hlt)
          refine ⟨by rw [hr.1, hw'], ?_, trivial⟩
          intro idx hne
          obtain ⟨o', h', hb, hidx, hm⟩ := hr.2 idx hne
          have hbb := hb.bounds
          have hs' := oct_tree_size_pos (h' + 1)
          have haft := hafter i (by omega)
          refine ⟨by omega, by omega, o', h', Below.step o h i _ _ (by omega) (by omega) hb,
            hidx, hm.1, by omega⟩)
      exact ⟨hs.1, fun idx hne => (hs.2.1 idx hne).2⟩
    rw [offset_accumulate]
    by_cases hi0 : ds.headD 0 = 0
    · have hz : offset_of_digits (h + 1) ds = 0 := offset_of_digits_head_zero _ ds hi0
      simp only [hi0, ne_eq, not_true_eq_false, if_false]
      obtain ⟨hl, hc⟩ := hloop 0 ds.tail (0, w) (wf_digits_tail ds hwf)
        (offset_of_digits_tail_zero h ds hwf hi0)
        (fun i hi' => by
          have := child_offset_bounds o h i (by omega)
          unfold child_offset
          omega)
      refine ⟨by rw [Weights.length_put, hl], ?_⟩
      intro idx hne
      by_cases hidx : 2 * o + 1 = idx
      · exact ⟨o, h, Below.refl _ _, hidx.symm, by omega, by omega⟩
      · rw [Weights.at_put_ne _ _ _ _ hidx] at hne
        exact hc idx hne
    · have hne0 : offset_of_digits (h + 1) ds =
          1 + (ds.headD 0 - 1) * oct_tree_size h + offset_of_digits h ds.tail :=
        offset_of_digits_head_ne h ds hi0
      have h8 := wf_digits_head ds hwf
      have htl := offset_of_digits_lt h ds.tail (wf_digits_tail ds hwf)
      have hlo1 : child_offset o h (ds.headD 0) + offset_of_digits h ds.tail =
          o + offset_of_digits (h + 1) ds := by
        unfold child_offset; omega
      simp only [hi0, ne_eq, not_false_eq_true, if_true]
      obtain ⟨hl1, hc1⟩ := ih (child_offset o h (ds.headD 0)) ds.tail w (wf_digits_tail ds hwf)
        (by rw [hlo1]; exact hlo)
      obtain ⟨hl, hc⟩ := hloop (ds.headD 0) (List.replicate (ds.length - 1) 0)
        (0 + ((offset_accumulate h (child_offset o h (ds.headD 0)) ds.tail hi w).at
            (child_offset o h (ds.headD 0) * 2) +
          (offset_accumulate h (child_offset o h (ds.headD 0)) ds.tail hi w).at
            (child_offset o h (ds.headD 0) * 2 + 1)),
          offset_accumulate h (child_offset o h (ds.headD 0)) ds.tail hi w)
        (wf_digits_replicate _) (offset_of_digits_replicate _ _)
        (fun i hi' => by
          have := child_offset_lt o h (ds.headD 0) i hi' (by omega)
          omega)
      refine ⟨by rw [Weights.length_put, hl, hl1], ?_⟩
      intro idx hne
      by_cases hidx : 2 * o + 1 = idx
      · exact ⟨o, h, Below.refl _ _, hidx.symm, by omega, by omega⟩
      · rw [Weights.at_put_ne _ _ _ _ hidx] at hne
        by_cases hc2 : (offset_children
            (fun ord w => offset_accumulate h ord (List.replicate (ds.length - 1) 0) hi w) o h hi
            (List.range' (ds.headD 0 + 1) (8 - ds.headD 0))
            (0 + ((offset_accumulate h (child_offset o h (ds.headD 0)) ds.tail hi w).at
                (child_offset o h (ds.headD 0) * 2) +
              (offset_accumulate h (child_offset o h (ds.headD 0)) ds.tail hi w).at
                (child_offset o h (ds.headD 0) * 2 + 1)),
              offset_accumulate h (child_offset o h (ds.headD 0)) ds.tail hi w)).2.at idx =
            (offset_accumulate h (child_offset o h (ds.headD 0)) ds.tail hi w).at idx
        · rw [hc2] at hne
          obtain ⟨o', h', hb, hidx', hm⟩ := hc1 idx hne
          rw [hlo1] at hm
          exact ⟨o', h', Below.step o h _ _ _ (by omega) h8 hb, hidx', hm⟩
        · exact hc idx hc2

/-! ## Weight accumulation on offsets: the sums -/

theorem map_sum_congr (l : List Nat) (f g : Nat → ℚ) (h : ∀ i, i ∈ l → f i = g i) :
    (l.map f).sum = (l.map g).sum := by
  rw [List.map_congr_left h]

theorem map_sum_zero (l : List Nat) (f : Nat → ℚ) (h : ∀ i, i ∈ l → f i = 0) :
    (l.map f).sum = 0 := by
  induction l with
  | nil => rfl
  | cons a l ih =>
    rw [List.map_cons, List.sum_cons, h a (List.mem_cons_self _ _),
      ih (fun i hi => h i (List.mem_cons_of_mem _ hi)), add_zero]

theorem range_split (i0 : Nat) (h1 : 1 ≤ i0) (h8 : i0 ≤ 8) :
    List.range' 1 8 = List.range' 1 (i0 - 1) ++ i0 :: List.range' (i0 + 1) (8 - i0) := by
  interval_cases i0 <;> rfl

theorem children_sum_congr (w1 w2 : Weights) (o h lo hi : Nat)
    (hw : ∀ idx, 2 * o + 1 < idx → idx < 2 * (o + oct_tree_size (h + 1)) →
      w2.at idx = w1.at idx) :
    children_sum w2 o h lo hi = children_sum w1 o h lo hi := by
  unfold children_sum
  apply map_sum_congr
  intro i hi'
  rw [List.mem_range'_1] at hi'
  have hb := child_offset_bounds o h i (by omega) (by omega)
  have hs := oct_tree_size_pos h
  rw [hw (child_offset o h i * 2) (by omega) (by omega),
    hw (child_offset o h i * 2 + 1) (by omega) (by omega)]

theorem children_sum_lo (w : Weights) (o h lo1 lo2 hi : Nat) (h1 : lo1 ≤ o) (h2 : lo2 ≤ o) :
    children_sum w o h lo1 hi = children_sum w o h lo2 hi := by
  unfold children_sum
  apply map_sum_congr
  intro i hi'
  rw [List.mem_range'_1] at hi'
  have hb := child_offset_bounds o h i (by omega) (by omega)
  have e : Meets (child_offset o h i) (oct_tree_size h) lo1 hi ↔
      Meets (child_offset o h i) (oct_tree_size h) lo2 hi := by
    unfold Meets; constructor <;> intro hm <;> exact ⟨hm.1, by omega⟩
  simp only [e]

theorem sumsAt_congr (w1 w2 : Weights) (o h lo hi : Nat)
    (hw : ∀ idx, 2 * o + 1 ≤ idx → idx < 2 * (o + oct_tree_size (h + 1)) →
      w2.at idx = w1.at idx) (hs : SumsAt w1 o h lo hi) : SumsAt w2 o h lo hi := by
  unfold SumsAt at hs ⊢
  have hp := oct_tree_size_pos (h + 1)
  rw [hw (2 * o + 1) (le_refl _) (by omega), hs]
  exact (children_sum_congr w1 w2 o h lo hi (fun idx a b => hw idx (by omega) b)).symm

/-- The interval of slots written by a call on a position. -/
theorem offset_accumulate_interval (hi h o : Nat) (ds : List Nat) (w : Weights)
    (hwf : wf_digits ds = true) (hlo : o + offset_of_digits h ds < hi) (idx : Nat)
    (hne : (offset_accumulate h o ds hi w).at idx ≠ w.at idx) :
    2 * o ≤ idx ∧ idx < 2 * (o + oct_tree_size h) := by
  obtain ⟨o', h', hb, hidx, _⟩ := (offset_accumulate_frame hi h o ds w hwf hlo).2 idx hne
  have := hb.bounds
  have := oct_tree_size_pos (h' + 1)
  omega

theorem sums_finish (o h lo hi : Nat) (wL : Weights) (s : ℚ)
    (hlen : 2 * (o + oct_tree_size (h + 1)) ≤ wL.length)
    (hs : s = children_sum wL o h lo hi)
    (hvis : ∀ i, 1 ≤ i → i ≤ 8 → Meets (child_offset o h i) (oct_tree_size h) lo hi →
      ∀ o' h', Below (child_offset o h i) h o' (h' + 1) →
        Meets o' (oct_tree_size (h' + 1)) lo hi → SumsAt wL o' h' lo hi) :
    ∀ o' h', Below o (h + 1) o' (h' + 1) → Meets o' (oct_tree_size (h' + 1)) lo hi →
      SumsAt (wL.put (2 * o + 1) s) o' h' lo hi := by
  intro o' h' hb hm
  have hp := oct_tree_size_pos (h + 1)
  cases hb with
  | refl =>
    unfold SumsAt
    rw [Weights.at_put_self _ _ _ (by omega), hs]
    exact (children_sum_congr wL _ o h lo hi
      (fun idx h1 _ => Weights.at_put_ne _ _ _ _ (by omega))).symm
  | step _ _ i _ _ hi1 hi8 hc =>
    have hcb := hc.bounds
    have hob := child_offset_bounds o h i hi1 hi8
    have hmeet : Meets (child_offset o h i) (oct_tree_size h) lo hi := by
      unfold Meets at hm ⊢
      omega
    exact sumsAt_congr wL _ o' h' lo hi
      (fun idx h1 _ => Weights.at_put_ne _ _ _ _ (by omega))
      (hvis i hi1 hi8 hmeet o' h' hc hm)

/-- After a call on a position that meets the range, the descendant slot of every inner
position of its subtree that meets the range holds the sum over its children that meet the
range. -/
theorem offset_accumulate_sums (hi : Nat) : ∀ (h o : Nat) (ds : List Nat) (w : Weights),
    wf_digits ds = true → o + offset_of_digits h ds < hi →
    2 * (o + oct_tree_size h) ≤ w.length →
    ∀ o' h', Below o h o' (h' + 1) →
      Meets o' (oct_tree_size (h' + 1)) (o + offset_of_digits h ds) hi →
      SumsAt (offset_accumulate h o ds hi w) o' h' (o + offset_of_digits h ds) hi := by
  intro h
  induction h with
  | zero =>
    intro o ds w _ _ _ o' h' hb _
    have := hb.bounds
    omega
  | succ h ih =>
    intro o ds w hwf hlo hlen
    have hsz := oct_tree_size_pos h
    have hbound := offset_of_digits_lt (h + 1) ds hwf
    have hS : oct_tree_size (h + 1) = 1 + 8 * oct_tree_size h := rfl
    -- locality of the property carried through the loop
    have hloc : ∀ (i : Nat) (w1 w2 : Weights),
        (∀ o' h', Below (child_offset o h i) h o' (h' + 1) →
          Meets o' (oct_tree_size (h' + 1)) (o + offset_of_digits (h + 1) ds) hi →
          SumsAt w1 o' h' (o + offset_of_digits (h + 1) ds) hi) →
        (∀ idx, 2 * child_offset o h i ≤ idx →
          idx < 2 * (child_offset o h i + oct_tree_size h) → w2.at idx = w1.at idx) →
        (∀ o' h', Below (child_offset o h i) h o' (h' + 1) →
          Meets o' (oct_tree_size (h' + 1)) (o + offset_of_digits (h + 1) ds) hi →
          SumsAt w2 o' h' (o + offset_of_digits (h + 1) ds) hi) := by
      intro i w1 w2 h1 hag o' h' hb hm
      have hbb := hb.bounds
      exact sumsAt_congr w1 w2 o' h' _ hi (fun idx a b => hag idx (by omega) (by omega))
        (h1 o' h' hb hm)
    -- a child after the lower bound, visited with no lower bound of its own
    have hfree : ∀ (i : Nat), 1 ≤ i → i ≤ 8 →
        o + offset_of_digits (h + 1) ds < child_offset o h i → child_offset o h i < hi →
        ∀ (ds' : List Nat) (w' : Weights), wf_digits ds' = true → offset_of_digits h ds' = 0 →
        w'.length = w.length →
        (offset_accumulate h (child_offset o h i) ds' hi w').length = w.length ∧
        (∀ idx, (offset_accumulate h (child_offset o h i) ds' hi w').at idx ≠ w'.at idx →
          2 * child_offset o h i ≤ idx ∧
          idx < 2 * (child_offset o h i + oct_tree_size h) ∧ True) ∧
        (∀ o' h', Below (child_offset o h i) h o' (h' + 1) →
          Meets o' (oct_tree_size (h' + 1)) (o + offset_of_digits (h + 1) ds) hi →
          SumsAt (offset_accumulate h (child_offset o h i) ds' hi w') o' h'
            (o + offset_of_digits (h + 1) ds) hi) := by
      intro i hi1 hi8 hafter hlt ds' w' hwf' hz hw'
      have hob := child_offset_bounds o h i hi1 hi8
      have hlo' : child_offset o h i + offset_of_digits h ds' < hi := by rw [hz]; exact hlt
      refine ⟨by rw [(offset_accumulate_frame hi h _ ds' w' hwf' hlo').1, hw'], ?_, ?_⟩
      · intro idx hne
        have := offset_accumulate_interval hi h _ ds' w' hwf' hlo' idx hne
        exact ⟨this.1, this.2, trivial⟩
      · intro o' h' hb hm
        have hbb := hb.bounds
        have hm' : Meets o' (oct_tree_size (h' + 1))
            (child_offset o h i + offset_of_digits h ds') hi := by
          have := oct_tree_size_pos (h' + 1)
          unfold Meets at hm ⊢
          omega
        have := ih (child_offset o h i) ds' w' hwf' hlo' (by omega) o' h' hb hm'
        unfold SumsAt at this ⊢
        rw [this]
        exact children_sum_lo _ o' h' _ _ hi (by omega) (by omega)
    rw [offset_accumulate]
    by_cases hi0 : ds.headD 0 = 0
    · have hz : offset_of_digits (h + 1) ds = 0 := offset_of_digits_head_zero _ ds hi0
      simp only [hi0, ne_eq, not_true_eq_false, if_false]
      have hs := offset_children_spec (fun ord w => offset_accumulate h ord ds.tail hi w) o h hi
        w.length (fun _ => True)
        (fun i x => ∀ o' h', Below (child_offset o h i) h o' (h' + 1) →
          Meets o' (oct_tree_size (h' + 1)) (o + offset_of_digits (h + 1) ds) hi →
          SumsAt x o' h' (o + offset_of_digits (h + 1) ds) hi) hloc
        (List.range' (0 + 1) (8 - 0)) (0, w) (range_succ_pairwise _ _)
        (fun i hi' => by rw [List.mem_range'_1] at hi'; omega) rfl
        (fun i hi' hlt w' hw' => by
          rw [List.mem_range'_1] at hi'
          have hob := child_offset_bounds o h i (by omega) (by omega)
          exact hfree i (by omega) (by omega) (by omega) hlt ds.tail w'
            (wf_digits_tail ds hwf) (offset_of_digits_tail_zero h ds hwf hi0) hw')
      obtain ⟨hl, -, hΦ, hsum⟩ := hs
      apply sums_finish o h _ hi _ _ (by rw [hl]; exact hlen)
      · rw [hsum, zero_add]
        unfold children_sum
        apply map_sum_congr
        intro i hi'
        rw [List.mem_range'_1] at hi'
        have hob := child_offset_bounds o h i (by omega) (by omega)
        by_cases hlt : child_offset o h i < hi
        · have : Meets (child_offset o h i) (oct_tree_size h)
              (o + offset_of_digits (h + 1) ds) hi := by unfold Meets; omega
          simp only [hlt, this, if_true]
        · have : ¬ Meets (child_offset o h i) (oct_tree_size h)
              (o + offset_of_digits (h + 1) ds) hi := by unfold Meets; omega
          simp only [hlt, this, if_false]
      · intro i hi1 hi8 hm
        exact hΦ i (by rw [List.mem_range'_1]; omega) hm.1
    · have hne0 : offset_of_digits (h + 1) ds =
          1 + (ds.headD 0 - 1) * oct_tree_size h + offset_of_digits h ds.tail :=
        offset_of_digits_head_ne h ds hi0
      have h8 := wf_digits_head ds hwf
      have h1 : 1 ≤ ds.headD 0 := by omega
      have htl := offset_of_digits_lt h ds.tail (wf_digits_tail ds hwf)
      have hlo1 : child_offset o h (ds.headD 0) + offset_of_digits h ds.tail =
          o + offset_of_digits (h + 1) ds := by
        unfold child_offset; omega
      have hob0 := child_offset_bounds o h (ds.headD 0) h1 h8
      simp only [hi0, ne_eq, not_false_eq_true, if_true]
      -- the child on the path of the lower bound
      have hfr1 := offset_accumulate_frame hi h (child_offset o h (ds.headD 0)) ds.tail w
        (wf_digits_tail ds hwf) (by rw [hlo1]; exact hlo)
      have hΦ1 : ∀ o' h', Below (child_offset o h (ds.headD 0)) h o' (h' + 1) →
          Meets o' (oct_tree_size (h' + 1)) (o + offset_of_digits (h + 1) ds) hi →
          SumsAt (offset_accumulate h (child_offset o h (ds.headD 0)) ds.tail hi w) o' h'
            (o + offset_of_digits (h + 1) ds) hi := by
        intro o' h' hb hm
        have := ih (child_offset o h (ds.headD 0)) ds.tail w (wf_digits_tail ds hwf)
          (by rw [hlo1]; exact hlo) (by omega) o' h' hb (by rw [hlo1]; exact hm)
        rw [hlo1] at this
        exact this
      generalize offset_accumulate h (child_offset o h (ds.headD 0)) ds.tail hi w = w1
        at hfr1 hΦ1 ⊢
      have hs := offset_children_spec
        (fun ord w => offset_accumulate h ord (List.replicate (ds.length - 1) 0) hi w) o h hi
        w.length (fun _ => True)
        (fun i x => ∀ o' h', Below (child_offset o h i) h o' (h' + 1) →
          Meets o' (oct_tree_size (h' + 1)) (o + offset_of_digits (h + 1) ds) hi →
          SumsAt x o' h' (o + offset_of_digits (h + 1) ds) hi) hloc
        (List.range' (ds.headD 0 + 1) (8 - ds.headD 0))
        (0 + (w1.at (child_offset o h (ds.headD 0) * 2) +
          w1.at (child_offset o h (ds.headD 0) * 2 + 1)), w1)
        (range_succ_pairwise _ _)
        (fun i hi' => by rw [List.mem_range'_1] at hi'; omega) hfr1.1
        (fun i hi' hlt w' hw' => by
          rw [List.mem_range'_1] at hi'
          have := child_offset_lt o h (ds.headD 0) i (by omega) h1
          exact hfree i (by omega) (by omega) (by omega) hlt _ w'
            (wf_digits_replicate _) (offset_of_digits_replicate _ _) hw')
      generalize offset_children
        (fun ord w => offset_accumulate h ord (List.replicate (ds.length - 1) 0) hi w) o h hi
        (List.range' (ds.headD 0 + 1) (8 - ds.headD 0))
        (0 + (w1.at (child_offset o h (ds.headD 0) * 2) +
          w1.at (child_offset o h (ds.headD 0) * 2 + 1)), w1) = res at hs ⊢
      obtain ⟨hl, hch, hΦ, hsum⟩ := hs
      -- the loop leaves the slots of the first child alone
      have hagree : ∀ idx, idx < 2 * (child_offset o h (ds.headD 0) + oct_tree_size h) →
          res.2.at idx = w1.at idx := by
        intro idx hidx
        by_contra hne
        obtain ⟨⟨j, hj, hj1, _⟩, _⟩ := hch idx hne
        rw [List.mem_range'_1] at hj
        have := child_offset_lt o h (ds.headD 0) j (by omega) h1
        omega
      apply sums_finish o h _ hi _ _ (by rw [hl]; exact hlen)
      · rw [hsum]
        unfold children_sum
        rw [range_split (ds.headD 0) h1 h8, List.map_append, List.sum_append, List.map_cons,
          List.sum_cons]
        have hzero : ((List.range' 1 (ds.headD 0 - 1)).map (fun i =>
            if Meets (child_offset o h i) (oct_tree_size h)
              (o + offset_of_digits (h + 1) ds) hi then
              res.2.at (child_offset o h i * 2) + res.2.at (child_offset o h i * 2 + 1)
            else 0)).sum = 0 := by
          apply map_sum_zero
          intro i hi'
          rw [List.mem_range'_1] at hi'
          have := child_offset_lt o h i (ds.headD 0) (by omega) (by omega)
          have : ¬ Meets (child_offset o h i) (oct_tree_size h)
              (o + offset_of_digits (h + 1) ds) hi := by unfold Meets; omega
          simp only [this, if_false]
        rw [hzero]
        have hm0 : Meets (child_offset o h (ds.headD 0)) (oct_tree_size h)
            (o + offset_of_digits (h + 1) ds) hi := by unfold Meets; omega
        simp only [hm0, if_true, zero_add]
        rw [hagree (child_offset o h (ds.headD 0) * 2) (by omega),
          hagree (child_offset o h (ds.headD 0) * 2 + 1) (by omega)]
        congr 1
        apply map_sum_congr
        intro i hi'
        rw [List.mem_range'_1] at hi'
        have := child_offset_lt o h (ds.headD 0) i (by omega) h1
        by_cases hlt : child_offset o h i < hi
        · have : Meets (child_offset o h i) (oct_tree_size h)
              (o + offset_of_digits (h + 1) ds) hi := by unfold Meets; omega
          simp only [hlt, this, if_true]
        · have : ¬ Meets (child_offset o h i) (oct_tree_size h)
              (o + offset_of_digits (h + 1) ds) hi := by unfold Meets; omega
          simp only [hlt, this, if_false]
      · intro i hi1 hi8 hm
        rcases Nat.lt_trichotomy i (ds.headD 0) with hlt | heq | hgt
        · have := child_offset_lt o h i (ds.headD 0) hlt hi1
          unfold Meets at hm
          omega
        · subst heq
          exact hloc _ _ _ hΦ1 (fun idx _ hb => hagree idx hb)
        · exact hΦ i (by rw [List.mem_range'_1]; omega) hm.1

/-! ## Keys and positions -/

theorem below_of_digits : ∀ (ds : List Nat) (depth o : Nat), wf_digits ds = true →
    ds.countP (fun d => d != 0) ≤ depth →
    Below o depth (o + offset_of_digits depth ds) (depth - ds.countP (fun d => d != 0))
  | [], depth, o, _, _ => by
    have : offset_of_digits depth [] = 0 := by cases depth <;> rfl
    rw [this]
    exact Below.refl _ _
  | d :: ds, depth, o, hw, hc => by
    simp only [wf_digits] at hw
    by_cases hd : d = 0
    · simp only [hd, if_true] at hw
      have hcz : (d :: ds).countP (fun d => d != 0) = 0 := by
        rw [List.countP_cons, all_zero_countP ds hw]; simp [hd]
      have hoz : offset_of_digits depth (d :: ds) = 0 :=
        offset_of_digits_head_zero depth _ (by simp [hd])
      rw [hcz, hoz]
      exact Below.refl _ _
    · simp only [hd, if_false, Bool.and_eq_true, decide_eq_true_eq] at hw
      have hcs : (d :: ds).countP (fun d => d != 0) = ds.countP (fun d => d != 0) + 1 := by
        rw [List.countP_cons]; simp [hd]
      rw [hcs] at hc ⊢
      obtain ⟨dd, rfl⟩ : ∃ dd, depth = dd + 1 := ⟨depth - 1, by omega⟩
      have ih := below_of_digits ds dd (child_offset o dd d) hw.2 (by omega)
      have e1 : o + offset_of_digits (dd + 1) (d :: ds) =
          child_offset o dd d + offset_of_digits dd ds := by
        simp only [offset_of_digits, hd, if_false, child_offset]
        omega
      have e2 : dd + 1 - (ds.countP (fun d => d != 0) + 1) =
          dd - ds.countP (fun d => d != 0) := by omega
      rw [e1, e2]
      exact Below.step o dd d _ _ (by omega) hw.1 ih

/-- A well-formed key of depth at most `depth` is a position of the tree. -/
theorem below_of_key {MaxDepth : Nat} (depth : Nat) (n : OctTreeKey MaxDepth)
    (hn : n.WellFormed) (hd : n.depth ≤ depth) :
    Below 0 depth (oct_tree_offset depth n) (depth - n.depth) := by
  have := below_of_digits n.digits depth 0 hn hd
  rw [Nat.zero_add] at this
  exact this

/-- Every position of the tree is the offset of a well-formed key. -/
theorem key_of_below {MaxDepth : Nat} (depth : Nat) (hm : depth ≤ MaxDepth) :
    ∀ (o0 h0 o h : Nat), Below o0 h0 o h → ∀ k : OctTreeKey MaxDepth, k.WellFormed →
      k.depth + h0 = depth → oct_tree_offset depth k = o0 →
      ∃ n : OctTreeKey MaxDepth, n.WellFormed ∧ n.depth + h = depth ∧
        oct_tree_offset depth n = o := by
  intro o0 h0 o h hb
  induction hb with
  | refl o h => intro k hk hd ho; exact ⟨k, hk, hd, ho⟩
  | step o h i o' h' hi1 hi8 _ ih =>
    intro k hk hd ho
    obtain ⟨hcw, hcd⟩ := child_wf k hk (by omega) i hi1 hi8
    apply ih (k.set_index (k.depth + 1) i) hcw (by omega)
    rw [oct_tree_offset_child depth k hk (by omega) (by omega) i hi1, ho]
    have : depth - k.depth - 1 = h := by omega
    rw [this]
    rfl

theorem leaf_offsets_bounds : ∀ (h o l : Nat), l ∈ leaf_offsets h o →
    o ≤ l ∧ l < o + oct_tree_size h ∧ Below o h l 0 := by
  intro h
  induction h with
  | zero =>
    intro o l hl
    simp only [leaf_offsets, List.mem_singleton] at hl
    subst hl
    exact ⟨le_refl _, by simp [oct_tree_size], Below.refl _ _⟩
  | succ h ih =>
    intro o l hl
    simp only [leaf_offsets, List.mem_flatMap, List.mem_range'_1] at hl
    obtain ⟨i, hi, hl⟩ := hl
    obtain ⟨a, b, c⟩ := ih _ _ hl
    have := child_offset_bounds o h i (by omega) (by omega)
    exact ⟨by omega, by omega, Below.step o h i _ _ (by omega) (by omega) c⟩

theorem mem_leaf_offsets_of_below : ∀ (h o l : Nat), Below o h l 0 → l ∈ leaf_offsets h o := by
  intro h
  induction h with
  | zero =>
    intro o l hb
    rcases hb.strict with ⟨e, _⟩ | ⟨_, hlt⟩
    · simp [leaf_offsets, e]
    · omega
  | succ h ih =>
    intro o l hb
    cases hb with
    | step _ _ i _ _ hi1 hi8 hc =>
      simp only [leaf_offsets, List.mem_flatMap, List.mem_range'_1]
      exact ⟨i, by omega, ih _ _ hc⟩

/-- The list `leaf_offsets depth 0` holds exactly the offsets of the well-formed keys of depth
`depth`, the maximum-depth leaves. -/
theorem mem_leaf_offsets_iff {MaxDepth : Nat} (depth : Nat) (hm : depth ≤ MaxDepth) (l : Nat) :
    l ∈ leaf_offsets depth 0 ↔
      ∃ n : OctTreeKey MaxDepth, n.WellFormed ∧ n.depth = depth ∧ oct_tree_offset depth n = l := by
  constructor
  · intro hl
    obtain ⟨n, hn, hd, ho⟩ := key_of_below depth hm 0 depth l 0 (leaf_offsets_bounds _ _ _ hl).2.2
      (root MaxDepth) (root_wf _) (by rw [root_depth]; omega) (oct_tree_offset_root _ _)
    exact ⟨n, hn, by omega, ho⟩
  · rintro ⟨n, hn, hd, ho⟩
    have := below_of_key depth n hn (by omega)
    rw [hd, Nat.sub_self, ho] at this
    exact mem_leaf_offsets_of_below _ _ _ this

/-- The list of leaf offsets is strictly increasing: every leaf is listed once. -/
theorem leaf_offsets_sorted : ∀ (h o : Nat), (leaf_offsets h o).Pairwise (fun a b => a < b) := by
  intro h
  induction h with
  | zero => intro o; simp [leaf_offsets]
  | succ h ih =>
    intro o
    simp only [leaf_offsets]
    have key : ∀ (l : List Nat), l.Pairwise (fun a b => a < b) → (∀ i, i ∈ l → 1 ≤ i) →
        (l.flatMap (fun i => leaf_offsets h (child_offset o h i))).Pairwise (fun a b => a < b) := by
      intro l
      induction l with
      | nil => intro _ _; simp
      | cons i rest ihl =>
        intro hp h1
        have hp' := List.pairwise_cons.1 hp
        rw [List.flatMap_cons, List.pairwise_append]
        refine ⟨ih _, ihl hp'.2 (fun j hj => h1 j (List.mem_cons_of_mem _ hj)), ?_⟩
        intro a ha b hb
        simp only [List.mem_flatMap] at hb
        obtain ⟨j, hj, hb⟩ := hb
        have b1 := leaf_offsets_bounds _ _ _ ha
        have b2 := leaf_offsets_bounds _ _ _ hb
        have := child_offset_lt o h i j (hp'.1 j hj) (h1 i (List.mem_cons_self _ _))
        omega
    exact key _ (List.pairwise_lt_range' 1 8 1 (by norm_num))
      (fun i hi => by rw [List.mem_range'_1] at hi; omega)

/-! ## Weight accumulation: the claims -/

theorem accumulate_weights_eq {MaxDepth : Nat} (depth ord_end : Nat) (hm : depth ≤ MaxDepth)
    (k_first : OctTreeKey MaxDepth) (hk : k_first.WellFormed) (w : Weights) :
    accumulate_weights (root MaxDepth) k_first ord_end depth w =
      offset_accumulate depth 0 k_first.digits ord_end w := by
  unfold accumulate_weights
  rw [accumulate_weights_fuel_eq depth ord_end hm (depth + 1) (root MaxDepth) k_first w
    (root_wf _) hk (by rw [root_depth]; omega) (by rw [root_depth]; omega)]
  rw [root_depth, oct_tree_offset_root]
  rfl

/-- C8, amended: when the range is not empty (`oct_tree_offset(depth, k_first) < ord_end`),
`accumulate_weights(root, k_first, ord_end, depth, weights)` leaves the own slot and the
descendant slot unchanged for every node whose subtree's offset interval does not meet
`[oct_tree_offset(depth, k_first), ord_end)`. -/
theorem accumulate_weights_frame {MaxDepth : Nat} (depth ord_end : Nat) (hm : depth ≤ MaxDepth)
    (k_first : OctTreeKey MaxDepth) (hk : k_first.WellFormed) (w : Weights)
    (hrange : oct_tree_offset depth k_first < ord_end)
    (n : OctTreeKey MaxDepth) (hn : n.WellFormed) (hnd : n.depth ≤ depth)
    (hmiss : ¬ Meets (oct_tree_offset depth n) (oct_tree_size (depth - n.depth))
      (oct_tree_offset depth k_first) ord_end) :
    (accumulate_weights (root MaxDepth) k_first ord_end depth w).at
        (2 * oct_tree_offset depth n) = w.at (2 * oct_tree_offset depth n) ∧
    (accumulate_weights (root MaxDepth) k_first ord_end depth w).at
        (2 * oct_tree_offset depth n + 1) = w.at (2 * oct_tree_offset depth n + 1) := by
  rw [accumulate_weights_eq depth ord_end hm k_first hk]
  have hfr := (offset_accumulate_frame ord_end depth 0 k_first.digits w hk
    (by rw [Nat.zero_add]; exact hrange)).2
  constructor
  · by_contra hne
    obtain ⟨o', h', _, hidx, _⟩ := hfr _ hne
    omega
  · by_contra hne
    obtain ⟨o', h', hb, hidx, hmeet⟩ := hfr _ hne
    have ho : o' = oct_tree_offset depth n := by omega
    subst ho
    have hh := Below.height_unique depth 0 _ _ _ hb (below_of_key depth n hn hnd)
    rw [Nat.zero_add, hh] at hmeet
    exact hmiss hmeet

/-- The hypotheses of the amended C8 hold in the tree of depth `1` for the range `[(5), 7)`
and the node `(2)`. -/
theorem accumulate_weights_frame_witness :
    (1 ≤ 1) ∧ (key_of_digits 1 [5]).WellFormed ∧
    oct_tree_offset 1 (key_of_digits 1 [5]) < 7 ∧
    (key_of_digits 1 [2]).WellFormed ∧ (key_of_digits 1 [2]).depth ≤ 1 ∧
    ¬ Meets (oct_tree_offset 1 (key_of_digits 1 [2]))
      (oct_tree_size (1 - (key_of_digits 1 [2]).depth))
      (oct_tree_offset 1 (key_of_digits 1 [5])) 7 ∧
    (accumulate_weights (root 1) (key_of_digits 1 [5]) 7 1 sample_leaf_weights).at
        (2 * oct_tree_offset 1 (key_of_digits 1 [2])) =
      sample_leaf_weights.at (2 * oct_tree_offset 1 (key_of_digits 1 [2])) ∧
    (accumulate_weights (root 1) (key_of_digits 1 [5]) 7 1 sample_leaf_weights).at
        (2 * oct_tree_offset 1 (key_of_digits 1 [2]) + 1) =
      sample_leaf_weights.at (2 * oct_tree_offset 1 (key_of_digits 1 [2]) + 1) :=
  ⟨le_refl _, by decide, by decide, by decide, by decide, by decide,
    accumulate_weights_frame 1 7 (le_refl _) (key_of_digits 1 [5]) (by decide)
      sample_leaf_weights (by decide) (key_of_digits 1 [2]) (by decide) (by decide)
      (by decide)⟩

/-- C8 as stated fails on an empty range: with `k_first = (5)` and `ord_end = 0` the root has
an offset `≥ ord_end` and no subtree meets `[5, 0)`, so the claim has the root untouched, but
the call still walks the path to `k_first` and stores the weight `7` of the leaf `(5)` in the
descendant slot of the root. -/
theorem accumulate_weights_frame_counterexample :
    (root 1).WellFormed ∧ (root 1).depth ≤ 1 ∧ 0 ≤ oct_tree_offset 1 (root 1) ∧
    ¬ Meets (oct_tree_offset 1 (root 1)) (oct_tree_size (1 - (root 1).depth))
      (oct_tree_offset 1 (key_of_digits 1 [5])) 0 ∧
    (accumulate_weights (root 1) (key_of_digits 1 [5]) 0 1 sample_leaf_weights).at
        (2 * oct_tree_offset 1 (root 1) + 1) = 7 ∧
    sample_leaf_weights.at (2 * oct_tree_offset 1 (root 1) + 1) = 0 := by
  decide!

theorem meets_iff (o size lo hi : Nat) :
    Meets o size lo hi ↔ ∃ x, o ≤ x ∧ x < o + size ∧ lo ≤ x ∧ x < hi := by
  unfold Meets
  constructor
  · intro h
    exact ⟨max o lo, le_max_left _ _, by omega, le_max_right _ _, by omega⟩
  · rintro ⟨x, h1, h2, h3, h4⟩
    omega

theorem leaf_weight_sum_flatMap (w : Weights) (lo hi : Nat) (f : Nat → List Nat) :
    ∀ l : List Nat,
      (((l.flatMap f).filter (fun l => decide (lo ≤ l ∧ l < hi))).map
        (fun l => w.at (2 * l))).sum =
      (l.map (fun i => (((f i).filter (fun l => decide (lo ≤ l ∧ l < hi))).map
        (fun l => w.at (2 * l))).sum)).sum
  | [] => by simp
  | a :: l => by
    rw [List.flatMap_cons, List.filter_append, List.map_append, List.sum_append,
      leaf_weight_sum_flatMap w lo hi f l, List.map_cons, List.sum_cons]

theorem leaf_weight_sum_succ (w : Weights) (lo hi h o : Nat) :
    leaf_weight_sum w lo hi (h + 1) o =
      ((List.range' 1 8).map (fun i => leaf_weight_sum w lo hi h (child_offset o h i))).sum := by
  unfold leaf_weight_sum
  rw [leaf_offsets, leaf_weight_sum_flatMap]

theorem leaf_weight_sum_miss (w : Weights) (lo hi h o : Nat)
    (hmiss : ¬ Meets o (oct_tree_size h) lo hi) : leaf_weight_sum w lo hi h o = 0 := by
  unfold leaf_weight_sum
  have : (leaf_offsets h o).filter (fun l => decide (lo ≤ l ∧ l < hi)) = [] := by
    rw [List.filter_eq_nil_iff]
    intro l hl
    have := leaf_offsets_bounds h o l hl
    have := oct_tree_size_pos h
    unfold Meets at hmiss
    simp only [decide_eq_true_eq]
    omega
  rw [this]
  rfl

/-- With own weights on the leaves only, own plus descendant weight of a position that meets
the range is, after the accumulation, the weight of its leaves in the range. -/
theorem leaf_total (depth lo hi : Nat) (w w' : Weights)
    (hch : ∀ idx, w'.at idx ≠ w.at idx → ∃ o' h', Below 0 depth o' (h' + 1) ∧
      idx = 2 * o' + 1 ∧ Meets o' (oct_tree_size (h' + 1)) lo hi)
    (hsum : ∀ o' h', Below 0 depth o' (h' + 1) → Meets o' (oct_tree_size (h' + 1)) lo hi →
      SumsAt w' o' h' lo hi)
    (hown : ∀ o' h', Below 0 depth o' (h' + 1) → w.at (2 * o') = 0)
    (hdesc : ∀ o', Below 0 depth o' 0 → w.at (2 * o' + 1) = 0) :
    ∀ h' o', Below 0 depth o' h' → Meets o' (oct_tree_size h') lo hi →
      w'.at (2 * o') + w'.at (2 * o' + 1) = leaf_weight_sum w lo hi h' o' := by
  have heven : ∀ o', w'.at (2 * o') = w.at (2 * o') := by
    intro o'
    by_contra hne
    obtain ⟨o'', h'', _, hidx, _⟩ := hch _ hne
    omega
  intro h'
  induction h' with
  | zero =>
    intro o' hb hm
    have hd : w'.at (2 * o' + 1) = w.at (2 * o' + 1) := by
      by_contra hne
      obtain ⟨o'', h'', hb', hidx, _⟩ := hch _ hne
      have : o'' = o' := by omega
      subst this
      have := Below.height_unique depth 0 _ _ _ hb hb'
      omega
    rw [heven, hd, hdesc o' hb, add_zero]
    unfold leaf_weight_sum
    unfold Meets at hm
    have h1 : oct_tree_size 0 = 1 := rfl
    rw [h1] at hm
    have ha : lo ≤ o' := by omega
    simp [leaf_offsets, ha, hm.1]
  | succ h' ih =>
    intro o' hb hm
    rw [heven, hown o' h' hb, zero_add, hsum o' h' hb hm, leaf_weight_sum_succ]
    unfold children_sum
    apply map_sum_congr
    intro i hi'
    rw [List.mem_range'_1] at hi'
    by_cases hmc : Meets (child_offset o' h' i) (oct_tree_size h') lo hi
    · simp only [hmc, if_true]
      have := ih (child_offset o' h' i) (hb.child i (by omega) (by omega)) hmc
      rw [← this]
      ring_nf
    · simp only [hmc, if_false]
      exact (leaf_weight_sum_miss w lo hi h' _ hmc).symm

/-- C6 (weight conservation): for a depth `≥ 1` and a non-empty range
`[oct_tree_offset(depth, k_first), ord_end)`, if the own weights are zero on every internal
node and the descendant slots of the maximum-depth leaves are zero, then after
`accumulate_weights(root, k_first, ord_end, depth, weights)` the descendant slot `weights[1]`
of the root is the sum of the own weights of the leaves whose offset lies in the range. -/
theorem accumulate_weights_conserves {MaxDepth : Nat} (depth ord_end : Nat)
    (hm : depth ≤ MaxDepth) (hd : 1 ≤ depth)
    (k_first : OctTreeKey MaxDepth) (hk : k_first.WellFormed) (w : Weights)
    (hlen : 2 * oct_tree_size depth ≤ w.length)
    (hrange : oct_tree_offset depth k_first < ord_end)
    (hown : ∀ n : OctTreeKey MaxDepth, n.WellFormed → n.depth < depth →
      w.at (2 * oct_tree_offset depth n) = 0)
    (hdesc : ∀ n : OctTreeKey MaxDepth, n.WellFormed → n.depth = depth →
      w.at (2 * oct_tree_offset depth n + 1) = 0) :
    (accumulate_weights (root MaxDepth) k_first ord_end depth w).at 1 =
      leaf_weight_sum w (oct_tree_offset depth k_first) ord_end depth 0 := by
  rw [accumulate_weights_eq depth ord_end hm k_first hk]
  have hlo : 0 + offset_of_digits depth k_first.digits < ord_end := by
    rw [Nat.zero_add]; exact hrange
  have hfr := (offset_accumulate_frame ord_end depth 0 k_first.digits w hk hlo).2
  have hs := offset_accumulate_sums ord_end depth 0 k_first.digits w hk hlo (by omega)
  rw [Nat.zero_add] at hfr hs
  have hroot : ∀ (o h : Nat), Below 0 depth o h → ∃ n : OctTreeKey MaxDepth,
      n.WellFormed ∧ n.depth + h = depth ∧ oct_tree_offset depth n = o :=
    fun o h hb => key_of_below depth hm 0 depth o h hb (root MaxDepth) (root_wf _)
      (by rw [root_depth]; omega) (oct_tree_offset_root _ _)
  have hT := leaf_total depth (oct_tree_offset depth k_first) ord_end w
    (offset_accumulate depth 0 k_first.digits ord_end w) hfr hs
    (fun o' h' hb => by
      obtain ⟨n, hn, hnd, ho⟩ := hroot o' (h' + 1) hb
      rw [← ho]
      exact hown n hn (by omega))
    (fun o' hb => by
      obtain ⟨n, hn, hnd, ho⟩ := hroot o' 0 hb
      rw [← ho]
      exact hdesc n hn (by omega))
    depth 0 (Below.refl _ _)
    (by
      have := offset_of_digits_lt depth k_first.digits hk
      have := oct_tree_size_pos depth
      unfold Meets oct_tree_offset
      omega)
  have h0 : (offset_accumulate depth 0 k_first.digits ord_end w).at 0 = 0 := by
    have e : (offset_accumulate depth 0 k_first.digits ord_end w).at (2 * 0) = w.at (2 * 0) := by
      by_contra hne
      obtain ⟨o'', h'', _, hidx, _⟩ := hfr _ hne
      omega
    have := hown (root MaxDepth) (root_wf _) (by rw [root_depth]; omega)
    rw [oct_tree_offset_root] at this
    rw [Nat.mul_zero] at e this
    rw [e, this]
  rw [Nat.mul_zero, h0, zero_add] at hT
  exact hT

/-- The hypotheses of C6 hold in the tree of depth `1` for the range `[(5), 7)` and the sample
weights, whose only weight is the `7` of the leaf `(5)`. -/
theorem accumulate_weights_conserves_witness :
    (key_of_digits 1 [5]).WellFormed ∧ 2 * oct_tree_size 1 ≤ sample_leaf_weights.length ∧
    oct_tree_offset 1 (key_of_digits 1 [5]) < 7 ∧
    (∀ n : OctTreeKey 1, n.WellFormed → n.depth < 1 →
      sample_leaf_weights.at (2 * oct_tree_offset 1 n) = 0) ∧
    (∀ n : OctTreeKey 1, n.WellFormed → n.depth = 1 →
      sample_leaf_weights.at (2 * oct_tree_offset 1 n + 1) = 0) ∧
    (accumulate_weights (root 1) (key_of_digits 1 [5]) 7 1 sample_leaf_weights).at 1 = 7 :=
  have hown : ∀ n : OctTreeKey 1, n.WellFormed → n.depth < 1 →
      sample_leaf_weights.at (2 * oct_tree_offset 1 n) = 0 := by
    intro n hn hd
    have h0 := (wf_index n hn 1).2.1 (by omega)
    rw [index_succ] at h0
    have : oct_tree_offset 1 n = 0 := offset_of_digits_head_zero 1 n.digits h0
    rw [this]
    decide
  have hdesc : ∀ n : OctTreeKey 1, n.WellFormed → n.depth = 1 →
      sample_leaf_weights.at (2 * oct_tree_offset 1 n + 1) = 0 := by
    intro n hn hd
    have hmem := (mem_leaf_offsets_iff 1 (le_refl 1) (oct_tree_offset 1 n)).2 ⟨n, hn, hd, rfl⟩
    have hall : ∀ l, l ∈ leaf_offsets 1 0 → sample_leaf_weights.at (2 * l + 1) = 0 := by decide
    exact hall _ hmem
  ⟨by decide, by decide, by decide, hown, hdesc,
    (accumulate_weights_conserves 1 7 (le_refl _) (le_refl _) (key_of_digits 1 [5]) (by decide)
      sample_leaf_weights (by decide) (by decide) hown hdesc).trans (by decide!)⟩


/-! ## The bisection of the process range: which cut slots are assigned -/

theorem getD_set_ne {α : Type} (l : List α) (i j : Nat) (a d : α) (h : i ≠ j) :
    (l.set i a).getD j d = l.getD j d := by
  rw [List.getD_eq_getElem?_getD, List.getD_eq_getElem?_getD, List.getElem?_set_ne h]

theorem oct_tree_partition_private_frame {MaxDepth : Nat} :
    ∀ (fuel p_first p_end depth : Nat) (tolerance : ℚ) (weights : Weights) (cuts_length : Nat)
      (cuts : List (OctTreeKey MaxDepth)) (r : PartitionResult MaxDepth),
      2 ≤ p_end - p_first →
      oct_tree_partition_private fuel p_first p_end depth tolerance weights cuts_length cuts =
        Outcome.ok r →
      r.cuts.length = cuts.length ∧
      (∀ q, q ≤ p_first ∨ p_end ≤ q →
        r.cuts.getD q (root MaxDepth) = cuts.getD q (root MaxDepth)) ∧
      (∃ lower upper : List Nat, r.assigned = (p_end + p_first) / 2 :: (lower ++ upper) ∧
        (∀ q, q ∈ lower → p_first < q ∧ q < (p_end + p_first) / 2) ∧
        (∀ q, q ∈ upper → (p_end + p_first) / 2 < q ∧ q < p_end)) ∧
      r.assigned.Nodup ∧ (∀ q, q ∈ r.assigned ↔ p_first < q ∧ q < p_end) := by
  intro fuel
  induction fuel with
  | zero =>
    intro p_first p_end depth tolerance weights cuts_length cuts r _ h
    simp [oct_tree_partition_private] at h
  | succ fuel ih =>
    intro p_first p_end depth tolerance weights cuts_length cuts r hsize h
    rw [oct_tree_partition_private] at h
    simp only [] at h
    split at h
    · cases h
    · cases h
    · rename_i k_upper hpart
      have hup1 : p_first < (p_end + p_first) / 2 := by omega
      have hup2 : (p_end + p_first) / 2 < p_end := by omega
      split at h
      · cases h
      · cases h
      · rename_i r1 hlower
        split at h
        · cases h
        · cases h
        · rename_i r2 hupper
          simp only [Outcome.ok.injEq] at h
          subst h
          -- the lower nested call
          have hl : r1.cuts.length = cuts.length ∧
              (∀ q, q ≤ p_first ∨ (p_end + p_first) / 2 ≤ q → r1.cuts.getD q (root MaxDepth) =
                (cuts.set ((p_end + p_first) / 2) k_upper).getD q (root MaxDepth)) ∧
              r1.assigned.Nodup ∧
              (∀ q, q ∈ r1.assigned ↔ p_first < q ∧ q < (p_end + p_first) / 2) := by
            by_cases hc : p_first + 1 < (p_end + p_first) / 2
            · simp only [hc, if_true] at hlower
              obtain ⟨a, b, -, c, d⟩ := ih _ _ _ _ _ _ _ _ (by omega) hlower
              exact ⟨by rw [a, List.length_set], b, c, d⟩
            · simp only [hc, if_false, Outcome.ok.injEq] at hlower
              subst hlower
              refine ⟨List.length_set _ _ _, fun _ _ => rfl, List.nodup_nil, ?_⟩
              intro q
              simp only [List.not_mem_nil, false_iff]
              omega
          have hu : r2.cuts.length = cuts.length ∧
              (∀ q, q ≤ (p_end + p_first) / 2 ∨ p_end ≤ q → r2.cuts.getD q (root MaxDepth) =
                r1.cuts.getD q (root MaxDepth)) ∧
              r2.assigned.Nodup ∧
              (∀ q, q ∈ r2.assigned ↔ (p_end + p_first) / 2 < q ∧ q < p_end) := by
            by_cases hc : (p_end + p_first) / 2 + 1 < p_end
            · simp only [hc, if_true] at hupper
              obtain ⟨a, b, -, c, d⟩ := ih _ _ _ _ _ _ _ _ (by omega) hupper
              exact ⟨by rw [a, hl.1], b, c, d⟩
            · simp only [hc, if_false, Outcome.ok.injEq] at hupper
              subst hupper
              refine ⟨hl.1, fun _ _ => rfl, List.nodup_nil, ?_⟩
              intro q
              simp only [List.not_mem_nil, false_iff]
              omega
          refine ⟨hu.1, ?_, ⟨r1.assigned, r2.assigned, rfl, fun q hq => (hl.2.2.2 q).1 hq,
            fun q hq => (hu.2.2.2 q).1 hq⟩, ?_, ?_⟩
          · intro q hq
            rw [hu.2.1 q (by omega), hl.2.1 q (by omega)]
            exact getD_set_ne _ _ _ _ _ (by omega)
          · rw [List.nodup_cons, List.nodup_append]
            refine ⟨?_, hl.2.2.1, hu.2.2.1, ?_⟩
            · intro hmem
              rcases List.mem_append.1 hmem with hm | hm
              · have := (hl.2.2.2 _).1 hm; omega
              · have := (hu.2.2.2 _).1 hm; omega
            · intro a ha hb
              have := (hl.2.2.2 _).1 ha
              have := (hu.2.2.2 _).1 hb
              omega
          · intro q
            rw [List.mem_cons, List.mem_append, hl.2.2.2, hu.2.2.2]
            omega

/-! ## The nesting of the calls is bounded -/

theorem shaped_digits_set : ∀ (ds : List Nat) (i : Nat), shaped_digits ds = true →
    ds.countP (fun d => d != 0) < ds.length → i ≠ 0 →
    shaped_digits (ds.set (ds.countP (fun d => d != 0)) i) = true ∧
    (ds.set (ds.countP (fun d => d != 0)) i).countP (fun d => d != 0) =
      ds.countP (fun d => d != 0) + 1
  | [], i, _, hl, _ => by simp at hl
  | d :: ds, i, h, hl, hi => by
    simp only [shaped_digits] at h
    by_cases hd : d = 0
    · simp only [hd, if_true] at h
      have hc : (d :: ds).countP (fun d => d != 0) = 0 := by
        rw [List.countP_cons, all_zero_countP ds h]; simp [hd]
      rw [hc]
      simp only [List.set_cons_zero, shaped_digits, hi, if_false, List.countP_cons,
        all_zero_countP ds h]
      have : shaped_digits ds = true := by
        clear hl hc
        induction ds with
        | nil => rfl
        | cons a ds iha =>
          simp only [List.all_cons, Bool.and_eq_true, beq_iff_eq] at h
          simp [shaped_digits, h.1, h.2]
      simp [hi, this]
    · simp only [hd, if_false] at h
      have hc : (d :: ds).countP (fun d => d != 0) = ds.countP (fun d => d != 0) + 1 := by
        rw [List.countP_cons]; simp [hd]
      rw [hc] at hl ⊢
      simp only [List.length_cons, Nat.add_lt_add_iff_right] at hl
      have ih := shaped_digits_set ds i h hl hi
      simp only [List.set_cons_succ, shaped_digits, hd, if_false, List.countP_cons, ih.1, ih.2]
      simp [hd]

theorem OctTreeKey.root_shaped (MaxDepth : Nat) : (root MaxDepth).Shaped := by
  unfold Shaped root
  simp only []
  induction MaxDepth with
  | zero => rfl
  | succ n ih => simp [List.replicate, shaped_digits, replicate_all_zero]

theorem OctTreeKey.child_shaped {MaxDepth : Nat} (k : OctTreeKey MaxDepth) (hk : k.Shaped)
    (hd : k.depth < MaxDepth) (i : Nat) (hi : i ≠ 0) :
    (k.set_index (k.depth + 1) i).Shaped ∧ (k.set_index (k.depth + 1) i).depth = k.depth + 1 := by
  have hl : k.digits.countP (fun d => d != 0) < k.digits.length := by
    rw [k.length_eq]; exact hd
  exact shaped_digits_set k.digits i hk hl hi

theorem balance_loop_i_ge {MaxDepth : Nat} (key : OctTreeKey MaxDepth) (d1 depth : Nat)
    (weights : Weights) (target_ratio : ℚ) : ∀ (rounds : Nat) (st : SplitState),
    st.i ≤ (balance_loop key d1 depth weights target_ratio rounds st).i := by
  intro rounds
  induction rounds with
  | zero => intro st; exact le_refl _
  | succ n ih =>
    intro st
    rw [balance_loop]
    simp only []
    split
    · split
      · split
        · exact le_trans (Nat.le_succ _) (ih ⟨st.i + 1, st.j, _, _⟩)
        · exact ih ⟨st.i, st.j - 1, _, _⟩
      · refine le_trans ?_ (ih ⟨_, _, _, _⟩)
        simp only []
        split <;> omega
    · exact le_refl _

/-- The loop `while ( i < j )` ends by its own test: the rounds provided are enough. -/
theorem balance_loop_exit {MaxDepth : Nat} (key : OctTreeKey MaxDepth) (d1 depth : Nat)
    (weights : Weights) (target_ratio : ℚ) : ∀ (rounds : Nat) (st : SplitState),
    st.j - st.i ≤ rounds →
    (balance_loop key d1 depth weights target_ratio rounds st).j ≤
      (balance_loop key d1 depth weights target_ratio rounds st).i := by
  intro rounds
  induction rounds with
  | zero => intro st h; simp only [balance_loop]; omega
  | succ n ih =>
    intro st h
    rw [balance_loop]
    simp only []
    split
    · rename_i hij
      split
      · split
        · exact ih _ (by simp only []; omega)
        · exact ih _ (by simp only []; omega)
      · rename_i hv
        apply ih
        simp only []
        have : ¬ (0 < weights.at (2 * oct_tree_offset depth (key.set_index d1 st.i)) +
              weights.at (2 * oct_tree_offset depth (key.set_index d1 st.i) + 1)) ∨
            ¬ (0 < weights.at (2 * oct_tree_offset depth (key.set_index d1 st.j)) +
              weights.at (2 * oct_tree_offset depth (key.set_index d1 st.j) + 1)) := by
          by_contra hc
          push_neg at hc
          exact hv hc
        rcases this with h1 | h1
        · rw [if_pos (not_lt.1 h1)]
          split <;> omega
        · rw [if_pos (not_lt.1 h1)]
          split <;> omega
    · omega

/-- A call of `partition` returns, throws, or ends in the nested call on a child of `key`. -/
theorem partition_cases {MaxDepth : Nat} (fuel : Nat) (k_first : OctTreeKey MaxDepth)
    (i_end : Nat) (key : OctTreeKey MaxDepth) (depth : Nat) (weights : Weights)
    (tolerance target_ratio w_lower w_upper : ℚ) :
    (∃ k, partition (fuel + 1) k_first i_end key depth weights tolerance target_ratio
      w_lower w_upper = Outcome.ok k) ∨
    partition (fuel + 1) k_first i_end key depth weights tolerance target_ratio
      w_lower w_upper = Outcome.raised ∨
    (key.depth ≠ depth ∧ ∃ (i : Nat) (nested : OctTreeKey MaxDepth) (wl wu : ℚ), 1 ≤ i ∧
      partition (fuel + 1) k_first i_end key depth weights tolerance target_ratio
        w_lower w_upper =
      partition fuel nested i_end (key.set_index (key.depth + 1) i) depth weights tolerance
        target_ratio wl wu) := by
  rw [partition]
  simp only []
  by_cases h1 : i_end = 1 ∨ i_end = oct_tree_offset depth k_first
  · rw [if_pos h1]; exact Or.inl ⟨_, rfl⟩
  rw [if_neg h1]
  cases hj : find_j i_end depth (key.depth + 1) key 8 with
  | none => exact Or.inr (Or.inl rfl)
  | some j =>
    simp only []
    by_cases hdep : key.depth = depth
    · rw [if_pos hdep]
      by_cases hk : k_first = key ∧ oct_tree_offset key.depth key + 1 ≠ oct_tree_size depth
      · rw [if_pos hk]; exact Or.inl ⟨_, rfl⟩
      · rw [if_neg hk]; exact Or.inl ⟨_, rfl⟩
    · rw [if_neg hdep]
      have hi := balance_loop_i_ge key (key.depth + 1) depth weights target_ratio
        (j - if k_first.index (key.depth + 1) ≠ 0 then k_first.index (key.depth + 1) else 1)
        ⟨if k_first.index (key.depth + 1) ≠ 0 then k_first.index (key.depth + 1) else 1, j,
          if key ≠ root MaxDepth then w_lower + weights.at (oct_tree_offset depth key * 2)
            else w_lower,
          if key ≠ root MaxDepth then w_upper + weights.at (oct_tree_offset depth key * 2)
            else w_upper⟩
      have h0 : 1 ≤ (if k_first.index (key.depth + 1) ≠ 0 then k_first.index (key.depth + 1)
          else 1) := by
        split <;> omega
      simp only [] at hi
      generalize balance_loop key (key.depth + 1) depth weights target_ratio
        (j - if k_first.index (key.depth + 1) ≠ 0 then k_first.index (key.depth + 1) else 1)
        ⟨if k_first.index (key.depth + 1) ≠ 0 then k_first.index (key.depth + 1) else 1, j,
          if key ≠ root MaxDepth then w_lower + weights.at (oct_tree_offset depth key * 2)
            else w_lower,
          if key ≠ root MaxDepth then w_upper + weights.at (oct_tree_offset depth key * 2)
            else w_upper⟩ = st at hi ⊢
      by_cases hv : weights.at (2 * oct_tree_offset depth (key.set_index (key.depth + 1) st.i)) +
          weights.at (2 * oct_tree_offset depth (key.set_index (key.depth + 1) st.i) + 1) ≤ 0
      · rw [if_pos hv]; exact Or.inl ⟨_, rfl⟩
      · rw [if_neg hv]
        by_cases hlt : st.w_lower < st.w_upper * target_ratio
        · simp only [if_pos hlt]
          split
          · exact Or.inl ⟨_, rfl⟩
          · exact Or.inr (Or.inr ⟨hdep, st.i, _, _, _, by omega, rfl⟩)
        · simp only [if_neg hlt]
          split
          · exact Or.inl ⟨_, rfl⟩
          · exact Or.inr (Or.inr ⟨hdep, st.i, _, _, _, by omega, rfl⟩)

/-- The nested calls of `partition` go one level down each: with more fuel than levels left
the search does not stop for lack of fuel. -/
theorem partition_fuel {MaxDepth : Nat} (depth : Nat) (hm : depth ≤ MaxDepth) :
    ∀ (fuel : Nat) (k_first : OctTreeKey MaxDepth) (i_end : Nat) (key : OctTreeKey MaxDepth)
      (weights : Weights) (tolerance target_ratio w_lower w_upper : ℚ),
      key.Shaped → key.depth ≤ depth → depth - key.depth < fuel →
      partition fuel k_first i_end key depth weights tolerance target_ratio w_lower w_upper ≠
        Outcome.no_fuel := by
  intro fuel
  induction fuel with
  | zero => intro _ _ _ _ _ _ _ _ _ _ hf; omega
  | succ fuel ih =>
    intro k_first i_end key weights tolerance target_ratio w_lower w_upper hs hd hf
    rcases partition_cases fuel k_first i_end key depth weights tolerance target_ratio
      w_lower w_upper with ⟨k, hk⟩ | hr | ⟨hdep, i, nested, wl, wu, hi, hrec⟩
    · rw [hk]; simp
    · rw [hr]; simp
    · rw [hrec]
      obtain ⟨hcs, hcd⟩ := child_shaped key hs (by omega) i (by omega)
      exact ih _ _ _ _ _ _ _ _ hcs (by omega) (by omega)

/-- The nested calls of `oct_tree_partition_private` are made on smaller process ranges: with
fuel for the size of the range the bisection does not stop for lack of fuel. -/
theorem oct_tree_partition_private_fuel {MaxDepth : Nat} (depth : Nat) (hm : depth ≤ MaxDepth) :
    ∀ (fuel p_first p_end : Nat) (tolerance : ℚ) (weights : Weights) (cuts_length : Nat)
      (cuts : List (OctTreeKey MaxDepth)),
      p_first < p_end → p_end - p_first ≤ fuel →
      oct_tree_partition_private fuel p_first p_end depth tolerance weights cuts_length cuts ≠
        Outcome.no_fuel := by
  intro fuel
  induction fuel with
  | zero => intro _ _ _ _ _ _ h1 h2; omega
  | succ fuel ih =>
    intro p_first p_end tolerance weights cuts_length cuts h1 h2
    rw [oct_tree_partition_private]
    simp only []
    split
    · simp
    · rename_i hp
      exact absurd hp (partition_fuel depth hm _ _ _ _ _ _ _ _ _ (root_shaped _)
        (by rw [root_depth]; omega) (by rw [root_depth]; omega))
    · split
      · simp
      · rename_i hl
        split at hl
        · exact absurd hl (ih _ _ _ _ _ _ (by omega) (by omega))
        · cases hl
      · split
        · simp
        · rename_i hu
          split at hu
          · exact absurd hu (ih _ _ _ _ _ _ (by omega) (by omega))
          · cases hu
        · simp

/-! ## The bisection of the process range: the claims on the cut slots -/

/-- C2: a call of `oct_tree_partition_private` on a process range of size at least `2` (with
fuel for the size of the range) does not stop for lack of fuel, and when it returns it has
left `cuts[p_first]` and every cut slot outside `(p_first, p_end)` unchanged and has assigned
every slot strictly between `p_first` and `p_end` exactly once: the slot `p_upper` itself,
the lower nested call only slots in `(p_first, p_upper)`, the upper nested call only slots in
`(p_upper, p_end)`. -/
theorem oct_tree_partition_private_assigns {MaxDepth : Nat} (depth : Nat)
    (hm : depth ≤ MaxDepth) (fuel p_first p_end : Nat) (tolerance : ℚ) (weights : Weights)
    (cuts_length : Nat) (cuts : List (OctTreeKey MaxDepth))
    (hsize : 2 ≤ p_end - p_first) (hfuel : p_end - p_first ≤ fuel) :
    oct_tree_partition_private fuel p_first p_end depth tolerance weights cuts_length cuts ≠
      Outcome.no_fuel ∧
    ∀ r, oct_tree_partition_private fuel p_first p_end depth tolerance weights cuts_length cuts =
        Outcome.ok r →
      r.cuts.length = cuts.length ∧
      (∀ q, q ≤ p_first ∨ p_end ≤ q →
        r.cuts.getD q (root MaxDepth) = cuts.getD q (root MaxDepth)) ∧
      (∃ lower upper : List Nat, r.assigned = (p_end + p_first) / 2 :: (lower ++ upper) ∧
        (∀ q, q ∈ lower → p_first < q ∧ q < (p_end + p_first) / 2) ∧
        (∀ q, q ∈ upper → (p_end + p_first) / 2 < q ∧ q < p_end)) ∧
      r.assigned.Nodup ∧ (∀ q, q ∈ r.assigned ↔ p_first < q ∧ q < p_end) :=
  ⟨oct_tree_partition_private_fuel depth hm fuel p_first p_end tolerance weights cuts_length
      cuts (by omega) hfuel,
    fun r hr => oct_tree_partition_private_frame fuel p_first p_end depth tolerance weights
      cuts_length cuts r hsize hr⟩

/-- The hypotheses of C2 hold for four processes on the tree of depth `1` with the sample
weights: the call returns, with the slots `2`, `1`, `3` assigned in this order. -/
theorem oct_tree_partition_private_assigns_witness :
    1 ≤ 2 ∧ 2 ≤ 4 - 0 ∧ 4 - 0 ≤ 4 ∧
    oct_tree_partition_private 4 0 4 1 (1 / 1000) sample_leaf_weights 4
        [root 2, root 2, root 2, root 2] =
      Outcome.ok ⟨[0, 7, 0, 0, 0, 0, 0, 0, 0, 0, 7, 0, 0, 0, 0, 0, 0, 0],
        [root 2, key_of_digits 2 [2], key_of_digits 2 [5], key_of_digits 2 [6]], [2, 1, 3]⟩ ∧
    oct_tree_partition_private 4 0 4 1 (1 / 1000) sample_leaf_weights 4
        [root 2, root 2, root 2, root 2] ≠ Outcome.no_fuel :=
  ⟨by decide, by decide, by decide, by decide!,
    (oct_tree_partition_private_assigns 1 (by decide) 4 0 4 (1 / 1000) sample_leaf_weights 4
      [root 2, root 2, root 2, root 2] (by decide) (by decide)).1⟩

/-- With three processes on the tree of depth `1` whose only weight sits on the last leaf
`(8)`, the call returns the cuts `root, (8), (8)`, and `cuts[1] < cuts[2]` does not hold. -/
theorem oct_tree_partition_private_not_increasing :
    oct_tree_partition_private 3 0 3 1 (1 / 1000) last_leaf_weights 3
        [root 2, root 2, root 2] =
      Outcome.ok ⟨[0, 1, 0, 0, 0, 0, 0, 0, 0, 0, 0, 0, 0, 0, 0, 0, 1, 0],
        [root 2, key_of_digits 2 [8], key_of_digits 2 [8]], [1, 2]⟩ ∧
    ¬ (key_of_digits 2 [8] < key_of_digits 2 [8]) := by
  decide!

/-! ## Zero weights -/

theorem AllZero.put {w : Weights} (h : AllZero w) (i : Nat) : AllZero (w.put i 0) := by
  intro idx
  rw [Weights.at_put]
  split
  · rfl
  · exact h idx

theorem accumulate_children_zero {MaxDepth : Nat}
    (recurse : OctTreeKey MaxDepth → Weights → Weights)
    (hrec : ∀ k w, AllZero w → AllZero (recurse k w)) (d1 ord_end depth : Nat) :
    ∀ (l : List Nat) (st : AccState MaxDepth), AllZero st.weights → st.w = 0 →
      AllZero (accumulate_children recurse d1 ord_end depth l st).weights ∧
      (accumulate_children recurse d1 ord_end depth l st).w = 0 := by
  intro l
  induction l with
  | nil => intro st hz hw; exact ⟨hz, hw⟩
  | cons i rest ih =>
    intro st hz hw
    rw [accumulate_children]
    simp only []
    split
    · have hz' := hrec (st.k_node.set_index d1 i) st.weights hz
      apply ih
      · exact hz'
      · simp only [hw, hz' _, add_zero]
    · exact ih _ hz hw

theorem accumulate_weights_fuel_zero {MaxDepth : Nat} (ord_end depth : Nat) :
    ∀ (fuel : Nat) (k_node k_first : OctTreeKey MaxDepth) (w : Weights), AllZero w →
      AllZero (accumulate_weights_fuel fuel k_node k_first ord_end depth w) := by
  intro fuel
  induction fuel with
  | zero => intro _ _ w hz; exact hz
  | succ fuel ih =>
    intro k_node k_first w hz
    rw [accumulate_weights_fuel]
    simp only []
    split
    · by_cases hi : k_first.index (k_node.depth + 1) = 0
      · simp only [hi, ne_eq, not_true_eq_false, if_false]
        obtain ⟨h1, h2⟩ := accumulate_children_zero
          (fun k w => accumulate_weights_fuel fuel k k_first ord_end depth w)
          (fun k w hw => ih k k_first w hw) (k_node.depth + 1) ord_end depth
          (List.range' (0 + 1) (8 - 0)) ⟨k_node, 0, w⟩ hz rfl
        rw [h2]
        exact h1.put _
      · simp only [hi, ne_eq, not_false_eq_true, if_true]
        have hz1 := ih (k_node.set_index (k_node.depth + 1) (k_first.index (k_node.depth + 1)))
          k_first w hz
        obtain ⟨h1, h2⟩ := accumulate_children_zero
          (fun k w => accumulate_weights_fuel fuel k (root MaxDepth) ord_end depth w)
          (fun k w hw => ih k (root MaxDepth) w hw) (k_node.depth + 1) ord_end depth
          (List.range' (k_first.index (k_node.depth + 1) + 1)
            (8 - k_first.index (k_node.depth + 1)))
          ⟨k_node.set_index (k_node.depth + 1) (k_first.index (k_node.depth + 1)),
            0 + ((accumulate_weights_fuel fuel (k_node.set_index (k_node.depth + 1)
                (k_first.index (k_node.depth + 1))) k_first ord_end depth w).at
                (oct_tree_offset depth (k_node.set_index (k_node.depth + 1)
                  (k_first.index (k_node.depth + 1))) * 2) +
              (accumulate_weights_fuel fuel (k_node.set_index (k_node.depth + 1)
                (k_first.index (k_node.depth + 1))) k_first ord_end depth w).at
                (oct_tree_offset depth (k_node.set_index (k_node.depth + 1)
                  (k_first.index (k_node.depth + 1))) * 2 + 1)),
            accumulate_weights_fuel fuel (k_node.set_index (k_node.depth + 1)
                (k_first.index (k_node.depth + 1))) k_first ord_end depth w⟩
          hz1 (by simp only [hz1 _, add_zero])
        rw [h2]
        exact h1.put _
    · exact hz

theorem accumulate_weights_zero {MaxDepth : Nat} (k_node k_first : OctTreeKey MaxDepth)
    (ord_end depth : Nat) (w : Weights) (hz : AllZero w) :
    AllZero (accumulate_weights k_node k_first ord_end depth w) :=
  accumulate_weights_fuel_zero ord_end depth _ _ _ _ hz

theorem find_j_some {MaxDepth : Nat} (i_end depth d1 : Nat) (key : OctTreeKey MaxDepth) :
    ∀ (j0 : Nat), (∃ j, j ≤ j0 ∧ ¬ i_end ≤ oct_tree_offset depth (key.set_index d1 j)) →
      ∃ j, find_j i_end depth d1 key j0 = some j := by
  intro j0
  induction j0 with
  | zero =>
    rintro ⟨j, hj, hlt⟩
    have : j = 0 := by omega
    subst this
    exact ⟨0, by simp [find_j, hlt]⟩
  | succ n ih =>
    rintro ⟨j, hj, hlt⟩
    rw [find_j]
    by_cases hc : i_end ≤ oct_tree_offset depth (key.set_index d1 (n + 1))
    · rw [if_pos hc]
      apply ih
      refine ⟨j, ?_, hlt⟩
      by_contra hcon
      have : j = n + 1 := by omega
      subst this
      exact hlt hc
    · rw [if_neg hc]
      exact ⟨_, rfl⟩

/-- Zero-weight fallback: on an all-zero weight array the search started at the root returns
the key decoded from the middle offset of the range. -/
theorem partition_zero {MaxDepth : Nat} (depth : Nat) (hd : 1 ≤ depth) (hm : depth ≤ MaxDepth)
    (fuel : Nat) (k_first : OctTreeKey MaxDepth) (i_end : Nat) (w : Weights) (hz : AllZero w)
    (tolerance target_ratio w_lower w_upper : ℚ) (h2 : 2 ≤ i_end)
    (hne : i_end ≠ oct_tree_offset depth k_first) :
    partition (fuel + 1) k_first i_end (root MaxDepth) depth w tolerance target_ratio
        w_lower w_upper =
      Outcome.ok (calculate_key_using_offset MaxDepth depth
        ((i_end + oct_tree_offset depth k_first) / 2)) := by
  rw [partition]
  simp only []
  have h1 : ¬ (i_end = 1 ∨ i_end = oct_tree_offset depth k_first) := by
    rintro (h | h)
    · omega
    · exact hne h
  rw [if_neg h1]
  have hoff : oct_tree_offset depth ((root MaxDepth).set_index ((root MaxDepth).depth + 1) 1) =
      1 := by
    rw [oct_tree_offset_child depth (root MaxDepth) (root_wf _) (by rw [root_depth]; omega)
      (by rw [root_depth]; omega) 1 (le_refl _), oct_tree_offset_root]
    simp
  obtain ⟨j, hj⟩ := find_j_some i_end depth ((root MaxDepth).depth + 1) (root MaxDepth) 8
    ⟨1, by norm_num, by rw [hoff]; omega⟩
  rw [hj]
  simp only []
  have hdep : ¬ (root MaxDepth).depth = depth := by rw [root_depth]; omega
  rw [if_neg hdep]
  rw [if_pos (by rw [hz, hz]; norm_num)]

/-! ## Decoding offsets -/

theorem calculate_key_loop_zero {MaxDepth : Nat} (depth : Nat) :
    ∀ (n : Nat) (k : OctTreeKey MaxDepth), calculate_key_loop depth n 0 k = k := by
  intro n
  induction n with
  | zero => intro k; rfl
  | succ n ih =>
    intro k
    rw [calculate_key_loop]
    simp only [gt_iff_lt, lt_self_iff_false, and_false, if_false]
    exact ih k

theorem calculate_key_loop_step {MaxDepth : Nat} (depth n offset : Nat)
    (k : OctTreeKey MaxDepth) (h0 : 0 < offset) (h32 : offset < 2 ^ 32) :
    calculate_key_loop depth (n + 1) offset k =
      calculate_key_loop depth n (offset - (oct_tree_size n * ((offset - 1) / oct_tree_size n) + 1))
        (k.set_index (depth - n) ((offset - 1) / oct_tree_size n + 1)) := by
  rw [calculate_key_loop]
  have e : (offset + 2 ^ 32 - 1) % 2 ^ 32 = offset - 1 := by omega
  simp only [e, gt_iff_lt, h0, and_true]
  by_cases hi : 0 < (offset - 1) / oct_tree_size n
  · rw [if_pos hi]
  · rw [if_neg hi, if_pos trivial]
    have : (offset - 1) / oct_tree_size n = 0 := Nat.eq_zero_of_not_pos hi
    rw [this]
    simp

/-- The key decoded from an offset of a subtree is a node of the tree with that offset. -/
theorem calculate_key_loop_spec {MaxDepth : Nat} (depth : Nat) (hm : depth ≤ MaxDepth) :
    ∀ (n offset : Nat) (k : OctTreeKey MaxDepth), k.WellFormed → k.depth + n = depth →
      offset < oct_tree_size n → oct_tree_size n ≤ 2 ^ 32 →
      (calculate_key_loop depth n offset k).WellFormed ∧
      (calculate_key_loop depth n offset k).depth ≤ depth ∧
      oct_tree_offset depth (calculate_key_loop depth n offset k) =
        oct_tree_offset depth k + offset := by
  intro n
  induction n with
  | zero =>
    intro offset k hk hd ho _
    have : offset = 0 := by simp [oct_tree_size] at ho; exact ho
    subst this
    rw [calculate_key_loop_zero]
    exact ⟨hk, by omega, rfl⟩
  | succ n ih =>
    intro offset k hk hd ho h32
    by_cases h0 : offset = 0
    · subst h0
      rw [calculate_key_loop_zero]
      exact ⟨hk, by omega, rfl⟩
    · have hsz := oct_tree_size_pos n
      rw [oct_tree_size_succ] at ho h32
      rw [calculate_key_loop_step depth n offset k (by omega) (by omega)]
      have hlevel : depth - n = k.depth + 1 := by omega
      rw [hlevel]
      have hdiv : (offset - 1) / oct_tree_size n < 8 := by
        rw [Nat.div_lt_iff_lt_mul hsz]; omega
      have hmul : oct_tree_size n * ((offset - 1) / oct_tree_size n) ≤ offset - 1 :=
        Nat.mul_div_le _ _
      have hrem : offset - 1 - oct_tree_size n * ((offset - 1) / oct_tree_size n) <
          oct_tree_size n := by
        have := Nat.mod_lt (offset - 1) hsz
        have e := Nat.div_add_mod (offset - 1) (oct_tree_size n)
        omega
      generalize (offset - 1) / oct_tree_size n = q at hdiv hmul hrem ⊢
      obtain ⟨hcw, hcd⟩ := child_wf k hk (by omega) (q + 1) (by omega) (by omega)
      obtain ⟨a, b, c⟩ := ih (offset - (oct_tree_size n * q + 1))
        _ hcw (by omega) (by omega) (by omega)
      refine ⟨a, b, ?_⟩
      rw [c, oct_tree_offset_child depth k hk (by omega) (by omega) _ (by omega)]
      have e1 : depth - k.depth - 1 = n := by omega
      rw [e1, Nat.add_sub_cancel, Nat.mul_comm q]
      omega

/-- One half of the offset/key bijection: the key decoded from an offset of the tree is a
well-formed key of depth at most `depth` whose offset is the one decoded. -/
theorem calculate_key_using_offset_spec (MaxDepth depth : Nat) (hm : depth ≤ MaxDepth)
    (h32 : oct_tree_size depth ≤ 2 ^ 32) (offset : Nat) (ho : offset < oct_tree_size depth) :
    (calculate_key_using_offset MaxDepth depth offset).WellFormed ∧
    (calculate_key_using_offset MaxDepth depth offset).depth ≤ depth ∧
    oct_tree_offset depth (calculate_key_using_offset MaxDepth depth offset) = offset := by
  have := calculate_key_loop_spec depth hm depth offset (root MaxDepth) (root_wf _)
    (by rw [root_depth]; omega) ho h32
  rw [oct_tree_offset_root, Nat.zero_add] at this
  exact this

/-! ## The key order and the offsets -/

theorem digits_less_of_offset_lt : ∀ (depth : Nat) (ds1 ds2 : List Nat),
    wf_digits ds1 = true → wf_digits ds2 = true →
    ds1.countP (fun d => d != 0) ≤ depth → ds2.countP (fun d => d != 0) ≤ depth →
    offset_of_digits depth ds1 < offset_of_digits depth ds2 → digits_less ds1 ds2 = true
  | depth, [], [], _, _, _, _, h => by
    have : offset_of_digits depth [] = 0 := by cases depth <;> rfl
    omega
  | _, [], _ :: _, _, _, _, _, _ => rfl
  | depth, _ :: _, [], _, _, _, _, h => by
    have : offset_of_digits depth [] = 0 := by cases depth <;> rfl
    omega
  | 0, x :: xs, y :: ys, _, _, _, _, h => by simp [offset_of_digits] at h
  | depth + 1, x :: xs, y :: ys, h1, h2, c1, c2, h => by
    have hy : y ≠ 0 := by
      intro hy
      simp [offset_of_digits, hy] at h
    simp only [digits_less]
    by_cases hx : x = 0
    · have : x < y := by omega
      simp [this]
    · simp only [wf_digits, hx, hy, if_false, Bool.and_eq_true, decide_eq_true_eq] at h1 h2
      simp only [offset_of_digits, hx, hy, if_false] at h
      have c1' : xs.countP (fun d => d != 0) ≤ depth := by
        rw [List.countP_cons] at c1; simp [hx] at c1; exact c1
      have c2' : ys.countP (fun d => d != 0) ≤ depth := by
        rw [List.countP_cons] at c2; simp [hy] at c2; exact c2
      have b1 := offset_of_digits_lt depth xs h1.2
      have b2 := offset_of_digits_lt depth ys h2.2
      rcases Nat.lt_trichotomy x y with hlt | heq | hgt
      · simp [hlt]
      · subst heq
        simp only [lt_self_iff_false, if_false]
        exact digits_less_of_offset_lt depth xs ys h1.2 h2.2 c1' c2' (by omega)
      · exfalso
        have : (y - 1) * oct_tree_size depth + oct_tree_size depth ≤
            (x - 1) * oct_tree_size depth := by
          calc (y - 1) * oct_tree_size depth + oct_tree_size depth
              = ((y - 1) + 1) * oct_tree_size depth := by ring
            _ ≤ (x - 1) * oct_tree_size depth := Nat.mul_le_mul_right _ (by omega)
        omega

/-- Nodes of the tree are ordered as their offsets. -/
theorem key_lt_of_offset_lt {MaxDepth : Nat} (depth : Nat) (a b : OctTreeKey MaxDepth)
    (ha : a.WellFormed) (hb : b.WellFormed) (hda : a.depth ≤ depth) (hdb : b.depth ≤ depth)
    (h : oct_tree_offset depth a < oct_tree_offset depth b) : a < b :=
  digits_less_of_offset_lt depth a.digits b.digits ha hb hda hdb h

/-! ## The bisection on zero weights -/

theorem getD_set_self {α : Type} (l : List α) (i : Nat) (a d : α) (h : i < l.length) :
    (l.set i a).getD i d = a := by
  rw [List.getD_eq_getElem?_getD, List.getElem?_set_self h]
  rfl

/-- On zero weights over an offset range with room for the processes, the bisection returns
cuts that are nodes of the tree at strictly growing offsets. -/
theorem oct_tree_partition_private_zero {MaxDepth : Nat} (depth : Nat) (hd1 : 1 ≤ depth)
    (hm : depth ≤ MaxDepth) (h32 : oct_tree_size depth ≤ 2 ^ 32) (tolerance : ℚ)
    (cuts_length : Nat) :
    ∀ (fuel p_first p_end lo hi : Nat) (weights : Weights) (cuts : List (OctTreeKey MaxDepth)),
      AllZero weights → 2 ≤ p_end - p_first → p_end - p_first ≤ fuel →
      p_end ≤ cuts_length → cuts.length = cuts_length →
      (cuts.getD p_first (root MaxDepth)).WellFormed →
      (cuts.getD p_first (root MaxDepth)).depth ≤ depth →
      oct_tree_offset depth (cuts.getD p_first (root MaxDepth)) = lo →
      (if p_end < cuts_length then oct_tree_offset depth (cuts.getD p_end (root MaxDepth))
        else oct_tree_size depth) = hi →
      hi ≤ oct_tree_size depth → p_end - p_first ≤ hi - lo →
      ∃ r, oct_tree_partition_private fuel p_first p_end depth tolerance weights cuts_length
          cuts = Outcome.ok r ∧ AllZero r.weights ∧
        CutsIncreasing depth r.cuts p_first p_end lo hi := by
  intro fuel
  induction fuel with
  | zero => intro _ _ _ _ _ _ _ h1 h2; omega
  | succ fuel ih =>
    intro p_first p_end lo hi weights cuts hz hsize hfuel hpe hlen hwf hdep hlo hhi hhs hroom
    have hup1 : p_first < (p_end + p_first) / 2 := by omega
    have hup2 : (p_end + p_first) / 2 < p_end := by omega
    have hz1 := accumulate_weights_zero (root MaxDepth) (cuts.getD p_first (root MaxDepth))
      hi depth weights hz
    have hpart := fun (tr : ℚ) => partition_zero depth hd1 hm depth
      (cuts.getD p_first (root MaxDepth)) hi _ hz1 tolerance tr 0 0 (by omega)
      (by rw [hlo]; omega)
    rw [hlo] at hpart
    obtain ⟨kw, kd, ko⟩ := calculate_key_using_offset_spec MaxDepth depth hm h32 ((hi + lo) / 2)
      (by omega)
    generalize calculate_key_using_offset MaxDepth depth ((hi + lo) / 2) = k_upper at hpart kw kd ko
    generalize hw1 : accumulate_weights (root MaxDepth) (cuts.getD p_first (root MaxDepth))
      hi depth weights = weights1 at hz1 hpart
    -- the cuts after the assignment of the middle slot
    have hc1len : (cuts.set ((p_end + p_first) / 2) k_upper).length = cuts_length := by
      rw [List.length_set, hlen]
    have hc1first : (cuts.set ((p_end + p_first) / 2) k_upper).getD p_first (root MaxDepth) =
        cuts.getD p_first (root MaxDepth) := getD_set_ne _ _ _ _ _ (by omega)
    have hc1up : (cuts.set ((p_end + p_first) / 2) k_upper).getD ((p_end + p_first) / 2)
        (root MaxDepth) = k_upper := getD_set_self _ _ _ _ (by omega)
    have hc1end : (cuts.set ((p_end + p_first) / 2) k_upper).getD p_end (root MaxDepth) =
        cuts.getD p_end (root MaxDepth) := getD_set_ne _ _ _ _ _ (by omega)
    -- the lower nested call
    have hlower : ∃ r1, (if p_first + 1 < (p_end + p_first) / 2 then
          oct_tree_partition_private fuel p_first ((p_end + p_first) / 2) depth tolerance
            weights1 cuts_length (cuts.set ((p_end + p_first) / 2) k_upper)
        else Outcome.ok ⟨weights1, cuts.set ((p_end + p_first) / 2) k_upper, []⟩) =
          Outcome.ok r1 ∧ AllZero r1.weights ∧ r1.cuts.length = cuts_length ∧
          r1.cuts.getD ((p_end + p_first) / 2) (root MaxDepth) = k_upper ∧
          r1.cuts.getD p_end (root MaxDepth) = cuts.getD p_end (root MaxDepth) ∧
          CutsIncreasing depth r1.cuts p_first ((p_end + p_first) / 2) lo ((hi + lo) / 2) := by
      by_cases hc : p_first + 1 < (p_end + p_first) / 2
      · rw [if_pos hc]
        obtain ⟨r1, e, z, g⟩ := ih p_first ((p_end + p_first) / 2) lo ((hi + lo) / 2) weights1
          (cuts.set ((p_end + p_first) / 2) k_upper) hz1 (by omega) (by omega) (by omega) hc1len
          (by rw [hc1first]; exact hwf) (by rw [hc1first]; exact hdep)
          (by rw [hc1first]; exact hlo)
          (by rw [if_pos (by omega), hc1up]; exact ko) (by omega) (by omega)
        obtain ⟨fl, ff, -⟩ := oct_tree_partition_private_frame _ _ _ _ _ _ _ _ r1 (by omega) e
        refine ⟨r1, e, z, by rw [fl, hc1len], ?_, ?_, g⟩
        · rw [ff _ (Or.inr (le_refl _)), hc1up]
        · rw [ff _ (Or.inr (by omega)), hc1end]
      · rw [if_neg hc]
        refine ⟨_, rfl, hz1, hc1len, hc1up, hc1end, ?_⟩
        intro q hq1 hq2
        have : q = p_first := by omega
        subst this
        simp only [hc1first]
        refine ⟨hwf, hdep, by omega, by omega, ?_⟩
        intro q2 h1 h2
        omega
    obtain ⟨r1, e1, z1, len1, up1, end1, g1⟩ := hlower
    -- the upper nested call
    have hupper : ∃ r2, (if (p_end + p_first) / 2 + 1 < p_end then
          oct_tree_partition_private fuel ((p_end + p_first) / 2) p_end depth tolerance
            r1.weights cuts_length r1.cuts
        else Outcome.ok ⟨r1.weights, r1.cuts, []⟩) =
          Outcome.ok r2 ∧ AllZero r2.weights ∧
          (∀ q, q ≤ (p_end + p_first) / 2 →
            r2.cuts.getD q (root MaxDepth) = r1.cuts.getD q (root MaxDepth)) ∧
          CutsIncreasing depth r2.cuts ((p_end + p_first) / 2) p_end ((hi + lo) / 2) hi := by
      by_cases hc : (p_end + p_first) / 2 + 1 < p_end
      · rw [if_pos hc]
        obtain ⟨r2, e, z, g⟩ := ih ((p_end + p_first) / 2) p_end ((hi + lo) / 2) hi r1.weights
          r1.cuts z1 (by omega) (by omega) hpe len1
          (by rw [up1]; exact kw) (by rw [up1]; exact kd) (by rw [up1]; exact ko)
          (by rw [end1]; exact hhi) hhs (by omega)
        obtain ⟨-, ff, -⟩ := oct_tree_partition_private_frame _ _ _ _ _ _ _ _ r2 (by omega) e
        exact ⟨r2, e, z, fun q hq => ff q (Or.inl hq), g⟩
      · rw [if_neg hc]
        refine ⟨_, rfl, z1, fun _ _ => rfl, ?_⟩
        intro q hq1 hq2
        have : q = (p_end + p_first) / 2 := by omega
        subst this
        simp only [up1]
        refine ⟨kw, kd, by omega, by omega, ?_⟩
        intro q2 h1 h2
        omega
    obtain ⟨r2, e2, z2, f2, g2⟩ := hupper
    refine ⟨⟨r2.weights, r2.cuts, (p_end + p_first) / 2 :: (r1.assigned ++ r2.assigned)⟩,
      ?_, z2, ?_⟩
    · rw [oct_tree_partition_private]
      simp only [hhi, hw1, hpart, e1, e2]
    · show CutsIncreasing depth r2.cuts p_first p_end lo hi
      intro q hq1 hq2
      by_cases hq : q < (p_end + p_first) / 2
      · obtain ⟨a, b, c, d, e⟩ := g1 q hq1 hq
        simp only [f2 q (by omega)]
        refine ⟨a, b, c, by omega, ?_⟩
        intro q2 h1 h2
        by_cases hq' : q2 < (p_end + p_first) / 2
        · rw [f2 q2 (by omega)]
          exact e q2 h1 hq'
        · obtain ⟨-, -, c2, -, -⟩ := g2 q2 (by omega) h2
          omega
      · obtain ⟨a, b, c, d, e⟩ := g2 q (by omega) hq2
        refine ⟨a, b, by omega, d, ?_⟩
        intro q2 h1 h2
        exact e q2 h1 h2

/-! ## The cuts of the whole process range -/

theorem oct_tree_partition_private_length {MaxDepth : Nat} (fuel P depth : Nat) (tolerance : ℚ)
    (weights : Weights) (cuts : List (OctTreeKey MaxDepth)) (hP : 1 ≤ P)
    (r : PartitionResult MaxDepth)
    (h : oct_tree_partition_private fuel 0 P depth tolerance weights P cuts = Outcome.ok r) :
    r.cuts.length = cuts.length := by
  by_cases h2 : 2 ≤ P
  · exact (oct_tree_partition_private_frame fuel 0 P depth tolerance weights P cuts r
      (by omega) h).1
  · have : P = 1 := by omega
    subst this
    cases fuel with
    | zero => simp [oct_tree_partition_private] at h
    | succ fuel =>
      rw [oct_tree_partition_private] at h
      simp only [] at h
      split at h
      · cases h
      · cases h
      · simp only [Nat.lt_irrefl, if_false, Nat.reduceAdd, Nat.reduceDiv,
          Nat.not_lt_zero, Nat.reduceLT, Outcome.ok.injEq] at h
        subst h
        exact List.length_set _ _ _

theorem zero_weights_all_zero : AllZero zero_weights := by
  intro idx
  simp only [zero_weights, Weights.at]
  rw [List.getD_eq_getElem?_getD]
  by_cases h : idx < 18
  · interval_cases idx <;> rfl
  · rw [List.getElem?_eq_none (by simp; omega)]
    rfl

/-- C1 fails on the code: with three processes on the tree of depth `2`, tolerance `1/10`,
own weight `1` on the leaf `(4,1)` and `2` on the node `(6)`, the call returns the cuts
`root, (5), (4,8)`. The search for `cuts[2]` starts at the key `(5)`, at the offset `37`,
descends into the node `(6)` with the first key reset to the root, finds no weight below it
and falls back to the middle of the offsets `0` and `73` instead of `37` and `73`: the
offset `36` of the leaf `(4,8)`. The cuts are not in key order: `cuts[2] < cuts[1]`. The run
is the same with exact sums and in IEEE arithmetic. -/
theorem oct_tree_partition_private_cuts_unsorted :
    oct_tree_partition_private 3 0 3 2 (1 / 10) two_node_weights 3 [root 2, root 2, root 2] =
      Outcome.ok ⟨(two_node_weights.set 1 2).set 57 1,
        [root 2, key_of_digits 2 [5], key_of_digits 2 [4, 8]], [1, 2]⟩ ∧
    ieee.oct_tree_partition_private 7 3 0 3 2 (to_double (1 / 10))
        (ieee.of_rationals two_node_weights) 3 [root 2, root 2, root 2] =
      Outcome.ok ⟨ieee.of_rationals ((two_node_weights.set 1 2).set 57 1),
        [root 2, key_of_digits 2 [5], key_of_digits 2 [4, 8]]⟩ ∧
    oct_tree_offset 2 (key_of_digits 2 [5]) = 37 ∧
    oct_tree_offset 2 (key_of_digits 2 [4, 8]) = 36 ∧
    key_of_digits 2 [4, 8] < key_of_digits 2 [5] ∧
    ¬ (key_of_digits 2 [5] < key_of_digits 2 [4, 8]) := by
  refine ⟨by decide!, by decide!, by decide, by decide, by decide, by decide⟩

/-! ## The offset/key bijection -/

theorem all_zero_eq_replicate : ∀ ds : List Nat, ds.all (fun x => x == 0) = true →
    ds = List.replicate ds.length 0
  | [], _ => rfl
  | d :: ds, h => by
    simp only [List.all_cons, Bool.and_eq_true, beq_iff_eq] at h
    rw [List.length_cons, List.replicate_succ, h.1, ← all_zero_eq_replicate ds h.2]

theorem all_zero_ext (ds1 ds2 : List Nat) (hl : ds1.length = ds2.length)
    (h1 : ds1.all (fun x => x == 0) = true) (h2 : ds2.all (fun x => x == 0) = true) :
    ds1 = ds2 := by
  rw [all_zero_eq_replicate ds1 h1, all_zero_eq_replicate ds2 h2, hl]

/-- Two nodes of the tree with the same offset are the same node. -/
theorem offset_of_digits_inj : ∀ (depth : Nat) (ds1 ds2 : List Nat),
    ds1.length = ds2.length → wf_digits ds1 = true → wf_digits ds2 = true →
    ds1.countP (fun d => d != 0) ≤ depth → ds2.countP (fun d => d != 0) ≤ depth →
    offset_of_digits depth ds1 = offset_of_digits depth ds2 → ds1 = ds2
  | _, [], [], _, _, _, _, _, _ => rfl
  | _, [], _ :: _, hl, _, _, _, _, _ => by simp at hl
  | _, _ :: _, [], hl, _, _, _, _, _ => by simp at hl
  | 0, x :: xs, y :: ys, hl, h1, h2, c1, c2, _ => by
    have hx : x = 0 := by
      by_contra hx
      rw [List.countP_cons] at c1; simp [hx] at c1
    have hy : y = 0 := by
      by_contra hy
      rw [List.countP_cons] at c2; simp [hy] at c2
    simp only [wf_digits, hx, hy, if_true] at h1 h2
    simp only [List.length_cons, add_left_inj] at hl
    rw [hx, hy, all_zero_ext xs ys hl h1 h2]
  | depth + 1, x :: xs, y :: ys, hl, h1, h2, c1, c2, h => by
    simp only [List.length_cons, add_left_inj] at hl
    by_cases hx : x = 0
    · have hy : y = 0 := by
        by_contra hy
        simp only [offset_of_digits, hx, hy, if_true, if_false] at h
        omega
      simp only [wf_digits, hx, hy, if_true] at h1 h2
      rw [hx, hy, all_zero_ext xs ys hl h1 h2]
    · have hy : y ≠ 0 := by
        intro hy
        simp only [offset_of_digits, hx, hy, if_true, if_false] at h
        omega
      simp only [wf_digits, hx, hy, if_false, Bool.and_eq_true, decide_eq_true_eq] at h1 h2
      simp only [offset_of_digits, hx, hy, if_false] at h
      have c1' : xs.countP (fun d => d != 0) ≤ depth := by
        rw [List.countP_cons] at c1; simp [hx] at c1; exact c1
      have c2' : ys.countP (fun d => d != 0) ≤ depth := by
        rw [List.countP_cons] at c2; simp [hy] at c2; exact c2
      have b1 := offset_of_digits_lt depth xs h1.2
      have b2 := offset_of_digits_lt depth ys h2.2
      have hxy : x = y := by
        rcases Nat.lt_trichotomy x y with hlt | heq | hgt
        · exfalso
          have : (x - 1) * oct_tree_size depth + oct_tree_size depth ≤
              (y - 1) * oct_tree_size depth := by
            calc (x - 1) * oct_tree_size depth + oct_tree_size depth
                = ((x - 1) + 1) * oct_tree_size depth := by ring
              _ ≤ (y - 1) * oct_tree_size depth := Nat.mul_le_mul_right _ (by omega)
          omega
        · exact heq
        · exfalso
          have : (y - 1) * oct_tree_size depth + oct_tree_size depth ≤
              (x - 1) * oct_tree_size depth := by
            calc (y - 1) * oct_tree_size depth + oct_tree_size depth
                = ((y - 1) + 1) * oct_tree_size depth := by ring
              _ ≤ (x - 1) * oct_tree_size depth := Nat.mul_le_mul_right _ (by omega)
          omega
      subst hxy
      rw [offset_of_digits_inj depth xs ys hl h1.2 h2.2 c1' c2' (by omega)]

theorem oct_tree_offset_inj {MaxDepth : Nat} (depth : Nat) (a b : OctTreeKey MaxDepth)
    (ha : a.WellFormed) (hb : b.WellFormed) (hda : a.depth ≤ depth) (hdb : b.depth ≤ depth)
    (h : oct_tree_offset depth a = oct_tree_offset depth b) : a = b := by
  have := offset_of_digits_inj depth a.digits b.digits (by rw [a.length_eq, b.length_eq])
    ha hb hda hdb h
  cases a; cases b
  simp only at this
  subst this
  rfl

theorem oct_tree_offset_lt {MaxDepth : Nat} (depth : Nat) (k : OctTreeKey MaxDepth)
    (hk : k.WellFormed) : oct_tree_offset depth k < oct_tree_size depth :=
  offset_of_digits_lt depth k.digits hk

/-- C20: for every depth `d ≤ MaxDepth` whose tree size fits the `unsigned` offsets, the key
that `calculate_key_using_offset(d, o)` produces for an offset `o < oct_tree_size(d)` is a
well-formed key of depth at most `d` with `oct_tree_offset(d, key) = o`, and every well-formed
key `k` of depth at most `d` is the key produced for its own offset. -/
theorem calculate_key_using_offset_bijection (MaxDepth depth : Nat) (hm : depth ≤ MaxDepth)
    (h32 : oct_tree_size depth ≤ 2 ^ 32) :
    (∀ o, o < oct_tree_size depth →
      (calculate_key_using_offset MaxDepth depth o).WellFormed ∧
      (calculate_key_using_offset MaxDepth depth o).depth ≤ depth ∧
      oct_tree_offset depth (calculate_key_using_offset MaxDepth depth o) = o) ∧
    (∀ k : OctTreeKey MaxDepth, k.WellFormed → k.depth ≤ depth →
      calculate_key_using_offset MaxDepth depth (oct_tree_offset depth k) = k) := by
  refine ⟨fun o ho => calculate_key_using_offset_spec MaxDepth depth hm h32 o ho, ?_⟩
  intro k hk hd
  obtain ⟨a, b, c⟩ := calculate_key_using_offset_spec MaxDepth depth hm h32
    (oct_tree_offset depth k) (oct_tree_offset_lt depth k hk)
  exact oct_tree_offset_inj depth _ k a hk b hd c

/-- The hypotheses of C20 hold for the tree of depth `2` in keys of `3` levels: the offset
`13` decodes to the key `(2, 3)` and back. -/
theorem calculate_key_using_offset_bijection_witness :
    2 ≤ 3 ∧ oct_tree_size 2 ≤ 2 ^ 32 ∧
    calculate_key_using_offset 3 2 13 = key_of_digits 3 [2, 3] ∧
    oct_tree_offset 2 (calculate_key_using_offset 3 2 13) = 13 ∧
    calculate_key_using_offset 3 2 (oct_tree_offset 2 (key_of_digits 3 [2, 3])) =
      key_of_digits 3 [2, 3] :=
  ⟨by decide, by decide, by decide,
    ((calculate_key_using_offset_bijection 3 2 (by decide) (by decide)).1 13 (by decide)).2.2,
    (calculate_key_using_offset_bijection 3 2 (by decide) (by decide)).2
      (key_of_digits 3 [2, 3]) (by decide) (by decide)⟩

/-! ## Process ranges of size one -/

/-- One round of the normalization: the pair of bounds appended for the axis, the growth of
`unit_size` and the flag. -/
theorem unit_box_axis_spec (global_box small_box : Nat → ℚ) (scale : ℚ) (st : UnitBox)
    (i : Nat) (h0 : 0 ≤ st.unit_size) :
    ∃ l u, (unit_box_axis global_box small_box scale st i).ubox_low = st.ubox_low ++ [l] ∧
      (unit_box_axis global_box small_box scale st i).ubox_up = st.ubox_up ++ [u] ∧
      float_epsilon ≤ l ∧ l ≤ u ∧
      st.unit_size ≤ (unit_box_axis global_box small_box scale st i).unit_size ∧
      u - l ≤ (unit_box_axis global_box small_box scale st i).unit_size ∧
      ((unit_box_axis global_box small_box scale st i).unit_size = st.unit_size ∨
        (unit_box_axis global_box small_box scale st i).unit_size = u - l ∧
          u ≤ 1 - float_epsilon) ∧
      (u ≤ 1 - float_epsilon ∨ (l = u ∧ u = (small_box i - global_box i) * scale)) ∧
      (small_box i = small_box (i + 3) → l = u ∧
        (unit_box_axis global_box small_box scale st i).unit_size = st.unit_size) ∧
      ((unit_box_axis global_box small_box scale st i).valid = true ↔
        st.valid = true ∧ axis_unclipped global_box small_box scale i) := by
  have he : float_epsilon ≤ 1 - float_epsilon := by unfold float_epsilon; norm_num
  by_cases h1 : small_box (i + 3) < global_box i
  · refine ⟨float_epsilon, float_epsilon, ?_⟩
    simp [unit_box_axis, h1, axis_unclipped, h0, he]
  by_cases h2 : global_box (i + 3) < small_box i
  · refine ⟨1 - float_epsilon, 1 - float_epsilon, ?_⟩
    simp [unit_box_axis, h1, h2, axis_unclipped, h0, he]
  obtain ⟨a, ha⟩ : ∃ a, (small_box i - global_box i) * scale = a := ⟨_, rfl⟩
  obtain ⟨b, hb⟩ : ∃ b, (small_box (i + 3) - global_box i) * scale = b := ⟨_, rfl⟩
  have hab : small_box i = small_box (i + 3) → a = b := fun hz => by rw [← ha, ← hb, hz]
  have hun : axis_unclipped global_box small_box scale i →
      True ∧ True ∧ float_epsilon ≤ a ∧ a ≤ b ∧ b ≤ 1 - float_epsilon := by
    intro h; unfold axis_unclipped at h; rw [ha, hb] at h
    exact ⟨trivial, trivial, h.2.2⟩
  rw [ha]
  by_cases h4 : a < float_epsilon <;> by_cases h5 : 1 - float_epsilon < b
  · -- both ends clamped
    have h3 : ¬ (1 - float_epsilon < float_epsilon) := not_lt.2 he
    have hval : unit_box_axis global_box small_box scale st i =
        ⟨st.ubox_low ++ [float_epsilon], st.ubox_up ++ [(1 - float_epsilon)],
          if st.unit_size < (1 - float_epsilon) - float_epsilon then
            (1 - float_epsilon) - float_epsilon else st.unit_size, false⟩ := by
      simp only [unit_box_axis, h1, h2, ha, hb, h4, h5, h3, if_true, if_false]
    refine ⟨float_epsilon, (1 - float_epsilon), ?_⟩
    rw [hval]
    refine ⟨rfl, rfl, le_refl _, he, ?_, ?_, ?_, Or.inl (le_refl _), ?_, ?_⟩
    · dsimp only
      split <;> [exact le_of_lt (by assumption); exact le_refl _]
    · dsimp only
      split <;> [exact le_refl _; exact le_of_not_lt (by assumption)]
    · dsimp only
      by_cases h6 : st.unit_size < (1 - float_epsilon) - float_epsilon
      · right; rw [if_pos h6]; exact ⟨rfl, le_refl _⟩
      · left; rw [if_neg h6]
    · intro hz
      have hab := hab hz
      dsimp only
      exfalso; rw [← hab] at h5; linarith
    · dsimp only
      constructor
      · intro h; cases h
      · intro h; exact absurd h4 (not_lt.2 (hun h.2).2.2.1)
  · -- the lower end clamped
    by_cases h3 : b < float_epsilon
    · have hval : unit_box_axis global_box small_box scale st i =
          ⟨st.ubox_low ++ [float_epsilon], st.ubox_up ++ [float_epsilon], st.unit_size, false⟩ := by
        simp only [unit_box_axis, h1, h2, ha, hb, h4, h5, h3, if_true, if_false]
      refine ⟨float_epsilon, float_epsilon, ?_⟩
      rw [hval]
      refine ⟨rfl, rfl, le_refl _, le_refl _, le_refl _, ?_, Or.inl rfl, Or.inl he,
        fun _ => ⟨rfl, rfl⟩, ?_⟩
      · rw [sub_self]; exact h0
      · constructor
        · intro h; cases h
        · intro h; exact absurd h4 (not_lt.2 (hun h.2).2.2.1)
    · have hval : unit_box_axis global_box small_box scale st i =
          ⟨st.ubox_low ++ [float_epsilon], st.ubox_up ++ [b],
            if st.unit_size < b - float_epsilon then
              b - float_epsilon else st.unit_size, false⟩ := by
        simp only [unit_box_axis, h1, h2, ha, hb, h4, h5, h3, if_true, if_false]
      refine ⟨float_epsilon, b, ?_⟩
      rw [hval]
      refine ⟨rfl, rfl, le_refl _, le_of_not_lt h3, ?_, ?_, ?_, Or.inl (le_of_not_lt h5), ?_, ?_⟩
      · dsimp only
        split <;> [exact le_of_lt (by assumption); exact le_refl _]
      · dsimp only
        split <;> [exact le_refl _; exact le_of_not_lt (by assumption)]
      · dsimp only
        by_cases h6 : st.unit_size < b - float_epsilon
        · right; rw [if_pos h6]; exact ⟨rfl, le_of_not_lt h5⟩
        · left; rw [if_neg h6]
      · intro hz
        have hab := hab hz
        dsimp only
        exfalso; rw [← hab] at h3; exact h3 h4
      · dsimp only
        constructor
        · intro h; cases h
        · intro h; exact absurd h4 (not_lt.2 (hun h.2).2.2.1)
  · -- the upper end clamped
    by_cases h3 : 1 - float_epsilon < a
    · have hval : unit_box_axis global_box small_box scale st i =
          ⟨st.ubox_low ++ [a], st.ubox_up ++ [a], st.unit_size, false⟩ := by
        simp only [unit_box_axis, h1, h2, ha, hb, h4, h5, h3, if_true, if_false]
      refine ⟨a, a, ?_⟩
      rw [hval]
      refine ⟨rfl, rfl, le_of_not_lt h4, le_refl _, le_refl _, ?_, Or.inl rfl, Or.inr ⟨rfl, rfl⟩,
        fun _ => ⟨rfl, rfl⟩, ?_⟩
      · rw [sub_self]; exact h0
      · constructor
        · intro h; cases h
        · intro h; exact absurd h5 (not_lt.2 (hun h.2).2.2.2.2)
    · have hval : unit_box_axis global_box small_box scale st i =
          ⟨st.ubox_low ++ [a], st.ubox_up ++ [(1 - float_epsilon)],
            if st.unit_size < (1 - float_epsilon) - a then
              (1 - float_epsilon) - a else st.unit_size, false⟩ := by
        simp only [unit_box_axis, h1, h2, ha, hb, h4, h5, h3, if_true, if_false]
      refine ⟨a, (1 - float_epsilon), ?_⟩
      rw [hval]
      refine ⟨rfl, rfl, le_of_not_lt h4, le_of_not_lt h3, ?_, ?_, ?_, Or.inl (le_refl _), ?_, ?_⟩
      · dsimp only
        split <;> [exact le_of_lt (by assumption); exact le_refl _]
      · dsimp only
        split <;> [exact le_refl _; exact le_of_not_lt (by assumption)]
      · dsimp only
        by_cases h6 : st.unit_size < (1 - float_epsilon) - a
        · right; rw [if_pos h6]; exact ⟨rfl, le_refl _⟩
        · left; rw [if_neg h6]
      · intro hz
        have hab := hab hz
        dsimp only
        exfalso; rw [← hab] at h5; exact h3 h5
      · dsimp only
        constructor
        · intro h; cases h
        · intro h; exact absurd h5 (not_lt.2 (hun h.2).2.2.2.2)
  · -- no end clamped
    by_cases h3 : b < a
    · have hval : unit_box_axis global_box small_box scale st i =
          ⟨st.ubox_low ++ [a], st.ubox_up ++ [a], st.unit_size, false⟩ := by
        simp only [unit_box_axis, h1, h2, ha, hb, h4, h5, h3, if_true, if_false]
      refine ⟨a, a, ?_⟩
      rw [hval]
      refine ⟨rfl, rfl, le_of_not_lt h4, le_refl _, le_refl _, ?_, Or.inl rfl, Or.inr ⟨rfl, rfl⟩,
        fun _ => ⟨rfl, rfl⟩, ?_⟩
      · rw [sub_self]; exact h0
      · constructor
        · intro h; cases h
        · intro h; exact absurd h3 (not_lt.2 (hun h.2).2.2.2.1)
    · have hval : unit_box_axis global_box small_box scale st i =
          ⟨st.ubox_low ++ [a], st.ubox_up ++ [b],
            if st.unit_size < b - a then b - a else st.unit_size, st.valid⟩ := by
        simp only [unit_box_axis, h1, h2, ha, hb, h4, h5, h3, if_true, if_false]
      refine ⟨a, b, ?_⟩
      rw [hval]
      refine ⟨rfl, rfl, le_of_not_lt h4, le_of_not_lt h3, ?_, ?_, ?_,
        Or.inl (le_of_not_lt h5), ?_, ?_⟩
      · dsimp only
        split <;> [exact le_of_lt (by assumption); exact le_refl _]
      · dsimp only
        split <;> [exact le_refl _; exact le_of_not_lt (by assumption)]
      · dsimp only
        by_cases h6 : st.unit_size < b - a
        · right; rw [if_pos h6]; exact ⟨rfl, le_of_not_lt h5⟩
        · left; rw [if_neg h6]
      · intro hz
        have hab := hab hz
        dsimp only
        rw [← hab, sub_self, if_neg (not_lt.2 h0)]
        exact ⟨rfl, rfl⟩
      · dsimp only
        constructor
        · intro h
          refine ⟨h, ?_⟩
          unfold axis_unclipped
          rw [ha, hb]
          exact ⟨h1, h2, le_of_not_lt h4, le_of_not_lt h3, le_of_not_lt h5⟩
        · intro h; exact h.1

/-- What the normalization loop leaves: on every axis the bounds are ordered and at least
`eps`, their distance is at most `unit_size`, and the upper bound is at most `1 - eps` unless
the axis is a point at a normalized lower end beyond `1 - eps`. -/
theorem unit_box_spec (global_box small_box : Nat → ℚ) (scale : ℚ) :
    0 ≤ (unit_box global_box small_box scale).unit_size ∧
    (unit_box global_box small_box scale).unit_size ≤ 1 - float_epsilon - float_epsilon ∧
    ((unit_box global_box small_box scale).valid = true ↔
      ∀ i, i < 3 → axis_unclipped global_box small_box scale i) ∧
    ((∀ i, i < 3 → small_box i = small_box (i + 3)) →
      (unit_box global_box small_box scale).unit_size = 0) ∧
    ∀ i, i < 3 →
      float_epsilon ≤ (unit_box global_box small_box scale).ubox_low.getD i 0 ∧
      (unit_box global_box small_box scale).ubox_low.getD i 0 ≤
        (unit_box global_box small_box scale).ubox_up.getD i 0 ∧
      (unit_box global_box small_box scale).ubox_up.getD i 0 -
          (unit_box global_box small_box scale).ubox_low.getD i 0 ≤
        (unit_box global_box small_box scale).unit_size ∧
      ((unit_box global_box small_box scale).ubox_up.getD i 0 ≤ 1 - float_epsilon ∨
        ((unit_box global_box small_box scale).ubox_low.getD i 0 =
            (unit_box global_box small_box scale).ubox_up.getD i 0 ∧
          (unit_box global_box small_box scale).ubox_up.getD i 0 =
            (small_box i - global_box i) * scale)) ∧
      (small_box i = small_box (i + 3) →
        (unit_box global_box small_box scale).ubox_low.getD i 0 =
          (unit_box global_box small_box scale).ubox_up.getD i 0) := by
  unfold unit_box
  simp only [List.foldl]
  obtain ⟨l0, u0, hl0, hu0, e0, o0, g0, d0, f0, b0, z0, v0⟩ :=
    unit_box_axis_spec global_box small_box scale ⟨[], [], 0, true⟩ 0 (le_refl _)
  generalize unit_box_axis global_box small_box scale ⟨[], [], 0, true⟩ 0 = st0 at *
  obtain ⟨l1, u1, hl1, hu1, e1, o1, g1, d1, f1, b1, z1, v1⟩ :=
    unit_box_axis_spec global_box small_box scale st0 1 (le_trans (le_refl _) g0)
  generalize unit_box_axis global_box small_box scale st0 1 = st1 at *
  obtain ⟨l2, u2, hl2, hu2, e2, o2, g2, d2, f2, b2, z2, v2⟩ :=
    unit_box_axis_spec global_box small_box scale st1 2 (le_trans (le_trans (le_refl _) g0) g1)
  generalize unit_box_axis global_box small_box scale st1 2 = st2 at *
  simp only [] at g0 d0 f0 z0 v0
  have hlow : st2.ubox_low = [l0, l1, l2] := by rw [hl2, hl1, hl0]; rfl
  have hup : st2.ubox_up = [u0, u1, u2] := by rw [hu2, hu1, hu0]; rfl
  have h00 : (0 : ℚ) ≤ st0.unit_size := g0
  have h01 : (0 : ℚ) ≤ st1.unit_size := le_trans h00 g1
  have h02 : (0 : ℚ) ≤ st2.unit_size := le_trans h01 g2
  have hs0 : st0.unit_size ≤ 1 - float_epsilon - float_epsilon := by
    rcases f0 with h | ⟨h, hb⟩
    · rw [h]; unfold float_epsilon; norm_num
    · rw [h]; linarith
  have hs1 : st1.unit_size ≤ 1 - float_epsilon - float_epsilon := by
    rcases f1 with h | ⟨h, hb⟩
    · rw [h]; exact hs0
    · rw [h]; linarith
  have hs2 : st2.unit_size ≤ 1 - float_epsilon - float_epsilon := by
    rcases f2 with h | ⟨h, hb⟩
    · rw [h]; exact hs1
    · rw [h]; linarith
  refine ⟨h02, hs2, ?_, ?_, ?_⟩
  · rw [v2, v1, v0]
    constructor
    · rintro ⟨⟨⟨-, a0⟩, a1⟩, a2⟩ i hi
      interval_cases i
      · exact a0
      · exact a1
      · exact a2
    · intro h
      exact ⟨⟨⟨trivial, h 0 (by norm_num)⟩, h 1 (by norm_num)⟩, h 2 (by norm_num)⟩
  · intro hz
    rw [(z2 (hz 2 (by norm_num))).2, (z1 (hz 1 (by norm_num))).2, (z0 (hz 0 (by norm_num))).2]
  · intro i hi
    rw [hlow, hup]
    interval_cases i
    · simp only [List.getD_cons_zero]
      exact ⟨e0, o0, by linarith, b0, fun h => (z0 h).1⟩
    · simp only [List.getD_cons_succ, List.getD_cons_zero]
      exact ⟨e1, o1, by linarith, b1, fun h => (z1 h).1⟩
    · simp only [List.getD_cons_succ, List.getD_cons_zero]
      exact ⟨e2, o2, d2, b2, fun h => (z2 h).1⟩

/-! ## Box covering: the depth -/

/-- The helper `log2` computes the position of the highest set bit of a 32-bit value. -/
theorem log2_spec (x : Nat) (h1 : 1 ≤ x) (h32 : x < 2 ^ 32) :
    2 ^ log2 x ≤ x ∧ x < 2 ^ (log2 x + 1) := by
  unfold log2
  simp only []
  split_ifs <;> simp only [Nat.zero_or, Nat.reduceOr, Nat.reducePow, Nat.reduceAdd] at * <;> omega

theorem log2_zero : log2 0 = 0 := by decide

/-- The integer part of the inverse of an extent in `(0, 1]`. -/
theorem inverse_floor (e : ℚ) (h0 : 0 < e) (h1 : e ≤ 1) :
    1 ≤ (1 / e).floor.toNat ∧ (((1 / e).floor.toNat : Nat) : ℚ) ≤ 1 / e ∧
    1 / e < (((1 / e).floor.toNat : Nat) : ℚ) + 1 := by
  rw [rat_floor_eq]
  have hinv : (1 : ℚ) ≤ 1 / e := by rw [le_div_iff₀ h0]; linarith
  have hfl : (1 : ℤ) ≤ ⌊1 / e⌋ := Int.le_floor.2 (by exact_mod_cast hinv)
  have hcast : ((⌊1 / e⌋.toNat : Nat) : ℚ) = ((⌊1 / e⌋ : ℤ) : ℚ) := by
    have : ((⌊1 / e⌋.toNat : Nat) : ℤ) = ⌊1 / e⌋ := Int.toNat_of_nonneg (by omega)
    exact_mod_cast congrArg (fun z : ℤ => (z : ℚ)) this
  refine ⟨by omega, ?_, ?_⟩
  · rw [hcast]; exact Int.floor_le _
  · rw [hcast]; exact Int.lt_floor_add_one _

/-- At the depth chosen for a largest extent `e`, a cell is at least as long as `e`. -/
theorem covering_depth_cell (MaxDepth : Nat) (e : ℚ) (h0 : 0 ≤ e) (h1 : e ≤ 1) :
    e * 2 ^ covering_depth MaxDepth e ≤ 1 := by
  rcases eq_or_lt_of_le h0 with h | hpos
  · rw [← h, zero_mul]; exact zero_le_one
  obtain ⟨hn1, hn2, -⟩ := inverse_floor e hpos h1
  have key : ∀ d : Nat, ((2 : ℚ) ^ d ≤ 1 / e) → e * 2 ^ d ≤ 1 := by
    intro d hd
    have := mul_le_mul_of_nonneg_left hd (le_of_lt hpos)
    rwa [mul_one_div_cancel (ne_of_gt hpos)] at this
  have hle : ∀ d : Nat, d ≤ log2 (to_unsigned (1 / e)) → e * 2 ^ d ≤ 1 := by
    intro d hd
    apply key
    unfold to_unsigned at hd
    generalize (1 / e).floor.toNat = n at hn1 hn2 hd
    by_cases hm : n % 2 ^ 32 = 0
    · rw [hm, log2_zero] at hd
      have : d = 0 := by omega
      subst this
      rw [pow_zero]
      calc (1 : ℚ) ≤ (n : ℚ) := by exact_mod_cast hn1
        _ ≤ 1 / e := hn2
    · have hs := (log2_spec (n % 2 ^ 32) (by omega) (Nat.mod_lt _ (by norm_num))).1
      have h2 : 2 ^ d ≤ n := by
        calc 2 ^ d ≤ 2 ^ log2 (n % 2 ^ 32) := Nat.pow_le_pow_right (by norm_num) hd
          _ ≤ n % 2 ^ 32 := hs
          _ ≤ n := Nat.mod_le _ _
      calc ((2 : ℚ) ^ d) ≤ (n : ℚ) := by exact_mod_cast h2
        _ ≤ 1 / e := hn2
  unfold covering_depth
  rw [if_pos hpos]
  simp only []
  split
  · rename_i hgt
    exact hle _ (le_of_lt hgt)
  · exact hle _ (le_refl _)

/-- The depth chosen for a largest extent `e` in `(0, 1]` whose inverse fits the `unsigned`
type: the level `d` with `2^-(d+1) < e ≤ 2^-d`, clamped to `MaxDepth`. -/
theorem covering_depth_eq (MaxDepth : Nat) (e : ℚ) (h0 : 0 < e) (h1 : e ≤ 1)
    (h32 : 1 / e < 2 ^ 32) :
    ∃ d : Nat, e ≤ 1 / 2 ^ d ∧ 1 / 2 ^ (d + 1) < e ∧ covering_depth MaxDepth e = min d MaxDepth := by
  obtain ⟨hn1, hn2, hn3⟩ := inverse_floor e h0 h1
  have hun : to_unsigned (1 / e) = (1 / e).floor.toNat := by
    unfold to_unsigned
    apply Nat.mod_eq_of_lt
    have : (((1 / e).floor.toNat : Nat) : ℚ) < ((2 ^ 32 : Nat) : ℚ) := by
      push_cast; exact lt_of_le_of_lt hn2 h32
    exact_mod_cast this
  have hlt : (1 / e).floor.toNat < 2 ^ 32 := by
    have : (((1 / e).floor.toNat : Nat) : ℚ) < ((2 ^ 32 : Nat) : ℚ) := by
      push_cast; exact lt_of_le_of_lt hn2 h32
    exact_mod_cast this
  generalize (1 / e).floor.toNat = n at hn1 hn2 hn3 hun hlt
  obtain ⟨hs1, hs2⟩ := log2_spec n hn1 hlt
  refine ⟨log2 n, ?_, ?_, ?_⟩
  · have hp : (0 : ℚ) < 2 ^ log2 n := by positivity
    rw [le_div_iff₀ hp]
    have : ((2 : ℚ) ^ log2 n) ≤ 1 / e :=
      le_trans (by exact_mod_cast hs1) hn2
    have := mul_le_mul_of_nonneg_left this (le_of_lt h0)
    rwa [mul_one_div_cancel (ne_of_gt h0)] at this
  · have hp : (0 : ℚ) < 2 ^ (log2 n + 1) := by positivity
    rw [div_lt_iff₀ hp]
    have h3 : 1 / e < (2 : ℚ) ^ (log2 n + 1) := by
      have : (n : ℚ) + 1 ≤ (2 : ℚ) ^ (log2 n + 1) := by exact_mod_cast hs2
      exact lt_of_lt_of_le hn3 this
    have := mul_lt_mul_of_pos_left h3 h0
    rwa [mul_one_div_cancel (ne_of_gt h0)] at this
  · unfold covering_depth
    rw [if_pos h0, hun]
    simp only []
    split <;> omega

/-! ## Box covering: the claim on the depth -/

/-- C12 as stated fails: for the box `[1/4, 5/8]^3` in the unit cube the largest extent is
`3/8`; the smallest depth whose cell size is at most `3/8` is `2` (cell size `1/4`, while
`1/2` is larger than `3/8`), but the depth chosen is `1`. -/
theorem covering_depth_counterexample :
    (unit_box unit_cube three_eighths_box 1).unit_size = 3 / 8 ∧
    covering_depth 3 (unit_box unit_cube three_eighths_box 1).unit_size = 1 ∧
    ¬ ((1 : ℚ) / 2 ^ 1 ≤ 3 / 8) ∧ (1 : ℚ) / 2 ^ 2 ≤ 3 / 8 ∧ 2 ≤ 3 := by
  decide!

/-- C12, amended: for every small box whose largest normalized extent `e` (`unit_size`) is
positive and has an inverse that fits the `unsigned` type (`1 / e < 2^32`), the depth used by
`hsfc_box_covering` is the largest depth `d` whose cell size `2^-d` is at least `e`
(`2^-(d+1) < e ≤ 2^-d`), clamped to `MaxDepth`: it is the depth every returned key is encoded
at. -/
theorem covering_depth_largest {MaxDepth : Nat} (global_box small_box : Nat → ℚ) (scale : ℚ)
    (h0 : 0 < (unit_box global_box small_box scale).unit_size)
    (h32 : 1 / (unit_box global_box small_box scale).unit_size < 2 ^ 32) :
    ∃ d : Nat, (unit_box global_box small_box scale).unit_size ≤ 1 / 2 ^ d ∧
      1 / 2 ^ (d + 1) < (unit_box global_box small_box scale).unit_size ∧
      covering_depth MaxDepth (unit_box global_box small_box scale).unit_size = min d MaxDepth ∧
      ∀ (hsfc3d : Nat → List Nat → OctTreeKey MaxDepth) (r : BoxCovering MaxDepth),
        hsfc_box_covering hsfc3d global_box small_box scale = some r →
        ∃ corners : List (List Nat), r.covering = corners.map (hsfc3d (min d MaxDepth)) := by
  obtain ⟨-, hs, -⟩ := unit_box_spec global_box small_box scale
  have he : (0 : ℚ) < float_epsilon := float_epsilon_pos
  obtain ⟨d, a, b, c⟩ := covering_depth_eq MaxDepth _ h0 (by linarith) h32
  refine ⟨d, a, b, c, ?_⟩
  intro hsfc3d r hr
  obtain ⟨a0, a1, a2, b0, b1, b2, -, hcov, -⟩ :=
    covering_corners hsfc3d global_box small_box scale r hr
  rw [c] at hcov
  exact ⟨_, hcov⟩

/-- The hypotheses of the amended C12 hold for the box `[1/4, 5/8]^3` in the unit cube: its
extent `3/8` lies in `(1/4, 1/2]` and the depth is `1`. -/
theorem covering_depth_largest_witness :
    0 < (unit_box unit_cube three_eighths_box 1).unit_size ∧
    1 / (unit_box unit_cube three_eighths_box 1).unit_size < 2 ^ 32 ∧
    ∃ d : Nat, (unit_box unit_cube three_eighths_box 1).unit_size ≤ 1 / 2 ^ d ∧
      1 / 2 ^ (d + 1) < (unit_box unit_cube three_eighths_box 1).unit_size ∧
      covering_depth 3 (unit_box unit_cube three_eighths_box 1).unit_size = min d 3 :=
  ⟨by decide!, by decide!,
    match @covering_depth_largest 3 unit_cube three_eighths_box 1 (by decide!)
      (by decide!) with
    | ⟨d, a, b, c, _⟩ => ⟨d, a, b, c⟩⟩

/-! ## Box covering: when the consistency check passes -/

/-- The consistency check of an axis passes when the bounds are at most one cell apart and
the cell coordinates fit the word. -/
theorem cell_axis_some (depth : Nat) (hd : depth < 32) (l u : ℚ) (hl : 0 ≤ l) (hlu : l ≤ u)
    (hcell : (u - l) * 2 ^ depth ≤ 1)
    (hu : u < 1 ∨ (l = u ∧ u * 2 ^ depth < 2 ^ 32 - 1)) :
    ∃ a b, cell_axis depth l u = some (a, b) ∧ (l = u → a = b) := by
  have hp : 2 ^ depth < 2 ^ 32 := Nat.pow_lt_pow_right (by norm_num) hd
  by_cases hlt : u < 1
  · have hl1 : l < 1 := lt_of_le_of_lt hlu hlt
    have h1 := cell_coordinate_lt depth l hl1
    have hstep : cell_coordinate depth u ≤ cell_coordinate depth l + 1 := by
      unfold cell_coordinate
      rw [rat_floor_eq, rat_floor_eq]
      have h2 : (0 : ℚ) ≤ 2 ^ depth := by positivity
      have hf : ⌊u * 2 ^ depth⌋ ≤ ⌊l * 2 ^ depth⌋ + 1 := by
        rw [← Int.floor_add_one]
        apply Int.floor_mono
        linarith
      have hnn : 0 ≤ ⌊l * 2 ^ depth⌋ := Int.floor_nonneg.2 (mul_nonneg hl h2)
      omega
    unfold cell_axis
    simp only [to_unsigned_cell depth hd l hl1, to_unsigned_cell depth hd u hlt]
    rw [Nat.mod_eq_of_lt (by omega : cell_coordinate depth l + 1 < 2 ^ 32),
      if_neg (by omega)]
    refine ⟨_, _, rfl, ?_⟩
    intro h
    rw [h]
  · rcases hu with h | ⟨h, hb⟩
    · exact absurd h hlt
    · subst h
      unfold cell_axis
      simp only []
      have hc : to_unsigned (l * ((2 ^ depth % 2 ^ 32 : Nat) : ℚ)) < 2 ^ 32 - 1 := by
        unfold to_unsigned
        rw [Nat.mod_eq_of_lt hp, rat_floor_eq]
        push_cast
        have hf : ⌊l * 2 ^ depth⌋ < ((2 ^ 32 - 1 : Nat) : ℤ) := by
          apply Int.floor_lt.2
          push_cast
          have e : (2 : ℚ) ^ 32 - 1 = 4294967295 := by norm_num
          rw [← e]
          exact hb
        have : ⌊l * 2 ^ depth⌋.toNat < 2 ^ 32 - 1 := by omega
        rw [Nat.mod_eq_of_lt (by omega)]
        exact this
      generalize to_unsigned (l * ((2 ^ depth % 2 ^ 32 : Nat) : ℚ)) = c at hc
      rw [Nat.mod_eq_of_lt (by omega : c + 1 < 2 ^ 32), if_neg (by omega)]
      exact ⟨_, _, rfl, fun _ => rfl⟩

theorem cell_coords_of_axes (depth : Nat) (ub : UnitBox) (a0 a1 a2 b0 b1 b2 : Nat)
    (h0 : cell_axis depth (ub.ubox_low.getD 0 0) (ub.ubox_up.getD 0 0) = some (a0, b0))
    (h1 : cell_axis depth (ub.ubox_low.getD 1 0) (ub.ubox_up.getD 1 0) = some (a1, b1))
    (h2 : cell_axis depth (ub.ubox_low.getD 2 0) (ub.ubox_up.getD 2 0) = some (a2, b2)) :
    cell_coords depth ub = some ([a0, a1, a2], [b0, b1, b2]) := by
  simp only [cell_coords, List.foldl, h0, h1, h2, List.nil_append, List.cons_append]

/-- The call returns when every axis either ends below `1` or is a point whose cell
coordinate at depth `MaxDepth` does not reach the last value of the word. -/
theorem hsfc_box_covering_returns {MaxDepth : Nat} (hD : MaxDepth < BitsPerWord)
    (hsfc3d : Nat → List Nat → OctTreeKey MaxDepth) (global_box small_box : Nat → ℚ)
    (scale : ℚ)
    (H : ∀ i, i < 3 → (unit_box global_box small_box scale).ubox_up.getD i 0 < 1 ∨
      ((unit_box global_box small_box scale).ubox_low.getD i 0 =
          (unit_box global_box small_box scale).ubox_up.getD i 0 ∧
        (unit_box global_box small_box scale).ubox_up.getD i 0 * 2 ^ MaxDepth < 2 ^ 32 - 1)) :
    ∃ a0 a1 a2 b0 b1 b2 : Nat,
      (∀ i, i < 3 → (unit_box global_box small_box scale).ubox_low.getD i 0 =
          (unit_box global_box small_box scale).ubox_up.getD i 0 →
        [a0, a1, a2].getD i 0 = [b0, b1, b2].getD i 0) ∧
      hsfc_box_covering hsfc3d global_box small_box scale =
        some ⟨(unit_box global_box small_box scale).valid,
          (corner_coords [a0, a1, a2] [b0, b1, b2]).2,
          (corner_coords [a0, a1, a2] [b0, b1, b2]).1.map
            (hsfc3d (covering_depth MaxDepth
              (unit_box global_box small_box scale).unit_size))⟩ := by
  obtain ⟨hs0, hs1, -, -, hax⟩ := unit_box_spec global_box small_box scale
  have he : (0 : ℚ) < float_epsilon := float_epsilon_pos
  have hdle := covering_depth_le MaxDepth (unit_box global_box small_box scale).unit_size
  have hdepth : covering_depth MaxDepth (unit_box global_box small_box scale).unit_size < 32 :=
    lt_of_le_of_lt hdle hD
  have hcell := covering_depth_cell MaxDepth _ hs0 (by linarith)
  have haxis : ∀ i, i < 3 → ∃ a b,
      cell_axis (covering_depth MaxDepth (unit_box global_box small_box scale).unit_size)
        ((unit_box global_box small_box scale).ubox_low.getD i 0)
        ((unit_box global_box small_box scale).ubox_up.getD i 0) = some (a, b) ∧
      ((unit_box global_box small_box scale).ubox_low.getD i 0 =
        (unit_box global_box small_box scale).ubox_up.getD i 0 → a = b) := by
    intro i hi
    obtain ⟨e1, e2, e3, -, -⟩ := hax i hi
    have hpow : (0 : ℚ) < 2 ^ covering_depth MaxDepth
        (unit_box global_box small_box scale).unit_size := by positivity
    apply cell_axis_some _ hdepth _ _ (by linarith) e2
    · calc _ ≤ (unit_box global_box small_box scale).unit_size *
            2 ^ covering_depth MaxDepth (unit_box global_box small_box scale).unit_size :=
          mul_le_mul_of_nonneg_right e3 (le_of_lt hpow)
        _ ≤ 1 := hcell
    · rcases H i hi with h | ⟨h1, h2⟩
      · exact Or.inl h
      · refine Or.inr ⟨h1, lt_of_le_of_lt ?_ h2⟩
        apply mul_le_mul_of_nonneg_left _ (by linarith)
        exact pow_le_pow_right₀ (by norm_num) hdle
  obtain ⟨a0, b0, h0, z0⟩ := haxis 0 (by norm_num)
  obtain ⟨a1, b1, h1, z1⟩ := haxis 1 (by norm_num)
  obtain ⟨a2, b2, h2, z2⟩ := haxis 2 (by norm_num)
  refine ⟨a0, a1, a2, b0, b1, b2, ?_, ?_⟩
  · intro i hi hz
    interval_cases i
    · simpa using z0 hz
    · simpa using z1 hz
    · simpa using z2 hz
  · unfold hsfc_box_covering
    simp only [cell_coords_of_axes _ _ _ _ _ _ _ _ h0 h1 h2]

/-! ## Box covering: boxes of zero extent -/

theorem cell_axis_point (depth : Nat) (l : ℚ) (a b : Nat)
    (h : cell_axis depth l l = some (a, b)) : a = b := by
  unfold cell_axis at h
  simp only [] at h
  split at h
  · cases h
  · simp only [Option.some.injEq, Prod.mk.injEq] at h
    rw [← h.1, ← h.2]

theorem covering_depth_zero (MaxDepth : Nat) : covering_depth MaxDepth 0 = MaxDepth := by
  unfold covering_depth
  rw [if_neg (lt_irrefl _)]

/-- A returned covering of a box of zero extent: one key, encoded at depth `MaxDepth`. -/
theorem covering_of_point {MaxDepth : Nat} (hsfc3d : Nat → List Nat → OctTreeKey MaxDepth)
    (global_box small_box : Nat → ℚ) (scale : ℚ)
    (hz : ∀ i, i < 3 → small_box i = small_box (i + 3)) (r : BoxCovering MaxDepth)
    (h : hsfc_box_covering hsfc3d global_box small_box scale = some r) :
    r.number = 1 ∧ ∃ c, r.covering = [hsfc3d MaxDepth c] := by
  obtain ⟨-, -, -, hsize, hax⟩ := unit_box_spec global_box small_box scale
  obtain ⟨a0, a1, a2, b0, b1, b2, hc, hcov, -, -, -, -, hnum, -⟩ :=
    covering_corners hsfc3d global_box small_box scale r h
  obtain ⟨a0', a1', a2', b0', b1', b2', hcl, hcu, hx0, hx1, hx2⟩ := cell_coords_shape _ _ _ _ hc
  simp only [List.cons.injEq, and_true] at hcl hcu
  obtain ⟨rfl, rfl, rfl⟩ := hcl
  obtain ⟨rfl, rfl, rfl⟩ := hcu
  rw [← (hax 0 (by norm_num)).2.2.2.2 (hz 0 (by norm_num))] at hx0
  rw [← (hax 1 (by norm_num)).2.2.2.2 (hz 1 (by norm_num))] at hx1
  rw [← (hax 2 (by norm_num)).2.2.2.2 (hz 2 (by norm_num))] at hx2
  have e0 := cell_axis_point _ _ _ _ hx0
  have e1 := cell_axis_point _ _ _ _ hx1
  have e2 := cell_axis_point _ _ _ _ hx2
  subst e0 e1 e2
  rw [hsize hz, covering_depth_zero] at hcov
  refine ⟨?_, [a0, a1, a2], ?_⟩
  · rw [hnum]; simp [straddled]
  · rw [hcov, corner_coords_eq]; simp

/-- A box of zero extent (`small_low[i] = small_up[i]` on the three axes): whenever
`hsfc_box_covering` returns it returns `number = 1` and the single key is encoded at depth
`MaxDepth`; and it does return when on every axis the normalized coordinate
`(small_low[i] - global_low[i]) * scale` is below `(2^32 - 1) / 2^MaxDepth`, as every
coordinate of at most `1` is. -/
theorem hsfc_box_covering_point {MaxDepth : Nat}
    (hsfc3d : Nat → List Nat → OctTreeKey MaxDepth) (global_box small_box : Nat → ℚ)
    (scale : ℚ) (hz : ∀ i, i < 3 → small_box i = small_box (i + 3)) :
    (∀ r, hsfc_box_covering hsfc3d global_box small_box scale = some r →
      r.number = 1 ∧ ∃ c, r.covering = [hsfc3d MaxDepth c]) ∧
    (MaxDepth < BitsPerWord →
      (∀ i, i < 3 → (small_box i - global_box i) * scale * 2 ^ MaxDepth < 2 ^ 32 - 1) →
      ∃ r, hsfc_box_covering hsfc3d global_box small_box scale = some r ∧
        r.number = 1 ∧ ∃ c, r.covering = [hsfc3d MaxDepth c]) := by
  refine ⟨fun r h => covering_of_point hsfc3d global_box small_box scale hz r h, ?_⟩
  intro hD H
  obtain ⟨-, -, -, -, hax⟩ := unit_box_spec global_box small_box scale
  have he : float_epsilon < 1 := by unfold float_epsilon; norm_num
  have he0 : (0 : ℚ) < float_epsilon := float_epsilon_pos
  obtain ⟨a0, a1, a2, b0, b1, b2, -, hr⟩ :=
    hsfc_box_covering_returns hD hsfc3d global_box small_box scale (by
      intro i hi
      obtain ⟨-, -, -, hb, -⟩ := hax i hi
      rcases hb with hb | ⟨hb1, hb2⟩
      · left; linarith
      · right; exact ⟨hb1, by rw [hb2]; exact H i hi⟩)
  exact ⟨_, hr, covering_of_point hsfc3d global_box small_box scale hz _ hr⟩

/-- The point `(1, 1, 1)` in the unit cube with scale `1`: the call returns one key. -/
theorem hsfc_box_covering_point_witness :
    (∀ i, i < 3 → corner_point i = corner_point (i + 3)) ∧ 3 < BitsPerWord ∧
    (∀ i, i < 3 → (corner_point i - unit_cube i) * 1 * 2 ^ 3 < 2 ^ 32 - 1) ∧
    ∃ r, hsfc_box_covering sample_encoder unit_cube corner_point 1 = some r ∧
      r.number = 1 ∧ ∃ c, r.covering = [sample_encoder 3 c] :=
  have hz : ∀ i, i < 3 → corner_point i = corner_point (i + 3) := fun _ _ => rfl
  have hb : ∀ i, i < 3 → (corner_point i - unit_cube i) * 1 * 2 ^ 3 < 2 ^ 32 - 1 := by
    intro i hi
    interval_cases i <;> decide!
  ⟨hz, by decide, hb,
    (hsfc_box_covering_point sample_encoder unit_cube corner_point 1 hz).2 (by decide) hb⟩

/-! ## Box covering: the flag and the bounds of the normalized box -/

theorem covering_valid {MaxDepth : Nat} (hsfc3d : Nat → List Nat → OctTreeKey MaxDepth)
    (global_box small_box : Nat → ℚ) (scale : ℚ) (r : BoxCovering MaxDepth)
    (h : hsfc_box_covering hsfc3d global_box small_box scale = some r) :
    r.valid = (unit_box global_box small_box scale).valid := by
  unfold hsfc_box_covering at h
  simp only [] at h
  split at h
  · cases h
  · simp only [Option.some.injEq] at h
    rw [← h]

/-- The flag of `hsfc_box_covering`, arithmetic read as exact: the call returns `true` if and
only if on each of the three axes the small box overlaps the global interval and
`eps ≤ (small_low - global_low) * scale ≤ (small_up - global_low) * scale ≤ 1 - eps`;
whenever it returns with an axis clipped it returns `false`, and with an axis clipped it
does return when on every axis `(small_low[i] - global_low[i]) * scale` is below
`(2^32 - 1) / 2^MaxDepth`. -/
theorem hsfc_box_covering_valid_iff {MaxDepth : Nat} (hD : MaxDepth < BitsPerWord)
    (hsfc3d : Nat → List Nat → OctTreeKey MaxDepth) (global_box small_box : Nat → ℚ)
    (scale : ℚ) :
    ((∃ r, hsfc_box_covering hsfc3d global_box small_box scale = some r ∧ r.valid = true) ↔
      ∀ i, i < 3 → axis_unclipped global_box small_box scale i) ∧
    (∀ r, hsfc_box_covering hsfc3d global_box small_box scale = some r →
      ¬ (∀ i, i < 3 → axis_unclipped global_box small_box scale i) → r.valid = false) ∧
    ((∀ i, i < 3 → (small_box i - global_box i) * scale * 2 ^ MaxDepth < 2 ^ 32 - 1) →
      ¬ (∀ i, i < 3 → axis_unclipped global_box small_box scale i) →
      ∃ r, hsfc_box_covering hsfc3d global_box small_box scale = some r ∧ r.valid = false) := by
  obtain ⟨-, -, hv, -, hax⟩ := unit_box_spec global_box small_box scale
  have he0 : (0 : ℚ) < float_epsilon := float_epsilon_pos
  refine ⟨⟨?_, ?_⟩, ?_, ?_⟩
  · rintro ⟨r, hr, hvalid⟩
    rw [covering_valid hsfc3d global_box small_box scale r hr] at hvalid
    exact hv.1 hvalid
  · intro hall
    have hvalid := hv.2 hall
    obtain ⟨a0, a1, a2, b0, b1, b2, -, hr⟩ :=
      hsfc_box_covering_returns hD hsfc3d global_box small_box scale (by
        intro i hi
        have := (unit_box_valid global_box small_box scale hvalid i hi).2.2
        left; linarith)
    exact ⟨_, hr, hvalid⟩
  · intro r hr hn
    rw [covering_valid hsfc3d global_box small_box scale r hr]
    cases hb : (unit_box global_box small_box scale).valid
    · rfl
    · exact absurd (hv.1 hb) hn
  · intro H hn
    obtain ⟨a0, a1, a2, b0, b1, b2, -, hr⟩ :=
      hsfc_box_covering_returns hD hsfc3d global_box small_box scale (by
        intro i hi
        obtain ⟨-, -, -, hb, -⟩ := hax i hi
        rcases hb with hb | ⟨hb1, hb2⟩
        · left; linarith
        · right; exact ⟨hb1, by rw [hb2]; exact H i hi⟩)
    refine ⟨_, hr, ?_⟩
    cases hb : (unit_box global_box small_box scale).valid
    · rfl
    · exact absurd (hv.1 hb) hn

/-- Keys of `3` levels: the box `[1/4, 1/2]^3` in the unit cube is not clipped and the call
returns `true`. -/
theorem hsfc_box_covering_valid_iff_witness :
    3 < BitsPerWord ∧ (∀ i, i < 3 → axis_unclipped unit_cube quarter_box 1 i) ∧
    ∃ r, hsfc_box_covering sample_encoder unit_cube quarter_box 1 = some r ∧ r.valid = true :=
  have hc : ∀ i, i < 3 → axis_unclipped unit_cube quarter_box 1 i := by
    intro i hi
    interval_cases i <;> decide!
  ⟨by decide, hc,
    (hsfc_box_covering_valid_iff (by decide) sample_encoder unit_cube quarter_box 1).1.2 hc⟩

/-- C14 fails on the code: for the point `(1, 1, 1)`, the upper corner of the unit cube, with
scale `1`, the normalized bounds are `1` on every axis, above `1 - eps`; the cell coordinate
`floor(1 * 2^depth)` is `2^depth`, not smaller, and left-justified in the word it wraps to `0`,
the coordinate of the opposite corner. -/
theorem unit_box_not_bounded :
    (unit_box unit_cube corner_point 1).ubox_low = [1, 1, 1] ∧
    (unit_box unit_cube corner_point 1).ubox_up = [1, 1, 1] ∧
    ¬ ((1 : ℚ) ≤ 1 - float_epsilon) ∧
    covering_depth 3 (unit_box unit_cube corner_point 1).unit_size = 3 ∧
    cell_coordinate 3 1 = 2 ^ 3 ∧
    hsfc_box_covering sample_encoder unit_cube corner_point 1 =
      some ⟨false, 1, [⟨[0, 0, 0], rfl⟩]⟩ := by
  decide!

/-! ## The key search on equal weights -/

/-- The value of the loop that looks for the last child before `i_end`. -/
theorem find_j_eq {MaxDepth : Nat} (i_end depth d1 : Nat) (key : OctTreeKey MaxDepth)
    (j0 : Nat) (hlt : ¬ i_end ≤ oct_tree_offset depth (key.set_index d1 j0)) :
    ∀ j_start, j0 ≤ j_start →
      (∀ j, j0 < j → j ≤ j_start → i_end ≤ oct_tree_offset depth (key.set_index d1 j)) →
      find_j i_end depth d1 key j_start = some j0 := by
  intro j_start
  induction j_start with
  | zero =>
    intro h0 _
    have : j0 = 0 := by omega
    subst this
    simp [find_j, hlt]
  | succ n ih =>
    intro h0 hge
    rw [find_j]
    by_cases hc : j0 = n + 1
    · subst hc
      rw [if_neg hlt]
    · rw [if_pos (hge (n + 1) (by omega) (le_refl _))]
      exact ih (by omega) (fun j h1 h2 => hge j h1 (by omega))

/-- The loop `while ( i < j )` over children `i0 .. j0` of equal positive weight `W`, for the
target ratio `a : b` with `a + b` the number of these children: it stops at `i = j` with
`a - 1` or `a` children counted below and the others above. -/
theorem balance_loop_uniform {MaxDepth : Nat} (key : OctTreeKey MaxDepth) (d1 depth : Nat)
    (weights : Weights) (W : ℚ) (hW : 0 < W) (a b i0 j0 : Nat) (ha : 1 ≤ a) (hb : 1 ≤ b)
    (hn : i0 + a + b = j0 + 1)
    (hV : ∀ i, i0 ≤ i → i ≤ j0 →
      weights.at (2 * oct_tree_offset depth (key.set_index d1 i)) +
        weights.at (2 * oct_tree_offset depth (key.set_index d1 i) + 1) = W) :
    ∀ (rounds : Nat) (st : SplitState), i0 ≤ st.i → st.i ≤ st.j → st.j ≤ j0 →
      st.i ≤ i0 + a → j0 ≤ st.j + b →
      st.w_lower = ((st.i - i0 : Nat) : ℚ) * W → st.w_upper = ((j0 - st.j : Nat) : ℚ) * W →
      st.j - st.i ≤ rounds →
      (balance_loop key d1 depth weights ((a : ℚ) / (b : ℚ)) rounds st).i =
        (balance_loop key d1 depth weights ((a : ℚ) / (b : ℚ)) rounds st).j ∧
      ((balance_loop key d1 depth weights ((a : ℚ) / (b : ℚ)) rounds st).i + 1 = i0 + a ∨
        (balance_loop key d1 depth weights ((a : ℚ) / (b : ℚ)) rounds st).i = i0 + a) ∧
      (balance_loop key d1 depth weights ((a : ℚ) / (b : ℚ)) rounds st).w_lower =
        (((balance_loop key d1 depth weights ((a : ℚ) / (b : ℚ)) rounds st).i - i0 : Nat) : ℚ)
          * W ∧
      (balance_loop key d1 depth weights ((a : ℚ) / (b : ℚ)) rounds st).w_upper =
        ((j0 - (balance_loop key d1 depth weights ((a : ℚ) / (b : ℚ)) rounds st).j : Nat) : ℚ)
          * W := by
  have hbq : (0 : ℚ) < (b : ℚ) := by exact_mod_cast hb
  intro rounds
  induction rounds with
  | zero =>
    intro st h1 h2 h3 h4 h5 h6 h7 h8
    rw [balance_loop]
    exact ⟨by omega, by omega, h6, h7⟩
  | succ rounds ih =>
    intro st h1 h2 h3 h4 h5 h6 h7 h8
    rw [balance_loop]
    by_cases hij : st.i < st.j
    · rw [if_pos hij]
      simp only [hV st.i h1 (by omega), hV st.j (by omega) h3, hW, and_self, if_true]
      have htest : (st.w_lower + W < (a : ℚ) / (b : ℚ) * (st.w_upper + W)) ↔
          (st.i - i0 + 1) * b < a * (j0 - st.j + 1) := by
        rw [h6, h7]
        generalize st.i - i0 = x
        generalize j0 - st.j = y
        have e1 : (x : ℚ) * W + W = (((x + 1) * b : Nat) : ℚ) * (W / b) := by
          push_cast; field_simp; ring
        have e2 : (a : ℚ) / (b : ℚ) * ((y : ℚ) * W + W) =
            ((a * (y + 1) : Nat) : ℚ) * (W / b) := by
          push_cast; field_simp; ring
        rw [e1, e2, mul_lt_mul_right (div_pos hW hbq)]
        exact Nat.cast_lt
      by_cases ht : (st.i - i0 + 1) * b < a * (j0 - st.j + 1)
      · rw [if_pos (htest.2 ht)]
        have hx : st.i + 1 ≤ i0 + a := by
          by_contra hcon
          have hxa : st.i - i0 = a := by omega
          have hy : j0 - st.j + 1 < b := by omega
          rw [hxa] at ht
          have : a * (j0 - st.j + 1) ≤ a * b := Nat.mul_le_mul_left a (le_of_lt hy)
          have : a * b < (a + 1) * b := Nat.mul_lt_mul_of_pos_right (by omega) (by omega)
          omega
        apply ih
        · show i0 ≤ st.i + 1; omega
        · show st.i + 1 ≤ st.j; omega
        · exact h3
        · exact hx
        · exact h5
        · show st.w_lower + W = ((st.i + 1 - i0 : Nat) : ℚ) * W
          rw [h6, show st.i + 1 - i0 = (st.i - i0) + 1 by omega]
          push_cast; ring
        · exact h7
        · show st.j - (st.i + 1) ≤ rounds; omega
      · rw [if_neg (fun h => ht (htest.1 h))]
        have hy : j0 ≤ st.j - 1 + b := by
          by_contra hcon
          have hyb : j0 - st.j = b := by omega
          have hx : st.i - i0 + 1 < a := by omega
          rw [hyb] at ht
          have : (st.i - i0 + 1) * b < a * b := Nat.mul_lt_mul_of_pos_right hx (by omega)
          have : a * b < a * (b + 1) := Nat.mul_lt_mul_of_pos_left (by omega) (by omega)
          omega
        apply ih
        · exact h1
        · show st.i ≤ st.j - 1; omega
        · show st.j - 1 ≤ j0; omega
        · exact h4
        · exact hy
        · exact h6
        · show st.w_upper + W = ((j0 - (st.j - 1) : Nat) : ℚ) * W
          rw [h7, show j0 - (st.j - 1) = (j0 - st.j) + 1 by omega]
          push_cast; ring
        · show st.j - 1 - st.i ≤ rounds; omega
    · rw [if_neg hij]
      exact ⟨by omega, by omega, h6, h7⟩

/-- A call of `partition` at the root whose children `i0 .. j0` in the range all carry the
same positive weight, for the target ratio `a : b` with `a + b` the number of these children:
the split is accepted at the root, the first `a` children below the cut. -/
theorem partition_uniform {MaxDepth : Nat} (depth : Nat) (hd1 : 1 ≤ depth) (fuel : Nat)
    (k_first : OctTreeKey MaxDepth) (i_end : Nat) (weights : Weights) (tolerance : ℚ)
    (htol : 0 < tolerance) (W : ℚ) (hW : 0 < W) (a b i0 j0 : Nat) (ha : 1 ≤ a) (hb : 1 ≤ b)
    (hn : i0 + a + b = j0 + 1) (hj8 : j0 ≤ 8)
    (hi0 : (if k_first.index 1 ≠ 0 then k_first.index 1 else 1) = i0)
    (hshort : ¬ (i_end = 1 ∨ i_end = oct_tree_offset depth k_first))
    (hfind : find_j i_end depth 1 (root MaxDepth) 8 = some j0)
    (hV : ∀ i, i0 ≤ i → i ≤ j0 →
      weights.at (2 * oct_tree_offset depth ((root MaxDepth).set_index 1 i)) +
        weights.at (2 * oct_tree_offset depth ((root MaxDepth).set_index 1 i) + 1) = W) :
    partition (fuel + 1) k_first i_end (root MaxDepth) depth weights tolerance
        ((a : ℚ) / (b : ℚ)) 0 0 =
      Outcome.ok ((root MaxDepth).set_index 1 (i0 + a)) := by
  have hbq : (0 : ℚ) < (b : ℚ) := by exact_mod_cast hb
  have haq : (0 : ℚ) < (a : ℚ) := by exact_mod_cast ha
  have h1i0 : 1 ≤ i0 := by rw [← hi0]; split <;> omega
  obtain ⟨e1, e2, e3, e4⟩ := balance_loop_uniform (root MaxDepth) 1 depth weights W hW a b i0 j0
    ha hb hn hV (j0 - i0) ⟨i0, j0, 0, 0⟩ (le_refl _) (by show i0 ≤ j0; omega) (le_refl _)
    (by show i0 ≤ i0 + a; omega) (by show j0 ≤ j0 + b; omega)
    (by show (0 : ℚ) = ((i0 - i0 : Nat) : ℚ) * W; simp)
    (by show (0 : ℚ) = ((j0 - j0 : Nat) : ℚ) * W; simp) (le_refl _)
  have hsplit : ∀ m, 2 ≤ m → m ≤ 8 →
      oct_key_split (root MaxDepth) m = (root MaxDepth).set_index 1 m := by
    intro m h2 h8
    unfold oct_key_split
    simp only [root_depth]
    rw [if_neg (by omega), if_neg (by omega)]
  rw [partition]
  simp only [hshort, if_false, root_depth, Nat.zero_add, hfind, ne_eq, not_true_eq_false, hi0]
  rw [if_neg (by omega : ¬ (0 = depth))]
  generalize balance_loop (root MaxDepth) 1 depth weights ((a : ℚ) / (b : ℚ)) (j0 - i0)
    ⟨i0, j0, 0, 0⟩ = st at e1 e2 e3 e4
  have hval := hV st.i (by omega) (by omega)
  simp only [hval, not_le.2 hW, if_false]
  rcases e2 with e2 | e2
  · -- `a - 1` children below: the child at `i` goes below
    have hx : st.i - i0 + 1 = a := by omega
    have hy : j0 - st.j = b := by omega
    have hlow : st.w_lower + W = (a : ℚ) * W := by
      rw [e3, ← hx]; push_cast; ring
    have hcond : st.w_lower < st.w_upper * ((a : ℚ) / (b : ℚ)) := by
      have : st.w_lower < st.w_lower + W := by linarith
      rw [hlow] at this
      rw [e4, hy]
      calc st.w_lower < (a : ℚ) * W := this
        _ = (b : ℚ) * W * ((a : ℚ) / (b : ℚ)) := by field_simp; ring
    rw [if_pos hcond]
    have hacc : within_tolerance (st.w_lower + W) st.w_upper ((a : ℚ) / (b : ℚ)) tolerance =
        true := by
      unfold within_tolerance
      rw [hlow, e4, hy, if_neg (ne_of_gt (mul_pos hbq hW))]
      have : (a : ℚ) * W / ((b : ℚ) * W) - (a : ℚ) / (b : ℚ) = 0 := by field_simp; ring
      rw [this]
      simp [htol]
    simp only [hacc, if_true]
    rw [hsplit _ (by omega) (by omega)]
    congr 2
  · -- `a` children below: the child at `i` goes above
    have hx : st.i - i0 = a := by omega
    have hy : j0 - st.j + 1 = b := by omega
    have hup : st.w_upper + W = (b : ℚ) * W := by
      rw [e4, ← hy]; push_cast; ring
    have hcond : ¬ (st.w_lower < st.w_upper * ((a : ℚ) / (b : ℚ))) := by
      rw [not_lt, e3, hx]
      have : st.w_upper ≤ (b : ℚ) * W := by linarith
      calc st.w_upper * ((a : ℚ) / (b : ℚ)) ≤ (b : ℚ) * W * ((a : ℚ) / (b : ℚ)) :=
            mul_le_mul_of_nonneg_right this (le_of_lt (div_pos haq hbq))
        _ = (a : ℚ) * W := by field_simp; ring
    rw [if_neg hcond]
    have hacc : within_tolerance st.w_lower (st.w_upper + W) ((a : ℚ) / (b : ℚ)) tolerance =
        true := by
      unfold within_tolerance
      rw [hup, e3, hx, if_neg (ne_of_gt (mul_pos hbq hW))]
      have : (a : ℚ) * W / ((b : ℚ) * W) - (a : ℚ) / (b : ℚ) = 0 := by field_simp; ring
      rw [this]
      simp [htol]
    simp only [hacc, if_true]
    rw [hsplit _ (by omega) (by omega), e2]

/-! ## Weight accumulation with weights on the leaves -/

/-- With own weights on the leaves only, an accumulation over a non-empty range keeps the own
slots and the shape of the array, and own plus descendant weight of every position that meets
the range becomes the weight of its leaves in the range. -/
theorem accumulate_leaf_weights {MaxDepth : Nat} (depth ord_end : Nat) (hm : depth ≤ MaxDepth)
    (k_first : OctTreeKey MaxDepth) (hk : k_first.WellFormed) (w : Weights)
    (hw : LeafWeights depth w) (hrange : oct_tree_offset depth k_first < ord_end) :
    LeafWeights depth (accumulate_weights (root MaxDepth) k_first ord_end depth w) ∧
    (∀ o, (accumulate_weights (root MaxDepth) k_first ord_end depth w).at (2 * o) =
      w.at (2 * o)) ∧
    ∀ h o, Below 0 depth o h →
      Meets o (oct_tree_size h) (oct_tree_offset depth k_first) ord_end →
      (accumulate_weights (root MaxDepth) k_first ord_end depth w).at (2 * o) +
          (accumulate_weights (root MaxDepth) k_first ord_end depth w).at (2 * o + 1) =
        leaf_weight_sum w (oct_tree_offset depth k_first) ord_end h o := by
  obtain ⟨hlen, hown, hdesc⟩ := hw
  rw [accumulate_weights_eq depth ord_end hm k_first hk]
  have hlo : 0 + offset_of_digits depth k_first.digits < ord_end := by
    rw [Nat.zero_add]; exact hrange
  obtain ⟨hl, hfr⟩ := offset_accumulate_frame ord_end depth 0 k_first.digits w hk hlo
  have hs := offset_accumulate_sums ord_end depth 0 k_first.digits w hk hlo (by omega)
  rw [Nat.zero_add] at hfr hs
  have heven : ∀ o, (offset_accumulate depth 0 k_first.digits ord_end w).at (2 * o) =
      w.at (2 * o) := by
    intro o
    by_contra hne
    obtain ⟨o', h', _, hidx, _⟩ := hfr _ hne
    omega
  refine ⟨⟨by rw [hl]; exact hlen, ?_, ?_⟩, heven, ?_⟩
  · intro o h hb
    rw [heven]; exact hown o h hb
  · intro o hb
    by_contra hne
    have hne' : (offset_accumulate depth 0 k_first.digits ord_end w).at (2 * o + 1) ≠
        w.at (2 * o + 1) := by
      rw [hdesc o hb]; exact hne
    obtain ⟨o', h', hb', hidx, _⟩ := hfr _ hne'
    have ho : o' = o := by omega
    subst ho
    have := Below.height_unique depth 0 _ _ _ hb hb'
    omega
  · exact leaf_total depth (oct_tree_offset depth k_first) ord_end w _ hfr hs hown hdesc

theorem leaf_offsets_length : ∀ (h o : Nat), (leaf_offsets h o).length = 8 ^ h := by
  intro h
  induction h with
  | zero => intro o; rfl
  | succ h ih =>
    intro o
    simp only [leaf_offsets, List.length_flatMap]
    simp only [List.range', List.map_cons, List.map_nil, List.sum_cons, List.sum_nil,
      Function.comp_apply, ih, pow_succ]
    omega

/-- The weight of the leaves of a position that lies in the range, when every leaf there
carries the same own weight. -/
theorem leaf_weight_sum_uniform (w : Weights) (c : ℚ) (lo hi h o : Nat) (hlo : lo ≤ o)
    (hhi : o + oct_tree_size h ≤ hi) (hu : ∀ l, l ∈ leaf_offsets h o → w.at (2 * l) = c) :
    leaf_weight_sum w lo hi h o = (8 : ℚ) ^ h * c := by
  unfold leaf_weight_sum
  have hf : (leaf_offsets h o).filter (fun l => decide (lo ≤ l ∧ l < hi)) = leaf_offsets h o := by
    rw [List.filter_eq_self]
    intro l hl
    have := leaf_offsets_bounds h o l hl
    simp only [decide_eq_true_eq]
    omega
  rw [hf]
  have hmap : (leaf_offsets h o).map (fun l => w.at (2 * l)) =
      List.replicate (leaf_offsets h o).length c := by
    rw [List.eq_replicate_iff]
    refine ⟨List.length_map _ _, ?_⟩
    intro b hb
    obtain ⟨l, hl, rfl⟩ := List.mem_map.1 hb
    exact hu l hl
  rw [hmap, List.sum_replicate, leaf_offsets_length]
  simp

/-! ## Two processes on equal leaf weights -/

theorem oct_tree_offset_octant {MaxDepth : Nat} (hM : 1 ≤ MaxDepth) (depth : Nat)
    (hd : 1 ≤ depth) (i : Nat) (hi : 1 ≤ i) :
    oct_tree_offset depth ((root MaxDepth).set_index 1 i) = child_offset 0 (depth - 1) i := by
  have := oct_tree_offset_child depth (root MaxDepth) (root_wf _) (by rw [root_depth]; omega)
    (by rw [root_depth]; omega) i hi
  rw [root_depth, oct_tree_offset_root] at this
  rw [this]
  rfl

/-- Own weights on the leaves only, stated slot by slot. -/
theorem leaf_weights_of_slots (depth : Nat) (w : Weights)
    (hlen : w.length = 2 * oct_tree_size depth)
    (hzero : ∀ idx, (∀ l, l ∈ leaf_offsets depth 0 → idx ≠ 2 * l) → w.at idx = 0) :
    LeafWeights depth w := by
  refine ⟨by omega, ?_, ?_⟩
  · intro o h hb
    apply hzero
    intro l hl hne
    have hl0 := (leaf_offsets_bounds depth 0 l hl).2.2
    have ho : l = o := by omega
    subst ho
    have := Below.height_unique depth 0 _ _ _ hb hl0
    omega
  · intro o _
    apply hzero
    intro l _
    omega

/-- After the accumulation over the whole tree with the same own weight `c` on every leaf,
every child of the root carries `8 ^ (depth - 1) * c`. -/
theorem accumulate_uniform_children {MaxDepth : Nat} (depth : Nat) (hd : 1 ≤ depth)
    (hm : depth ≤ MaxDepth) (w : Weights) (c : ℚ) (hw : LeafWeights depth w)
    (hleaf : ∀ l, l ∈ leaf_offsets depth 0 → w.at (2 * l) = c) (i : Nat) (h1 : 1 ≤ i)
    (h8 : i ≤ 8) :
    (accumulate_weights (root MaxDepth) (root MaxDepth) (oct_tree_size depth) depth w).at
        (2 * oct_tree_offset depth ((root MaxDepth).set_index 1 i)) +
      (accumulate_weights (root MaxDepth) (root MaxDepth) (oct_tree_size depth) depth w).at
        (2 * oct_tree_offset depth ((root MaxDepth).set_index 1 i) + 1) =
      (8 : ℚ) ^ (depth - 1) * c := by
  obtain ⟨d, rfl⟩ : ∃ d, depth = d + 1 := ⟨depth - 1, by omega⟩
  have hsz := oct_tree_size_pos (d + 1)
  have hcb := child_offset_bounds 0 d i h1 h8
  have hrange : oct_tree_offset (d + 1) (root MaxDepth) < oct_tree_size (d + 1) := by
    rw [oct_tree_offset_root]; exact hsz
  obtain ⟨-, -, hval⟩ := accumulate_leaf_weights (d + 1) (oct_tree_size (d + 1)) hm
    (root MaxDepth) (root_wf _) w hw hrange
  rw [oct_tree_offset_octant (by omega) (d + 1) hd i h1, Nat.add_sub_cancel]
  have hb : Below 0 (d + 1) (child_offset 0 d i) d :=
    Below.step 0 d i _ _ h1 h8 (Below.refl _ _)
  rw [hval d _ hb (by
    rw [oct_tree_offset_root]
    unfold Meets
    have := oct_tree_size_pos d
    omega)]
  rw [oct_tree_offset_root]
  apply leaf_weight_sum_uniform w c 0 _ d _ (Nat.zero_le _) (by omega)
  intro l hl
  apply hleaf
  exact mem_leaf_offsets_of_below _ _ _
    (Below.step 0 d i _ _ h1 h8 (leaf_offsets_bounds d _ l hl).2.2)

/-! ## Two processes on equal leaf weights: the claim -/

/-- The leaves of the tree on the two sides of the child `5` of the root. -/
theorem leaf_offsets_halves (d : Nat) :
    ((leaf_offsets (d + 1) 0).filter (fun l => decide (l < child_offset 0 d 5))).length =
      4 * 8 ^ d ∧
    ((leaf_offsets (d + 1) 0).filter (fun l => decide (child_offset 0 d 5 ≤ l))).length =
      4 * 8 ^ d := by
  have hlow : ∀ i, 1 ≤ i → i < 5 →
      (leaf_offsets d (child_offset 0 d i)).filter (fun l => decide (l < child_offset 0 d 5)) =
        leaf_offsets d (child_offset 0 d i) ∧
      (leaf_offsets d (child_offset 0 d i)).filter (fun l => decide (child_offset 0 d 5 ≤ l)) =
        [] := by
    intro i h1 h5
    have hlt := child_offset_lt 0 d i 5 h5 h1
    constructor
    · rw [List.filter_eq_self]
      intro l hl
      have := leaf_offsets_bounds d _ l hl
      simp only [decide_eq_true_eq]; omega
    · rw [List.filter_eq_nil_iff]
      intro l hl
      have := leaf_offsets_bounds d _ l hl
      simp only [decide_eq_true_eq]; omega
  have hupp : ∀ i, 5 ≤ i →
      (leaf_offsets d (child_offset 0 d i)).filter (fun l => decide (l < child_offset 0 d 5)) =
        [] ∧
      (leaf_offsets d (child_offset 0 d i)).filter (fun l => decide (child_offset 0 d 5 ≤ l)) =
        leaf_offsets d (child_offset 0 d i) := by
    intro i h5
    have hle : child_offset 0 d 5 ≤ child_offset 0 d i := by
      unfold child_offset
      have : (5 - 1) * oct_tree_size d ≤ (i - 1) * oct_tree_size d :=
        Nat.mul_le_mul_right _ (by omega)
      omega
    constructor
    · rw [List.filter_eq_nil_iff]
      intro l hl
      have := leaf_offsets_bounds d _ l hl
      simp only [decide_eq_true_eq]; omega
    · rw [List.filter_eq_self]
      intro l hl
      have := leaf_offsets_bounds d _ l hl
      simp only [decide_eq_true_eq]; omega
  simp only [leaf_offsets, List.range', List.flatMap_cons, List.flatMap_nil, List.append_nil,
    List.filter_append, List.length_append,
    (hlow 1 (by norm_num) (by norm_num)).1, (hlow 1 (by norm_num) (by norm_num)).2,
    (hlow 2 (by norm_num) (by norm_num)).1, (hlow 2 (by norm_num) (by norm_num)).2,
    (hlow 3 (by norm_num) (by norm_num)).1, (hlow 3 (by norm_num) (by norm_num)).2,
    (hlow 4 (by norm_num) (by norm_num)).1, (hlow 4 (by norm_num) (by norm_num)).2,
    (hupp 5 (by norm_num)).1, (hupp 5 (by norm_num)).2,
    (hupp 6 (by norm_num)).1, (hupp 6 (by norm_num)).2,
    (hupp 7 (by norm_num)).1, (hupp 7 (by norm_num)).2,
    (hupp 8 (by norm_num)).1, (hupp 8 (by norm_num)).2, leaf_offsets_length, List.length_nil]
  omega

/-- C15 as stated fails: in IEEE arithmetic, on the tree of depth `2` whose `64` leaves carry
the own weight `FLT_MAX / 2` (a `float`), the sum `4 * FLT_MAX` of an octant is beyond the
range of `float` and is stored as `+infinity` in the descendant slot of each child of the
root. In `partition` every comparison of two infinite sums is false, `diff` is "not a
number", and the call for two processes stores the leaf `(1,8)` in `cuts[1]` and not the
key `(5)`. -/
theorem ieee_partition_private_overflow :
    (0 : ℚ) < FLT_MAX / 2 ∧ to_float (FLT_MAX / 2) = Ieee.real (FLT_MAX / 2) ∧
    ¬ ((8 : ℚ) ^ 2 * (FLT_MAX / 2) ≤ FLT_MAX) ∧
    (ieee.accumulate_weights (root 2) (root 2) 73 2 (ieee.leaf_weights 2 (FLT_MAX / 2))).at 3 =
      Ieee.pos_inf ∧
    ieee.oct_tree_partition_private 7 1 0 2 2 (to_double (1 / 1000))
        (ieee.leaf_weights 2 (FLT_MAX / 2)) 2 [root 2, root 2] =
      Outcome.ok ⟨ieee.accumulate_weights (root 2) (root 2) 73 2
        (ieee.leaf_weights 2 (FLT_MAX / 2)), [root 2, key_of_digits 2 [1, 8]]⟩ ∧
    key_of_digits 2 [1, 8] ≠ (root 2).set_index 1 5 := by
  refine ⟨by decide!, by decide!, by decide!, by decide!, by decide!, by decide⟩

/-- Two processes on equal leaf weights, with exact sums: for every depth `d ≥ 1`, every
weight `c > 0` and every tolerance `> 0`, if all `8^d` maximum-depth leaves carry the own
weight `c` and every other slot is zero, then the call for two processes with `cuts[0]` the
root returns with `cuts[1]` the key with the single digit `5`, which has `8^d / 2` leaves on
each side. -/
theorem oct_tree_partition_private_balanced_exact {MaxDepth : Nat} (d : Nat) (hd : 1 ≤ d)
    (hm : d ≤ MaxDepth) (c : ℚ) (hc : 0 < c)
    (tolerance : ℚ) (htol : 0 < tolerance)
    (weights : Weights) (hlen : weights.length = 2 * oct_tree_size d)
    (hleaf : ∀ l, l ∈ leaf_offsets d 0 → weights.at (2 * l) = c)
    (hzero : ∀ idx, (∀ l, l ∈ leaf_offsets d 0 → idx ≠ 2 * l) → weights.at idx = 0)
    (cuts : List (OctTreeKey MaxDepth)) (hcl : cuts.length = 2)
    (h0 : cuts.getD 0 (root MaxDepth) = root MaxDepth) (fuel : Nat) :
    (leaf_offsets d 0).length = 8 ^ d ∧
    ∃ r, oct_tree_partition_private (fuel + 1) 0 2 d tolerance weights 2 cuts = Outcome.ok r ∧
      r.cuts = [root MaxDepth, (root MaxDepth).set_index 1 5] ∧
      ((leaf_offsets d 0).filter (fun l =>
        decide (l < oct_tree_offset d (r.cuts.getD 1 (root MaxDepth))))).length = 8 ^ d / 2 ∧
      ((leaf_offsets d 0).filter (fun l =>
        decide (oct_tree_offset d (r.cuts.getD 1 (root MaxDepth)) ≤ l))).length = 8 ^ d / 2 := by
  refine ⟨leaf_offsets_length d 0, ?_⟩
  have hw := leaf_weights_of_slots d weights hlen hzero
  obtain ⟨d', rfl⟩ : ∃ d', d = d' + 1 := ⟨d - 1, by omega⟩
  have hsz := oct_tree_size_succ d'
  have hsz' := oct_tree_size_pos d'
  have hW : (0 : ℚ) < (8 : ℚ) ^ (d' + 1 - 1) * c := mul_pos (by positivity) hc
  have hoff8 := oct_tree_offset_octant (by omega : 1 ≤ MaxDepth) (d' + 1) hd 8 (by norm_num)
  have hpart := partition_uniform (d' + 1) hd (d' + 1) (root MaxDepth)
    (oct_tree_size (d' + 1))
    (accumulate_weights (root MaxDepth) (root MaxDepth) (oct_tree_size (d' + 1)) (d' + 1)
      weights)
    tolerance htol _ hW 4 4 1 8 (by norm_num) (by norm_num) (by norm_num) (by norm_num)
    (by rw [root_index]; rfl)
    (by rw [oct_tree_offset_root]; omega)
    (find_j_eq _ _ _ _ 8 (by
        rw [hoff8, Nat.add_sub_cancel]; unfold child_offset; omega) 8 (le_refl _)
      (fun j h1 h2 => by omega))
    (fun i h1 h8 => accumulate_uniform_children (d' + 1) hd hm weights c hw hleaf i h1 h8)
  have hratio : ((((2 + 0) / 2 - 0 : Nat) : ℚ) / (((2 - 0 : Nat)) : ℚ)) /
      (1 - (((2 + 0) / 2 - 0 : Nat) : ℚ) / (((2 - 0 : Nat)) : ℚ)) = ((4 : Nat) : ℚ) / ((4 : Nat) : ℚ) := by
    norm_num
  obtain ⟨c0, c1, rfl⟩ : ∃ c0 c1, cuts = [c0, c1] := by
    match cuts, hcl with
    | [a, b], _ => exact ⟨a, b, rfl⟩
  simp only [List.getD_cons_zero] at h0
  subst h0
  refine ⟨⟨accumulate_weights (root MaxDepth) (root MaxDepth) (oct_tree_size (d' + 1))
    (d' + 1) weights, [root MaxDepth, (root MaxDepth).set_index 1 5], [1]⟩, ?_, rfl, ?_⟩
  · rw [oct_tree_partition_private]
    simp only [List.getD_cons_zero, Nat.lt_irrefl, if_false, hratio, hpart]
    rfl
  · simp only [List.getD_cons_succ, List.getD_cons_zero]
    have e5 := oct_tree_offset_octant (by omega : 1 ≤ MaxDepth) (d' + 1) hd 5 (by norm_num)
    rw [Nat.add_sub_cancel] at e5
    simp only [e5]
    have h2 : 8 ^ (d' + 1) / 2 = 4 * 8 ^ d' := by
      rw [pow_succ]; omega
    rw [h2]
    exact leaf_offsets_halves d'

theorem leaf_offsets_one : leaf_offsets 1 0 = [1, 2, 3, 4, 5, 6, 7, 8] := by decide

theorem octant_weights_leaf (c : ℚ) :
    ∀ l, l ∈ leaf_offsets 1 0 → (octant_weights c).at (2 * l) = c := by
  intro l hl
  rw [leaf_offsets_one] at hl
  simp only [List.mem_cons, List.mem_singleton, List.not_mem_nil, or_false] at hl
  rcases hl with rfl | rfl | rfl | rfl | rfl | rfl | rfl | rfl <;> rfl

theorem octant_weights_zero (c : ℚ) :
    ∀ idx, (∀ l, l ∈ leaf_offsets 1 0 → idx ≠ 2 * l) → (octant_weights c).at idx = 0 := by
  intro idx h
  rw [leaf_offsets_one] at h
  by_cases hlt : idx < 18
  · interval_cases idx
    all_goals first
      | rfl
      | exact absurd rfl (h 1 (by simp))
      | exact absurd rfl (h 2 (by simp))
      | exact absurd rfl (h 3 (by simp))
      | exact absurd rfl (h 4 (by simp))
      | exact absurd rfl (h 5 (by simp))
      | exact absurd rfl (h 6 (by simp))
      | exact absurd rfl (h 7 (by simp))
      | exact absurd rfl (h 8 (by simp))
  · unfold Weights.at octant_weights
    rw [List.getD_eq_getElem?_getD, List.getElem?_eq_none (by simp; omega)]
    rfl

/-! ## One process per octant -/

theorem octant_key_spec {MaxDepth : Nat} (hM : 1 ≤ MaxDepth) (p : Nat) (hp : p < 8) :
    (octant_key MaxDepth p).WellFormed ∧ (octant_key MaxDepth p).depth ≤ 1 ∧
    oct_tree_offset 1 (octant_key MaxDepth p) = (if p = 0 then 0 else p + 1) ∧
    (if (octant_key MaxDepth p).index 1 ≠ 0 then (octant_key MaxDepth p).index 1 else 1) =
      p + 1 := by
  unfold octant_key
  by_cases h0 : p = 0
  · subst h0
    simp only [if_true]
    refine ⟨root_wf _, by rw [root_depth]; omega, oct_tree_offset_root _ _, ?_⟩
    rw [root_index]; rfl
  · simp only [h0, if_false]
    obtain ⟨hw, hd⟩ := child_wf (root MaxDepth) (root_wf _) (by rw [root_depth]; omega)
      (p + 1) (by omega) (by omega)
    rw [root_depth] at hw hd
    refine ⟨hw, by rw [hd], ?_, ?_⟩
    · rw [oct_tree_offset_octant hM 1 (le_refl _) (p + 1) (by omega)]
      simp [child_offset, oct_tree_size]; omega
    · have hidx : ((root MaxDepth).set_index 1 (p + 1)).index 1 = p + 1 := by
        simp only [index, set_index]
        rw [List.getD_eq_getElem?_getD, List.getElem?_set_self (by
          rw [(root MaxDepth).length_eq]; omega)]
        rfl
      rw [hidx, if_pos (by omega)]

/-- The target ratio computed by `oct_tree_partition_private`, as the quotient of the sizes of
the two halves of the process range. -/
theorem target_ratio_eq (a b : Nat) (ha : 1 ≤ a) (hb : 1 ≤ b) :
    ((a : ℚ) / ((a + b : Nat) : ℚ)) / (1 - (a : ℚ) / ((a + b : Nat) : ℚ)) = (a : ℚ) / (b : ℚ) := by
  have hbq : (0 : ℚ) < (b : ℚ) := by exact_mod_cast hb
  have haq : (0 : ℚ) < (a : ℚ) := by exact_mod_cast ha
  have hab : (0 : ℚ) < (a : ℚ) + (b : ℚ) := by linarith
  push_cast
  have h1 : 1 - (a : ℚ) / ((a : ℚ) + (b : ℚ)) = (b : ℚ) / ((a : ℚ) + (b : ℚ)) := by
    field_simp
  rw [h1]
  field_simp

/-- One call on the tree of depth `1` whose leaves carry the same positive own weight, for a
range of children `i0 .. j0` with as many children as processes: the accumulation keeps the
leaf weights and `partition` puts the first `a` children below the cut. -/
theorem octant_step {MaxDepth : Nat} (hM : 1 ≤ MaxDepth) (c : ℚ) (hc : 0 < c) (tolerance : ℚ)
    (htol : 0 < tolerance) (w : Weights) (hw : LeafWeights 1 w)
    (hleaf : ∀ l, l ∈ leaf_offsets 1 0 → w.at (2 * l) = c)
    (k_first : OctTreeKey MaxDepth) (hk : k_first.WellFormed) (i0 j0 a b : Nat)
    (hlo : oct_tree_offset 1 k_first ≤ i0)
    (hi0 : (if k_first.index 1 ≠ 0 then k_first.index 1 else 1) = i0)
    (ha : 1 ≤ a) (hb : 1 ≤ b) (hn : i0 + a + b = j0 + 1) (hj8 : j0 ≤ 8) (fuel : Nat) :
    LeafWeights 1 (accumulate_weights (root MaxDepth) k_first (j0 + 1) 1 w) ∧
    (∀ l, l ∈ leaf_offsets 1 0 →
      (accumulate_weights (root MaxDepth) k_first (j0 + 1) 1 w).at (2 * l) = c) ∧
    partition (fuel + 1) k_first (j0 + 1) (root MaxDepth) 1
        (accumulate_weights (root MaxDepth) k_first (j0 + 1) 1 w) tolerance
        ((a : ℚ) / (b : ℚ)) 0 0 =
      Outcome.ok ((root MaxDepth).set_index 1 (i0 + a)) := by
  have h1i0 : 1 ≤ i0 := by rw [← hi0]; split <;> omega
  obtain ⟨hw', heven, hval⟩ := accumulate_leaf_weights 1 (j0 + 1) hM k_first hk w hw
    (by omega)
  have hoff : ∀ i, 1 ≤ i → oct_tree_offset 1 ((root MaxDepth).set_index 1 i) = i := by
    intro i hi
    rw [oct_tree_offset_octant hM 1 (le_refl _) i hi]
    simp [child_offset, oct_tree_size]; omega
  refine ⟨hw', fun l hl => by rw [heven]; exact hleaf l hl, ?_⟩
  apply partition_uniform 1 (le_refl _) fuel k_first (j0 + 1) _ tolerance htol c hc a b i0 j0
    ha hb hn hj8 hi0 (by omega)
  · apply find_j_eq _ _ _ _ j0 (by rw [hoff j0 (by omega)]; omega) 8 hj8
    intro j h1 h2
    rw [hoff j (by omega)]; omega
  · intro i h1 h2
    rw [hoff i (by omega)]
    have hb0 : Below 0 1 i 0 := by
      have := Below.step 0 0 i (child_offset 0 0 i) 0 (by omega) (by omega) (Below.refl _ _)
      simpa [child_offset, oct_tree_size, show 1 + (i - 1) = i by omega] using this
    rw [hval 0 i hb0 (by unfold Meets; simp [oct_tree_size]; omega)]
    have := leaf_weight_sum_uniform w c (oct_tree_offset 1 k_first) (j0 + 1) 0 i (by omega)
      (by simp [oct_tree_size]; omega) (by
        intro l hl
        simp only [leaf_offsets, List.mem_singleton] at hl
        subst hl
        exact hleaf l (mem_leaf_offsets_of_below _ _ _ hb0))
    simpa using this

/-- On the tree of depth `1` whose leaves carry the same positive own weight, with eight
processes, a call on a process range whose first cut (and end cut) is the first key of its
octant assigns to every slot of the range the first key of its octant. -/
theorem octant_bisect {MaxDepth : Nat} (hM : 1 ≤ MaxDepth) (c : ℚ) (hc : 0 < c)
    (tolerance : ℚ) (htol : 0 < tolerance) :
    ∀ (fuel p_first p_end : Nat) (w : Weights) (cuts : List (OctTreeKey MaxDepth)),
      LeafWeights 1 w → (∀ l, l ∈ leaf_offsets 1 0 → w.at (2 * l) = c) →
      2 ≤ p_end - p_first → p_end ≤ 8 → p_end - p_first ≤ fuel → cuts.length = 8 →
      cuts.getD p_first (root MaxDepth) = octant_key MaxDepth p_first →
      (p_end < 8 → cuts.getD p_end (root MaxDepth) = octant_key MaxDepth p_end) →
      ∃ r, oct_tree_partition_private fuel p_first p_end 1 tolerance w 8 cuts = Outcome.ok r ∧
        LeafWeights 1 r.weights ∧ (∀ l, l ∈ leaf_offsets 1 0 → r.weights.at (2 * l) = c) ∧
        r.cuts.length = 8 ∧
        (∀ q, p_first < q → q < p_end → r.cuts.getD q (root MaxDepth) = octant_key MaxDepth q) ∧
        (∀ q, q ≤ p_first ∨ p_end ≤ q →
          r.cuts.getD q (root MaxDepth) = cuts.getD q (root MaxDepth)) := by
  intro fuel
  induction fuel with
  | zero => intro _ _ _ _ _ _ h1 _ h2; omega
  | succ fuel ih =>
    intro p_first p_end w cuts hw hleaf hsize hp8 hfuel hlen hfirst hend
    have hup1 : p_first < (p_end + p_first) / 2 := by omega
    have hup2 : (p_end + p_first) / 2 < p_end := by omega
    obtain ⟨kwf, -, koff, kidx⟩ := octant_key_spec hM p_first (by omega)
    have hiend : (if p_end < 8 then oct_tree_offset 1 (cuts.getD p_end (root MaxDepth))
        else oct_tree_size 1) = p_end + 1 := by
      by_cases h8 : p_end < 8
      · rw [if_pos h8, hend h8, (octant_key_spec hM p_end h8).2.2.1, if_neg (by omega)]
      · rw [if_neg h8]
        have : p_end = 8 := by omega
        rw [this]; rfl
    obtain ⟨hw1, hleaf1, hpart⟩ := octant_step hM c hc tolerance htol w hw hleaf
      (octant_key MaxDepth p_first) kwf (p_first + 1) p_end ((p_end + p_first) / 2 - p_first)
      (p_end - (p_end + p_first) / 2) (by rw [koff]; split <;> omega) kidx (by omega) (by omega)
      (by omega) hp8 1
    have hratio : (((((p_end + p_first) / 2 - p_first : Nat) : ℚ) /
          (((p_end - p_first : Nat)) : ℚ)) /
        (1 - ((((p_end + p_first) / 2 - p_first : Nat) : ℚ) / (((p_end - p_first : Nat)) : ℚ)))) =
        ((((p_end + p_first) / 2 - p_first : Nat)) : ℚ) /
          (((p_end - (p_end + p_first) / 2 : Nat)) : ℚ) := by
      have := target_ratio_eq ((p_end + p_first) / 2 - p_first) (p_end - (p_end + p_first) / 2)
        (by omega) (by omega)
      rw [show (p_end + p_first) / 2 - p_first + (p_end - (p_end + p_first) / 2) =
        p_end - p_first by omega] at this
      exact this
    have hkey : (root MaxDepth).set_index 1 (p_first + 1 + ((p_end + p_first) / 2 - p_first)) =
        octant_key MaxDepth ((p_end + p_first) / 2) := by
      unfold octant_key
      rw [if_neg (by omega), show p_first + 1 + ((p_end + p_first) / 2 - p_first) =
        (p_end + p_first) / 2 + 1 by omega]
    rw [hkey] at hpart
    generalize hw1e : accumulate_weights (root MaxDepth) (octant_key MaxDepth p_first)
      (p_end + 1) 1 w = weights1 at hw1 hleaf1 hpart
    -- the cuts after the assignment of the middle slot
    have hc1len : (cuts.set ((p_end + p_first) / 2)
        (octant_key MaxDepth ((p_end + p_first) / 2))).length = 8 := by
      rw [List.length_set, hlen]
    have hc1up : (cuts.set ((p_end + p_first) / 2)
        (octant_key MaxDepth ((p_end + p_first) / 2))).getD ((p_end + p_first) / 2)
        (root MaxDepth) = octant_key MaxDepth ((p_end + p_first) / 2) :=
      getD_set_self _ _ _ _ (by omega)
    have hc1ne : ∀ q, q ≠ (p_end + p_first) / 2 → (cuts.set ((p_end + p_first) / 2)
        (octant_key MaxDepth ((p_end + p_first) / 2))).getD q (root MaxDepth) =
        cuts.getD q (root MaxDepth) := fun q hq => getD_set_ne _ _ _ _ _ (Ne.symm hq)
    -- the lower nested call
    have hlower : ∃ r1, (if p_first + 1 < (p_end + p_first) / 2 then
          oct_tree_partition_private fuel p_first ((p_end + p_first) / 2) 1 tolerance
            weights1 8 (cuts.set ((p_end + p_first) / 2)
              (octant_key MaxDepth ((p_end + p_first) / 2)))
        else Outcome.ok ⟨weights1, cuts.set ((p_end + p_first) / 2)
          (octant_key MaxDepth ((p_end + p_first) / 2)), []⟩) = Outcome.ok r1 ∧
        LeafWeights 1 r1.weights ∧ (∀ l, l ∈ leaf_offsets 1 0 → r1.weights.at (2 * l) = c) ∧
        r1.cuts.length = 8 ∧
        (∀ q, p_first < q → q ≤ (p_end + p_first) / 2 →
          r1.cuts.getD q (root MaxDepth) = octant_key MaxDepth q) ∧
        (∀ q, q ≤ p_first ∨ (p_end + p_first) / 2 < q →
          r1.cuts.getD q (root MaxDepth) = cuts.getD q (root MaxDepth)) := by
      by_cases hc : p_first + 1 < (p_end + p_first) / 2
      · rw [if_pos hc]
        obtain ⟨r1, e, a1, a2, a3, a4, a5⟩ := ih p_first ((p_end + p_first) / 2) weights1 _
          hw1 hleaf1 (by omega) (by omega) (by omega) hc1len
          (by rw [hc1ne _ (by omega)]; exact hfirst) (fun _ => hc1up)
        refine ⟨r1, e, a1, a2, a3, ?_, ?_⟩
        · intro q h1 h2
          by_cases hq : q = (p_end + p_first) / 2
          · rw [hq, a5 _ (Or.inr (le_refl _)), hc1up]
          · exact a4 q h1 (by omega)
        · intro q hq
          rw [a5 q (by omega), hc1ne q (by omega)]
      · rw [if_neg hc]
        refine ⟨_, rfl, hw1, hleaf1, hc1len, ?_, ?_⟩
        · intro q h1 h2
          have : q = (p_end + p_first) / 2 := by omega
          rw [this]; exact hc1up
        · intro q hq
          exact hc1ne q (by omega)
    obtain ⟨r1, e1, b1, b2, b3, b4, b5⟩ := hlower
    -- the upper nested call
    have hupper : ∃ r2, (if (p_end + p_first) / 2 + 1 < p_end then
          oct_tree_partition_private fuel ((p_end + p_first) / 2) p_end 1 tolerance
            r1.weights 8 r1.cuts
        else Outcome.ok ⟨r1.weights, r1.cuts, []⟩) = Outcome.ok r2 ∧
        LeafWeights 1 r2.weights ∧ (∀ l, l ∈ leaf_offsets 1 0 → r2.weights.at (2 * l) = c) ∧
        r2.cuts.length = 8 ∧
        (∀ q, (p_end + p_first) / 2 < q → q < p_end →
          r2.cuts.getD q (root MaxDepth) = octant_key MaxDepth q) ∧
        (∀ q, q ≤ (p_end + p_first) / 2 ∨ p_end ≤ q →
          r2.cuts.getD q (root MaxDepth) = r1.cuts.getD q (root MaxDepth)) := by
      by_cases hc : (p_end + p_first) / 2 + 1 < p_end
      · rw [if_pos hc]
        exact ih ((p_end + p_first) / 2) p_end r1.weights r1.cuts b1 b2 (by omega) hp8
          (by omega) b3 (b4 _ hup1 (le_refl _))
          (fun h8 => by rw [b5 _ (Or.inr hup2)]; exact hend h8)
      · rw [if_neg hc]
        refine ⟨_, rfl, b1, b2, b3, ?_, fun _ _ => rfl⟩
        intro q h1 h2
        omega
    obtain ⟨r2, e2, c1, c2, c3, c4, c5⟩ := hupper
    refine ⟨⟨r2.weights, r2.cuts, (p_end + p_first) / 2 :: (r1.assigned ++ r2.assigned)⟩,
      ?_, c1, c2, c3, ?_, ?_⟩
    · rw [oct_tree_partition_private]
      simp only [hfirst, hiend, hw1e, hratio, hpart, e1, e2]
    · intro q h1 h2
      show r2.cuts.getD q (root MaxDepth) = octant_key MaxDepth q
      by_cases hq : q ≤ (p_end + p_first) / 2
      · rw [c5 q (Or.inl hq)]; exact b4 q h1 hq
      · exact c4 q (by omega) h2
    · intro q hq
      show r2.cuts.getD q (root MaxDepth) = cuts.getD q (root MaxDepth)
      rw [c5 q (by omega), b5 q (by omega)]

/-! ## One process per octant: the claim -/

theorem sorted_of_getD {MaxDepth : Nat} (cuts : List (OctTreeKey MaxDepth))
    (h : ∀ p q, p < q → q < cuts.length →
      cuts.getD p (root MaxDepth) ≤ cuts.getD q (root MaxDepth)) : SortedCuts cuts := by
  unfold SortedCuts
  rw [List.pairwise_iff_getElem]
  intro i j hi hj hij
  have := h i j hij hj
  rwa [List.getD_eq_getElem _ _ hi, List.getD_eq_getElem _ _ hj] at this

/-- The processor of the first key of the octant `i`, for cuts that are the first keys of the
eight octants. -/
theorem processor_octant {MaxDepth : Nat} (hM : 1 ≤ MaxDepth)
    (cuts : List (OctTreeKey MaxDepth)) (hlen : cuts.length = 8)
    (hcuts : ∀ q, q < 8 → cuts.getD q (root MaxDepth) = octant_key MaxDepth q) (i : Nat)
    (hi : i < 8) : processor cuts ((root MaxDepth).set_index 1 (i + 1)) = some i := by
  have hkey : ((root MaxDepth).set_index 1 (i + 1)).WellFormed ∧
      ((root MaxDepth).set_index 1 (i + 1)).depth ≤ 1 ∧
      oct_tree_offset 1 ((root MaxDepth).set_index 1 (i + 1)) = i + 1 := by
    obtain ⟨hw, hd⟩ := child_wf (root MaxDepth) (root_wf _) (by rw [root_depth]; omega)
      (i + 1) (by omega) (by omega)
    rw [root_depth] at hw hd
    refine ⟨hw, by rw [hd], ?_⟩
    rw [oct_tree_offset_octant hM 1 (le_refl _) (i + 1) (by omega)]
    simp [child_offset, oct_tree_size]; omega
  have hlt : ∀ p q, p < q → q < 8 → octant_key MaxDepth p < octant_key MaxDepth q := by
    intro p q hpq hq
    obtain ⟨a1, a2, a3, -⟩ := octant_key_spec hM p (by omega)
    obtain ⟨b1, b2, b3, -⟩ := octant_key_spec hM q hq
    apply key_lt_of_offset_lt 1 _ _ a1 b1 a2 b2
    rw [a3, b3]
    split <;> split <;> omega
  have hbelow : ∀ q, q ≤ i → octant_key MaxDepth q ≤ (root MaxDepth).set_index 1 (i + 1) := by
    intro q hq
    by_cases hqi : q = i ∧ i ≠ 0
    · obtain ⟨rfl, h0⟩ := hqi
      unfold octant_key
      rw [if_neg h0]
      exact key_le_refl _
    · obtain ⟨a1, a2, a3, -⟩ := octant_key_spec hM q (by omega)
      apply key_le_of_lt
      apply key_lt_of_offset_lt 1 _ _ a1 hkey.1 a2 hkey.2.1
      rw [a3, hkey.2.2]
      split <;> omega
  have habove : ∀ q, i < q → q < 8 →
      (root MaxDepth).set_index 1 (i + 1) < octant_key MaxDepth q := by
    intro q hq h8
    obtain ⟨a1, a2, a3, -⟩ := octant_key_spec hM q h8
    apply key_lt_of_offset_lt 1 _ _ hkey.1 a1 hkey.2.1 a2
    rw [a3, hkey.2.2]
    split <;> omega
  have hs : SortedCuts cuts := by
    apply sorted_of_getD
    intro p q hpq hq
    rw [hcuts p (by omega), hcuts q (by omega)]
    exact key_le_of_lt (hlt p q hpq (by omega))
  obtain ⟨hle, hlo, hhi⟩ := upper_bound_spec cuts ((root MaxDepth).set_index 1 (i + 1)) hs
  have hub : upper_bound cuts ((root MaxDepth).set_index 1 (i + 1)) = i + 1 := by
    by_contra hne
    rcases Nat.lt_or_gt_of_ne hne with h | h
    · have h1 := hhi i (by omega) (by omega)
      rw [hcuts i hi] at h1
      exact (not_lt_iff_le _ _).2 (hbelow i (le_refl _)) h1
    · have h1 := hlo (i + 1) h
      rw [hcuts (i + 1) (by omega)] at h1
      exact (not_lt_iff_le _ _).2 h1 (habove (i + 1) (by omega) (by omega))
  unfold processor
  simp only [hub]
  rfl

theorem octant_weights_leaf_weights (c : ℚ) : LeafWeights 1 (octant_weights c) :=
  leaf_weights_of_slots 1 (octant_weights c) rfl (octant_weights_zero c)

/-- C16: with tree depth `1`, the eight depth-1 cells each carrying the same positive own
weight (all other slots zero), `P = 8`, tolerance `1e-6` and `cuts[0]` the root,
`oct_tree_partition_private(0, 8, 1, 1e-6, weights, 8, cuts)` returns with the cuts
`root, (2), (3), (4), (5), (6), (7), (8)`, and `processor(cuts, key of octant i)` returns `i`
for every `i` in `0..7`, the octant `i` having the single-digit key `(i + 1)`. -/
theorem oct_tree_partition_private_octants {MaxDepth : Nat} (hM : 1 ≤ MaxDepth) (c : ℚ)
    (hc : 0 < c) (cuts : List (OctTreeKey MaxDepth)) (hlen : cuts.length = 8)
    (h0 : cuts.getD 0 (root MaxDepth) = root MaxDepth) (fuel : Nat) (hfuel : 8 ≤ fuel) :
    ∃ r, oct_tree_partition_private fuel 0 8 1 (1 / 1000000) (octant_weights c) 8 cuts =
        Outcome.ok r ∧
      r.cuts = [root MaxDepth, (root MaxDepth).set_index 1 2, (root MaxDepth).set_index 1 3,
        (root MaxDepth).set_index 1 4, (root MaxDepth).set_index 1 5,
        (root MaxDepth).set_index 1 6, (root MaxDepth).set_index 1 7,
        (root MaxDepth).set_index 1 8] ∧
      ∀ i, i < 8 → processor r.cuts ((root MaxDepth).set_index 1 (i + 1)) = some i := by
  obtain ⟨r, hr, -, -, hl, hin, hout⟩ := octant_bisect hM c hc (1 / 1000000) (by norm_num)
    fuel 0 8 (octant_weights c) cuts (octant_weights_leaf_weights c) (octant_weights_leaf c)
    (by norm_num) (le_refl _) (by omega) hlen (by rw [h0]; rfl)
    (fun h => absurd h (lt_irrefl _))
  have hall : ∀ q, q < 8 → r.cuts.getD q (root MaxDepth) = octant_key MaxDepth q := by
    intro q hq
    by_cases hq0 : q = 0
    · subst hq0
      rw [hout 0 (Or.inl (le_refl _)), h0]; rfl
    · exact hin q (by omega) hq
  refine ⟨r, hr, ?_, fun i hi => processor_octant hM r.cuts hl hall i hi⟩
  have e0 := hall 0 (by norm_num)
  have e1 := hall 1 (by norm_num)
  have e2 := hall 2 (by norm_num)
  have e3 := hall 3 (by norm_num)
  have e4 := hall 4 (by norm_num)
  have e5 := hall 5 (by norm_num)
  have e6 := hall 6 (by norm_num)
  have e7 := hall 7 (by norm_num)
  match hc : r.cuts, hl with
  | [c0, c1, c2, c3, c4, c5, c6, c7], _ =>
    rw [hc] at e0 e1 e2 e3 e4 e5 e6 e7
    simp only [List.getD_cons_zero, List.getD_cons_succ] at e0 e1 e2 e3 e4 e5 e6 e7
    rw [e0, e1, e2, e3, e4, e5, e6, e7]
    rfl

/-- The hypotheses of C16 hold for keys of `2` levels, the own weight `3` and cuts that all
start as the root. -/
theorem oct_tree_partition_private_octants_witness :
    1 ≤ 2 ∧ (0 : ℚ) < 3 ∧ (List.replicate 8 (root 2)).length = 8 ∧
    ∃ r, oct_tree_partition_private 8 0 8 1 (1 / 1000000) (octant_weights 3) 8
        (List.replicate 8 (root 2)) = Outcome.ok r ∧
      r.cuts = [root 2, (root 2).set_index 1 2, (root 2).set_index 1 3,
        (root 2).set_index 1 4, (root 2).set_index 1 5, (root 2).set_index 1 6,
        (root 2).set_index 1 7, (root 2).set_index 1 8] ∧
      ∀ i, i < 8 → processor r.cuts ((root 2).set_index 1 (i + 1)) = some i :=
  ⟨by decide, by norm_num, rfl,
    oct_tree_partition_private_octants (by decide) 3 (by norm_num) (List.replicate 8 (root 2))
      rfl rfl 8 (le_refl _)⟩

/-! ## The weight slots written by the nested calls -/

theorem same_own_refl (w : Weights) : SameOwnWeights w w := ⟨rfl, fun _ => rfl⟩

theorem same_own_trans {w1 w2 w3 : Weights} (h12 : SameOwnWeights w1 w2)
    (h23 : SameOwnWeights w2 w3) : SameOwnWeights w1 w3 :=
  ⟨by rw [h23.1, h12.1], fun o => by rw [h23.2, h12.2]⟩

theorem same_own_put (w : Weights) (o : Nat) (v : ℚ) :
    SameOwnWeights w (w.put (2 * o + 1) v) :=
  ⟨Weights.length_put _ _ _, fun o' => Weights.at_put_ne _ _ _ _ (by omega)⟩

theorem accumulate_children_own {MaxDepth : Nat}
    (recurse : OctTreeKey MaxDepth → Weights → Weights)
    (hrec : ∀ k w, SameOwnWeights w (recurse k w)) (d1 ord_end depth : Nat) :
    ∀ (l : List Nat) (st : AccState MaxDepth),
      SameOwnWeights st.weights (accumulate_children recurse d1 ord_end depth l st).weights := by
  intro l
  induction l with
  | nil => intro st; exact same_own_refl _
  | cons i rest ih =>
    intro st
    rw [accumulate_children]
    simp only []
    split
    · exact same_own_trans (hrec _ _) (ih _)
    · exact ih _

/-- The accumulation writes descendant slots only: the own-weight slots and the length of
the array are kept, whatever the arguments. -/
theorem accumulate_weights_fuel_own {MaxDepth : Nat} (ord_end depth : Nat) :
    ∀ (fuel : Nat) (k_node k_first : OctTreeKey MaxDepth) (w : Weights),
      SameOwnWeights w (accumulate_weights_fuel fuel k_node k_first ord_end depth w) := by
  intro fuel
  induction fuel with
  | zero => intro _ _ w; exact same_own_refl _
  | succ fuel ih =>
    intro k_node k_first w
    rw [accumulate_weights_fuel]
    simp only []
    split
    · by_cases hi : k_first.index (k_node.depth + 1) = 0
      · simp only [hi, ne_eq, not_true_eq_false, if_false]
        exact same_own_trans (accumulate_children_own _ (fun k w => ih k k_first w) _ _ _ _ _)
          (same_own_put _ _ _)
      · simp only [hi, ne_eq, not_false_eq_true, if_true]
        exact same_own_trans (same_own_trans (ih _ k_first w)
          (accumulate_children_own _ (fun k w => ih k (root MaxDepth) w) _ _ _ _ _))
          (same_own_put _ _ _)
    · exact same_own_refl _

theorem accumulate_weights_own {MaxDepth : Nat} (k_node k_first : OctTreeKey MaxDepth)
    (ord_end depth : Nat) (w : Weights) :
    SameOwnWeights w (accumulate_weights k_node k_first ord_end depth w) :=
  accumulate_weights_fuel_own ord_end depth _ _ _ _

/-- A call of `oct_tree_partition_private` that returns has kept the own-weight slots and the
length of the weight array. -/
theorem oct_tree_partition_private_own {MaxDepth : Nat} :
    ∀ (fuel p_first p_end depth : Nat) (tolerance : ℚ) (weights : Weights) (cuts_length : Nat)
      (cuts : List (OctTreeKey MaxDepth)) (r : PartitionResult MaxDepth),
      oct_tree_partition_private fuel p_first p_end depth tolerance weights cuts_length cuts =
        Outcome.ok r → SameOwnWeights weights r.weights := by
  intro fuel
  induction fuel with
  | zero =>
    intro p_first p_end depth tolerance weights cuts_length cuts r h
    simp [oct_tree_partition_private] at h
  | succ fuel ih =>
    intro p_first p_end depth tolerance weights cuts_length cuts r h
    rw [oct_tree_partition_private] at h
    simp only [] at h
    have hacc := accumulate_weights_own (root MaxDepth) (cuts.getD p_first (root MaxDepth))
      (if p_end < cuts_length then oct_tree_offset depth (cuts.getD p_end (root MaxDepth))
        else oct_tree_size depth) depth weights
    split at h
    · cases h
    · cases h
    · split at h
      · cases h
      · cases h
      · rename_i r1 hlower
        split at h
        · cases h
        · cases h
        · rename_i r2 hupper
          simp only [Outcome.ok.injEq] at h
          subst h
          have hl : SameOwnWeights weights r1.weights := by
            split at hlower
            · exact same_own_trans hacc (ih _ _ _ _ _ _ _ _ hlower)
            · simp only [Outcome.ok.injEq] at hlower
              subst hlower
              exact hacc
          have hu : SameOwnWeights r1.weights r2.weights := by
            split at hupper
            · exact ih _ _ _ _ _ _ _ _ hupper
            · simp only [Outcome.ok.injEq] at hupper
              subst hupper
              exact same_own_refl _
          exact same_own_trans hl hu

/-- C19 as stated fails: with four processes on the tree of depth `1` with `uneven_weights`
and tolerance `1/4`, both nested splits are taken; the outer call hands the array with
`weights[1] = 9` to the nested call on `[0, 2)`, which leaves `weights[1] = 4`, and the nested
call on `[2, 4)` then leaves `weights[1] = 5`: both nested calls write the descendant slot of
the root. -/
theorem oct_tree_partition_private_writes_overlap :
    0 + 1 < (4 + 0) / 2 ∧ (4 + 0) / 2 + 1 < 4 ∧
    accumulate_weights (root 2) (root 2) 9 1 uneven_weights =
      [0, 9, 1, 0, 1, 0, 1, 0, 1, 0, 1, 0, 1, 0, 1, 0, 2, 0] ∧
    partition 2 (root 2) 9 (root 2) 1 [0, 9, 1, 0, 1, 0, 1, 0, 1, 0, 1, 0, 1, 0, 1, 0, 2, 0]
      (1 / 4) 1 0 0 = Outcome.ok (key_of_digits 2 [5]) ∧
    oct_tree_partition_private 3 0 2 1 (1 / 4)
        [0, 9, 1, 0, 1, 0, 1, 0, 1, 0, 1, 0, 1, 0, 1, 0, 2, 0] 4
        [root 2, root 2, key_of_digits 2 [5], root 2] =
      Outcome.ok ⟨[0, 4, 1, 0, 1, 0, 1, 0, 1, 0, 1, 0, 1, 0, 1, 0, 2, 0],
        [root 2, key_of_digits 2 [3], key_of_digits 2 [5], root 2], [1]⟩ ∧
    oct_tree_partition_private 3 2 4 1 (1 / 4)
        [0, 4, 1, 0, 1, 0, 1, 0, 1, 0, 1, 0, 1, 0, 1, 0, 2, 0] 4
        [root 2, key_of_digits 2 [3], key_of_digits 2 [5], root 2] =
      Outcome.ok ⟨[0, 5, 1, 0, 1, 0, 1, 0, 1, 0, 1, 0, 1, 0, 1, 0, 2, 0],
        [root 2, key_of_digits 2 [3], key_of_digits 2 [5], key_of_digits 2 [7]], [3]⟩ ∧
    oct_tree_partition_private 4 0 4 1 (1 / 4) uneven_weights 4
        [root 2, root 2, root 2, root 2] =
      Outcome.ok ⟨[0, 5, 1, 0, 1, 0, 1, 0, 1, 0, 1, 0, 1, 0, 1, 0, 2, 0],
        [root 2, key_of_digits 2 [3], key_of_digits 2 [5], key_of_digits 2 [7]], [2, 1, 3]⟩ ∧
    (9 : ℚ) ≠ 4 ∧ (4 : ℚ) ≠ 5 := by
  decide!

theorem meets_mono {o s lo hi lo2 hi2 : Nat} (h : Meets o s lo2 hi2) (h1 : lo ≤ lo2)
    (h2 : hi2 ≤ hi) : Meets o s lo hi :=
  ⟨lt_of_lt_of_le h.1 h2, lt_of_le_of_lt h1 h.2.1, lt_of_le_of_lt h1 (lt_of_lt_of_le h.2.2.1 h2),
    h.2.2.2⟩

/-- A call of `oct_tree_partition_private` on a process range of size at least `2` whose cuts
come out in increasing offset order writes only descendant slots of inner nodes whose subtree
meets the offset range of the call, `[oct_tree_offset(cuts[p_first]), i_end)`. -/
theorem oct_tree_partition_private_writes {MaxDepth : Nat} (depth : Nat) (hm : depth ≤ MaxDepth) :
    ∀ (fuel p_first p_end : Nat) (tolerance : ℚ) (weights : Weights) (cuts_length : Nat)
      (cuts : List (OctTreeKey MaxDepth)) (r : PartitionResult MaxDepth),
      2 ≤ p_end - p_first → p_end ≤ cuts_length →
      oct_tree_partition_private fuel p_first p_end depth tolerance weights cuts_length cuts =
        Outcome.ok r →
      CutsIncreasing depth r.cuts p_first p_end
        (oct_tree_offset depth (r.cuts.getD p_first (root MaxDepth)))
        (if p_end < cuts_length then oct_tree_offset depth (r.cuts.getD p_end (root MaxDepth))
          else oct_tree_size depth) →
      ∀ idx, r.weights.at idx ≠ weights.at idx →
        ∃ o' h', Below 0 depth o' (h' + 1) ∧ idx = 2 * o' + 1 ∧
          Meets o' (oct_tree_size (h' + 1))
            (oct_tree_offset depth (r.cuts.getD p_first (root MaxDepth)))
            (if p_end < cuts_length then oct_tree_offset depth (r.cuts.getD p_end (root MaxDepth))
              else oct_tree_size depth) := by
  intro fuel
  induction fuel with
  | zero =>
    intro p_first p_end tolerance weights cuts_length cuts r _ _ h
    simp [oct_tree_partition_private] at h
  | succ fuel ih =>
    intro p_first p_end tolerance weights cuts_length cuts r hsize hlen h hcuts idx hne
    have hfr := oct_tree_partition_private_frame (fuel + 1) p_first p_end depth tolerance weights
      cuts_length cuts r hsize h
    have hup1 : p_first < (p_end + p_first) / 2 := by omega
    have hup2 : (p_end + p_first) / 2 < p_end := by omega
    have hkf : cuts.getD p_first (root MaxDepth) = r.cuts.getD p_first (root MaxDepth) :=
      (hfr.2.1 p_first (Or.inl (le_refl _))).symm
    have hke : cuts.getD p_end (root MaxDepth) = r.cuts.getD p_end (root MaxDepth) :=
      (hfr.2.1 p_end (Or.inr (le_refl _))).symm
    rw [oct_tree_partition_private] at h
    simp only [] at h
    rw [hkf, hke] at h
    generalize hlo : oct_tree_offset depth (r.cuts.getD p_first (root MaxDepth)) = lo at *
    generalize hhi : (if p_end < cuts_length then
        oct_tree_offset depth (r.cuts.getD p_end (root MaxDepth))
      else oct_tree_size depth) = hi at *
    -- the accumulation of this call
    have hacc : ∀ idx, (accumulate_weights (root MaxDepth) (r.cuts.getD p_first (root MaxDepth))
          hi depth weights).at idx ≠ weights.at idx →
        ∃ o' h', Below 0 depth o' (h' + 1) ∧ idx = 2 * o' + 1 ∧
          Meets o' (oct_tree_size (h' + 1)) lo hi := by
      intro idx hn
      obtain ⟨hwf, -, -, hlt, -⟩ := hcuts p_first (le_refl _) (by omega)
      rw [hlo] at hlt
      rw [accumulate_weights_eq depth hi hm _ hwf] at hn
      have := (offset_accumulate_frame hi depth 0 (r.cuts.getD p_first (root MaxDepth)).digits
        weights hwf (by rw [Nat.zero_add]; exact (hlo ▸ hlt : oct_tree_offset depth
          (r.cuts.getD p_first (root MaxDepth)) < hi))).2 idx hn
      obtain ⟨o', h', hb, hidx, hmeet⟩ := this
      rw [Nat.zero_add] at hmeet
      exact ⟨o', h', hb, hidx, by rw [← hlo]; exact hmeet⟩
    split at h
    · cases h
    · cases h
    · rename_i k_upper hpart
      split at h
      · cases h
      · cases h
      · rename_i r1 hlower
        split at h
        · cases h
        · cases h
        · rename_i r2 hupper
          simp only [Outcome.ok.injEq] at h
          subst h
          simp only [] at hcuts hne hfr hlo hhi hkf hke ⊢
          -- the cut slots kept by the nested calls
          have hl : ∀ q, q ≤ p_first ∨ (p_end + p_first) / 2 ≤ q →
              r1.cuts.getD q (root MaxDepth) =
                (cuts.set ((p_end + p_first) / 2) k_upper).getD q (root MaxDepth) := by
            by_cases hc : p_first + 1 < (p_end + p_first) / 2
            · simp only [hc, if_true] at hlower
              exact (oct_tree_partition_private_frame _ _ _ _ _ _ _ _ _ (by omega) hlower).2.1
            · simp only [hc, if_false, Outcome.ok.injEq] at hlower
              subst hlower
              exact fun _ _ => rfl
          have hu : ∀ q, q ≤ (p_end + p_first) / 2 ∨ p_end ≤ q →
              r2.cuts.getD q (root MaxDepth) = r1.cuts.getD q (root MaxDepth) := by
            by_cases hc : (p_end + p_first) / 2 + 1 < p_end
            · simp only [hc, if_true] at hupper
              exact (oct_tree_partition_private_frame _ _ _ _ _ _ _ _ _ (by omega) hupper).2.1
            · simp only [hc, if_false, Outcome.ok.injEq] at hupper
              subst hupper
              exact fun _ _ => rfl
          have hmid := hcuts ((p_end + p_first) / 2) (by omega) hup2
          have hfirst := hcuts p_first (le_refl _) (by omega)
          -- the lower nested call
          have hlow : ∀ idx, r1.weights.at idx ≠
              (accumulate_weights (root MaxDepth) (r2.cuts.getD p_first (root MaxDepth))
                hi depth weights).at idx →
              ∃ o' h', Below 0 depth o' (h' + 1) ∧ idx = 2 * o' + 1 ∧
                Meets o' (oct_tree_size (h' + 1)) lo
                  (oct_tree_offset depth (r2.cuts.getD ((p_end + p_first) / 2)
                    (root MaxDepth))) := by
            intro idx hn
            by_cases hc : p_first + 1 < (p_end + p_first) / 2
            · simp only [hc, if_true] at hlower
              have e1 : r1.cuts.getD p_first (root MaxDepth) =
                  r2.cuts.getD p_first (root MaxDepth) := (hu p_first (by omega)).symm
              have e2 : r1.cuts.getD ((p_end + p_first) / 2) (root MaxDepth) =
                  r2.cuts.getD ((p_end + p_first) / 2) (root MaxDepth) :=
                (hu _ (Or.inl (le_refl _))).symm
              have := ih p_first ((p_end + p_first) / 2) tolerance _ cuts_length _ r1 (by omega)
                (by omega) hlower (by
                  rw [if_pos (by omega : (p_end + p_first) / 2 < cuts_length), e1, e2, hlo]
                  intro q hq1 hq2
                  obtain ⟨a, b, c, d, e⟩ := hcuts q hq1 (by omega)
                  rw [← hu q (by omega)]
                  refine ⟨a, b, c, ?_, ?_⟩
                  · exact e _ hq2 hup2
                  · intro q2 h1 h2
                    rw [← hu q2 (by omega)]
                    exact e q2 h1 (by omega)) idx hn
              rw [if_pos (by omega : (p_end + p_first) / 2 < cuts_length), e1, e2, hlo] at this
              exact this
            · simp only [hc, if_false, Outcome.ok.injEq] at hlower
              subst hlower
              exact absurd rfl hn
          -- the upper nested call
          have hupp : ∀ idx, r2.weights.at idx ≠ r1.weights.at idx →
              ∃ o' h', Below 0 depth o' (h' + 1) ∧ idx = 2 * o' + 1 ∧
                Meets o' (oct_tree_size (h' + 1))
                  (oct_tree_offset depth (r2.cuts.getD ((p_end + p_first) / 2)
                    (root MaxDepth))) hi := by
            intro idx hn
            by_cases hc : (p_end + p_first) / 2 + 1 < p_end
            · simp only [hc, if_true] at hupper
              have := ih ((p_end + p_first) / 2) p_end tolerance _ cuts_length _ r2 (by omega)
                hlen hupper (by
                  rw [hhi]
                  intro q hq1 hq2
                  obtain ⟨a, b, c, d, e⟩ := hcuts q (by omega) hq2
                  refine ⟨a, b, ?_, d, e⟩
                  rcases Nat.eq_or_lt_of_le hq1 with h1 | h1
                  · rw [← h1]
                  · exact le_of_lt (hmid.2.2.2.2 q h1 hq2)) idx hn
              rw [hhi] at this
              exact this
            · simp only [hc, if_false, Outcome.ok.injEq] at hupper
              subst hupper
              exact absurd rfl hn
          by_cases c2 : r2.weights.at idx = r1.weights.at idx
          · rw [c2] at hne
            by_cases c1 : r1.weights.at idx =
                (accumulate_weights (root MaxDepth) (r2.cuts.getD p_first (root MaxDepth))
                  hi depth weights).at idx
            · rw [c1] at hne
              exact hacc idx hne
            · obtain ⟨o', h', hb, hidx, hmeet⟩ := hlow idx c1
              exact ⟨o', h', hb, hidx, meets_mono hmeet (le_refl _) (le_of_lt hmid.2.2.2.1)⟩
          · obtain ⟨o', h', hb, hidx, hmeet⟩ := hupp idx c2
            exact ⟨o', h', hb, hidx, meets_mono hmeet hmid.2.2.1 (le_refl _)⟩


/-- C19, amended: in a call of `oct_tree_partition_private` that returns with both nested
splits taken (`p_first + 1 < p_upper` and `p_upper + 1 < p_end`, with `p_end ≤ cuts_length`)
and with cuts `p_first .. p_end` in increasing offset order, the nested call on
`[p_first, p_upper)` writes only descendant slots (index `2 * offset + 1`) of inner nodes
whose subtree meets the offset range `[oct_tree_offset(cuts[p_first]),
oct_tree_offset(cuts[p_upper]))`, and the nested call on `[p_upper, p_end)` only descendant
slots of inner nodes whose subtree meets `[oct_tree_offset(cuts[p_upper]), i_end)`. A slot
written by both is the descendant slot of a node that lies before `cuts[p_upper]` and has it
in its subtree: the root or another proper ancestor of `cuts[p_upper]`. The own-weight slots
and the length of the array are kept by both calls. -/
theorem oct_tree_partition_private_nested_writes {MaxDepth : Nat} (depth : Nat)
    (hm : depth ≤ MaxDepth) (fuel p_first p_end : Nat) (tolerance : ℚ) (weights : Weights)
    (cuts_length : Nat) (cuts : List (OctTreeKey MaxDepth)) (r : PartitionResult MaxDepth)
    (h1 : p_first + 1 < (p_end + p_first) / 2) (h2 : (p_end + p_first) / 2 + 1 < p_end)
    (hlen : p_end ≤ cuts_length)
    (h : oct_tree_partition_private (fuel + 1) p_first p_end depth tolerance weights
      cuts_length cuts = Outcome.ok r)
    (hcuts : CutsIncreasing depth r.cuts p_first p_end
      (oct_tree_offset depth (r.cuts.getD p_first (root MaxDepth)))
      (if p_end < cuts_length then oct_tree_offset depth (r.cuts.getD p_end (root MaxDepth))
        else oct_tree_size depth)) :
    ∃ (k_upper : OctTreeKey MaxDepth) (r1 r2 : PartitionResult MaxDepth),
      oct_tree_partition_private fuel p_first ((p_end + p_first) / 2) depth tolerance
          (accumulate_weights (root MaxDepth) (cuts.getD p_first (root MaxDepth))
            (if p_end < cuts_length then
              oct_tree_offset depth (cuts.getD p_end (root MaxDepth))
            else oct_tree_size depth) depth weights)
          cuts_length (cuts.set ((p_end + p_first) / 2) k_upper) = Outcome.ok r1 ∧
      oct_tree_partition_private fuel ((p_end + p_first) / 2) p_end depth tolerance r1.weights
          cuts_length r1.cuts = Outcome.ok r2 ∧
      r.weights = r2.weights ∧ r.cuts = r2.cuts ∧
      SameOwnWeights
        (accumulate_weights (root MaxDepth) (cuts.getD p_first (root MaxDepth))
          (if p_end < cuts_length then oct_tree_offset depth (cuts.getD p_end (root MaxDepth))
          else oct_tree_size depth) depth weights) r1.weights ∧
      SameOwnWeights r1.weights r2.weights ∧
      (∀ idx, r1.weights.at idx ≠
          (accumulate_weights (root MaxDepth) (cuts.getD p_first (root MaxDepth))
            (if p_end < cuts_length then oct_tree_offset depth (cuts.getD p_end (root MaxDepth))
            else oct_tree_size depth) depth weights).at idx →
        ∃ o h, Below 0 depth o (h + 1) ∧ idx = 2 * o + 1 ∧
          Meets o (oct_tree_size (h + 1))
            (oct_tree_offset depth (r.cuts.getD p_first (root MaxDepth)))
            (oct_tree_offset depth (r.cuts.getD ((p_end + p_first) / 2) (root MaxDepth)))) ∧
      (∀ idx, r2.weights.at idx ≠ r1.weights.at idx →
        ∃ o h, Below 0 depth o (h + 1) ∧ idx = 2 * o + 1 ∧
          Meets o (oct_tree_size (h + 1))
            (oct_tree_offset depth (r.cuts.getD ((p_end + p_first) / 2) (root MaxDepth)))
            (if p_end < cuts_length then
              oct_tree_offset depth (r.cuts.getD p_end (root MaxDepth))
            else oct_tree_size depth)) ∧
      (∀ idx, r1.weights.at idx ≠
          (accumulate_weights (root MaxDepth) (cuts.getD p_first (root MaxDepth))
            (if p_end < cuts_length then oct_tree_offset depth (cuts.getD p_end (root MaxDepth))
            else oct_tree_size depth) depth weights).at idx →
        r2.weights.at idx ≠ r1.weights.at idx →
        ∃ o h, Below 0 depth o (h + 1) ∧ idx = 2 * o + 1 ∧
          o < oct_tree_offset depth (r.cuts.getD ((p_end + p_first) / 2) (root MaxDepth)) ∧
          oct_tree_offset depth (r.cuts.getD ((p_end + p_first) / 2) (root MaxDepth)) <
            o + oct_tree_size (h + 1)) := by
  have hup2 : (p_end + p_first) / 2 < p_end := by omega
  have hmid := hcuts ((p_end + p_first) / 2) (by omega) hup2
  rw [oct_tree_partition_private] at h
  simp only [h1, h2, if_true] at h
  split at h
  · cases h
  · cases h
  · rename_i k_upper _
    split at h
    · cases h
    · cases h
    · rename_i r1 hlower
      split at h
      · cases h
      · cases h
      · rename_i r2 hupper
        simp only [Outcome.ok.injEq] at h
        subst h
        simp only [] at hcuts hmid ⊢
        have hu := (oct_tree_partition_private_frame _ _ _ _ _ _ _ _ _ (by omega) hupper).2.1
        have e1 : r1.cuts.getD p_first (root MaxDepth) =
            r2.cuts.getD p_first (root MaxDepth) := (hu p_first (by omega)).symm
        have e2 : r1.cuts.getD ((p_end + p_first) / 2) (root MaxDepth) =
            r2.cuts.getD ((p_end + p_first) / 2) (root MaxDepth) :=
          (hu _ (Or.inl (le_refl _))).symm
        have hlow := oct_tree_partition_private_writes depth hm fuel p_first
          ((p_end + p_first) / 2) tolerance _ cuts_length _ r1 (by omega) (by omega) hlower (by
            rw [if_pos (by omega : (p_end + p_first) / 2 < cuts_length), e1, e2]
            intro q hq1 hq2
            obtain ⟨a, b, c, d, e⟩ := hcuts q hq1 (by omega)
            rw [← hu q (by omega)]
            refine ⟨a, b, c, ?_, ?_⟩
            · exact e _ hq2 hup2
            · intro q2 h1 h2
              rw [← hu q2 (by omega)]
              exact e q2 h1 (by omega))
        rw [if_pos (by omega : (p_end + p_first) / 2 < cuts_length), e1, e2] at hlow
        have hupp := oct_tree_partition_private_writes depth hm fuel ((p_end + p_first) / 2)
          p_end tolerance _ cuts_length _ r2 (by omega) hlen hupper (by
            intro q hq1 hq2
            obtain ⟨a, b, c, d, e⟩ := hcuts q (by omega) hq2
            refine ⟨a, b, ?_, d, e⟩
            rcases Nat.eq_or_lt_of_le hq1 with h1 | h1
            · rw [← h1]
            · exact le_of_lt (hmid.2.2.2.2 q h1 hq2))
        refine ⟨k_upper, r1, r2, hlower, hupper, rfl, rfl,
          oct_tree_partition_private_own _ _ _ _ _ _ _ _ _ hlower,
          oct_tree_partition_private_own _ _ _ _ _ _ _ _ _ hupper, hlow, hupp, ?_⟩
        intro idx c1 c2
        obtain ⟨o, h, hb, hidx, hmeet⟩ := hlow idx c1
        obtain ⟨o2, h', hb2, hidx2, hmeet2⟩ := hupp idx c2
        have ho : o2 = o := by omega
        subst ho
        have hh := Below.height_unique depth 0 _ _ _ hb hb2
        have hh2 : h' = h := by omega
        subst hh2
        exact ⟨o2, h', hb, hidx, hmeet.1, hmeet2.2.1⟩


/-- The cuts `root, (3), (5), (7)` of four processes on the tree of depth `1` are in
increasing offset order. -/
theorem uneven_cuts_increasing :
    CutsIncreasing 1 [root 2, key_of_digits 2 [3], key_of_digits 2 [5], key_of_digits 2 [7]]
      0 4 0 9 := by
  intro q _ hq
  interval_cases q
  all_goals
    refine ⟨by decide, by decide, by decide, by decide, fun q2 h1 h2 => ?_⟩
    interval_cases q2 <;> decide

/-- The hypotheses of the amended C19 hold for four processes on the tree of depth `1` with
`uneven_weights`: the cuts come out as `root, (3), (5), (7)`, the nested call on `[0, 2)`
writes within the offsets `[0, 5)`, the nested call on `[2, 4)` within `[5, 9)`, and the one
slot written by both is `weights[1]`, the descendant slot of the root. -/
theorem oct_tree_partition_private_nested_writes_witness :
    1 ≤ 2 ∧ 0 + 1 < (4 + 0) / 2 ∧ (4 + 0) / 2 + 1 < 4 ∧ 4 ≤ 4 ∧
    oct_tree_partition_private 4 0 4 1 (1 / 4) uneven_weights 4
        [root 2, root 2, root 2, root 2] =
      Outcome.ok ⟨[0, 5, 1, 0, 1, 0, 1, 0, 1, 0, 1, 0, 1, 0, 1, 0, 2, 0],
        [root 2, key_of_digits 2 [3], key_of_digits 2 [5], key_of_digits 2 [7]], [2, 1, 3]⟩ ∧
    ∃ (k_upper : OctTreeKey 2) (r1 r2 : PartitionResult 2),
      oct_tree_partition_private 3 0 2 1 (1 / 4)
          (accumulate_weights (root 2) (root 2) 9 1 uneven_weights) 4
          ([root 2, root 2, root 2, root 2].set 2 k_upper) = Outcome.ok r1 ∧
      oct_tree_partition_private 3 2 4 1 (1 / 4) r1.weights 4 r1.cuts = Outcome.ok r2 ∧
      (∀ idx, r1.weights.at idx ≠
          (accumulate_weights (root 2) (root 2) 9 1 uneven_weights).at idx →
        ∃ o h, Below 0 1 o (h + 1) ∧ idx = 2 * o + 1 ∧ Meets o (oct_tree_size (h + 1)) 0 5) ∧
      (∀ idx, r2.weights.at idx ≠ r1.weights.at idx →
        ∃ o h, Below 0 1 o (h + 1) ∧ idx = 2 * o + 1 ∧ Meets o (oct_tree_size (h + 1)) 5 9) ∧
      (∀ idx, r1.weights.at idx ≠
          (accumulate_weights (root 2) (root 2) 9 1 uneven_weights).at idx →
        r2.weights.at idx ≠ r1.weights.at idx →
        ∃ o h, Below 0 1 o (h + 1) ∧ idx = 2 * o + 1 ∧ o < 5 ∧ 5 < o + oct_tree_size (h + 1)) :=
  ⟨by decide, by decide, by decide, by decide, by decide!,
    match oct_tree_partition_private_nested_writes 1 (by decide) 3 0 4 (1 / 4) uneven_weights 4
      [root 2, root 2, root 2, root 2]
      ⟨[0, 5, 1, 0, 1, 0, 1, 0, 1, 0, 1, 0, 1, 0, 1, 0, 2, 0],
        [root 2, key_of_digits 2 [3], key_of_digits 2 [5], key_of_digits 2 [7]], [2, 1, 3]⟩
      (by decide) (by decide) (by decide) (by decide!) uneven_cuts_increasing with
    | ⟨k, r1, r2, a, b, _, _, _, _, c, d, e⟩ => ⟨k, r1, r2, a, b, c, d, e⟩⟩

/-! ## The key search and the way it ends -/

/-- The key of `partition_end` is the key of `partition`. -/
theorem partition_end_key {MaxDepth : Nat} (depth : Nat) (i_end : Nat) (weights : Weights)
    (tolerance target_ratio : ℚ) :
    ∀ (fuel : Nat) (k_first key : OctTreeKey MaxDepth) (w_lower w_upper : ℚ),
      partition fuel k_first i_end key depth weights tolerance target_ratio w_lower w_upper =
        match partition_end fuel k_first i_end key depth weights tolerance target_ratio
            w_lower w_upper with
        | Outcome.ok p => Outcome.ok p.1
        | Outcome.raised => Outcome.raised
        | Outcome.no_fuel => Outcome.no_fuel := by
  intro fuel
  induction fuel with
  | zero => intro _ _ _ _; rfl
  | succ fuel ih =>
    intro k_first key w_lower w_upper
    rw [partition, partition_end]
    simp only []
    by_cases h1 : i_end = 1 ∨ i_end = oct_tree_offset depth k_first
    · rw [if_pos h1, if_pos h1]
    rw [if_neg h1, if_neg h1]
    cases hj : find_j i_end depth (key.depth + 1) key 8 with
    | none => rfl
    | some j =>
      simp only []
      by_cases hdep : key.depth = depth
      · rw [if_pos hdep, if_pos hdep]
        split <;> rfl
      · rw [if_neg hdep, if_neg hdep]
        generalize balance_loop key (key.depth + 1) depth weights target_ratio _ _ = st
        by_cases hv : weights.at (2 * oct_tree_offset depth (key.set_index (key.depth + 1) st.i)) +
            weights.at (2 * oct_tree_offset depth (key.set_index (key.depth + 1) st.i) + 1) ≤ 0
        · rw [if_pos hv, if_pos hv]
        · rw [if_neg hv, if_neg hv]
          by_cases hc : st.w_lower < st.w_upper * target_ratio
          · simp only [hc, if_true]
            split
            · rfl
            · exact ih _ _ _ _
          · simp only [hc, if_false]
            split
            · rfl
            · exact ih _ _ _ _

/-! ## Weights of offset ranges -/

theorem node_weight_sum_empty (w : Weights) (a b : Nat) (h : b ≤ a) :
    node_weight_sum w a b = 0 := by
  unfold node_weight_sum
  rw [Nat.sub_eq_zero_of_le h]
  rfl

theorem node_weight_sum_add (w : Weights) (a m b : Nat) (h1 : a ≤ m) (h2 : m ≤ b) :
    node_weight_sum w a b = node_weight_sum w a m + node_weight_sum w m b := by
  unfold node_weight_sum
  have e : List.range' a (b - a) = List.range' a (m - a) ++ List.range' m (b - m) := by
    have := List.range'_append a (m - a) (b - m) 1
    rw [Nat.one_mul, show a + (m - a) = m by omega, show b - m + (m - a) = b - a by omega] at this
    exact this.symm
  rw [e, List.map_append, List.sum_append]

theorem node_weight_sum_single (w : Weights) (a : Nat) :
    node_weight_sum w a (a + 1) = w.at (2 * a) := by
  unfold node_weight_sum
  simp

theorem node_weight_sum_zero (w : Weights) (a b : Nat)
    (h : ∀ o, a ≤ o → o < b → w.at (2 * o) = 0) : node_weight_sum w a b = 0 := by
  unfold node_weight_sum
  apply List.sum_eq_zero
  intro x hx
  obtain ⟨o, ho, rfl⟩ := List.mem_map.1 hx
  rw [List.mem_range'_1] at ho
  exact h o ho.1 (by omega)

theorem node_weight_sum_nonneg (w : Weights) (hnn : ∀ o, 0 ≤ w.at (2 * o)) (a b : Nat) :
    0 ≤ node_weight_sum w a b := by
  unfold node_weight_sum
  apply List.sum_nonneg
  intro x hx
  obtain ⟨o, _, rfl⟩ := List.mem_map.1 hx
  exact hnn o

theorem node_weight_sum_congr (w w' : Weights) (h : ∀ o, w'.at (2 * o) = w.at (2 * o))
    (a b : Nat) : node_weight_sum w' a b = node_weight_sum w a b := by
  unfold node_weight_sum
  congr 1
  apply List.map_congr_left
  intro o _
  exact h o

/-- Additivity of the weight of a range cut to `[lo, hi)`. -/
theorem node_weight_sum_clamp (w : Weights) (lo hi a b c : Nat) (hab : a ≤ b) (hbc : b ≤ c) :
    node_weight_sum w (max lo a) (min hi b) + node_weight_sum w (max lo b) (min hi c) =
      node_weight_sum w (max lo a) (min hi c) := by
  by_cases h1 : b ≤ lo
  · rw [node_weight_sum_empty w _ _ (by omega : min hi b ≤ max lo a), zero_add,
      show max lo a = lo by omega, show max lo b = lo by omega]
  · by_cases h2 : hi ≤ b
    · rw [node_weight_sum_empty w (max lo b) _ (by omega), add_zero,
        show min hi b = hi by omega, show min hi c = hi by omega]
    · rw [show min hi b = b by omega, show max lo b = b by omega]
      exact (node_weight_sum_add w _ b _ (by omega) (by omega)).symm

/-! ## Accumulated weights as weights of offset ranges -/

theorem child_offset_succ (o h i : Nat) (h1 : 1 ≤ i) :
    child_offset o h (i + 1) = child_offset o h i + oct_tree_size h := by
  unfold child_offset
  obtain ⟨n, rfl⟩ : ∃ n, i = n + 1 := ⟨i - 1, by omega⟩
  simp only [Nat.add_sub_cancel, Nat.add_mul, Nat.one_mul]
  omega

theorem child_offset_one (o h : Nat) : child_offset o h 1 = o + 1 := by
  simp [child_offset]

theorem child_offset_nine (o h : Nat) : child_offset o h 9 = o + oct_tree_size (h + 1) := by
  simp only [child_offset, oct_tree_size]
  omega

theorem child_offset_mono (o h i j : Nat) (hij : i ≤ j) :
    child_offset o h i ≤ child_offset o h j := by
  unfold child_offset
  have : (i - 1) * oct_tree_size h ≤ (j - 1) * oct_tree_size h :=
    Nat.mul_le_mul_right _ (by omega)
  omega

/-- The weights of the children's ranges, cut to `[lo, hi)`, add up. -/
theorem node_weight_sum_children (w : Weights) (lo hi o h : Nat) : ∀ (n a : Nat),
    ((List.range' a n).map (fun i => node_weight_sum w (max lo (child_offset o h i))
        (min hi (child_offset o h (i + 1))))).sum =
      node_weight_sum w (max lo (child_offset o h a)) (min hi (child_offset o h (a + n))) := by
  intro n
  induction n with
  | zero =>
    intro a
    simp only [List.range', List.map_nil, List.sum_nil, Nat.add_zero]
    by_cases h1 : child_offset o h a ≤ lo
    · exact (node_weight_sum_empty w _ _ (by omega)).symm
    · by_cases h2 : hi ≤ child_offset o h a
      · exact (node_weight_sum_empty w _ _ (by omega)).symm
      · exact (node_weight_sum_empty w _ _ (by omega)).symm
  | succ n ih =>
    intro a
    simp only [List.range', List.map_cons, List.sum_cons]
    rw [ih (a + 1), show a + (n + 1) = a + 1 + n by omega]
    exact node_weight_sum_clamp w lo hi _ _ _ (child_offset_mono o h _ _ (by omega))
      (child_offset_mono o h _ _ (by omega))

/-- With own weights on the leaves only, the weight of the leaves of a subtree in `[lo, hi)`
is the weight of the offsets of the subtree in `[lo, hi)`. -/
theorem leaf_weight_sum_range (depth : Nat) (w : Weights) (hw : LeafWeights depth w)
    (lo hi : Nat) : ∀ (h o : Nat), Below 0 depth o h →
      leaf_weight_sum w lo hi h o =
        node_weight_sum w (max lo o) (min hi (o + oct_tree_size h)) := by
  intro h
  induction h with
  | zero =>
    intro o _
    unfold leaf_weight_sum
    simp only [leaf_offsets, oct_tree_size]
    by_cases hc : lo ≤ o ∧ o < hi
    · rw [List.filter_cons_of_pos (by simpa using hc)]
      rw [show max lo o = o by omega, show min hi (o + 1) = o + 1 by omega,
        node_weight_sum_single]
      simp
    · rw [List.filter_cons_of_neg (by simpa using hc)]
      rw [node_weight_sum_empty w _ _ (by omega)]
      simp
  | succ h ih =>
    intro o hb
    rw [leaf_weight_sum_succ]
    have e : (List.range' 1 8).map (fun i => leaf_weight_sum w lo hi h (child_offset o h i)) =
        (List.range' 1 8).map (fun i => node_weight_sum w (max lo (child_offset o h i))
          (min hi (child_offset o h (i + 1)))) := by
      apply List.map_congr_left
      intro i hi
      rw [List.mem_range'_1] at hi
      rw [ih _ (hb.child i hi.1 (by omega)), child_offset_succ o h i hi.1]
    rw [e, node_weight_sum_children, child_offset_one, show 1 + 8 = 9 by rfl, child_offset_nine]
    have hz : node_weight_sum w (max lo o) (min hi (o + 1)) = 0 := by
      apply node_weight_sum_zero
      intro t h1 h2
      have : t = o := by omega
      rw [this]
      exact hw.2.1 o h hb
    have := node_weight_sum_clamp w lo hi o (o + 1) (o + oct_tree_size (h + 1)) (by omega)
      (by have := oct_tree_size_pos (h + 1); omega)
    rw [hz, zero_add] at this
    exact this

/-! ## Parents of keys and the keys of `oct_key_split` -/

theorem countP_zero_all : ∀ ds : List Nat, ds.countP (fun d => d != 0) = 0 →
    ds.all (fun x => x == 0) = true
  | [], _ => rfl
  | d :: ds, h => by
    rw [List.countP_cons] at h
    by_cases hd : d = 0
    · subst hd
      simp only [bne_self_eq_false, Bool.false_eq_true, if_false, Nat.add_zero] at h
      simp [countP_zero_all ds h]
    · simp [hd] at h

theorem wf_digits_unset : ∀ (ds : List Nat) (d : Nat), wf_digits ds = true →
    ds.countP (fun x => x != 0) = d + 1 →
    wf_digits (ds.set d 0) = true ∧ (ds.set d 0).countP (fun x => x != 0) = d ∧
      (ds.set d 0).set d (ds.getD d 0) = ds ∧ d < ds.length
  | [], d, _, hc => by simp at hc
  | x :: xs, d, hw, hc => by
    simp only [wf_digits] at hw
    by_cases hx : x = 0
    · subst hx
      simp only [if_true] at hw
      have := all_zero_countP (0 :: xs) (by simpa using hw)
      omega
    · simp only [hx, if_false, Bool.and_eq_true, decide_eq_true_eq] at hw
      rw [List.countP_cons] at hc
      simp only [bne_iff_ne, ne_eq, hx, not_false_eq_true, if_true] at hc
      cases d with
      | zero =>
        have hz := countP_zero_all xs (by omega)
        refine ⟨?_, ?_, ?_, by simp⟩
        · simp [wf_digits, hz]
        · simp only [List.set_cons_zero, List.countP_cons, bne_self_eq_false,
            Bool.false_eq_true, if_false, Nat.add_zero]
          exact all_zero_countP xs hz
        · simp
      | succ d =>
        have ih := wf_digits_unset xs d hw.2 (by omega)
        refine ⟨?_, ?_, ?_, ?_⟩
        · simp only [List.set_cons_succ, wf_digits, hx, if_false, Bool.and_eq_true,
            decide_eq_true_eq]
          exact ⟨hw.1, ih.1⟩
        · simp only [List.set_cons_succ, List.countP_cons, bne_iff_ne, ne_eq, hx,
            not_false_eq_true, if_true]
          omega
        · simp only [List.set_cons_succ, List.getD_cons_succ]
          rw [ih.2.2.1]
        · simp only [List.length_cons]
          omega

/-- The parent of a well-formed key: clearing the last set digit. -/
theorem parent_spec {MaxDepth : Nat} (k : OctTreeKey MaxDepth) (hk : k.WellFormed) (d : Nat)
    (hd : k.depth = d + 1) :
    (k.clear_index (d + 1)).WellFormed ∧ (k.clear_index (d + 1)).depth = d ∧
    (k.clear_index (d + 1)).set_index (d + 1) (k.index (d + 1)) = k ∧
    1 ≤ k.index (d + 1) ∧ k.index (d + 1) ≤ 8 ∧ d < MaxDepth := by
  have h := wf_digits_unset k.digits d hk hd
  have hi := wf_index k hk (d + 1)
  refine ⟨h.1, h.2.1, ?_, hi.2.2 (by omega) (by omega), hi.1, ?_⟩
  · cases k with
    | mk ds hl =>
      simp only [clear_index, set_index, index]
      congr 1
      exact h.2.2.1
  · have := h.2.2.2
    rw [k.length_eq] at this
    exact this

/-- The key `oct_key_split` returns for `upper_ord = 1`: it comes before the key by the
nodes of a chain of first children, all above the maximum depth. -/
theorem strip_trailing_one {MaxDepth : Nat} (depth : Nat) :
    ∀ (d : Nat) (key : OctTreeKey MaxDepth), key.WellFormed → key.depth = d → d < depth →
      oct_tree_offset depth (strip_trailing 1 d key).2 ≤ oct_tree_offset depth key ∧
      ∀ t, oct_tree_offset depth (strip_trailing 1 d key).2 ≤ t →
        t ≤ oct_tree_offset depth key → ∃ ht, Below 0 depth t (ht + 1) := by
  intro d
  induction d with
  | zero =>
    intro key hk hd hlt
    simp only [strip_trailing]
    refine ⟨le_refl _, fun t h1 h2 => ⟨depth - 1, ?_⟩⟩
    have hb := below_of_key depth key hk (by omega)
    rw [hd, show depth - 0 = depth - 1 + 1 by omega] at hb
    rw [show t = oct_tree_offset depth key by omega]
    exact hb
  | succ d ih =>
    intro key hk hd hlt
    have hb := below_of_key depth key hk (by omega)
    rw [hd, show depth - (d + 1) = depth - (d + 1) - 1 + 1 by omega] at hb
    simp only [strip_trailing]
    by_cases h1 : 1 = key.index (d + 1)
    · rw [if_pos h1]
      obtain ⟨hpw, hpd, hpk, _, _, hdm⟩ := parent_spec key hk d hd
      have hoff := oct_tree_offset_child depth (key.clear_index (d + 1)) hpw (by omega)
        (by omega) (key.index (d + 1)) (by omega)
      rw [hpd, hpk, ← h1] at hoff
      simp only [Nat.sub_self, Nat.zero_mul, Nat.add_zero] at hoff
      have ih2 := ih (key.clear_index (d + 1)) hpw hpd (by omega)
      refine ⟨by omega, fun t ht1 ht2 => ?_⟩
      by_cases ht : t = oct_tree_offset depth key
      · rw [ht]
        exact ⟨_, hb⟩
      · exact ih2.2 t ht1 (by omega)
    · rw [if_neg h1]
      refine ⟨le_refl _, fun t ht1 ht2 => ⟨depth - (d + 1) - 1, ?_⟩⟩
      have ht : t = oct_tree_offset depth key := Nat.le_antisymm ht2 ht1
      rw [ht]
      exact hb

/-- The key `oct_key_split` returns for `upper_ord = 9`: the node after the subtree of the
key, when there is one. -/
theorem strip_trailing_eight {MaxDepth : Nat} (depth : Nat) :
    ∀ (d : Nat) (key : OctTreeKey MaxDepth), key.WellFormed → key.depth = d → d ≤ depth →
      ((strip_trailing 8 d key).1 = 0 →
        oct_tree_offset depth key + oct_tree_size (depth - d) = oct_tree_size depth) ∧
      ((strip_trailing 8 d key).1 ≠ 0 →
        oct_tree_offset depth ((strip_trailing 8 d key).2.set_index (strip_trailing 8 d key).1
          ((strip_trailing 8 d key).2.index (strip_trailing 8 d key).1 + 1)) =
        oct_tree_offset depth key + oct_tree_size (depth - d)) := by
  intro d
  induction d with
  | zero =>
    intro key hk hd _
    simp only [strip_trailing, ne_eq, not_true_eq_false, false_implies, and_true]
    intro _
    have hb := (below_of_key depth key hk (by omega)).bounds
    rw [hd, Nat.sub_zero] at hb
    rw [Nat.sub_zero]
    omega
  | succ d ih =>
    intro key hk hd hle
    obtain ⟨hpw, hpd, hpk, hv1, hv8, hdm⟩ := parent_spec key hk d hd
    have hoff := oct_tree_offset_child depth (key.clear_index (d + 1)) hpw (by omega)
      (by omega) (key.index (d + 1)) hv1
    rw [hpd, hpk] at hoff
    have hs : oct_tree_size (depth - d) = 1 + 8 * oct_tree_size (depth - d - 1) := by
      rw [show depth - d = depth - d - 1 + 1 by omega]
      rfl
    rw [show depth - (d + 1) = depth - d - 1 by omega]
    simp only [strip_trailing]
    by_cases h8 : 8 = key.index (d + 1)
    · rw [if_pos h8]
      have ih2 := ih (key.clear_index (d + 1)) hpw hpd (by omega)
      rw [← h8] at hoff
      simp only [Nat.add_one_sub_one] at hoff
      refine ⟨fun h0 => ?_, fun h0 => ?_⟩
      · have := ih2.1 h0
        omega
      · rw [ih2.2 h0]
        omega
    · rw [if_neg h8]
      refine ⟨fun h0 => absurd h0 (by simp), fun _ => ?_⟩
      simp only []
      have hoff2 := oct_tree_offset_child depth (key.clear_index (d + 1)) hpw (by omega)
        (by omega) (key.index (d + 1) + 1) (by omega)
      rw [hpd] at hoff2
      have e : key.set_index (d + 1) (key.index (d + 1) + 1) =
          (key.clear_index (d + 1)).set_index (d + 1) (key.index (d + 1) + 1) := by
        have := set_index_set_index (key.clear_index (d + 1)) (d + 1) (key.index (d + 1))
          (key.index (d + 1) + 1)
        rw [hpk] at this
        exact this
      rw [e, hoff2, hoff]
      simp only [Nat.add_sub_cancel]
      obtain ⟨n, hn⟩ : ∃ n, key.index (d + 1) = n + 1 := ⟨key.index (d + 1) - 1, by omega⟩
      rw [hn]
      simp only [Nat.add_sub_cancel, Nat.add_mul, Nat.one_mul]
      omega

/-- Offsets of the keys `oct_key_split` returns for an inner node: the child `upper_ord`
for `2..8`, the node after the subtree for `9`. -/
theorem oct_key_split_offset {MaxDepth : Nat} (depth : Nat) (hm : depth ≤ MaxDepth)
    (key : OctTreeKey MaxDepth) (hk : key.WellFormed) (h : Nat)
    (hd : key.depth + (h + 1) = depth) (u : Nat) (hu2 : 2 ≤ u) (hu9 : u ≤ 9)
    (hin : child_offset (oct_tree_offset depth key) h u < oct_tree_size depth) :
    oct_tree_offset depth (oct_key_split key u) =
      child_offset (oct_tree_offset depth key) h u := by
  unfold oct_key_split
  simp only []
  rw [if_neg (by omega)]
  by_cases h9 : 8 < u
  · rw [if_pos h9]
    have hu : u = 9 := by omega
    subst hu
    have hs := strip_trailing_eight depth key.depth key hk rfl (by omega)
    rw [child_offset_nine] at hin ⊢
    rw [show depth - key.depth = h + 1 by omega] at hs
    by_cases h0 : (strip_trailing 8 key.depth key).1 = 0
    · have := hs.1 h0
      omega
    · rw [if_pos h0]
      exact hs.2 h0
  · rw [if_neg h9]
    rw [oct_tree_offset_child depth key hk (by omega) (by omega) u (by omega)]
    rw [show depth - key.depth - 1 = h by omega]
    rfl

/-- Offset of the key `oct_key_split` returns for `upper_ord = 1`. -/
theorem oct_key_split_one {MaxDepth : Nat} (depth : Nat) (key : OctTreeKey MaxDepth)
    (hk : key.WellFormed) (hd : key.depth < depth) :
    oct_tree_offset depth (oct_key_split key 1) ≤ oct_tree_offset depth key ∧
    ∀ t, oct_tree_offset depth (oct_key_split key 1) ≤ t →
      t ≤ oct_tree_offset depth key → ∃ ht, Below 0 depth t (ht + 1) := by
  unfold oct_key_split
  simp only [if_true]
  exact strip_trailing_one depth key.depth key hk rfl hd

/-! ## The child loops of the key search with weights of ranges -/

theorem find_j_spec {MaxDepth : Nat} (i_end depth d1 : Nat) (key : OctTreeKey MaxDepth) :
    ∀ (j_start j : Nat), find_j i_end depth d1 key j_start = some j →
      j ≤ j_start ∧ ¬ i_end ≤ oct_tree_offset depth (key.set_index d1 j) ∧
      ∀ j2, j < j2 → j2 ≤ j_start → i_end ≤ oct_tree_offset depth (key.set_index d1 j2) := by
  intro j_start
  induction j_start with
  | zero =>
    intro j h
    simp only [find_j] at h
    split at h
    · exact absurd h (by simp)
    · rename_i hc
      have : j = 0 := by simpa using h.symm
      subst this
      exact ⟨le_refl _, hc, fun j2 h1 h2 => absurd h2 (by omega)⟩
  | succ n ih =>
    intro j h
    simp only [find_j] at h
    split at h
    · rename_i hc
      obtain ⟨h1, h2, h3⟩ := ih j h
      refine ⟨by omega, h2, fun j2 hj2 hj3 => ?_⟩
      by_cases e : j2 = n + 1
      · rw [e]; exact hc
      · exact h3 j2 hj2 (by omega)
    · rename_i hc
      have : j = n + 1 := by simpa using h.symm
      subst this
      exact ⟨le_refl _, hc, fun j2 h1 h2 => absurd h2 (by omega)⟩

theorem balance_loop_done {MaxDepth : Nat} (key : OctTreeKey MaxDepth) (d1 depth : Nat)
    (weights : Weights) (target_ratio : ℚ) (rounds : Nat) (st : SplitState)
    (h : ¬ st.i < st.j) : balance_loop key d1 depth weights target_ratio rounds st = st := by
  cases rounds with
  | zero => rfl
  | succ n => rw [balance_loop]; simp only [h, if_false]

/-- The loop `while ( i < j )` of `partition` when the weight `V c` of the child `c` is the
increase `G (c + 1) - G c` of a lower sum and the decrease `H c - H (c + 1)` of an upper
sum: `w_lower` stays `G i` and `w_upper` stays `H (j + 1)`, and the loop ends with `i = j`,
or one past it at a child without weight. -/
theorem balance_loop_sums {MaxDepth : Nat} (key : OctTreeKey MaxDepth) (d1 depth : Nat)
    (weights : Weights) (target_ratio : ℚ) (V G H : Nat → ℚ) (i0 j0 : Nat)
    (hVdef : ∀ c, V c = weights.at (2 * oct_tree_offset depth (key.set_index d1 c)) +
      weights.at (2 * oct_tree_offset depth (key.set_index d1 c) + 1))
    (hG : ∀ c, i0 ≤ c → c ≤ j0 → V c = G (c + 1) - G c)
    (hH : ∀ c, i0 ≤ c → c ≤ j0 → V c = H c - H (c + 1))
    (hV : ∀ c, i0 ≤ c → c ≤ j0 → 0 ≤ V c) :
    ∀ (rounds : Nat) (st : SplitState), i0 ≤ st.i → st.i ≤ st.j → st.j ≤ j0 →
      st.w_lower = G st.i → st.w_upper = H (st.j + 1) → st.j - st.i ≤ rounds →
      i0 ≤ (balance_loop key d1 depth weights target_ratio rounds st).i ∧
      (balance_loop key d1 depth weights target_ratio rounds st).i ≤ j0 ∧
      (balance_loop key d1 depth weights target_ratio rounds st).w_lower =
        G (balance_loop key d1 depth weights target_ratio rounds st).i ∧
      (balance_loop key d1 depth weights target_ratio rounds st).w_upper =
        H ((balance_loop key d1 depth weights target_ratio rounds st).j + 1) ∧
      ((balance_loop key d1 depth weights target_ratio rounds st).i =
          (balance_loop key d1 depth weights target_ratio rounds st).j ∨
        ((balance_loop key d1 depth weights target_ratio rounds st).i =
            (balance_loop key d1 depth weights target_ratio rounds st).j + 1 ∧
          V (balance_loop key d1 depth weights target_ratio rounds st).i ≤ 0)) := by
  intro rounds
  induction rounds with
  | zero =>
    intro st h1 h2 h3 h4 h5 h6
    simp only [balance_loop]
    exact ⟨h1, by omega, h4, h5, Or.inl (by omega)⟩
  | succ n ih =>
    intro st h1 h2 h3 h4 h5 h6
    by_cases hij : st.i < st.j
    · have hGi := hG st.i h1 (by omega)
      have hHj := hH st.j (by omega) h3
      have hj1 : st.j - 1 + 1 = st.j := by omega
      rw [balance_loop]
      simp only [hij, if_true, ← hVdef]
      by_cases hpos : 0 < V st.i ∧ 0 < V st.j
      · simp only [hpos, and_self, if_true]
        split
        · exact ih _ (by simp only []; omega) (by simp only []; omega) h3
            (by simp only []; rw [h4, hGi]; ring) h5 (by simp only []; omega)
        · exact ih _ h1 (by simp only []; omega) (by simp only []; omega) h4
            (by simp only []; rw [hj1, h5, hHj]; ring) (by simp only []; omega)
      · rw [if_neg hpos]
        by_cases hvi : V st.i ≤ 0
        · have hi0 : V st.i = 0 := le_antisymm hvi (hV st.i h1 (by omega))
          have hG1 : G (st.i + 1) = G st.i := by linarith
          by_cases hvj : V st.j ≤ 0
          · have hj0 : V st.j = 0 := le_antisymm hvj (hV st.j (by omega) h3)
            have hH1 : H st.j = H (st.j + 1) := by linarith
            simp only [hvi, hvj, if_true]
            by_cases hlast : st.i + 1 = st.j
            · rw [balance_loop_done _ _ _ _ _ _ _ (by simp only []; omega)]
              simp only []
              refine ⟨by omega, by omega, by rw [hG1, h4], by rw [hj1, hH1, h5],
                Or.inr ⟨by omega, ?_⟩⟩
              rw [hlast]
              exact hvj
            · exact ih _ (by simp only []; omega) (by simp only []; omega)
                (by simp only []; omega) (by simp only []; rw [hG1, h4])
                (by simp only []; rw [hj1, hH1, h5]) (by simp only []; omega)
          · simp only [hvi, hvj, if_true, if_false]
            exact ih _ (by simp only []; omega) (by simp only []; omega) h3
              (by simp only []; rw [hG1, h4]) h5 (by simp only []; omega)
        · have hvj : V st.j ≤ 0 := by
            by_contra hc
            exact hpos ⟨not_le.1 hvi, not_le.1 hc⟩
          have hj0 : V st.j = 0 := le_antisymm hvj (hV st.j (by omega) h3)
          have hH1 : H st.j = H (st.j + 1) := by linarith
          simp only [hvi, hvj, if_true, if_false]
          exact ih _ h1 (by simp only []; omega) (by simp only []; omega) h4
            (by simp only []; rw [hj1, hH1, h5]) (by simp only []; omega)
    · rw [balance_loop_done _ _ _ _ _ _ _ hij]
      exact ⟨h1, by omega, h4, h5, Or.inl (by omega)⟩

/-! ## The ratio at an accepted key -/

theorem node_weight_sum_upper (w : Weights) (lo hi a b : Nat) (hab : a ≤ b) :
    node_weight_sum w (max lo a) hi =
      node_weight_sum w (max lo a) (min hi b) + node_weight_sum w (max lo b) hi := by
  by_cases h : b ≤ hi
  · have := node_weight_sum_clamp w lo hi a b hi hab h
    rw [Nat.min_self] at this
    exact this.symm
  · rw [node_weight_sum_empty w (max lo b) hi (by omega), add_zero,
      show min hi b = hi by omega]

theorem node_weight_sum_lower (w : Weights) (lo hi a b : Nat) (hab : a ≤ b) :
    node_weight_sum w lo (min hi b) =
      node_weight_sum w lo (min hi a) + node_weight_sum w (max lo a) (min hi b) := by
  have := node_weight_sum_clamp w lo hi 0 a b (Nat.zero_le _) hab
  rw [Nat.max_zero] at this
  exact this.symm

/-- The ratio the tolerance test of `partition` accepts is the ratio of the weights below
and from the returned key: `x` is the offset of the key, `x2` the offset up to which the
children were counted as lower, and the nodes between the two have no own weight. -/
theorem ratio_of_cut (w : Weights) (hnn : ∀ o, 0 ≤ w.at (2 * o)) (lo hi x x2 : Nat)
    (hx : x ≤ x2) (hz : ∀ t, x ≤ t → t < x2 → w.at (2 * t) = 0) (num den : ℚ)
    (hnum : num = node_weight_sum w lo (min hi x2))
    (hden : den = node_weight_sum w (max lo x2) hi) (tolerance target_ratio : ℚ)
    (hacc : within_tolerance num den target_ratio tolerance = true) :
    node_weight_sum w x hi ≠ 0 ∧
      |node_weight_sum w lo x / node_weight_sum w x hi - target_ratio| < tolerance := by
  unfold within_tolerance at hacc
  by_cases hne : den = 0
  · simp [hne] at hacc
  rw [if_neg hne, decide_eq_true_eq] at hacc
  have hlt : max lo x2 < hi := by
    by_contra hc
    exact hne (hden.trans (node_weight_sum_empty w _ _ (by omega)))
  rw [show min hi x2 = x2 by omega] at hnum
  have hzero : node_weight_sum w x x2 = 0 := node_weight_sum_zero w x x2 hz
  by_cases hlo : lo ≤ x
  · have e1 : node_weight_sum w lo x = num := by
      rw [hnum, node_weight_sum_add w lo x x2 hlo hx, hzero, add_zero]
    have e2 : node_weight_sum w x hi = den := by
      rw [hden, node_weight_sum_add w x x2 hi hx (by omega), hzero, zero_add,
        show max lo x2 = x2 by omega]
    rw [e1, e2]
    exact ⟨hne, abs_lt.2 hacc⟩
  · have e1 : node_weight_sum w lo x = 0 := node_weight_sum_empty w lo x (by omega)
    have e0 : num = 0 := by
      rw [hnum]
      by_cases h2 : x2 ≤ lo
      · exact node_weight_sum_empty w lo x2 h2
      · exact node_weight_sum_zero w lo x2 (fun t h1 h2 => hz t (by omega) h2)
    have hpos : 0 < den := lt_of_le_of_ne (hden ▸ node_weight_sum_nonneg w hnn _ _)
      (Ne.symm hne)
    have e2 : den ≤ node_weight_sum w x hi := by
      rw [node_weight_sum_add w x (max lo x2) hi (by omega) (by omega), ← hden]
      have := node_weight_sum_nonneg w hnn x (max lo x2)
      linarith
    refine ⟨by intro h0; rw [h0] at e2; linarith, ?_⟩
    rw [e1, zero_div]
    rw [e0, zero_div] at hacc
    exact abs_lt.2 hacc

/-- The key search ends at a node of the maximum depth without the tolerance test. -/
theorem partition_end_leaf {MaxDepth : Nat} (fuel : Nat) (k_first : OctTreeKey MaxDepth)
    (i_end : Nat) (key : OctTreeKey MaxDepth) (depth : Nat) (weights : Weights)
    (tolerance target_ratio w_lower w_upper : ℚ) (hd : key.depth = depth)
    (k : OctTreeKey MaxDepth) :
    partition_end fuel k_first i_end key depth weights tolerance target_ratio w_lower w_upper ≠
      Outcome.ok (k, SearchEnd.split) := by
  cases fuel with
  | zero => simp [partition_end]
  | succ n =>
    rw [partition_end]
    simp only []
    by_cases hs : i_end = 1 ∨ i_end = oct_tree_offset depth k_first
    · rw [if_pos hs]
      simp
    · rw [if_neg hs]
      cases hj : find_j i_end depth (key.depth + 1) key 8 with
      | none => simp
      | some j =>
        simp only [hd, if_true]
        by_cases hc : k_first = key ∧ oct_tree_offset depth key + 1 ≠ oct_tree_size depth
        · rw [if_pos hc]
          simp
        · rw [if_neg hc]
          simp

/-! ## The lower bound of the key range along the search -/

theorem getD_zero_headD (ds : List Nat) : ds.getD 0 0 = ds.headD 0 := by
  cases ds <;> rfl

theorem getD_succ_tail (ds : List Nat) (n : Nat) : ds.getD (n + 1) 0 = ds.tail.getD n 0 := by
  cases ds <;> simp

/-- The first child `i` the search looks at: its subtree ends after the start of the range,
and it starts at or before it unless the range starts at or before the node. -/
theorem first_key_child {MaxDepth : Nat} (k_first : OctTreeKey MaxDepth) (d lo hi o h : Nat)
    (hf : FirstKeyAt k_first d lo o h) (hlo : lo < hi) (ho : o + 1 < hi) :
    1 ≤ (if k_first.index (d + 1) ≠ 0 then k_first.index (d + 1) else 1) ∧
    (if k_first.index (d + 1) ≠ 0 then k_first.index (d + 1) else 1) ≤ 8 ∧
    child_offset o h (if k_first.index (d + 1) ≠ 0 then k_first.index (d + 1) else 1) < hi ∧
    lo < child_offset o h ((if k_first.index (d + 1) ≠ 0 then k_first.index (d + 1) else 1) + 1) ∧
    (child_offset o h (if k_first.index (d + 1) ≠ 0 then k_first.index (d + 1) else 1) ≤ lo ∨
      lo ≤ o ∧ (if k_first.index (d + 1) ≠ 0 then k_first.index (d + 1) else 1) = 1) := by
  rcases hf with ⟨h0, hle⟩ | ⟨ds, hw, hne, hoff, hidx⟩
  · rw [if_neg (by simpa using h0)]
    have hs := oct_tree_size_pos h
    refine ⟨le_refl _, by omega, ?_, ?_, Or.inr ⟨hle, rfl⟩⟩
    · rw [child_offset_one]; exact ho
    · rw [child_offset_succ o h 1 (le_refl _), child_offset_one]; omega
  · have hi : k_first.index (d + 1) = ds.headD 0 := by
      rw [← getD_zero_headD]; exact hidx 0
    rw [hi, if_pos hne]
    have h8 := wf_digits_head ds hw
    have h1 : 1 ≤ ds.headD 0 := by omega
    have ht := offset_of_digits_lt h ds.tail (wf_digits_tail ds hw)
    rw [offset_of_digits_head_ne h ds hne] at hoff
    have hc : child_offset o h (ds.headD 0) = o + 1 + (ds.headD 0 - 1) * oct_tree_size h := rfl
    refine ⟨h1, h8, by omega, ?_, Or.inl (by omega)⟩
    rw [child_offset_succ o h _ h1]
    omega

/-- The lower bound for the nested call of `partition` on the child `c`. -/
theorem first_key_nested {MaxDepth : Nat} (k_first : OctTreeKey MaxDepth) (d lo hi o h : Nat)
    (hf : FirstKeyAt k_first d lo o (h + 1)) (hlo : lo < hi) (ho : o + 1 < hi) (c : Nat)
    (hc : (if k_first.index (d + 1) ≠ 0 then k_first.index (d + 1) else 1) ≤ c) :
    FirstKeyAt (if k_first.index (d + 1) = c then k_first else root MaxDepth) (d + 1) lo
      (child_offset o (h + 1) c) h := by
  have hA := first_key_child k_first d lo hi o (h + 1) hf hlo ho
  have hmono := child_offset_mono o (h + 1)
  rcases hf with ⟨h0, hle⟩ | ⟨ds, hw, hne, hoff, hidx⟩
  · rw [if_neg (by simpa using h0)] at hc
    rw [if_neg (by omega)]
    refine Or.inl ⟨root_index _ _, ?_⟩
    have := hmono 1 c hc
    rw [child_offset_one] at this
    omega
  · have hi : k_first.index (d + 1) = ds.headD 0 := by
      rw [← getD_zero_headD]; exact hidx 0
    rw [hi, if_pos hne] at hc hA
    rw [hi]
    by_cases hcc : ds.headD 0 = c
    · rw [if_pos hcc]
      rw [offset_of_digits_head_ne (h + 1) ds hne, hcc] at hoff
      have hcd : child_offset o (h + 1) c = o + 1 + (c - 1) * oct_tree_size (h + 1) := rfl
      by_cases ht : ds.tail.headD 0 = 0
      · refine Or.inl ⟨?_, ?_⟩
        · have := hidx 1
          rw [getD_succ_tail, getD_zero_headD, ht] at this
          exact this
        · rw [offset_of_digits_head_zero (h + 1) ds.tail ht] at hoff
          omega
      · refine Or.inr ⟨ds.tail, wf_digits_tail ds hw, ht, by omega, fun n => ?_⟩
        rw [← getD_succ_tail, ← hidx (n + 1)]
        congr 1
        omega
    · rw [if_neg hcc]
      refine Or.inl ⟨root_index _ _, ?_⟩
      have := hmono (ds.headD 0 + 1) c (by omega)
      omega

/-! ## The tolerance test of the key search -/

theorem within_tolerance_den (num den target_ratio tolerance : ℚ)
    (h : within_tolerance num den target_ratio tolerance = true) : den ≠ 0 := by
  intro h0
  simp [within_tolerance, h0] at h

/-- A key the search accepts by its tolerance test has the ratio of the weight below it to
the weight from it within the tolerance of the target ratio.  `w` holds the weights before
the accumulation over `[lo, hi)`, `W1` the weights after it. -/
theorem partition_end_split {MaxDepth : Nat} (depth : Nat) (hm : depth ≤ MaxDepth)
    (w : Weights) (hw : LeafWeights depth w) (hnn : ∀ o, 0 ≤ w.at (2 * o)) (lo hi : Nat)
    (hlo : lo < hi) (hhi : hi ≤ oct_tree_size depth) (W1 : Weights)
    (hown : ∀ o, W1.at (2 * o) = w.at (2 * o))
    (hacc : ∀ h o, Below 0 depth o h → Meets o (oct_tree_size h) lo hi →
      W1.at (2 * o) + W1.at (2 * o + 1) =
        node_weight_sum w (max lo o) (min hi (o + oct_tree_size h)))
    (tolerance target_ratio : ℚ) :
    ∀ (fuel : Nat) (key k_first : OctTreeKey MaxDepth) (w_lower w_upper : ℚ) (h : Nat),
      key.WellFormed → key.depth + (h + 1) = depth → oct_tree_offset depth key + 1 < hi →
      FirstKeyAt k_first key.depth lo (oct_tree_offset depth key) h →
      w_lower = node_weight_sum w lo (min hi (oct_tree_offset depth key)) →
      w_upper =
        node_weight_sum w (max lo (oct_tree_offset depth key + oct_tree_size (h + 1))) hi →
      ∀ k, partition_end fuel k_first hi key depth W1 tolerance target_ratio w_lower w_upper =
          Outcome.ok (k, SearchEnd.split) →
        node_weight_sum w (oct_tree_offset depth k) hi ≠ 0 ∧
        |node_weight_sum w lo (oct_tree_offset depth k) /
          node_weight_sum w (oct_tree_offset depth k) hi - target_ratio| < tolerance := by
  intro fuel
  induction fuel with
  | zero =>
    intro key k_first w_lower w_upper h _ _ _ _ _ _ k hres
    simp [partition_end] at hres
  | succ fuel ih =>
    intro key k_first w_lower w_upper h hk hd ho hf hwl hwu k hres
    rw [partition_end] at hres
    simp only [] at hres
    by_cases hs : hi = 1 ∨ hi = oct_tree_offset depth k_first
    · rw [if_pos hs] at hres
      simp at hres
    rw [if_neg hs] at hres
    cases hj : find_j hi depth (key.depth + 1) key 8 with
    | none =>
      rw [hj] at hres
      simp at hres
    | some j0 =>
      rw [hj] at hres
      simp only [] at hres
      rw [if_neg (by omega : ¬ key.depth = depth)] at hres
      obtain ⟨o, ho_def⟩ : ∃ o, oct_tree_offset depth key = o := ⟨_, rfl⟩
      rw [ho_def] at hres ho hf hwl hwu
      have hbelow : Below 0 depth o (h + 1) := by
        have := below_of_key depth key hk (by omega)
        rw [ho_def, show depth - key.depth = h + 1 by omega] at this
        exact this
      have hchild : ∀ c, 1 ≤ c →
          oct_tree_offset depth (key.set_index (key.depth + 1) c) = child_offset o h c := by
        intro c hc
        rw [oct_tree_offset_child depth key hk (by omega) (by omega) c hc, ho_def,
          show depth - key.depth - 1 = h by omega]
        rfl
      have hmono := child_offset_mono o h
      have hsz := oct_tree_size_pos h
      have hown0 : W1.at (o * 2) = 0 := by
        rw [Nat.mul_comm, hown]
        exact hw.2.1 o h hbelow
      have e1 : (if key ≠ root MaxDepth then w_lower + W1.at (o * 2) else w_lower) = w_lower := by
        rw [hown0, add_zero]
        split <;> rfl
      have e2 : (if key ≠ root MaxDepth then w_upper + W1.at (o * 2) else w_upper) = w_upper := by
        rw [hown0, add_zero]
        split <;> rfl
      rw [e1, e2] at hres
      have hA := first_key_child k_first key.depth lo hi o h hf hlo ho
      obtain ⟨i0, hi0⟩ : ∃ i0,
          (if k_first.index (key.depth + 1) ≠ 0 then k_first.index (key.depth + 1) else 1) = i0 :=
        ⟨_, rfl⟩
      rw [hi0] at hres hA
      obtain ⟨hi1, hi8, hci0, hlo1, hcase⟩ := hA
      obtain ⟨hj8, hjlt, hjmax⟩ := find_j_spec hi depth (key.depth + 1) key 8 j0 hj
      have hij : i0 ≤ j0 := by
        by_contra hc
        have := hjmax i0 (by omega) hi8
        rw [hchild i0 hi1] at this
        omega
      have hcj : child_offset o h j0 < hi := by
        rw [hchild j0 (by omega)] at hjlt
        omega
      have hVeq : ∀ c, i0 ≤ c → c ≤ j0 →
          W1.at (2 * child_offset o h c) + W1.at (2 * child_offset o h c + 1) =
            node_weight_sum w (max lo (child_offset o h c))
              (min hi (child_offset o h (c + 1))) := by
        intro c h1 h2
        rw [child_offset_succ o h c (by omega)]
        apply hacc h _ (hbelow.child c (by omega) (by omega))
        have := hmono c j0 h2
        have := hmono (i0 + 1) (c + 1) (by omega)
        rw [child_offset_succ o h c (by omega)] at this
        unfold Meets
        omega
      have hwl2 : w_lower = node_weight_sum w lo (min hi (child_offset o h i0)) := by
        rcases hcase with hle | ⟨hle, h01⟩
        · have := (child_offset_bounds o h i0 hi1 hi8).1
          rw [hwl, node_weight_sum_empty w lo _ (by omega),
            node_weight_sum_empty w lo _ (by omega)]
        · rw [h01, child_offset_one, hwl, show min hi (o + 1) = o + 1 by omega,
            show min hi o = o by omega, node_weight_sum_add w lo o (o + 1) hle (by omega),
            node_weight_sum_single, hw.2.1 o h hbelow, add_zero]
      have hwu2 : w_upper = node_weight_sum w (max lo (child_offset o h (j0 + 1))) hi := by
        by_cases h8 : j0 = 8
        · rw [h8, show 8 + 1 = 9 by rfl, child_offset_nine]
          exact hwu
        · have h1 := hjmax (j0 + 1) (by omega) (by omega)
          rw [hchild (j0 + 1) (by omega)] at h1
          have h2 := hmono (j0 + 1) 9 (by omega)
          rw [child_offset_nine] at h2
          rw [hwu, node_weight_sum_empty w _ hi (by omega),
            node_weight_sum_empty w _ hi (by omega)]
      have hloop := balance_loop_sums key (key.depth + 1) depth W1 target_ratio
        (fun c => W1.at (2 * oct_tree_offset depth (key.set_index (key.depth + 1) c)) +
          W1.at (2 * oct_tree_offset depth (key.set_index (key.depth + 1) c) + 1))
        (fun c => node_weight_sum w lo (min hi (child_offset o h c)))
        (fun c => node_weight_sum w (max lo (child_offset o h c)) hi) i0 j0 (fun c => rfl)
        (by
          intro c h1 h2
          simp only []
          rw [hchild c (by omega), hVeq c h1 h2,
            node_weight_sum_lower w lo hi _ _ (hmono c (c + 1) (by omega))]
          ring)
        (by
          intro c h1 h2
          simp only []
          rw [hchild c (by omega), hVeq c h1 h2,
            node_weight_sum_upper w lo hi _ _ (hmono c (c + 1) (by omega))]
          ring)
        (by
          intro c h1 h2
          simp only []
          rw [hchild c (by omega), hVeq c h1 h2]
          exact node_weight_sum_nonneg w hnn _ _)
        (j0 - i0) ⟨i0, j0, w_lower, w_upper⟩ (le_refl _) hij (le_refl _) hwl2 hwu2 (le_refl _)
      generalize balance_loop key (key.depth + 1) depth W1 target_ratio (j0 - i0)
        ⟨i0, j0, w_lower, w_upper⟩ = st at hres hloop
      obtain ⟨hsi0, hsj0, hswl, hswu, hend⟩ := hloop
      simp only [] at hswl hswu hend
      rw [hchild st.i (by omega)] at hres hend
      by_cases hv : W1.at (2 * child_offset o h st.i) + W1.at (2 * child_offset o h st.i + 1) ≤ 0
      · rw [if_pos hv] at hres
        simp at hres
      rw [if_neg hv] at hres
      have hieq : st.j = st.i := by
        rcases hend with e | ⟨_, e⟩
        · exact e.symm
        · exact absurd e hv
      rw [hieq] at hswu
      have hVc := hVeq st.i hsi0 hsj0
      rw [hVc] at hres hv
      have hnum1 : st.w_lower + node_weight_sum w (max lo (child_offset o h st.i))
          (min hi (child_offset o h (st.i + 1))) =
            node_weight_sum w lo (min hi (child_offset o h (st.i + 1))) := by
        rw [hswl, ← node_weight_sum_lower w lo hi _ _ (hmono st.i (st.i + 1) (by omega))]
      have hden2 : st.w_upper + node_weight_sum w (max lo (child_offset o h st.i))
          (min hi (child_offset o h (st.i + 1))) =
            node_weight_sum w (max lo (child_offset o h st.i)) hi := by
        rw [hswu, node_weight_sum_upper w lo hi _ _ (hmono st.i (st.i + 1) (by omega))]
        ring
      have hnest : ∀ k, partition_end fuel
          (if k_first.index (key.depth + 1) = st.i then k_first else root MaxDepth) hi
          (key.set_index (key.depth + 1) st.i) depth W1 tolerance target_ratio
          st.w_lower st.w_upper = Outcome.ok (k, SearchEnd.split) →
          node_weight_sum w (oct_tree_offset depth k) hi ≠ 0 ∧
          |node_weight_sum w lo (oct_tree_offset depth k) /
            node_weight_sum w (oct_tree_offset depth k) hi - target_ratio| < tolerance := by
        intro k2 hres2
        obtain ⟨hkw, hkd⟩ := child_wf key hk (by omega) st.i (by omega) (by omega)
        cases h with
        | zero =>
          exact absurd hres2 (partition_end_leaf fuel _ hi _ depth W1 tolerance target_ratio _ _
            (by omega) k2)
        | succ h2 =>
          have hb2 := hbelow.child st.i (by omega) (by omega)
          have ho2 : child_offset o (h2 + 1) st.i + 1 < hi := by
            by_contra hc
            apply hv
            rw [node_weight_sum_zero w _ _ (fun t ht1 ht2 => by
              have : t = child_offset o (h2 + 1) st.i := by omega
              rw [this]
              exact hw.2.1 _ h2 hb2)]
          have hf2 := first_key_nested k_first key.depth lo hi o h2 hf hlo ho st.i
            (by rw [hi0]; exact hsi0)
          refine ih (key.set_index (key.depth + 1) st.i) _ st.w_lower st.w_upper h2 hkw
            (by omega) ?_ ?_ ?_ ?_ k2 hres2
          · rw [hchild st.i (by omega)]; exact ho2
          · rw [hchild st.i (by omega), hkd]; exact hf2
          · rw [hchild st.i (by omega)]; exact hswl
          · rw [hchild st.i (by omega), ← child_offset_succ o (h2 + 1) st.i (by omega)]
            exact hswu
      by_cases hc : st.w_lower < st.w_upper * target_ratio
      · simp only [hc, if_true] at hres
        by_cases hacc1 : within_tolerance (st.w_lower + node_weight_sum w
            (max lo (child_offset o h st.i)) (min hi (child_offset o h (st.i + 1))))
            st.w_upper target_ratio tolerance = true
        · rw [if_pos hacc1] at hres
          have hk_eq : oct_key_split key (st.i + 1) = k := by simpa using hres
          have hne := within_tolerance_den _ _ _ _ hacc1
          have hin : child_offset o h (st.i + 1) < hi := by
            by_contra hcc
            exact hne (hswu.trans (node_weight_sum_empty w _ hi (by omega)))
          rw [← hk_eq, oct_key_split_offset depth hm key hk h hd (st.i + 1) (by omega) (by omega)
            (by rw [ho_def]; omega), ho_def]
          exact ratio_of_cut w hnn lo hi _ _ (le_refl _) (fun t h1 h2 => absurd h2 (by omega))
            _ _ hnum1 hswu tolerance target_ratio hacc1
        · rw [if_neg hacc1] at hres
          exact hnest k hres
      · simp only [hc, if_false] at hres
        by_cases hacc1 : within_tolerance st.w_lower (st.w_upper + node_weight_sum w
            (max lo (child_offset o h st.i)) (min hi (child_offset o h (st.i + 1))))
            target_ratio tolerance = true
        · rw [if_pos hacc1] at hres
          have hk_eq : oct_key_split key st.i = k := by simpa using hres
          have hne := within_tolerance_den _ _ _ _ hacc1
          rw [hden2] at hacc1
          by_cases h1 : st.i = 1
          · have hone := oct_key_split_one depth key hk (by omega)
            rw [h1] at hk_eq
            rw [ho_def, hk_eq] at hone
            rw [h1, child_offset_one] at hacc1 hswl
            exact ratio_of_cut w hnn lo hi _ (o + 1) (by omega)
              (fun t ht1 ht2 => by
                obtain ⟨ht, hbt⟩ := hone.2 t ht1 (by omega)
                exact hw.2.1 t ht hbt)
              _ _ hswl rfl tolerance target_ratio hacc1
          · rw [← hk_eq, oct_key_split_offset depth hm key hk h hd st.i (by omega) (by omega)
              (by rw [ho_def]; have := hmono st.i j0 hsj0; omega), ho_def]
            exact ratio_of_cut w hnn lo hi _ _ (le_refl _) (fun t h1 h2 => absurd h2 (by omega))
              _ _ hswl rfl tolerance target_ratio hacc1
        · rw [if_neg hacc1] at hres
          exact hnest k hres

/-! ## The key stored for the middle process and the tolerance (C17) -/

/-- The key a call of `oct_tree_partition_private` leaves in `cuts[p_upper]` is the key its
search `partition` returned. -/
theorem oct_tree_partition_private_stores {MaxDepth : Nat} (fuel p_first p_end depth : Nat)
    (tolerance : ℚ) (weights : Weights) (cuts_length : Nat) (cuts : List (OctTreeKey MaxDepth))
    (r : PartitionResult MaxDepth) (hup : (p_end + p_first) / 2 < cuts.length)
    (h : oct_tree_partition_private fuel p_first p_end depth tolerance weights cuts_length cuts =
      Outcome.ok r) :
    partition (depth + 1) (cuts.getD p_first (root MaxDepth))
        (if p_end < cuts_length then oct_tree_offset depth (cuts.getD p_end (root MaxDepth))
          else oct_tree_size depth)
        (root MaxDepth) depth
        (accumulate_weights (root MaxDepth) (cuts.getD p_first (root MaxDepth))
          (if p_end < cuts_length then oct_tree_offset depth (cuts.getD p_end (root MaxDepth))
            else oct_tree_size depth) depth weights)
        tolerance
        ((((p_end + p_first) / 2 - p_first : Nat) : ℚ) / ((p_end - p_first : Nat) : ℚ) /
          (1 - (((p_end + p_first) / 2 - p_first : Nat) : ℚ) / ((p_end - p_first : Nat) : ℚ)))
        0 0 =
      Outcome.ok (r.cuts.getD ((p_end + p_first) / 2) (root MaxDepth)) := by
  cases fuel with
  | zero => simp [oct_tree_partition_private] at h
  | succ fuel =>
    rw [oct_tree_partition_private] at h
    simp only [] at h
    split at h
    · cases h
    · cases h
    · rename_i k_upper hpart
      rw [hpart]
      split at h
      · cases h
      · cases h
      · rename_i r1 hlower
        split at h
        · cases h
        · cases h
        · rename_i r2 hupper
          simp only [Outcome.ok.injEq] at h
          subst h
          simp only []
          have hl : r1.cuts.getD ((p_end + p_first) / 2) (root MaxDepth) = k_upper := by
            by_cases hc : p_first + 1 < (p_end + p_first) / 2
            · simp only [hc, if_true] at hlower
              obtain ⟨_, b, _⟩ := oct_tree_partition_private_frame _ _ _ _ _ _ _ _ _
                (by omega) hlower
              rw [b _ (Or.inr (le_refl _))]
              exact getD_set_self _ _ _ _ hup
            · simp only [hc, if_false, Outcome.ok.injEq] at hlower
              subst hlower
              exact getD_set_self _ _ _ _ hup
          by_cases hc : (p_end + p_first) / 2 + 1 < p_end
          · simp only [hc, if_true] at hupper
            obtain ⟨_, b, _⟩ := oct_tree_partition_private_frame _ _ _ _ _ _ _ _ _
              (by omega) hupper
            rw [b _ (Or.inl (le_refl _)), hl]
          · simp only [hc, if_false, Outcome.ok.injEq] at hupper
            subst hupper
            rw [hl]

theorem two_leaf_weights_zero :
    ∀ idx, (∀ l, l ∈ leaf_offsets 1 0 → idx ≠ 2 * l) → two_leaf_weights.at idx = 0 := by
  intro idx h
  rw [leaf_offsets_one] at h
  by_cases hlt : idx < 18
  · interval_cases idx
    all_goals first
      | rfl
      | exact absurd rfl (h 1 (by simp))
      | exact absurd rfl (h 8 (by simp))
  · unfold Weights.at two_leaf_weights
    rw [List.getD_eq_getElem?_getD, List.getElem?_eq_none (by simp; omega)]
    rfl

theorem two_leaf_weights_nonneg : ∀ o, 0 ≤ two_leaf_weights.at (2 * o) := by
  intro o
  by_cases hlt : o < 9
  · interval_cases o <;> decide!
  · unfold Weights.at two_leaf_weights
    rw [List.getD_eq_getElem?_getD, List.getElem?_eq_none (by simp; omega)]
    rfl

theorem octant_weights_nonneg (c : ℚ) (hc : 0 ≤ c) :
    ∀ o, 0 ≤ (octant_weights c).at (2 * o) := by
  intro o
  by_cases hlt : 1 ≤ o ∧ o < 9
  · exact (octant_weights_leaf c o (by rw [leaf_offsets_one]; simp; omega)).symm ▸ hc
  · exact le_of_eq (octant_weights_zero c _ (by
      intro l hl
      rw [leaf_offsets_one] at hl
      simp only [List.mem_cons, List.mem_singleton, List.not_mem_nil, or_false] at hl
      omega)).symm

theorem first_leaf_weights_slots :
    LeafWeights 1 first_leaf_weights ∧ (∀ o, 0 ≤ first_leaf_weights.at (2 * o)) := by
  constructor
  · refine leaf_weights_of_slots 1 first_leaf_weights rfl ?_
    intro idx h
    rw [leaf_offsets_one] at h
    by_cases hlt : idx < 18
    · interval_cases idx
      all_goals first
        | rfl
        | exact absurd rfl (h 1 (by simp))
    · unfold Weights.at first_leaf_weights
      rw [List.getD_eq_getElem?_getD, List.getElem?_eq_none (by simp; omega)]
      rfl
  · intro o
    by_cases hlt : o < 9
    · interval_cases o <;> decide!
    · unfold Weights.at first_leaf_weights
      rw [List.getD_eq_getElem?_getD, List.getElem?_eq_none (by simp; omega)]
      rfl

theorem rounded_weights_slots :
    LeafWeights 2 rounded_weights ∧ (∀ o, ∃ m : Nat, rounded_weights.at (2 * o) = m) := by
  constructor
  · refine leaf_weights_of_slots 2 rounded_weights
      (by simp only [rounded_weights, List.length_set, List.length_replicate]; decide) ?_
    intro idx h
    by_cases hlt : idx < 146
    · interval_cases idx
      all_goals first
        | rfl
        | exact absurd rfl (h 2 (by decide))
        | exact absurd rfl (h 3 (by decide))
        | exact absurd rfl (h 65 (by decide))
    · unfold Weights.at rounded_weights
      rw [List.getD_eq_getElem?_getD, List.getElem?_eq_none (by simp; omega)]
      rfl
  · intro o
    by_cases hlt : o < 73
    · interval_cases o
      all_goals first
        | exact ⟨0, by decide!⟩
        | exact ⟨1, by decide!⟩
        | exact ⟨16777216, by decide!⟩
    · refine ⟨0, ?_⟩
      unfold Weights.at rounded_weights
      rw [List.getD_eq_getElem?_getD, List.getElem?_eq_none (by simp; omega)]
      simp

/-- C17 fails as stated, in three ways. (1) The search gives up at the maximum depth: on the
tree of depth `1` with the own weight `1` on the leaf `(1)` and `3` on the leaf `(8)`
(non-negative weights, on maximum-depth leaves only), the call
`oct_tree_partition_private(0, 2, 1, 0.1, weights, 2, cuts)` from the root stores the leaf
`(8)` at offset `8` in `cuts[1]`: the search ends at a node of the maximum depth.  The weight
of the offsets `[0, 8)` is `1`, the weight of the offsets `[8, 9)` is `3`, and their ratio
differs from the target ratio `1 / 1` by `2 / 3`, not by less than the tolerance; the run is
the same in IEEE arithmetic. (2) The
target ratio is rounded: for three processes the target fraction `1/3` and the target ratio
`(1/3) / (1 - 1/3)` are computed in `double`, and the ratio comes out as `0.5 - 2^-54`, below
`1/2`. On the tree of depth `1` with the own weight `5` on the leaf `(1)` and tolerance
`0.5`, `partition` in IEEE arithmetic ends its loop with `w_lower = 0` and
`w_upper + vali = 5`, `diff = 0 / 5 - target_ratio` passes the test `- tolerance < diff`, and
the call stores the root in `cuts[1]`: no weight lies before the cut, the weight `5` from it
on, and the ratio `0` differs from the target ratio `1/2` by `1/2`, not by less than the
tolerance. (With the exact ratio `1/2` the test fails and the search goes on to the key
`(1)`.) (3) The accumulated sums are rounded: on the tree of depth `2` with the whole numbers
`2^24`, `1` and `2^24` as own weights of the leaves `(1,1)`, `(1,2)` and `(8,1)` (total
`2^25 + 1`, not below `2^24`), the `float` sum stored in the descendant slot of the node `(1)`
is `2^24`, not `2^24 + 1`. With tolerance `2^-25` and two processes (target ratio `1`) the
search compares `2^24` with `2^24`, passes the tolerance test and stores the key `(2)` at
offset `10` in `cuts[1]`. The weight of the offsets `[0, 10)` is `2^24 + 1`, the weight of
the offsets `[10, 73)` is `2^24`; their quotient differs from `1` by `2^-24`, not by less
than the tolerance, whether the quotient and the difference are exact or taken in
`double`. -/
theorem oct_tree_partition_private_tolerance_counterexample :
    (LeafWeights 1 two_leaf_weights ∧ (∀ o, 0 ≤ two_leaf_weights.at (2 * o)) ∧
    oct_tree_partition_private 1 0 2 1 (1 / 10) two_leaf_weights 2 [root 2, root 2] =
      Outcome.ok ⟨[0, 4, 1, 0, 0, 0, 0, 0, 0, 0, 0, 0, 0, 0, 0, 0, 3, 0],
        [root 2, key_of_digits 2 [8]], [1]⟩ ∧
    partition_end 2 (root 2) 9 (root 2) 1
        (accumulate_weights (root 2) (root 2) 9 1 two_leaf_weights) (1 / 10) 1 0 0 =
      Outcome.ok (key_of_digits 2 [8], SearchEnd.leaf) ∧
    oct_tree_offset 1 (root 2) = 0 ∧ oct_tree_offset 1 (key_of_digits 2 [8]) = 8 ∧
    oct_tree_size 1 = 9 ∧
    node_weight_sum two_leaf_weights 0 8 = 1 ∧ node_weight_sum two_leaf_weights 8 9 = 3 ∧
    ¬ (|node_weight_sum two_leaf_weights 0 8 / node_weight_sum two_leaf_weights 8 9 -
      ((1 - 0 : Nat) : ℚ) / ((2 - 1 : Nat) : ℚ)| < 1 / 10) ∧
    ieee.oct_tree_partition_private 7 1 0 2 1 (to_double (1 / 10))
        (ieee.of_rationals two_leaf_weights) 2 [root 2, root 2] =
      Outcome.ok ⟨ieee.of_rationals [0, 4, 1, 0, 0, 0, 0, 0, 0, 0, 0, 0, 0, 0, 0, 0, 3, 0],
        [root 2, key_of_digits 2 [8]]⟩) ∧
    (Ieee.div to_double (Ieee.div to_double (Ieee.real 1) (Ieee.real 3))
        (Ieee.sub to_double (Ieee.real 1) (Ieee.div to_double (Ieee.real 1) (Ieee.real 3))) =
      Ieee.real (1 / 2 - 1 / 2 ^ 54) ∧
    ieee.accumulate_weights (root 2) (root 2) 9 1 (ieee.of_rationals first_leaf_weights) =
      ieee.of_rationals [0, 5, 5, 0, 0, 0, 0, 0, 0, 0, 0, 0, 0, 0, 0, 0, 0, 0] ∧
    Ieee.sub to_double (Ieee.div to_double (Ieee.real 0)
        (Ieee.add to_double (Ieee.real 0) (Ieee.real 5))) (Ieee.real (1 / 2 - 1 / 2 ^ 54)) =
      Ieee.real (-(1 / 2 - 1 / 2 ^ 54)) ∧
    ieee.within_tolerance (Ieee.real (-(1 / 2 - 1 / 2 ^ 54))) (to_double (1 / 2)) = true ∧
    ieee.partition 7 2 (root 2) 9 (root 2) 1
        (ieee.of_rationals [0, 5, 5, 0, 0, 0, 0, 0, 0, 0, 0, 0, 0, 0, 0, 0, 0, 0])
        (to_double (1 / 2)) (Ieee.real (1 / 2 - 1 / 2 ^ 54)) (Ieee.real 0) (Ieee.real 0) =
      Outcome.ok (root 2) ∧
    ieee.oct_tree_partition_private 7 2 0 3 1 (to_double (1 / 2))
        (ieee.of_rationals first_leaf_weights) 3 [root 2, root 2, root 2] =
      Outcome.ok ⟨ieee.of_rationals [0, 5, 5, 0, 0, 0, 0, 0, 0, 0, 0, 0, 0, 0, 0, 0, 0, 0],
        [root 2, root 2, key_of_digits 2 [1]]⟩ ∧
    LeafWeights 1 first_leaf_weights ∧ (∀ o, 0 ≤ first_leaf_weights.at (2 * o)) ∧
    oct_tree_offset 1 (root 2) = 0 ∧ oct_tree_size 1 = 9 ∧
    node_weight_sum first_leaf_weights 0 0 = 0 ∧ node_weight_sum first_leaf_weights 0 9 = 5 ∧
    ¬ (|node_weight_sum first_leaf_weights 0 0 / node_weight_sum first_leaf_weights 0 9 -
      ((1 - 0 : Nat) : ℚ) / ((3 - 1 : Nat) : ℚ)| < 1 / 2) ∧
    oct_tree_partition_private 2 0 3 1 (1 / 2) first_leaf_weights 3 [root 2, root 2, root 2] =
      Outcome.ok ⟨[0, 5, 5, 0, 0, 0, 0, 0, 0, 0, 0, 0, 0, 0, 0, 0, 0, 0],
        [root 2, key_of_digits 2 [1], key_of_digits 2 [2]], [1, 2]⟩) ∧
    (LeafWeights 2 rounded_weights ∧ (∀ o, ∃ m : Nat, rounded_weights.at (2 * o) = m) ∧
    oct_tree_size 2 = 73 ∧ node_weight_sum rounded_weights 0 73 = 2 ^ 25 + 1 ∧
    ¬ (node_weight_sum rounded_weights 0 (oct_tree_size 2) < 2 ^ 24) ∧
    node_weight_sum rounded_weights 2 10 = 2 ^ 24 + 1 ∧
    (ieee.accumulate_weights (root 2) (root 2) 73 2 (ieee.of_rationals rounded_weights)).at 3 =
      Ieee.real (2 ^ 24) ∧
    Ieee.div to_double (Ieee.div to_double (Ieee.real ((1 - 0 : Nat) : ℚ))
        (Ieee.real ((2 - 0 : Nat) : ℚ)))
      (Ieee.sub to_double (Ieee.real 1) (Ieee.div to_double (Ieee.real ((1 - 0 : Nat) : ℚ))
        (Ieee.real ((2 - 0 : Nat) : ℚ)))) = Ieee.real 1 ∧
    to_double (1 / 2 ^ 25) = Ieee.real (1 / 2 ^ 25) ∧
    ieee.partition_end 7 3 (root 2) 73 (root 2) 2
        (ieee.accumulate_weights (root 2) (root 2) 73 2 (ieee.of_rationals rounded_weights))
        (to_double (1 / 2 ^ 25)) (Ieee.real 1) (Ieee.real 0) (Ieee.real 0) =
      Outcome.ok (key_of_digits 2 [2], SearchEnd.split) ∧
    ieee.oct_tree_partition_private 7 1 0 2 2 (to_double (1 / 2 ^ 25))
        (ieee.of_rationals rounded_weights) 2 [root 2, root 2] =
      Outcome.ok ⟨ieee.of_rationals (((rounded_weights.set 1 33554432).set 3 16777216).set 129
        16777216), [root 2, key_of_digits 2 [2]]⟩ ∧
    oct_tree_offset 2 (root 2) = 0 ∧ oct_tree_offset 2 (key_of_digits 2 [2]) = 10 ∧
    node_weight_sum rounded_weights 0 10 = 2 ^ 24 + 1 ∧
    node_weight_sum rounded_weights 10 73 = 2 ^ 24 ∧
    ieee.within_tolerance (Ieee.sub to_double (Ieee.div to_double
        (Ieee.real (node_weight_sum rounded_weights 0 10))
        (Ieee.real (node_weight_sum rounded_weights 10 73))) (Ieee.real 1))
      (to_double (1 / 2 ^ 25)) = false ∧
    ¬ (|node_weight_sum rounded_weights 0 10 / node_weight_sum rounded_weights 10 73 - 1| <
      1 / 2 ^ 25)) := by
  refine ⟨⟨leaf_weights_of_slots 1 two_leaf_weights rfl two_leaf_weights_zero, two_leaf_weights_nonneg,
    by decide!, by decide!, by decide, by decide, by decide, by decide!, by decide!, by decide!,
    by decide!⟩, ?_⟩
  refine ⟨⟨by decide!, by decide!, by decide!, by decide!, by decide!, by decide!,
    first_leaf_weights_slots.1, first_leaf_weights_slots.2,
    by decide, by decide, by decide!, by decide!, by decide!, by decide!⟩, ?_⟩
  refine ⟨rounded_weights_slots.1, rounded_weights_slots.2, by decide, by decide!, by decide!,
    by decide!, by decide!, by decide!, by decide!, by decide!, by decide!, by decide,
    by decide, by decide!, by decide!, by decide!, by decide!⟩

/-- The ratio at a key accepted by the tolerance test, with exact sums and the exact target
ratio: for non-negative weights that are non-zero only on maximum-depth leaves,
`oct_tree_partition_private` accumulates them over `[cuts[p_first], i_end)`; when its key
search `partition` chooses the key `k` for `cuts[p_upper]` by the tolerance test
`- tolerance < diff && diff < tolerance` (the branch that returns `oct_key_split`), then `k`
is the key the search returns and the call stores in `cuts[p_upper]`, the total weight of the
nodes with offset in `[offset(k), i_end)` is not zero, and the total weight of the nodes with
offset in `[offset(cuts[p_first]), offset(k))` divided by it differs from the target ratio
`(p_upper - p_first) / (p_end - p_upper)` by less than `tolerance`. -/
theorem oct_tree_partition_private_tolerance_exact {MaxDepth : Nat} (depth : Nat)
    (hm : depth ≤ MaxDepth) (p_first p_end : Nat) (tolerance : ℚ) (weights : Weights)
    (cuts_length : Nat) (cuts : List (OctTreeKey MaxDepth)) (hw : LeafWeights depth weights)
    (hnn : ∀ o, 0 ≤ weights.at (2 * o)) (hsize : 2 ≤ p_end - p_first)
    (p_upper : Nat) (hpu : p_upper = (p_end + p_first) / 2)
    (k_first : OctTreeKey MaxDepth) (hkf : k_first = cuts.getD p_first (root MaxDepth))
    (hkw : k_first.WellFormed) (i_end : Nat)
    (hie : i_end = if p_end < cuts_length then
      oct_tree_offset depth (cuts.getD p_end (root MaxDepth)) else oct_tree_size depth)
    (hrange : oct_tree_offset depth k_first < i_end) (hend : i_end ≤ oct_tree_size depth)
    (target_ratio : ℚ)
    (htr : target_ratio = ((p_upper - p_first : Nat) : ℚ) / ((p_end - p_first : Nat) : ℚ) /
      (1 - ((p_upper - p_first : Nat) : ℚ) / ((p_end - p_first : Nat) : ℚ)))
    (k : OctTreeKey MaxDepth)
    (hsplit : partition_end (depth + 1) k_first i_end (root MaxDepth) depth
        (accumulate_weights (root MaxDepth) k_first i_end depth weights) tolerance
        target_ratio 0 0 = Outcome.ok (k, SearchEnd.split)) :
    partition (depth + 1) k_first i_end (root MaxDepth) depth
        (accumulate_weights (root MaxDepth) k_first i_end depth weights) tolerance
        target_ratio 0 0 = Outcome.ok k ∧
    (∀ fuel r, p_upper < cuts.length →
      oct_tree_partition_private fuel p_first p_end depth tolerance weights cuts_length cuts =
        Outcome.ok r → r.cuts.getD p_upper (root MaxDepth) = k) ∧
    node_weight_sum weights (oct_tree_offset depth k) i_end ≠ 0 ∧
    |node_weight_sum weights (oct_tree_offset depth k_first) (oct_tree_offset depth k) /
        node_weight_sum weights (oct_tree_offset depth k) i_end -
      ((p_upper - p_first : Nat) : ℚ) / ((p_end - p_upper : Nat) : ℚ)| < tolerance := by
  have hpart : partition (depth + 1) k_first i_end (root MaxDepth) depth
      (accumulate_weights (root MaxDepth) k_first i_end depth weights) tolerance
      target_ratio 0 0 = Outcome.ok k := by
    rw [partition_end_key, hsplit]
  refine ⟨hpart, ?_, ?_⟩
  · intro fuel r hup h
    subst hpu
    have hs := oct_tree_partition_private_stores fuel p_first p_end depth tolerance weights
      cuts_length cuts r hup h
    rw [← hkf, ← hie, ← htr, hpart] at hs
    simp only [Outcome.ok.injEq] at hs
    exact hs.symm
  · have hratio : target_ratio =
        ((p_upper - p_first : Nat) : ℚ) / ((p_end - p_upper : Nat) : ℚ) := by
      rw [htr, show p_end - p_first = (p_upper - p_first) + (p_end - p_upper) by omega]
      exact target_ratio_eq _ _ (by omega) (by omega)
    rw [← hratio]
    cases depth with
    | zero =>
      exact absurd hsplit (partition_end_leaf _ _ _ _ _ _ _ _ _ _ (root_depth MaxDepth) k)
    | succ h =>
      by_cases h1 : i_end = 1
      · rw [partition_end] at hsplit
        simp [h1] at hsplit
      · obtain ⟨_, hown, hacc⟩ := accumulate_leaf_weights (h + 1) i_end hm k_first hkw weights
          hw hrange
        refine partition_end_split (h + 1) hm weights hw hnn (oct_tree_offset (h + 1) k_first)
          i_end hrange hend _ hown ?_ tolerance target_ratio (h + 1 + 1) (root MaxDepth) k_first
          0 0 h (root_wf MaxDepth) (by rw [root_depth]; omega) ?_ ?_ ?_ ?_ k hsplit
        · intro h2 o hb hmeets
          rw [hacc h2 o hb hmeets]
          exact leaf_weight_sum_range (h + 1) weights hw _ _ h2 o hb
        · rw [oct_tree_offset_root]; omega
        · rw [oct_tree_offset_root, root_depth]
          by_cases h0 : k_first.index 1 = 0
          · refine Or.inl ⟨h0, ?_⟩
            have : oct_tree_offset (h + 1) k_first = 0 :=
              offset_of_digits_head_zero (h + 1) k_first.digits (by
                rw [← getD_zero_headD]; exact h0)
            omega
          · refine Or.inr ⟨k_first.digits, hkw, ?_, by simp [oct_tree_offset], fun n => ?_⟩
            · rw [← getD_zero_headD]; exact h0
            · rw [show 0 + 1 + n = n + 1 by omega]
              rfl
        · rw [oct_tree_offset_root, Nat.min_zero]
          exact (node_weight_sum_empty weights _ _ (Nat.zero_le _)).symm
        · rw [oct_tree_offset_root]
          exact (node_weight_sum_empty weights _ _ (by omega)).symm

/-! ## Decoded keys in the order of their offsets (C30) -/

/-- C30: for every depth `d ≤ MaxDepth` whose tree size fits the `unsigned` offsets and all
offsets `a < b < oct_tree_size(d)`, `calculate_key_using_offset(d, a)` comes before
`calculate_key_using_offset(d, b)` in the key order; and for offsets `a, b` below
`oct_tree_size(d)` the decoded keys are ordered exactly as the offsets are. -/
theorem calculate_key_using_offset_strict_mono (MaxDepth d : Nat) (hm : d ≤ MaxDepth)
    (h32 : oct_tree_size d ≤ 2 ^ 32) (a b : Nat) (hab : a < b) (hb : b < oct_tree_size d) :
    calculate_key_using_offset MaxDepth d a < calculate_key_using_offset MaxDepth d b ∧
    ∀ x y, x < oct_tree_size d → y < oct_tree_size d →
      (calculate_key_using_offset MaxDepth d x < calculate_key_using_offset MaxDepth d y ↔
        x < y) := by
  have hmono : ∀ x y, x < y → y < oct_tree_size d →
      calculate_key_using_offset MaxDepth d x < calculate_key_using_offset MaxDepth d y := by
    intro x y hxy hy
    obtain ⟨hxw, hxd, hxo⟩ := calculate_key_using_offset_spec MaxDepth d hm h32 x (by omega)
    obtain ⟨hyw, hyd, hyo⟩ := calculate_key_using_offset_spec MaxDepth d hm h32 y hy
    exact key_lt_of_offset_lt d _ _ hxw hyw hxd hyd (by rw [hxo, hyo]; exact hxy)
  refine ⟨hmono a b hab hb, fun x y hx hy => ⟨fun hlt => ?_, fun hxy => hmono x y hxy hy⟩⟩
  by_contra hc
  rcases Nat.lt_or_ge y x with hyx | hyx
  · have h1 := hmono y x hyx hx
    rw [lt_iff] at h1 hlt
    rw [digits_less_asymm _ _ h1] at hlt
    exact absurd hlt (by simp)
  · have : x = y := by omega
    subst this
    rw [lt_iff, digits_less_irrefl] at hlt
    exact absurd hlt (by simp)

/-- The hypotheses of C30 hold for the tree of depth `2` in keys of `3` levels: the offsets
`9 < 13` decode to the keys `(1, 8)` and `(2, 3)`. -/
theorem calculate_key_using_offset_strict_mono_witness :
    2 ≤ 3 ∧ oct_tree_size 2 ≤ 2 ^ 32 ∧ 9 < 13 ∧ 13 < oct_tree_size 2 ∧
    calculate_key_using_offset 3 2 9 = key_of_digits 3 [1, 8] ∧
    calculate_key_using_offset 3 2 13 = key_of_digits 3 [2, 3] ∧
    calculate_key_using_offset 3 2 9 < calculate_key_using_offset 3 2 13 :=
  ⟨by decide, by decide, by decide, by decide, by decide, by decide,
    (calculate_key_using_offset_strict_mono 3 2 (by decide) (by decide) 9 13 (by decide)
      (by decide)).1⟩

/-! ## Ancestors come first in the key order (C21) -/

theorem index_set_index_ne {MaxDepth : Nat} (k : OctTreeKey MaxDepth) (l l2 v : Nat)
    (h : l ≠ l2) : (k.set_index l v).index l2 = k.index l2 := by
  cases l with
  | zero => rfl
  | succ l =>
    cases l2 with
    | zero => rfl
    | succ l2 =>
      simp only [set_index, index]
      rw [List.getD_eq_getElem?_getD, List.getD_eq_getElem?_getD,
        List.getElem?_set_ne (by omega)]

/-- A digit sequence that continues another one comes after it. -/
theorem digits_less_of_prefix : ∀ (xs ys : List Nat), wf_digits xs = true →
    wf_digits ys = true → xs.countP (fun d => d != 0) < ys.countP (fun d => d != 0) →
    (∀ l, l < xs.countP (fun d => d != 0) → ys.getD l 0 = xs.getD l 0) →
    digits_less xs ys = true
  | [], [], _, _, hc, _ => by simp at hc
  | [], _ :: _, _, _, _, _ => rfl
  | _ :: _, [], _, _, hc, _ => by simp at hc
  | x :: xs, y :: ys, hx, hy, hc, hp => by
    simp only [wf_digits] at hx hy
    have hy0 : y ≠ 0 := by
      intro h0
      subst h0
      simp only [if_true] at hy
      have := all_zero_countP (0 :: ys) (by simpa using hy)
      omega
    simp only [hy0, if_false, Bool.and_eq_true, decide_eq_true_eq] at hy
    by_cases hx0 : x = 0
    · subst hx0
      simp only [digits_less]
      rw [if_pos (by omega)]
    · simp only [hx0, if_false, Bool.and_eq_true, decide_eq_true_eq] at hx
      rw [List.countP_cons, List.countP_cons] at hc
      simp only [bne_iff_ne, ne_eq, hx0, hy0, not_false_eq_true, if_true] at hc
      have hxy : y = x := by
        have := hp 0 (by
          rw [List.countP_cons]
          simp only [bne_iff_ne, ne_eq, hx0, not_false_eq_true, if_true]
          omega)
        simpa using this
      subst hxy
      simp only [digits_less, Nat.lt_irrefl, if_false]
      refine digits_less_of_prefix xs ys hx.2 hy.2 (by omega) (fun l hl => ?_)
      have := hp (l + 1) (by
        rw [List.countP_cons]
        simp only [bne_iff_ne, ne_eq, hx0, not_false_eq_true, if_true]
        omega)
      simpa using this

/-- A key comes before every key that continues its digits. -/
theorem ancestor_lt {MaxDepth : Nat} (a b : OctTreeKey MaxDepth) (ha : a.WellFormed)
    (hb : b.WellFormed) (hd : a.depth < b.depth)
    (hp : ∀ l, 1 ≤ l → l ≤ a.depth → b.index l = a.index l) : a < b := by
  rw [lt_iff]
  exact digits_less_of_prefix a.digits b.digits ha hb hd (fun l hl => hp (l + 1) (by omega) hl)

/-- C21: for every two keys `a` and `b` (nodes of the tree) where `a` is a strict prefix of
`b` (`b` has more digits, and the digits of `a` are the first digits of `b`), `a < b`; and
for every key of depth below `MaxDepth` and every `i` in `2..8` the key
`oct_key_split(key, i, key_upper)` is the child `i` of `key`, which has `key` as a strict
prefix and is strictly greater than `key`. -/
theorem oct_key_split_child_greater {MaxDepth : Nat} (key : OctTreeKey MaxDepth)
    (hk : key.WellFormed) :
    (∀ b : OctTreeKey MaxDepth, b.WellFormed → key.depth < b.depth →
      (∀ l, 1 ≤ l → l ≤ key.depth → b.index l = key.index l) → key < b) ∧
    (key.depth < MaxDepth → ∀ i, 2 ≤ i → i ≤ 8 →
      oct_key_split key i = key.set_index (key.depth + 1) i ∧
      (oct_key_split key i).WellFormed ∧ (oct_key_split key i).depth = key.depth + 1 ∧
      (∀ l, 1 ≤ l → l ≤ key.depth → (oct_key_split key i).index l = key.index l) ∧
      key < oct_key_split key i) := by
  refine ⟨fun b hb hd hp => ancestor_lt key b hk hb hd hp, fun hd i h2 h8 => ?_⟩
  have e : oct_key_split key i = key.set_index (key.depth + 1) i := by
    unfold oct_key_split
    simp only []
    rw [if_neg (by omega), if_neg (by omega)]
  obtain ⟨hw, hdep⟩ := child_wf key hk hd i (by omega) h8
  rw [e]
  have hidx : ∀ l, 1 ≤ l → l ≤ key.depth →
      (key.set_index (key.depth + 1) i).index l = key.index l :=
    fun l _ hl => index_set_index_ne key _ l i (by omega)
  exact ⟨rfl, hw, hdep, hidx, ancestor_lt key _ hk hw (by omega) hidx⟩

/-- The hypotheses of C21 hold for the key `(2)` in keys of `3` levels: `oct_key_split` with
`upper_ord = 3` gives the child `(2, 3)`, which comes after `(2)`, as does the descendant
`(2, 3, 1)`. -/
theorem oct_key_split_child_greater_witness :
    (key_of_digits 3 [2]).WellFormed ∧ (key_of_digits 3 [2]).depth < 3 ∧
    oct_key_split (key_of_digits 3 [2]) 3 = key_of_digits 3 [2, 3] ∧
    key_of_digits 3 [2] < oct_key_split (key_of_digits 3 [2]) 3 ∧
    key_of_digits 3 [2] < key_of_digits 3 [2, 3, 1] :=
  ⟨by decide, by decide, by decide,
    ((oct_key_split_child_greater (key_of_digits 3 [2]) (by decide)).2 (by decide) 3
      (by decide) (by decide)).2.2.2.2,
    (oct_key_split_child_greater (key_of_digits 3 [2]) (by decide)).1
      (key_of_digits 3 [2, 3, 1]) (by decide) (by decide) (by decide)⟩

/-! ## The key after a subtree (C28) -/

theorem wf_depth_zero_root {MaxDepth : Nat} (k : OctTreeKey MaxDepth) (hd : k.depth = 0) :
    k = root MaxDepth := by
  cases k with
  | mk ds hl =>
    have hz := countP_zero_all ds hd
    have := all_zero_eq_replicate ds hz
    simp only [root]
    congr 1
    rw [this, hl]

/-- What the loop `while ( d && 8 == ( i = key_upper.index(d) ) )` of `oct_key_split` leaves:
a well-formed key of the depth `d` it stops at, which is `0` exactly when every digit of the
key is `8`; otherwise the last digit left is not `8`. -/
theorem strip_trailing_eight_shape {MaxDepth : Nat} :
    ∀ (d : Nat) (key : OctTreeKey MaxDepth), key.WellFormed → key.depth = d →
      (strip_trailing 8 d key).2.WellFormed ∧
      (strip_trailing 8 d key).2.depth = (strip_trailing 8 d key).1 ∧
      (strip_trailing 8 d key).1 ≤ d ∧
      ((strip_trailing 8 d key).1 = 0 ↔ ∀ l, 1 ≤ l → l ≤ d → key.index l = 8) ∧
      ((strip_trailing 8 d key).1 ≠ 0 →
        (strip_trailing 8 d key).2.index (strip_trailing 8 d key).1 ≤ 7) := by
  intro d
  induction d with
  | zero =>
    intro key hk hd
    refine ⟨hk, hd, le_refl _, ⟨fun _ l h1 h2 => absurd h2 (by omega), fun _ => rfl⟩,
      fun h => absurd rfl h⟩
  | succ d ih =>
    intro key hk hd
    obtain ⟨hpw, hpd, hpk, hv1, hv8, hdm⟩ := parent_spec key hk d hd
    simp only [strip_trailing]
    by_cases h8 : 8 = key.index (d + 1)
    · rw [if_pos h8]
      obtain ⟨a, b, c, e, f⟩ := ih (key.clear_index (d + 1)) hpw hpd
      refine ⟨a, b, by omega, ?_, f⟩
      rw [e]
      constructor
      · intro h l h1 h2
        by_cases hl : l = d + 1
        · rw [hl]; exact h8.symm
        · have := h l h1 (by omega)
          rw [clear_index, index_set_index_ne key (d + 1) l 0 (by omega)] at this
          exact this
      · intro h l h1 h2
        rw [clear_index, index_set_index_ne key (d + 1) l 0 (by omega)]
        exact h l h1 (by omega)
    · rw [if_neg h8]
      refine ⟨hk, hd, le_refl _, ⟨fun h => absurd h (by simp), fun h => ?_⟩, fun _ => ?_⟩
      · exact absurd (h (d + 1) (by omega) (le_refl _)).symm h8
      · simp only []
        omega

/-- C28: `oct_key_split` with `upper_ord > 8` returns the depth-first successor of the whole
subtree of `key`: for every tree depth `D` and every key (node of the tree) of depth at most
`D` with a digit other than `8`, `oct_tree_offset(D, key_upper) = oct_tree_offset(D, key) +
oct_tree_size(D - key.depth())` and `key < key_upper`; when every digit of `key` is `8`, or
`key` is the root, the result is the root key. -/
theorem oct_key_split_successor {MaxDepth : Nat} (D : Nat) (key : OctTreeKey MaxDepth)
    (hk : key.WellFormed) (hd : key.depth ≤ D) (upper_ord : Nat) (hu : 8 < upper_ord) :
    ((∃ l, 1 ≤ l ∧ l ≤ key.depth ∧ key.index l ≠ 8) →
      oct_tree_offset D (oct_key_split key upper_ord) =
        oct_tree_offset D key + oct_tree_size (D - key.depth) ∧
      key < oct_key_split key upper_ord) ∧
    ((∀ l, 1 ≤ l → l ≤ key.depth → key.index l = 8) →
      oct_key_split key upper_ord = root MaxDepth) := by
  obtain ⟨hrw, hrd, hrle, hiff, hlast⟩ := strip_trailing_eight_shape key.depth key hk rfl
  have hoff := strip_trailing_eight D key.depth key hk rfl hd
  have e : oct_key_split key upper_ord =
      if (strip_trailing 8 key.depth key).1 ≠ 0 then
        (strip_trailing 8 key.depth key).2.set_index (strip_trailing 8 key.depth key).1
          ((strip_trailing 8 key.depth key).2.index (strip_trailing 8 key.depth key).1 + 1)
      else (strip_trailing 8 key.depth key).2 := by
    unfold oct_key_split
    simp only []
    rw [if_neg (by omega), if_pos hu]
  constructor
  · rintro ⟨l, h1, h2, h3⟩
    have hne : (strip_trailing 8 key.depth key).1 ≠ 0 := by
      intro h0
      exact h3 (hiff.1 h0 l h1 h2)
    rw [e, if_pos hne]
    obtain ⟨n, hn⟩ : ∃ n, (strip_trailing 8 key.depth key).1 = n + 1 :=
      ⟨(strip_trailing 8 key.depth key).1 - 1, by omega⟩
    have h7 := hlast hne
    rw [hn] at hrd h7 hoff ⊢
    obtain ⟨hpw, hpd, hpk, hv1, hv8, hdm⟩ :=
      parent_spec (strip_trailing 8 key.depth key).2 hrw n hrd
    have hset := set_index_set_index ((strip_trailing 8 key.depth key).2.clear_index (n + 1))
      (n + 1) ((strip_trailing 8 key.depth key).2.index (n + 1))
      ((strip_trailing 8 key.depth key).2.index (n + 1) + 1)
    rw [hpk] at hset
    obtain ⟨hcw, hcd⟩ := child_wf ((strip_trailing 8 key.depth key).2.clear_index (n + 1)) hpw
      (by omega) ((strip_trailing 8 key.depth key).2.index (n + 1) + 1) (by omega) (by omega)
    rw [hpd, ← hset] at hcw hcd
    have ho := hoff.2 (by omega)
    refine ⟨ho, key_lt_of_offset_lt D _ _ hk hcw hd (by omega) ?_⟩
    rw [ho]
    have := oct_tree_size_pos (D - key.depth)
    omega
  · intro hall
    have h0 := hiff.2 hall
    rw [e, if_neg (by simpa using h0)]
    exact wf_depth_zero_root _ (by rw [hrd, h0])

/-- The hypotheses of C28 hold in the tree of depth `2` (keys of `3` levels) for the keys
`(2, 8)` and `(8, 8)`: the successor of the subtree of `(2, 8)` is `(3)` at offset
`18 + 1 = 19`, and for `(8, 8)` the result is the root. -/
theorem oct_key_split_successor_witness :
    (key_of_digits 3 [2, 8]).WellFormed ∧ (key_of_digits 3 [2, 8]).depth ≤ 2 ∧
    (key_of_digits 3 [2, 8]).index 1 ≠ 8 ∧
    oct_key_split (key_of_digits 3 [2, 8]) 9 = key_of_digits 3 [3] ∧
    oct_tree_offset 2 (key_of_digits 3 [2, 8]) = 18 ∧
    oct_tree_offset 2 (oct_key_split (key_of_digits 3 [2, 8]) 9) =
      oct_tree_offset 2 (key_of_digits 3 [2, 8]) +
        oct_tree_size (2 - (key_of_digits 3 [2, 8]).depth) ∧
    key_of_digits 3 [2, 8] < oct_key_split (key_of_digits 3 [2, 8]) 9 ∧
    oct_key_split (key_of_digits 3 [8, 8]) 9 = root 3 :=
  ⟨by decide, by decide, by decide, by decide, by decide,
    ((oct_key_split_successor 2 (key_of_digits 3 [2, 8]) (by decide) (by decide) 9
      (by decide)).1 ⟨1, by decide, by decide, by decide⟩).1,
    ((oct_key_split_successor 2 (key_of_digits 3 [2, 8]) (by decide) (by decide) 9
      (by decide)).1 ⟨1, by decide, by decide, by decide⟩).2,
    (oct_key_split_successor 2 (key_of_digits 3 [8, 8]) (by decide) (by decide) 9
      (by decide)).2 (by decide)⟩

/-! ## The fallback of the key search on zero weights (C22) -/

/-- C22 as stated fails: in the tree of depth `1` with every weight zero, `k_first = (5)` (at
offset `5`) and `i_end = 3` (`1 < i_end ≤ 9`, `i_end ≠ 5`), `partition` from the root returns
the key at the middle offset `(5 + 3) / 2 = 4`, which is neither at least the lower offset `5`
nor below `i_end = 3`. -/
theorem partition_zero_fallback_counterexample :
    AllZero zero_weights ∧ oct_tree_offset 1 (key_of_digits 2 [5]) = 5 ∧
    1 < 3 ∧ 3 ≤ oct_tree_size 1 ∧ 3 ≠ oct_tree_offset 1 (key_of_digits 2 [5]) ∧
    partition 2 (key_of_digits 2 [5]) 3 (root 2) 1 zero_weights (1 / 1000) 1 0 0 =
      Outcome.ok (calculate_key_using_offset 2 1
        ((oct_tree_offset 1 (key_of_digits 2 [5]) + 3) / 2)) ∧
    oct_tree_offset 1
      (calculate_key_using_offset 2 1 ((oct_tree_offset 1 (key_of_digits 2 [5]) + 3) / 2)) = 4 ∧
    ¬ (oct_tree_offset 1 (key_of_digits 2 [5]) ≤ 4) ∧ ¬ (4 < 3) :=
  ⟨zero_weights_all_zero, by decide, by decide, by decide, by decide, by decide!, by decide,
    by decide, by decide⟩

/-- C22, amended: for every depth `≥ 1` (at most `MaxDepth`, the tree size fitting the
`unsigned` offsets), every tolerance and target ratio, every `k_first` and `i_end` with
`1 < i_end ≤ oct_tree_size(depth)` and `oct_tree_offset(depth, k_first) < i_end`, if every
weight slot is zero then `partition` started at the root returns
`calculate_key_using_offset(depth, (oct_tree_offset(depth, k_first) + i_end) / 2)`, whatever
the tolerance and the target ratio; its offset `m` is that middle and satisfies
`oct_tree_offset(depth, k_first) ≤ m < i_end`, with `m` strictly greater than the lower offset
whenever `i_end` exceeds it by at least `2`. -/
theorem partition_zero_fallback {MaxDepth : Nat} (depth : Nat) (hd : 1 ≤ depth)
    (hm : depth ≤ MaxDepth) (h32 : oct_tree_size depth ≤ 2 ^ 32)
    (k_first : OctTreeKey MaxDepth) (i_end : Nat) (h1 : 1 < i_end)
    (hie : i_end ≤ oct_tree_size depth) (hlt : oct_tree_offset depth k_first < i_end)
    (weights : Weights) (hz : AllZero weights)
    (tolerance target_ratio w_lower w_upper : ℚ) (fuel : Nat) :
    partition (fuel + 1) k_first i_end (root MaxDepth) depth weights tolerance target_ratio
        w_lower w_upper =
      Outcome.ok (calculate_key_using_offset MaxDepth depth
        ((oct_tree_offset depth k_first + i_end) / 2)) ∧
    oct_tree_offset depth (calculate_key_using_offset MaxDepth depth
        ((oct_tree_offset depth k_first + i_end) / 2)) =
      (oct_tree_offset depth k_first + i_end) / 2 ∧
    oct_tree_offset depth k_first ≤ (oct_tree_offset depth k_first + i_end) / 2 ∧
    (oct_tree_offset depth k_first + i_end) / 2 < i_end ∧
    (oct_tree_offset depth k_first + 2 ≤ i_end →
      oct_tree_offset depth k_first < (oct_tree_offset depth k_first + i_end) / 2) := by
  have hp := partition_zero depth hd hm fuel k_first i_end weights hz tolerance target_ratio
    w_lower w_upper (by omega) (by omega)
  rw [Nat.add_comm i_end] at hp
  refine ⟨hp, ?_, by omega, by omega, fun _ => by omega⟩
  exact (calculate_key_using_offset_spec MaxDepth depth hm h32 _ (by omega)).2.2

/-- The hypotheses of the amended C22 hold in the tree of depth `1` with every weight zero for
`k_first = (2)` and `i_end = 7`: the key returned is the one at the middle offset `4`. -/
theorem partition_zero_fallback_witness :
    1 ≤ 1 ∧ 1 ≤ 2 ∧ oct_tree_size 1 ≤ 2 ^ 32 ∧ 1 < 7 ∧ 7 ≤ oct_tree_size 1 ∧
    oct_tree_offset 1 (key_of_digits 2 [2]) < 7 ∧ AllZero zero_weights ∧
    partition 1 (key_of_digits 2 [2]) 7 (root 2) 1 zero_weights (1 / 1000) 1 0 0 =
      Outcome.ok (calculate_key_using_offset 2 1
        ((oct_tree_offset 1 (key_of_digits 2 [2]) + 7) / 2)) ∧
    calculate_key_using_offset 2 1 ((oct_tree_offset 1 (key_of_digits 2 [2]) + 7) / 2) =
      key_of_digits 2 [4] :=
  ⟨by decide, by decide, by decide, by decide, by decide, by decide, zero_weights_all_zero,
    (partition_zero_fallback 1 (by decide) (by decide) (by decide) (key_of_digits 2 [2]) 7
      (by decide) (by decide) (by decide) zero_weights zero_weights_all_zero (1 / 1000) 1 0 0
      0).1, by decide⟩

/-! ## The key search at the maximum depth (C26) -/

theorem offset_of_digits_set_beyond : ∀ (d : Nat) (ds : List Nat) (l v : Nat), d ≤ l →
    offset_of_digits d (ds.set l v) = offset_of_digits d ds
  | 0, _, _, _, _ => by simp [offset_of_digits]
  | d + 1, [], _, _, _ => by simp
  | d + 1, x :: xs, l, v, h => by
    obtain ⟨n, rfl⟩ : ∃ n, l = n + 1 := ⟨l - 1, by omega⟩
    simp only [List.set_cons_succ, offset_of_digits]
    rw [offset_of_digits_set_beyond d xs n v (by omega)]

/-- At a key of the tree depth the loop that lowers `j` ends at once when the key lies before
`i_end`: a digit below the tree depth does not change the offset. -/
theorem find_j_at_leaf {MaxDepth : Nat} (i_end depth : Nat) (key : OctTreeKey MaxDepth)
    (hd : key.depth = depth) (hlt : oct_tree_offset depth key < i_end) :
    find_j i_end depth (key.depth + 1) key 8 = some 8 := by
  have e : oct_tree_offset depth (key.set_index (key.depth + 1) 8) =
      oct_tree_offset depth key := by
    simp only [oct_tree_offset, set_index]
    exact offset_of_digits_set_beyond depth key.digits key.depth 8 (by omega)
  rw [show (8 : Nat) = 7 + 1 by rfl, find_j, e, if_neg (by omega)]

/-- C26 as stated fails: in the tree of depth `1` with the own weight `7` on the leaf `(5)`,
`k_first = (5)` and `i_end = 3`, the call of `partition` on the root (no short-circuit:
`i_end` is neither `1` nor the offset `5` of `k_first`) makes the nested call on the key `(5)`,
whose depth is the tree depth; there the loop that lowers `j` finds `i_end ≤ 5` for every `j`
down to `0`, the next decrement is rejected by the key, and neither call returns a key. -/
theorem partition_at_max_depth_counterexample :
    (key_of_digits 2 [5]).depth = 1 ∧ oct_tree_offset 1 (key_of_digits 2 [5]) = 5 ∧
    ¬ (3 = 1 ∨ 3 = oct_tree_offset 1 (key_of_digits 2 [5])) ∧
    find_j 3 1 ((key_of_digits 2 [5]).depth + 1) (key_of_digits 2 [5]) 8 = none ∧
    partition 1 (key_of_digits 2 [5]) 3 (key_of_digits 2 [5]) 1 sample_leaf_weights (1 / 1000) 1
      0 0 = Outcome.raised ∧
    partition 2 (key_of_digits 2 [5]) 3 (root 2) 1 sample_leaf_weights (1 / 1000) 1 0 0 =
      Outcome.raised :=
  ⟨by decide, by decide, by decide, by decide, by decide!, by decide!⟩

/-- C26, amended: when `partition` reaches a key whose depth equals the tree depth, the
initial short-circuit did not apply and the key lies before `i_end`
(`oct_tree_offset(depth, key) < i_end`, so that the loop lowering `j` ends), it returns
`k_upper` with `oct_tree_offset(depth, k_upper) = oct_tree_offset(depth, key) + 1`, the key
decoded by `calculate_key_using_offset`, if `k_first = key` and `key` is not the last leaf
(`offset + 1 != oct_tree_size(depth)`); in every other case it returns `k_upper = key`. -/
theorem partition_at_max_depth {MaxDepth : Nat} (depth : Nat) (hm : depth ≤ MaxDepth)
    (h32 : oct_tree_size depth ≤ 2 ^ 32) (key : OctTreeKey MaxDepth) (hk : key.WellFormed)
    (hd : key.depth = depth) (k_first : OctTreeKey MaxDepth) (i_end : Nat)
    (hshort : ¬ (i_end = 1 ∨ i_end = oct_tree_offset depth k_first))
    (hreach : oct_tree_offset depth key < i_end) (weights : Weights)
    (tolerance target_ratio w_lower w_upper : ℚ) (fuel : Nat) :
    partition (fuel + 1) k_first i_end key depth weights tolerance target_ratio w_lower
        w_upper =
      Outcome.ok (if k_first = key ∧ oct_tree_offset depth key + 1 ≠ oct_tree_size depth then
        calculate_key_using_offset MaxDepth depth (oct_tree_offset depth key + 1) else key) ∧
    (oct_tree_offset depth key + 1 ≠ oct_tree_size depth →
      oct_tree_offset depth
          (calculate_key_using_offset MaxDepth depth (oct_tree_offset depth key + 1)) =
        oct_tree_offset depth key + 1) := by
  constructor
  · rw [partition]
    simp only []
    rw [if_neg hshort, find_j_at_leaf i_end depth key hd hreach]
    simp only []
    rw [if_pos hd, hd]
    split <;> rfl
  · intro hlast
    have := oct_tree_offset_lt depth key hk
    exact (calculate_key_using_offset_spec MaxDepth depth hm h32 _ (by omega)).2.2

/-- The hypotheses of the amended C26 hold in the tree of depth `1` for the leaf `(5)` with
`k_first = (5)` and `i_end = 7`: the key returned is the next leaf `(6)`; with
`k_first = (3)` it is the leaf `(5)` itself. -/
theorem partition_at_max_depth_witness :
    1 ≤ 2 ∧ oct_tree_size 1 ≤ 2 ^ 32 ∧ (key_of_digits 2 [5]).WellFormed ∧
    (key_of_digits 2 [5]).depth = 1 ∧
    ¬ (7 = 1 ∨ 7 = oct_tree_offset 1 (key_of_digits 2 [5])) ∧
    oct_tree_offset 1 (key_of_digits 2 [5]) < 7 ∧
    partition 1 (key_of_digits 2 [5]) 7 (key_of_digits 2 [5]) 1 sample_leaf_weights (1 / 1000) 1
        0 0 =
      Outcome.ok (if key_of_digits 2 [5] = key_of_digits 2 [5] ∧
          oct_tree_offset 1 (key_of_digits 2 [5]) + 1 ≠ oct_tree_size 1 then
        calculate_key_using_offset 2 1 (oct_tree_offset 1 (key_of_digits 2 [5]) + 1)
        else key_of_digits 2 [5]) ∧
    calculate_key_using_offset 2 1 (oct_tree_offset 1 (key_of_digits 2 [5]) + 1) =
      key_of_digits 2 [6] ∧
    partition 1 (key_of_digits 2 [3]) 7 (key_of_digits 2 [5]) 1 sample_leaf_weights (1 / 1000) 1
        0 0 = Outcome.ok (key_of_digits 2 [5]) :=
  ⟨by decide, by decide, by decide, by decide, by decide, by decide,
    (partition_at_max_depth 1 (by decide) (by decide) (key_of_digits 2 [5]) (by decide)
      (by decide) (key_of_digits 2 [5]) 7 (by decide) (by decide) sample_leaf_weights
      (1 / 1000) 1 0 0 0).1, by decide, by decide!⟩

/-! ## The slots the accumulation may write (C29) -/

/-- Whatever the range, a call of the accumulation on a position writes only descendant slots
of inner positions of its subtree, and keeps the length of the array. -/
theorem offset_accumulate_inner (hi : Nat) : ∀ (h o : Nat) (ds : List Nat) (w : Weights),
    wf_digits ds = true →
    (offset_accumulate h o ds hi w).length = w.length ∧
    ∀ idx, (offset_accumulate h o ds hi w).at idx ≠ w.at idx →
      ∃ o2 h2, Below o h o2 (h2 + 1) ∧ idx = 2 * o2 + 1 := by
  intro h
  induction h with
  | zero =>
    intro o ds w _
    simp [offset_accumulate]
  | succ h ih =>
    intro o ds w hwf
    have hloop : ∀ (i0 : Nat) (ds2 : List Nat) (st : ℚ × Weights), wf_digits ds2 = true →
        (offset_children (fun ord w => offset_accumulate h ord ds2 hi w) o h hi
          (List.range' (i0 + 1) (8 - i0)) st).2.length = st.2.length ∧
        ∀ idx, (offset_children (fun ord w => offset_accumulate h ord ds2 hi w) o h hi
          (List.range' (i0 + 1) (8 - i0)) st).2.at idx ≠ st.2.at idx →
          ∃ o2 h2, Below o (h + 1) o2 (h2 + 1) ∧ idx = 2 * o2 + 1 := by
      intro i0 ds2 st hwf2
      have hs := offset_children_spec (fun ord w => offset_accumulate h ord ds2 hi w) o h hi
        st.2.length
        (fun idx => ∃ o2 h2, Below o (h + 1) o2 (h2 + 1) ∧ idx = 2 * o2 + 1)
        (fun _ _ => True) (fun _ _ _ _ _ => trivial)
        (List.range' (i0 + 1) (8 - i0)) st (range_succ_pairwise _ _)
        (fun i hi2 => by rw [List.mem_range'_1] at hi2; omega) rfl
        (fun i hi2 _ w2 hw2 => by
          rw [List.mem_range'_1] at hi2
          have hr := ih (child_offset o h i) ds2 w2 hwf2
          refine ⟨by rw [hr.1, hw2], ?_, trivial⟩
          intro idx hne
          obtain ⟨o2, h2, hb, hidx⟩ := hr.2 idx hne
          have hbb := hb.bounds
          have hs2 := oct_tree_size_pos (h2 + 1)
          exact ⟨by omega, by omega, o2, h2,
            Below.step o h i _ _ (by omega) (by omega) hb, hidx⟩)
      exact ⟨hs.1, fun idx hne => (hs.2.1 idx hne).2⟩
    rw [offset_accumulate]
    by_cases hi0 : ds.headD 0 = 0
    · simp only [hi0, ne_eq, not_true_eq_false, if_false]
      obtain ⟨hl, hc⟩ := hloop 0 ds.tail (0, w) (wf_digits_tail ds hwf)
      refine ⟨by rw [Weights.length_put, hl], ?_⟩
      intro idx hne
      by_cases hidx : 2 * o + 1 = idx
      · exact ⟨o, h, Below.refl _ _, hidx.symm⟩
      · rw [Weights.at_put_ne _ _ _ _ hidx] at hne
        exact hc idx hne
    · have h8 := wf_digits_head ds hwf
      simp only [hi0, ne_eq, not_false_eq_true, if_true]
      obtain ⟨hl1, hc1⟩ := ih (child_offset o h (ds.headD 0)) ds.tail w (wf_digits_tail ds hwf)
      obtain ⟨hl, hc⟩ := hloop (ds.headD 0) (List.replicate (ds.length - 1) 0)
        (0 + ((offset_accumulate h (child_offset o h (ds.headD 0)) ds.tail hi w).at
            (child_offset o h (ds.headD 0) * 2) +
          (offset_accumulate h (child_offset o h (ds.headD 0)) ds.tail hi w).at
            (child_offset o h (ds.headD 0) * 2 + 1)),
          offset_accumulate h (child_offset o h (ds.headD 0)) ds.tail hi w)
        (wf_digits_replicate _)
      refine ⟨by rw [Weights.length_put, hl, hl1], ?_⟩
      intro idx hne
      by_cases hidx : 2 * o + 1 = idx
      · exact ⟨o, h, Below.refl _ _, hidx.symm⟩
      · rw [Weights.at_put_ne _ _ _ _ hidx] at hne
        by_cases hc2 : (offset_children
            (fun ord w => offset_accumulate h ord (List.replicate (ds.length - 1) 0) hi w) o h hi
            (List.range' (ds.headD 0 + 1) (8 - ds.headD 0))
            (0 + ((offset_accumulate h (child_offset o h (ds.headD 0)) ds.tail hi w).at
                (child_offset o h (ds.headD 0) * 2) +
              (offset_accumulate h (child_offset o h (ds.headD 0)) ds.tail hi w).at
                (child_offset o h (ds.headD 0) * 2 + 1)),
              offset_accumulate h (child_offset o h (ds.headD 0)) ds.tail hi w)).2.at idx =
            (offset_accumulate h (child_offset o h (ds.headD 0)) ds.tail hi w).at idx
        · rw [hc2] at hne
          obtain ⟨o2, h2, hb, hidx2⟩ := hc1 idx hne
          exact ⟨o2, h2, Below.step o h _ _ _ (by omega) h8 hb, hidx2⟩
        · exact hc idx hc2

/-- C29: `accumulate_weights` never modifies an own weight: for every input it keeps the
length of the array and every own-weight slot (even index `2 * offset`); called on the root
for a key `k_first` it writes only descendant slots (odd indices `2 * offset + 1`) of
internal nodes, so no slot of a maximum-depth leaf; and a run of
`oct_tree_partition_private` that returns leaves every own-weight slot equal to its initial
value. -/
theorem accumulate_weights_keeps_own {MaxDepth : Nat} (depth : Nat) (hm : depth ≤ MaxDepth) :
    (∀ (k_node k_first : OctTreeKey MaxDepth) (ord_end d : Nat) (w : Weights),
      (accumulate_weights k_node k_first ord_end d w).length = w.length ∧
      ∀ o, (accumulate_weights k_node k_first ord_end d w).at (2 * o) = w.at (2 * o)) ∧
    (∀ (k_first : OctTreeKey MaxDepth) (ord_end : Nat) (w : Weights), k_first.WellFormed →
      (∀ idx, (accumulate_weights (root MaxDepth) k_first ord_end depth w).at idx ≠ w.at idx →
        ∃ n : OctTreeKey MaxDepth, n.WellFormed ∧ n.depth < depth ∧
          idx = 2 * oct_tree_offset depth n + 1) ∧
      ∀ leaf : OctTreeKey MaxDepth, leaf.WellFormed → leaf.depth = depth →
        (accumulate_weights (root MaxDepth) k_first ord_end depth w).at
            (2 * oct_tree_offset depth leaf) = w.at (2 * oct_tree_offset depth leaf) ∧
        (accumulate_weights (root MaxDepth) k_first ord_end depth w).at
            (2 * oct_tree_offset depth leaf + 1) = w.at (2 * oct_tree_offset depth leaf + 1)) ∧
    (∀ (fuel p_first p_end d : Nat) (tolerance : ℚ) (w : Weights) (cuts_length : Nat)
      (cuts : List (OctTreeKey MaxDepth)) (r : PartitionResult MaxDepth),
      oct_tree_partition_private fuel p_first p_end d tolerance w cuts_length cuts =
        Outcome.ok r →
      r.weights.length = w.length ∧ ∀ o, r.weights.at (2 * o) = w.at (2 * o)) := by
  refine ⟨fun k_node k_first ord_end d w => accumulate_weights_own k_node k_first ord_end d w,
    fun k_first ord_end w hk => ?_,
    fun fuel p_first p_end d tolerance w cuts_length cuts r h =>
      oct_tree_partition_private_own fuel p_first p_end d tolerance w cuts_length cuts r h⟩
  have hin := (offset_accumulate_inner ord_end depth 0 k_first.digits w hk).2
  rw [← accumulate_weights_eq depth ord_end hm k_first hk w] at hin
  refine ⟨fun idx hne => ?_, fun leaf hl hd => ?_⟩
  · obtain ⟨o2, h2, hb, hidx⟩ := hin idx hne
    obtain ⟨n, hn, hnd, hno⟩ := key_of_below depth hm 0 depth o2 (h2 + 1) hb (root MaxDepth)
      (root_wf MaxDepth) (by rw [root_depth]; omega) (oct_tree_offset_root MaxDepth depth)
    exact ⟨n, hn, by omega, by rw [hno, hidx]⟩
  · refine ⟨(accumulate_weights_own (root MaxDepth) k_first ord_end depth w).2 _, ?_⟩
    by_contra hne
    obtain ⟨o2, h2, hb, hidx⟩ := hin _ hne
    have hbl := below_of_key depth leaf hl (by omega)
    rw [hd, Nat.sub_self] at hbl
    have ho : oct_tree_offset depth leaf = o2 := by omega
    rw [ho] at hbl
    have := Below.height_unique depth 0 o2 0 (h2 + 1) hbl hb
    omega

/-- The hypothesis of C29 holds for the tree of depth `1` in keys of `2` levels: the
accumulation over `[(5), 7)` with the own weight `7` on the leaf `(5)` changes the descendant
slot of the root only. -/
theorem accumulate_weights_keeps_own_witness :
    1 ≤ 2 ∧
    accumulate_weights (root 2) (key_of_digits 2 [5]) 7 1 sample_leaf_weights =
      [0, 7, 0, 0, 0, 0, 0, 0, 0, 0, 7, 0, 0, 0, 0, 0, 0, 0] ∧
    (accumulate_weights (root 2) (key_of_digits 2 [5]) 7 1 sample_leaf_weights).length =
      sample_leaf_weights.length ∧
    ∀ o, (accumulate_weights (root 2) (key_of_digits 2 [5]) 7 1 sample_leaf_weights).at (2 * o) =
      sample_leaf_weights.at (2 * o) :=
  ⟨by decide, by decide!,
    ((accumulate_weights_keeps_own 1 (by decide : 1 ≤ 2)).1 (root 2) (key_of_digits 2 [5]) 7 1
      sample_leaf_weights).1,
    ((accumulate_weights_keeps_own 1 (by decide : 1 ≤ 2)).1 (root 2) (key_of_digits 2 [5]) 7 1
      sample_leaf_weights).2⟩

/-! ## The depth of a covering as a logarithm (C25) -/

theorem log2_eq_log (x : Nat) (h1 : 1 ≤ x) (h32 : x < 2 ^ 32) : log2 x = Nat.log 2 x := by
  obtain ⟨a, b⟩ := log2_spec x h1 h32
  exact ((Nat.log_eq_iff (Or.inr ⟨by norm_num, by omega⟩)).2 ⟨a, b⟩).symm

/-- The depth chosen for an extent `e` in `(0, 1]` whose inverse fits the `unsigned` type is
the integer logarithm of the integer part of `1 / e`, clamped to `MaxDepth`. -/
theorem covering_depth_log (MaxDepth : Nat) (e : ℚ) (h0 : 0 < e) (h1 : e ≤ 1)
    (h32 : 1 / e < 2 ^ 32) :
    covering_depth MaxDepth e = min MaxDepth (Nat.log 2 ⌊1 / e⌋₊) ∧
    (2 : ℚ) ^ Nat.log 2 ⌊1 / e⌋₊ ≤ 1 / e ∧ 1 / e < (2 : ℚ) ^ (Nat.log 2 ⌊1 / e⌋₊ + 1) ∧
    e ≤ 1 / 2 ^ covering_depth MaxDepth e ∧
    ∀ d, d ≤ MaxDepth → e ≤ 1 / 2 ^ d → d ≤ covering_depth MaxDepth e := by
  obtain ⟨d, hd1, hd2, hd3⟩ := covering_depth_eq MaxDepth e h0 h1 h32
  have hinv : (0 : ℚ) ≤ 1 / e := by positivity
  have hp : ∀ k : Nat, (0 : ℚ) < 2 ^ k := fun k => by positivity
  have hlow : (2 : ℚ) ^ d ≤ 1 / e := by
    rw [le_div_iff₀ h0]
    have := (le_div_iff₀ (hp d)).1 hd1
    linarith
  have hup : 1 / e < (2 : ℚ) ^ (d + 1) := by
    rw [div_lt_iff₀ h0]
    have := (div_lt_iff₀ (hp (d + 1))).1 hd2
    linarith
  have hlog : Nat.log 2 ⌊1 / e⌋₊ = d := by
    rw [Nat.log_eq_iff (Or.inr ⟨by norm_num, ?_⟩)]
    · constructor
      · rw [Nat.le_floor_iff hinv]
        exact_mod_cast hlow
      · rw [Nat.floor_lt hinv]
        exact_mod_cast hup
    · have h1le : (1 : ℚ) ≤ 1 / e := by
        rw [le_div_iff₀ h0]
        linarith
      have : 1 ≤ ⌊1 / e⌋₊ := by
        rw [Nat.le_floor_iff hinv]
        exact_mod_cast h1le
      omega
  rw [hlog, hd3]
  refine ⟨Nat.min_comm _ _, hlow, hup, ?_, fun d2 hd2m hd2e => ?_⟩
  · refine le_trans hd1 ?_
    apply one_div_le_one_div_of_le (hp _)
    exact pow_le_pow_right₀ (by norm_num) (Nat.min_le_left _ _)
  · by_contra hc
    have hlt : d + 1 ≤ d2 := by omega
    have h2 : (1 : ℚ) / 2 ^ d2 ≤ 1 / 2 ^ (d + 1) := by
      apply one_div_le_one_div_of_le (hp _)
      exact pow_le_pow_right₀ (by norm_num) hlt
    linarith

/-- C25: for every small box whose largest normalized extent `u` (`unit_size`) satisfies
`0 < u` and `1 / u < 2^32`, the depth used by `hsfc_box_covering` is
`min(MaxDepth, floor(log2(1 / u)))`, the largest depth `d ≤ MaxDepth` whose cell edge `2^-d`
is at least `u`; the helper `log2(x)` returns `floor(log2(x))` for every `1 ≤ x < 2^32` and
`0` for `x = 0`. -/
theorem covering_depth_floor_log2 {MaxDepth : Nat} (global_box small_box : Nat → ℚ)
    (scale : ℚ) (h0 : 0 < (unit_box global_box small_box scale).unit_size)
    (h32 : 1 / (unit_box global_box small_box scale).unit_size < 2 ^ 32) :
    covering_depth MaxDepth (unit_box global_box small_box scale).unit_size =
      min MaxDepth (Nat.log 2 ⌊1 / (unit_box global_box small_box scale).unit_size⌋₊) ∧
    (2 : ℚ) ^ Nat.log 2 ⌊1 / (unit_box global_box small_box scale).unit_size⌋₊ ≤
      1 / (unit_box global_box small_box scale).unit_size ∧
    1 / (unit_box global_box small_box scale).unit_size <
      (2 : ℚ) ^ (Nat.log 2 ⌊1 / (unit_box global_box small_box scale).unit_size⌋₊ + 1) ∧
    covering_depth MaxDepth (unit_box global_box small_box scale).unit_size ≤ MaxDepth ∧
    (unit_box global_box small_box scale).unit_size ≤
      1 / 2 ^ covering_depth MaxDepth (unit_box global_box small_box scale).unit_size ∧
    (∀ d, d ≤ MaxDepth → (unit_box global_box small_box scale).unit_size ≤ 1 / 2 ^ d →
      d ≤ covering_depth MaxDepth (unit_box global_box small_box scale).unit_size) ∧
    (∀ (hsfc3d : Nat → List Nat → OctTreeKey MaxDepth) (r : BoxCovering MaxDepth),
      hsfc_box_covering hsfc3d global_box small_box scale = some r →
      ∃ corners : List (List Nat), r.covering = corners.map (hsfc3d
        (min MaxDepth (Nat.log 2 ⌊1 / (unit_box global_box small_box scale).unit_size⌋₊)))) ∧
    (∀ x, 1 ≤ x → x < 2 ^ 32 → log2 x = Nat.log 2 x) ∧ log2 0 = 0 := by
  have hu := (unit_box_spec global_box small_box scale).2.1
  have he : (unit_box global_box small_box scale).unit_size ≤ 1 := by
    have := float_epsilon_pos
    linarith
  obtain ⟨a, b, c, d, e⟩ := covering_depth_log MaxDepth _ h0 he h32
  refine ⟨a, b, c, ?_, d, e, fun hsfc3d r hr => ?_, log2_eq_log, log2_zero⟩
  · rw [a]
    exact Nat.min_le_left _ _
  · rw [← a]
    unfold hsfc_box_covering at hr
    simp only [] at hr
    split at hr
    · exact absurd hr (by simp)
    · simp only [Option.some.injEq] at hr
      subst hr
      exact ⟨_, rfl⟩

/-- The hypotheses of C25 hold for the box `[1/4, 5/8]^3` in the unit cube: the extent is
`3/8`, the integer part of `8/3` is `2` and the depth is `log2(2) = 1`. -/
theorem covering_depth_floor_log2_witness :
    0 < (unit_box unit_cube three_eighths_box 1).unit_size ∧
    1 / (unit_box unit_cube three_eighths_box 1).unit_size < 2 ^ 32 ∧
    (unit_box unit_cube three_eighths_box 1).unit_size = 3 / 8 ∧
    covering_depth 3 (unit_box unit_cube three_eighths_box 1).unit_size = 1 ∧
    covering_depth 3 (unit_box unit_cube three_eighths_box 1).unit_size =
      min 3 (Nat.log 2 ⌊1 / (unit_box unit_cube three_eighths_box 1).unit_size⌋₊) :=
  ⟨by decide!, by decide!, by decide!, by decide!,
    (@covering_depth_floor_log2 3 unit_cube three_eighths_box 1 (by decide!) (by decide!)).1⟩

/-! ## The consistency check of the box covering (C27) -/

/-- When the consistency check of an axis passes, the upper cell coordinate is at most one
above the lower one. -/
theorem cell_axis_le (depth : Nat) (hd : depth < 32) (l u : ℚ) (a b : Nat)
    (h : cell_axis depth l u = some (a, b)) :
    to_unsigned (u * 2 ^ depth) ≤ to_unsigned (l * 2 ^ depth) + 1 := by
  have hp : 2 ^ depth < 2 ^ 32 := Nat.pow_lt_pow_right (by norm_num) hd
  unfold cell_axis at h
  simp only [Nat.mod_eq_of_lt hp] at h
  push_cast at h
  split at h
  · exact absurd h (by simp)
  · rename_i hc
    have := Nat.mod_le (to_unsigned (l * 2 ^ depth) + 1) (2 ^ 32)
    omega

/-- The consistency check passes on every axis when the normalized lower ends keep the cell
coordinates below the last value of the word. -/
theorem covering_axis_some {MaxDepth : Nat} (hD : MaxDepth < BitsPerWord)
    (global_box small_box : Nat → ℚ) (scale : ℚ)
    (hfit : ∀ i, i < 3 → (small_box i - global_box i) * scale * 2 ^ MaxDepth < 2 ^ 32 - 1)
    (i : Nat) (hi : i < 3) :
    ∃ a b,
      cell_axis (covering_depth MaxDepth (unit_box global_box small_box scale).unit_size)
        ((unit_box global_box small_box scale).ubox_low.getD i 0)
        ((unit_box global_box small_box scale).ubox_up.getD i 0) = some (a, b) := by
  obtain ⟨hs0, hs1, -, -, hax⟩ := unit_box_spec global_box small_box scale
  have he : (0 : ℚ) < float_epsilon := float_epsilon_pos
  have hdle := covering_depth_le MaxDepth (unit_box global_box small_box scale).unit_size
  have hdepth : covering_depth MaxDepth (unit_box global_box small_box scale).unit_size < 32 :=
    lt_of_le_of_lt hdle hD
  have hcell := covering_depth_cell MaxDepth _ hs0 (by linarith)
  obtain ⟨e1, e2, e3, e4, -⟩ := hax i hi
  have hpow : (0 : ℚ) < 2 ^ covering_depth MaxDepth
      (unit_box global_box small_box scale).unit_size := by positivity
  obtain ⟨a, b, h, -⟩ := cell_axis_some _ hdepth _ _ (by linarith) e2
    (calc _ ≤ (unit_box global_box small_box scale).unit_size *
          2 ^ covering_depth MaxDepth (unit_box global_box small_box scale).unit_size :=
        mul_le_mul_of_nonneg_right e3 (le_of_lt hpow)
      _ ≤ 1 := hcell)
    (by
      rcases e4 with h | ⟨h1, h2⟩
      · left; linarith
      · refine Or.inr ⟨h1, lt_of_le_of_lt ?_ (hfit i hi)⟩
        rw [h2]
        apply mul_le_mul_of_nonneg_left _ (by rw [← h2]; linarith)
        exact pow_le_pow_right₀ (by norm_num) hdle)
  exact ⟨a, b, h⟩

/-- The depth-consistency check, arithmetic read as exact: for every global box, small box
and scale for
which the normalized lower ends keep the cell coordinates below the last value of the word
(`(small_low[i] - global_low[i]) * scale * 2^MaxDepth < 2^32 - 1` on the three axes, as for
every coordinate of at most `1`), the depth-consistency check of `hsfc_box_covering` does
not fire: at the derived depth the low and high cell coordinates satisfy `up ≤ low + 1` on
every axis, the check passes and the function returns. -/
theorem hsfc_box_covering_check_passes {MaxDepth : Nat} (hD : MaxDepth < BitsPerWord)
    (hsfc3d : Nat → List Nat → OctTreeKey MaxDepth) (global_box small_box : Nat → ℚ)
    (scale : ℚ)
    (hfit : ∀ i, i < 3 → (small_box i - global_box i) * scale * 2 ^ MaxDepth < 2 ^ 32 - 1) :
    (∃ r, hsfc_box_covering hsfc3d global_box small_box scale = some r) ∧
    ∀ i, i < 3 →
      cell_axis (covering_depth MaxDepth (unit_box global_box small_box scale).unit_size)
        ((unit_box global_box small_box scale).ubox_low.getD i 0)
        ((unit_box global_box small_box scale).ubox_up.getD i 0) ≠ none ∧
      to_unsigned ((unit_box global_box small_box scale).ubox_up.getD i 0 *
          2 ^ covering_depth MaxDepth (unit_box global_box small_box scale).unit_size) ≤
        to_unsigned ((unit_box global_box small_box scale).ubox_low.getD i 0 *
          2 ^ covering_depth MaxDepth (unit_box global_box small_box scale).unit_size) + 1 := by
  have hdepth : covering_depth MaxDepth (unit_box global_box small_box scale).unit_size < 32 :=
    lt_of_le_of_lt (covering_depth_le MaxDepth _) hD
  constructor
  · obtain ⟨a0, b0, h0⟩ := covering_axis_some hD global_box small_box scale hfit 0 (by norm_num)
    obtain ⟨a1, b1, h1⟩ := covering_axis_some hD global_box small_box scale hfit 1 (by norm_num)
    obtain ⟨a2, b2, h2⟩ := covering_axis_some hD global_box small_box scale hfit 2 (by norm_num)
    unfold hsfc_box_covering
    simp only [cell_coords_of_axes _ _ _ _ _ _ _ _ h0 h1 h2]
    exact ⟨_, rfl⟩
  · intro i hi
    obtain ⟨a, b, h⟩ := covering_axis_some hD global_box small_box scale hfit i hi
    exact ⟨by rw [h]; simp, cell_axis_le _ hdepth _ _ a b h⟩

/-- The box `[1/4, 1/2]^3` in the unit cube with scale `1` and keys of `3` levels: the call
returns the eight cells of `sample_covering`. -/
theorem hsfc_box_covering_check_passes_witness :
    3 < BitsPerWord ∧
    (∀ i, i < 3 → (quarter_box i - unit_cube i) * 1 * 2 ^ 3 < 2 ^ 32 - 1) ∧
    hsfc_box_covering sample_encoder unit_cube quarter_box 1 = some sample_covering ∧
    ∃ r, hsfc_box_covering sample_encoder unit_cube quarter_box 1 = some r :=
  have hfit : ∀ i, i < 3 → (quarter_box i - unit_cube i) * 1 * 2 ^ 3 < 2 ^ 32 - 1 := by
    intro i hi
    interval_cases i <;> decide!
  ⟨by decide, hfit, by decide!,
    (hsfc_box_covering_check_passes (by decide) sample_encoder unit_cube quarter_box 1 hfit).1⟩

/-! ## Termination and the nesting of the calls (C23) -/

/-- The halves of a process range of size `n ≥ 2` have a logarithm one below that of `n`. -/
theorem clog_half (n m : Nat) (hn : 2 ≤ n) (hm : m ≤ (n + 1) / 2) :
    Nat.clog 2 m + 1 ≤ Nat.clog 2 n := by
  rw [Nat.clog_of_two_le (by norm_num) hn]
  exact Nat.succ_le_succ (Nat.clog_mono_right 2 hm)

/-- The bisection of a process range of size `n` nests at most `ceil(log2(n))` calls (one
call for `n = 1`). -/
theorem oct_tree_partition_private_fuel_log {MaxDepth : Nat} (depth : Nat)
    (hm : depth ≤ MaxDepth) :
    ∀ (fuel p_first p_end : Nat) (tolerance : ℚ) (weights : Weights) (cuts_length : Nat)
      (cuts : List (OctTreeKey MaxDepth)),
      p_first < p_end → 1 ≤ fuel → Nat.clog 2 (p_end - p_first) ≤ fuel →
      oct_tree_partition_private fuel p_first p_end depth tolerance weights cuts_length cuts ≠
        Outcome.no_fuel := by
  intro fuel
  induction fuel with
  | zero => intro _ _ _ _ _ _ _ h1 _; omega
  | succ fuel ih =>
    intro p_first p_end tolerance weights cuts_length cuts h1 _ h3
    have hnest : ∀ a b, p_first ≤ a → b ≤ p_end → a + 1 < b → b - a ≤ (p_end - p_first + 1) / 2 →
        1 ≤ fuel ∧ Nat.clog 2 (b - a) ≤ fuel := by
      intro a b _ _ hab hhalf
      have h := clog_half (p_end - p_first) (b - a) (by omega) hhalf
      have hpos := Nat.clog_pos (by norm_num : 1 < 2) (by omega : 2 ≤ b - a)
      omega
    rw [oct_tree_partition_private]
    simp only []
    split
    · simp
    · rename_i hp
      exact absurd hp (partition_fuel depth hm _ _ _ _ _ _ _ _ _ (root_shaped _)
        (by rw [root_depth]; omega) (by rw [root_depth]; omega))
    · split
      · simp
      · rename_i hl
        split at hl
        · rename_i hc
          obtain ⟨f1, f2⟩ := hnest p_first ((p_end + p_first) / 2) (le_refl _) (by omega) hc
            (by omega)
          exact absurd hl (ih _ _ _ _ _ _ (by omega) f1 f2)
        · cases hl
      · split
        · simp
        · rename_i hu
          split at hu
          · rename_i hc
            obtain ⟨f1, f2⟩ := hnest ((p_end + p_first) / 2) p_end (by omega) (le_refl _) hc
              (by omega)
            exact absurd hu (ih _ _ _ _ _ _ (by omega) f1 f2)
          · cases hu
        · simp

theorem accumulate_children_congr {MaxDepth : Nat}
    (recurse1 recurse2 : OctTreeKey MaxDepth → Weights → Weights)
    (k0 : OctTreeKey MaxDepth) (d1 ord_end depth : Nat) :
    ∀ (l : List Nat) (st : AccState MaxDepth),
      (∀ i, i ∈ l → ∀ w, recurse1 (k0.set_index d1 i) w = recurse2 (k0.set_index d1 i) w) →
      (∀ i, st.k_node.set_index d1 i = k0.set_index d1 i) →
      accumulate_children recurse1 d1 ord_end depth l st =
        accumulate_children recurse2 d1 ord_end depth l st := by
  intro l
  induction l with
  | nil => intro st _ _; rfl
  | cons i rest ih =>
    intro st hrec hk
    simp only [accumulate_children]
    rw [hk i, hrec i (List.mem_cons_self _ _)]
    split
    · exact ih _ (fun j hj => hrec j (List.mem_cons_of_mem _ hj))
        (fun j => set_index_set_index k0 d1 i j)
    · exact ih _ (fun j hj => hrec j (List.mem_cons_of_mem _ hj))
        (fun j => set_index_set_index k0 d1 i j)

/-- One nested call of `accumulate_weights` per level below `k_node` is enough: a larger
allowance for the nesting does not change the result. -/
theorem accumulate_weights_fuel_succ {MaxDepth : Nat} (depth : Nat) (hm : depth ≤ MaxDepth)
    (ord_end : Nat) :
    ∀ (fuel : Nat) (k_node k_first : OctTreeKey MaxDepth) (weights : Weights),
      k_node.Shaped → k_node.depth ≤ depth → depth - k_node.depth < fuel →
      accumulate_weights_fuel (fuel + 1) k_node k_first ord_end depth weights =
        accumulate_weights_fuel fuel k_node k_first ord_end depth weights := by
  intro fuel
  induction fuel with
  | zero => intro _ _ _ _ _ h; omega
  | succ fuel ih =>
    intro k_node k_first weights hs hd hf
    rw [accumulate_weights_fuel, accumulate_weights_fuel]
    by_cases hlt : k_node.depth < depth
    · simp only [hlt, if_true]
      have hchild : ∀ (i : Nat) (kf : OctTreeKey MaxDepth) (w : Weights), i ≠ 0 →
          accumulate_weights_fuel (fuel + 1) (k_node.set_index (k_node.depth + 1) i) kf
            ord_end depth w =
          accumulate_weights_fuel fuel (k_node.set_index (k_node.depth + 1) i) kf
            ord_end depth w := by
        intro i kf w hi
        obtain ⟨hcs, hcd⟩ := child_shaped k_node hs (by omega) i hi
        exact ih _ kf w hcs (by omega) (by omega)
      by_cases hi : k_first.index (k_node.depth + 1) = 0
      · simp only [hi, ne_eq, not_true_eq_false, if_false]
        rw [accumulate_children_congr _
          (fun k w => accumulate_weights_fuel fuel k k_first ord_end depth w) k_node _ _ _ _ _
          (fun i hmem w => hchild i k_first w (by
            rw [List.mem_range'_1] at hmem; omega))
          (fun _ => rfl)]
      · simp only [hi, ne_eq, not_false_eq_true, if_true]
        rw [hchild _ k_first weights hi]
        rw [accumulate_children_congr _
          (fun k w => accumulate_weights_fuel fuel k (root MaxDepth) ord_end depth w) k_node
          _ _ _ _ _
          (fun i hmem w => hchild i (root MaxDepth) w (by
            rw [List.mem_range'_1] at hmem; omega))
          (fun j => by
            simp only []
            exact set_index_set_index k_node _ _ j)]
    · simp only [hlt, if_false]

theorem accumulate_weights_fuel_enough {MaxDepth : Nat} (depth : Nat) (hm : depth ≤ MaxDepth)
    (ord_end : Nat) (k_node k_first : OctTreeKey MaxDepth) (weights : Weights)
    (hs : k_node.Shaped) (hd : k_node.depth ≤ depth) :
    ∀ (extra : Nat),
      accumulate_weights_fuel (depth - k_node.depth + 1 + extra) k_node k_first ord_end depth
          weights =
        accumulate_weights_fuel (depth - k_node.depth + 1) k_node k_first ord_end depth
          weights := by
  intro extra
  induction extra with
  | zero => rfl
  | succ n ih =>
    rw [← ih, ← Nat.add_assoc]
    exact accumulate_weights_fuel_succ depth hm ord_end _ k_node k_first weights hs hd
      (by omega)

/-! ### Termination in IEEE arithmetic -/

theorem Ieee.nonneg_cases (v : Ieee) (h : Ieee.le (Ieee.real 0) v = true) :
    (∃ q, 0 ≤ q ∧ v = Ieee.real q) ∨ v = Ieee.pos_inf := by
  cases v with
  | real q => exact Or.inl ⟨q, by simpa [Ieee.le] using h, rfl⟩
  | pos_inf => exact Or.inr rfl
  | neg_inf => simp [Ieee.le] at h
  | nan => simp [Ieee.le] at h

theorem round_to_nonneg (p : Nat) (emin emax : Int) (q : ℚ) (hq : 0 ≤ q) :
    Ieee.le (Ieee.real 0) (round_to p emin emax q) = true := by
  unfold round_to
  by_cases h0 : q = 0
  · simp [h0, Ieee.le]
  · have hpos : 0 < q := lt_of_le_of_ne hq (Ne.symm h0)
    simp only [h0, if_false, hpos, if_true]
    split_ifs <;> first | rfl | (simp only [Ieee.le, decide_eq_true_eq]; positivity)

theorem Ieee.sum_nonneg (round : ℚ → Ieee)
    (hr : ∀ q, 0 ≤ q → Ieee.le (Ieee.real 0) (round q) = true) (a b : Ieee)
    (ha : Ieee.le (Ieee.real 0) a = true) (hb : Ieee.le (Ieee.real 0) b = true) :
    Ieee.le (Ieee.real 0) (Ieee.add round a b) = true := by
  rcases Ieee.nonneg_cases a ha with ⟨x, hx, rfl⟩ | rfl <;>
    rcases Ieee.nonneg_cases b hb with ⟨y, hy, rfl⟩ | rfl
  · exact hr _ (add_nonneg hx hy)
  · rfl
  · rfl
  · rfl

theorem Ieee.cast_float_nonneg (a : Ieee) (ha : Ieee.le (Ieee.real 0) a = true) :
    Ieee.le (Ieee.real 0) (Ieee.cast_float a) = true := by
  rcases Ieee.nonneg_cases a ha with ⟨x, hx, rfl⟩ | rfl
  · exact round_to_nonneg _ _ _ x hx
  · rfl

theorem Ieee.nonneg_ne_nan (a : Ieee) (ha : Ieee.le (Ieee.real 0) a = true) : a ≠ Ieee.nan := by
  rintro rfl
  simp [Ieee.le] at ha

/-- A value that is a number and not above zero is at most zero. -/
theorem Ieee.le_of_not_lt (v : Ieee) (hv : v ≠ Ieee.nan) (h : ¬ Ieee.lt (Ieee.real 0) v = true) :
    Ieee.le v (Ieee.real 0) = true := by
  cases v with
  | real q =>
    simp only [Ieee.lt, decide_eq_true_eq, not_lt] at h
    simpa [Ieee.le] using h
  | pos_inf => simp [Ieee.lt] at h
  | neg_inf => rfl
  | nan => exact absurd rfl hv

theorem ieee_nonnegative_sums (w : ieee.Weights) (h : ieee.NonNegative w) :
    ieee.SumsAreNumbers w :=
  fun idx => Ieee.nonneg_ne_nan _
    (Ieee.sum_nonneg _ (round_to_nonneg _ _ _) _ _ (h idx) (h (idx + 1)))


theorem ieee_at_put (w : ieee.Weights) (i : Nat) (v : Ieee) (j : Nat) :
    (w.put i v).at j = if i = j ∧ i < w.length then v else w.at j := by
  unfold ieee.Weights.at ieee.Weights.put
  rw [List.getD_eq_getElem?_getD, List.getD_eq_getElem?_getD, List.getElem?_set]
  by_cases hij : i = j
  · subst hij
    by_cases hl : i < w.length
    · simp [hl]
    · simp [hl]
      rw [List.getElem?_eq_none (by omega)]
      rfl
  · simp [hij]

theorem ieee_nonnegative_put (w : ieee.Weights) (h : ieee.NonNegative w) (i : Nat) (v : Ieee)
    (hv : Ieee.le (Ieee.real 0) v = true) : ieee.NonNegative (w.put i v) := by
  intro idx
  rw [ieee_at_put]
  split
  · exact hv
  · exact h idx

theorem ieee_accumulate_children_nonnegative {MaxDepth : Nat}
    (recurse : OctTreeKey MaxDepth → ieee.Weights → ieee.Weights)
    (hrec : ∀ k w, ieee.NonNegative w → ieee.NonNegative (recurse k w))
    (d1 ord_end depth : Nat) :
    ∀ (l : List Nat) (st : ieee.AccState MaxDepth),
      Ieee.le (Ieee.real 0) st.w = true → ieee.NonNegative st.weights →
      Ieee.le (Ieee.real 0) (ieee.accumulate_children recurse d1 ord_end depth l st).w = true ∧
      ieee.NonNegative (ieee.accumulate_children recurse d1 ord_end depth l st).weights := by
  intro l
  induction l with
  | nil => intro st hw hn; exact ⟨hw, hn⟩
  | cons i rest ih =>
    intro st hw hn
    rw [ieee.accumulate_children]
    simp only []
    split
    · have hn1 := hrec (st.k_node.set_index d1 i) st.weights hn
      exact ih _ (Ieee.sum_nonneg _ (round_to_nonneg _ _ _) _ _ hw
        (Ieee.sum_nonneg _ (round_to_nonneg _ _ _) _ _ (hn1 _) (hn1 _))) hn1
    · exact ih _ hw hn

/-- The accumulation keeps an array of non-negative values non-negative: a sum of
non-negative values overflows to `+infinity` at most. -/
theorem ieee_accumulate_weights_nonnegative {MaxDepth : Nat} (ord_end depth : Nat) :
    ∀ (fuel : Nat) (k_node k_first : OctTreeKey MaxDepth) (w : ieee.Weights),
      ieee.NonNegative w →
      ieee.NonNegative (ieee.accumulate_weights_fuel fuel k_node k_first ord_end depth w) := by
  intro fuel
  induction fuel with
  | zero => intro _ _ w h; exact h
  | succ fuel ih =>
    intro k_node k_first w h
    rw [ieee.accumulate_weights_fuel]
    simp only []
    have h00 : Ieee.le (Ieee.real 0) (Ieee.real 0) = true := by simp [Ieee.le]
    split
    · by_cases hi : k_first.index (k_node.depth + 1) = 0
      · simp only [hi, ne_eq, not_true_eq_false, if_false]
        obtain ⟨a, b⟩ := ieee_accumulate_children_nonnegative
          (fun k w => ieee.accumulate_weights_fuel fuel k k_first ord_end depth w)
          (fun k w hw => ih k k_first w hw) (k_node.depth + 1) ord_end depth
          (List.range' (0 + 1) (8 - 0)) ⟨k_node, Ieee.real 0, w⟩ h00 h
        exact ieee_nonnegative_put _ b _ _ (Ieee.cast_float_nonneg _ a)
      · simp only [hi, ne_eq, not_false_eq_true, if_true]
        have h1 := ih (k_node.set_index (k_node.depth + 1) (k_first.index (k_node.depth + 1)))
          k_first w h
        obtain ⟨a, b⟩ := ieee_accumulate_children_nonnegative
          (fun k w => ieee.accumulate_weights_fuel fuel k (root MaxDepth) ord_end depth w)
          (fun k w hw => ih k (root MaxDepth) w hw) (k_node.depth + 1) ord_end depth
          (List.range' (k_first.index (k_node.depth + 1) + 1)
            (8 - k_first.index (k_node.depth + 1)))
          ⟨k_node.set_index (k_node.depth + 1) (k_first.index (k_node.depth + 1)),
            Ieee.add to_double (Ieee.real 0)
              (Ieee.add to_float
                ((ieee.accumulate_weights_fuel fuel
                  (k_node.set_index (k_node.depth + 1) (k_first.index (k_node.depth + 1)))
                  k_first ord_end depth w).at
                  (oct_tree_offset depth (k_node.set_index (k_node.depth + 1)
                    (k_first.index (k_node.depth + 1))) * 2))
                ((ieee.accumulate_weights_fuel fuel
                  (k_node.set_index (k_node.depth + 1) (k_first.index (k_node.depth + 1)))
                  k_first ord_end depth w).at
                  (oct_tree_offset depth (k_node.set_index (k_node.depth + 1)
                    (k_first.index (k_node.depth + 1))) * 2 + 1))),
            ieee.accumulate_weights_fuel fuel
              (k_node.set_index (k_node.depth + 1) (k_first.index (k_node.depth + 1)))
              k_first ord_end depth w⟩
          (Ieee.sum_nonneg _ (round_to_nonneg _ _ _) _ _ h00
            (Ieee.sum_nonneg _ (round_to_nonneg _ _ _) _ _ (h1 _) (h1 _))) h1
        exact ieee_nonnegative_put _ b _ _ (Ieee.cast_float_nonneg _ a)
    · exact h

/-- The loop `while ( i < j )` ends by its own test within `j - i` rounds when no sum of the
two slots of a node is "not a number": every round then moves `i` up or `j` down. -/
theorem ieee_balance_loop_exit {MaxDepth : Nat} (key : OctTreeKey MaxDepth) (d1 depth : Nat)
    (weights : ieee.Weights) (target_ratio : Ieee) (H : ieee.SumsAreNumbers weights) :
    ∀ (rounds : Nat) (st : ieee.SplitState), st.j - st.i ≤ rounds →
      ∃ st2, ieee.balance_loop key d1 depth weights target_ratio rounds st = some st2 ∧
        st.i ≤ st2.i := by
  intro rounds
  induction rounds with
  | zero =>
    intro st h
    refine ⟨st, ?_, le_refl _⟩
    rw [ieee.balance_loop, if_neg (by omega)]
  | succ n ih =>
    intro st h
    rw [ieee.balance_loop]
    simp only []
    split
    · rename_i hij
      split
      · split
        · obtain ⟨st2, e, hle⟩ := ih ⟨st.i + 1, st.j, _, _⟩ (by simp only []; omega)
          exact ⟨st2, e, by simp only [] at hle; omega⟩
        · obtain ⟨st2, e, hle⟩ := ih ⟨st.i, st.j - 1, _, _⟩ (by simp only []; omega)
          exact ⟨st2, e, hle⟩
      · rename_i hv
        have hcase : Ieee.le (Ieee.add to_float
              (weights.at (2 * oct_tree_offset depth (key.set_index d1 st.i)))
              (weights.at (2 * oct_tree_offset depth (key.set_index d1 st.i) + 1)))
              (Ieee.real 0) = true ∨
            Ieee.le (Ieee.add to_float
              (weights.at (2 * oct_tree_offset depth (key.set_index d1 st.j)))
              (weights.at (2 * oct_tree_offset depth (key.set_index d1 st.j) + 1)))
              (Ieee.real 0) = true := by
          by_contra hc
          push_neg at hc
          apply hv
          constructor
          · by_contra h1
            exact hc.1 (Ieee.le_of_not_lt _ (H _) h1)
          · by_contra h1
            exact hc.2 (Ieee.le_of_not_lt _ (H _) h1)
        obtain ⟨st2, e, hle⟩ := ih
          ⟨if Ieee.le (Ieee.add to_float
              (weights.at (2 * oct_tree_offset depth (key.set_index d1 st.i)))
              (weights.at (2 * oct_tree_offset depth (key.set_index d1 st.i) + 1)))
              (Ieee.real 0) = true then st.i + 1 else st.i,
            if Ieee.le (Ieee.add to_float
              (weights.at (2 * oct_tree_offset depth (key.set_index d1 st.j)))
              (weights.at (2 * oct_tree_offset depth (key.set_index d1 st.j) + 1)))
              (Ieee.real 0) = true then st.j - 1 else st.j, st.w_lower, st.w_upper⟩ (by
            simp only []
            rcases hcase with h1 | h1
            · rw [if_pos h1]; split <;> omega
            · rw [if_pos h1]; split <;> omega)
        refine ⟨st2, e, le_trans ?_ hle⟩
        simp only []
        split <;> omega
    · exact ⟨st, rfl, le_refl _⟩


/-- In IEEE arithmetic a call of `partition` on an array without a sum that is "not a
number" returns, throws, or ends in the nested call on a child of `key`; seven rounds are
enough for its loop. -/
theorem ieee_partition_cases {MaxDepth : Nat} (rounds fuel : Nat)
    (k_first : OctTreeKey MaxDepth) (i_end : Nat) (key : OctTreeKey MaxDepth) (depth : Nat)
    (weights : ieee.Weights) (tolerance target_ratio w_lower w_upper : Ieee)
    (H : ieee.SumsAreNumbers weights) (hr : 7 ≤ rounds) :
    (∃ k, ieee.partition rounds (fuel + 1) k_first i_end key depth weights tolerance
      target_ratio w_lower w_upper = Outcome.ok k) ∨
    ieee.partition rounds (fuel + 1) k_first i_end key depth weights tolerance target_ratio
      w_lower w_upper = Outcome.raised ∨
    (key.depth ≠ depth ∧ ∃ (i : Nat) (nested : OctTreeKey MaxDepth) (wl wu : Ieee), 1 ≤ i ∧
      ieee.partition rounds (fuel + 1) k_first i_end key depth weights tolerance target_ratio
        w_lower w_upper =
      ieee.partition rounds fuel nested i_end (key.set_index (key.depth + 1) i) depth weights
        tolerance target_ratio wl wu) := by
  rw [ieee.partition]
  simp only []
  by_cases h1 : i_end = 1 ∨ i_end = oct_tree_offset depth k_first
  · rw [if_pos h1]; exact Or.inl ⟨_, rfl⟩
  rw [if_neg h1]
  cases hj : find_j i_end depth (key.depth + 1) key 8 with
  | none => exact Or.inr (Or.inl rfl)
  | some j =>
    simp only []
    have hj8 := (find_j_spec i_end depth (key.depth + 1) key 8 j hj).1
    by_cases hdep : key.depth = depth
    · rw [if_pos hdep]
      by_cases hk : k_first = key ∧ oct_tree_offset key.depth key + 1 ≠ oct_tree_size depth
      · rw [if_pos hk]; exact Or.inl ⟨_, rfl⟩
      · rw [if_neg hk]; exact Or.inl ⟨_, rfl⟩
    · rw [if_neg hdep]
      have h0 : 1 ≤ (if k_first.index (key.depth + 1) ≠ 0 then k_first.index (key.depth + 1)
          else 1) := by
        split <;> omega
      obtain ⟨st, hst, hi⟩ := ieee_balance_loop_exit key (key.depth + 1) depth weights
        target_ratio H rounds
        ⟨if k_first.index (key.depth + 1) ≠ 0 then k_first.index (key.depth + 1) else 1, j,
          if key ≠ root MaxDepth then
            Ieee.add to_double w_lower (weights.at (oct_tree_offset depth key * 2))
          else w_lower,
          if key ≠ root MaxDepth then
            Ieee.add to_double w_upper (weights.at (oct_tree_offset depth key * 2))
          else w_upper⟩ (by simp only []; omega)
      simp only [] at hi
      rw [hst]
      simp only []
      split
      · exact Or.inl ⟨_, rfl⟩
      · by_cases hlt : Ieee.lt st.w_lower (Ieee.mul to_double st.w_upper target_ratio) = true
        · simp only [if_pos hlt]
          split
          · exact Or.inl ⟨_, rfl⟩
          · exact Or.inr (Or.inr ⟨hdep, st.i, _, _, _, by omega, rfl⟩)
        · simp only [if_neg hlt]
          split
          · exact Or.inl ⟨_, rfl⟩
          · exact Or.inr (Or.inr ⟨hdep, st.i, _, _, _, by omega, rfl⟩)

/-- In IEEE arithmetic the nested calls of `partition` go one level down each: on an array
without a sum that is "not a number", with more fuel than levels left and seven rounds for
each loop, the search ends. -/
theorem ieee_partition_fuel {MaxDepth : Nat} (depth : Nat) (hm : depth ≤ MaxDepth)
    (rounds : Nat) (hr : 7 ≤ rounds) (weights : ieee.Weights)
    (H : ieee.SumsAreNumbers weights) :
    ∀ (fuel : Nat) (k_first : OctTreeKey MaxDepth) (i_end : Nat) (key : OctTreeKey MaxDepth)
      (tolerance target_ratio w_lower w_upper : Ieee),
      key.Shaped → key.depth ≤ depth → depth - key.depth < fuel →
      ieee.partition rounds fuel k_first i_end key depth weights tolerance target_ratio
        w_lower w_upper ≠ Outcome.no_fuel := by
  intro fuel
  induction fuel with
  | zero => intro _ _ _ _ _ _ _ _ _ hf; omega
  | succ fuel ih =>
    intro k_first i_end key tolerance target_ratio w_lower w_upper hs hd hf
    rcases ieee_partition_cases rounds fuel k_first i_end key depth weights tolerance
      target_ratio w_lower w_upper H hr with ⟨k, hk⟩ | hr2 | ⟨hdep, i, nested, wl, wu, hi, hrec⟩
    · rw [hk]; simp
    · rw [hr2]; simp
    · rw [hrec]
      obtain ⟨hcs, hcd⟩ := child_shaped key hs (by omega) i (by omega)
      exact ih _ _ _ _ _ _ _ hcs (by omega) (by omega)

/-- In IEEE arithmetic a call of `oct_tree_partition_private` that returns leaves an array of
non-negative values non-negative. -/
theorem ieee_partition_private_nonnegative {MaxDepth : Nat} (rounds : Nat) :
    ∀ (fuel p_first p_end depth : Nat) (tolerance : Ieee) (weights : ieee.Weights)
      (cuts_length : Nat) (cuts : List (OctTreeKey MaxDepth))
      (r : ieee.PartitionResult MaxDepth),
      ieee.NonNegative weights →
      ieee.oct_tree_partition_private rounds fuel p_first p_end depth tolerance weights
        cuts_length cuts = Outcome.ok r → ieee.NonNegative r.weights := by
  intro fuel
  induction fuel with
  | zero =>
    intro p_first p_end depth tolerance weights cuts_length cuts r _ h
    simp [ieee.oct_tree_partition_private] at h
  | succ fuel ih =>
    intro p_first p_end depth tolerance weights cuts_length cuts r hn h
    rw [ieee.oct_tree_partition_private] at h
    simp only [] at h
    have hacc := ieee_accumulate_weights_nonnegative
      (if p_end < cuts_length then oct_tree_offset depth (cuts.getD p_end (root MaxDepth))
        else oct_tree_size depth) depth (depth + 1) (root MaxDepth)
      (cuts.getD p_first (root MaxDepth)) weights hn
    split at h
    · cases h
    · cases h
    · split at h
      · cases h
      · cases h
      · rename_i r1 hlower
        have hl : ieee.NonNegative r1.weights := by
          split at hlower
          · exact ih _ _ _ _ _ _ _ _ hacc hlower
          · simp only [Outcome.ok.injEq] at hlower
            subst hlower
            exact hacc
        split at h
        · exact ih _ _ _ _ _ _ _ _ hl h
        · simp only [Outcome.ok.injEq] at h
          subst h
          exact hl

/-- In IEEE arithmetic the bisection of a process range of size `n` with non-negative
weights nests at most `ceil(log2(n))` calls (one call for `n = 1`), with seven rounds for
each loop of `partition`. -/
theorem ieee_partition_private_fuel {MaxDepth : Nat} (depth : Nat) (hm : depth ≤ MaxDepth)
    (rounds : Nat) (hr : 7 ≤ rounds) :
    ∀ (fuel p_first p_end : Nat) (tolerance : Ieee) (weights : ieee.Weights)
      (cuts_length : Nat) (cuts : List (OctTreeKey MaxDepth)),
      p_first < p_end → 1 ≤ fuel → Nat.clog 2 (p_end - p_first) ≤ fuel →
      ieee.NonNegative weights →
      ieee.oct_tree_partition_private rounds fuel p_first p_end depth tolerance weights
        cuts_length cuts ≠ Outcome.no_fuel := by
  intro fuel
  induction fuel with
  | zero => intro _ _ _ _ _ _ _ h1 _; omega
  | succ fuel ih =>
    intro p_first p_end tolerance weights cuts_length cuts h1 _ h3 hn
    have hnest : ∀ a b, p_first ≤ a → b ≤ p_end → a + 1 < b → b - a ≤ (p_end - p_first + 1) / 2 →
        1 ≤ fuel ∧ Nat.clog 2 (b - a) ≤ fuel := by
      intro a b _ _ hab hhalf
      have h := clog_half (p_end - p_first) (b - a) (by omega) hhalf
      have hpos := Nat.clog_pos (by norm_num : 1 < 2) (by omega : 2 ≤ b - a)
      omega
    have hacc := ieee_accumulate_weights_nonnegative
      (if p_end < cuts_length then oct_tree_offset depth (cuts.getD p_end (root MaxDepth))
        else oct_tree_size depth) depth (depth + 1) (root MaxDepth)
      (cuts.getD p_first (root MaxDepth)) weights hn
    rw [ieee.oct_tree_partition_private]
    simp only []
    split
    · simp
    · rename_i hp
      exact absurd hp (ieee_partition_fuel depth hm rounds hr _ (ieee_nonnegative_sums _ hacc)
        _ _ _ _ _ _ _ _ (root_shaped _) (by rw [root_depth]; omega) (by rw [root_depth]; omega))
    · split
      · simp
      · rename_i hl
        split at hl
        · rename_i hc
          obtain ⟨f1, f2⟩ := hnest p_first ((p_end + p_first) / 2) (le_refl _) (by omega) hc
            (by omega)
          exact absurd hl (ih _ _ _ _ _ _ (by omega) f1 f2 hacc)
        · cases hl
      · rename_i r1 hlower
        have hl : ieee.NonNegative r1.weights := by
          split at hlower
          · exact ieee_partition_private_nonnegative rounds _ _ _ _ _ _ _ _ _ hacc hlower
          · simp only [Outcome.ok.injEq] at hlower
            subst hlower
            exact hacc
        split
        · rename_i hc
          obtain ⟨f1, f2⟩ := hnest ((p_end + p_first) / 2) p_end (by omega) (le_refl _) hc
            (by omega)
          exact ih _ _ _ _ _ _ (by omega) f1 f2 hl
        · simp


theorem ieee_accumulate_children_congr {MaxDepth : Nat}
    (recurse1 recurse2 : OctTreeKey MaxDepth → ieee.Weights → ieee.Weights)
    (k0 : OctTreeKey MaxDepth) (d1 ord_end depth : Nat) :
    ∀ (l : List Nat) (st : ieee.AccState MaxDepth),
      (∀ i, i ∈ l → ∀ w, recurse1 (k0.set_index d1 i) w = recurse2 (k0.set_index d1 i) w) →
      (∀ i, st.k_node.set_index d1 i = k0.set_index d1 i) →
      ieee.accumulate_children recurse1 d1 ord_end depth l st =
        ieee.accumulate_children recurse2 d1 ord_end depth l st := by
  intro l
  induction l with
  | nil => intro st _ _; rfl
  | cons i rest ih =>
    intro st hrec hk
    simp only [ieee.accumulate_children]
    rw [hk i, hrec i (List.mem_cons_self _ _)]
    split
    · exact ih _ (fun j hj => hrec j (List.mem_cons_of_mem _ hj))
        (fun j => set_index_set_index k0 d1 i j)
    · exact ih _ (fun j hj => hrec j (List.mem_cons_of_mem _ hj))
        (fun j => set_index_set_index k0 d1 i j)

/-- In IEEE arithmetic too one nested call of `accumulate_weights` per level below `k_node`
is enough: a larger allowance for the nesting does not change the result. -/
theorem ieee_accumulate_weights_fuel_succ {MaxDepth : Nat} (depth : Nat) (hm : depth ≤ MaxDepth)
    (ord_end : Nat) :
    ∀ (fuel : Nat) (k_node k_first : OctTreeKey MaxDepth) (weights : ieee.Weights),
      k_node.Shaped → k_node.depth ≤ depth → depth - k_node.depth < fuel →
      ieee.accumulate_weights_fuel (fuel + 1) k_node k_first ord_end depth weights =
        ieee.accumulate_weights_fuel fuel k_node k_first ord_end depth weights := by
  intro fuel
  induction fuel with
  | zero => intro _ _ _ _ _ h; omega
  | succ fuel ih =>
    intro k_node k_first weights hs hd hf
    rw [ieee.accumulate_weights_fuel, ieee.accumulate_weights_fuel]
    by_cases hlt : k_node.depth < depth
    · simp only [hlt, if_true]
      have hchild : ∀ (i : Nat) (kf : OctTreeKey MaxDepth) (w : ieee.Weights), i ≠ 0 →
          ieee.accumulate_weights_fuel (fuel + 1) (k_node.set_index (k_node.depth + 1) i) kf
            ord_end depth w =
          ieee.accumulate_weights_fuel fuel (k_node.set_index (k_node.depth + 1) i) kf
            ord_end depth w := by
        intro i kf w hi
        obtain ⟨hcs, hcd⟩ := child_shaped k_node hs (by omega) i hi
        exact ih _ kf w hcs (by omega) (by omega)
      by_cases hi : k_first.index (k_node.depth + 1) = 0
      · simp only [hi, ne_eq, not_true_eq_false, if_false]
        rw [ieee_accumulate_children_congr _
          (fun k w => ieee.accumulate_weights_fuel fuel k k_first ord_end depth w) k_node _ _ _
          _ _
          (fun i hmem w => hchild i k_first w (by
            rw [List.mem_range'_1] at hmem; omega))
          (fun _ => rfl)]
      · simp only [hi, ne_eq, not_false_eq_true, if_true]
        rw [hchild _ k_first weights hi]
        rw [ieee_accumulate_children_congr _
          (fun k w => ieee.accumulate_weights_fuel fuel k (root MaxDepth) ord_end depth w)
          k_node _ _ _ _ _
          (fun i hmem w => hchild i (root MaxDepth) w (by
            rw [List.mem_range'_1] at hmem; omega))
          (fun j => by
            simp only []
            exact set_index_set_index k_node _ _ j)]
    · simp only [hlt, if_false]

theorem ieee_accumulate_weights_fuel_enough {MaxDepth : Nat} (depth : Nat)
    (hm : depth ≤ MaxDepth) (ord_end : Nat) (k_node k_first : OctTreeKey MaxDepth)
    (weights : ieee.Weights) (hs : k_node.Shaped) (hd : k_node.depth ≤ depth) :
    ∀ (extra : Nat),
      ieee.accumulate_weights_fuel (depth - k_node.depth + 1 + extra) k_node k_first ord_end
          depth weights =
        ieee.accumulate_weights_fuel (depth - k_node.depth + 1) k_node k_first ord_end depth
          weights := by
  intro extra
  induction extra with
  | zero => rfl
  | succ n ih =>
    rw [← ih, ← Nat.add_assoc]
    exact ieee_accumulate_weights_fuel_succ depth hm ord_end _ k_node k_first weights hs hd
      (by omega)

theorem ieee_of_rationals_nonnegative (w : Weights) (h : ∀ x ∈ w, 0 ≤ x) :
    ieee.NonNegative (ieee.of_rationals w) := by
  intro idx
  unfold ieee.Weights.at ieee.of_rationals
  rw [List.getD_eq_getElem?_getD, List.getElem?_map]
  cases hx : w[idx]? with
  | none => simp [Ieee.le]
  | some x =>
    simp only [Option.map_some', Option.getD_some, Ieee.le, decide_eq_true_eq]
    exact h x (List.getElem?_mem hx)

/-- C23, amended: in IEEE arithmetic, for every `p_first < p_end` and `depth ≤ MaxDepth`,
`oct_tree_partition_private` on non-negative weights (numbers `≥ 0` or `+infinity` in every
slot) terminates: it returns or raises, with a nesting of at most `ceil(log2(p_end -
p_first))` calls (one call for a range of size `1`) and seven rounds for each loop
`while ( i < j )`; every nested call is made on a process range of size at least `2` that is
strictly smaller than its parent's. On an array in which no sum of the two slots of a node
is "not a number", `partition` ends with one call per level (a nested call is made on a key
exactly one level deeper, and none once the key depth equals `depth`): `depth - key.depth()
+ 1` calls are enough, `depth + 1` from the root. For `accumulate_weights` the result with
any larger allowance for the nesting is the result with `depth - k_node.depth() + 1` nested
calls, `depth + 1` from the root. -/
theorem oct_tree_partition_private_terminates {MaxDepth : Nat} (depth : Nat)
    (hm : depth ≤ MaxDepth) (p_first p_end : Nat) (hp : p_first < p_end) (rounds : Nat)
    (hr : 7 ≤ rounds) :
    (∀ (fuel : Nat) (tolerance : Ieee) (weights : ieee.Weights) (cuts_length : Nat)
      (cuts : List (OctTreeKey MaxDepth)), 1 ≤ fuel → Nat.clog 2 (p_end - p_first) ≤ fuel →
      ieee.NonNegative weights →
      ieee.oct_tree_partition_private rounds fuel p_first p_end depth tolerance weights
        cuts_length cuts ≠ Outcome.no_fuel) ∧
    ((p_first + 1 < (p_end + p_first) / 2 →
        2 ≤ (p_end + p_first) / 2 - p_first ∧
        (p_end + p_first) / 2 - p_first < p_end - p_first) ∧
      ((p_end + p_first) / 2 + 1 < p_end →
        2 ≤ p_end - (p_end + p_first) / 2 ∧
        p_end - (p_end + p_first) / 2 < p_end - p_first)) ∧
    (∀ (fuel : Nat) (k_first : OctTreeKey MaxDepth) (i_end : Nat) (key : OctTreeKey MaxDepth)
      (weights : ieee.Weights) (tolerance target_ratio w_lower w_upper : Ieee),
      key.Shaped → key.depth ≤ depth → ieee.SumsAreNumbers weights →
      (depth - key.depth < fuel →
        ieee.partition rounds fuel k_first i_end key depth weights tolerance target_ratio
          w_lower w_upper ≠ Outcome.no_fuel) ∧
      (key.depth = depth →
        ieee.partition rounds 1 k_first i_end key depth weights tolerance target_ratio
          w_lower w_upper ≠ Outcome.no_fuel) ∧
      ((∃ k, ieee.partition rounds (fuel + 1) k_first i_end key depth weights tolerance
          target_ratio w_lower w_upper = Outcome.ok k) ∨
        ieee.partition rounds (fuel + 1) k_first i_end key depth weights tolerance
          target_ratio w_lower w_upper = Outcome.raised ∨
        (key.depth < depth ∧ ∃ (i : Nat) (nested : OctTreeKey MaxDepth) (wl wu : Ieee),
          (key.set_index (key.depth + 1) i).depth = key.depth + 1 ∧
          ieee.partition rounds (fuel + 1) k_first i_end key depth weights tolerance
            target_ratio w_lower w_upper =
          ieee.partition rounds fuel nested i_end (key.set_index (key.depth + 1) i) depth
            weights tolerance target_ratio wl wu))) ∧
    (∀ (extra : Nat) (k_node k_first : OctTreeKey MaxDepth) (ord_end : Nat)
      (weights : ieee.Weights), k_node.Shaped → k_node.depth ≤ depth →
      ieee.accumulate_weights_fuel (depth - k_node.depth + 1 + extra) k_node k_first ord_end
          depth weights =
        ieee.accumulate_weights_fuel (depth - k_node.depth + 1) k_node k_first ord_end depth
          weights) := by
  refine ⟨fun fuel tolerance weights cuts_length cuts h1 h2 hn =>
      ieee_partition_private_fuel depth hm rounds hr fuel p_first p_end tolerance weights
        cuts_length cuts hp h1 h2 hn,
    ⟨fun h => by omega, fun h => by omega⟩, ?_, ?_⟩
  · intro fuel k_first i_end key weights tolerance target_ratio w_lower w_upper hs hd H
    refine ⟨fun hf => ieee_partition_fuel depth hm rounds hr weights H fuel k_first i_end key
        tolerance target_ratio w_lower w_upper hs hd hf,
      fun he => ieee_partition_fuel depth hm rounds hr weights H 1 k_first i_end key
        tolerance target_ratio w_lower w_upper hs hd (by omega), ?_⟩
    rcases ieee_partition_cases rounds fuel k_first i_end key depth weights tolerance
      target_ratio w_lower w_upper H hr with hk | hr2 | ⟨hdep, i, nested, wl, wu, hi, hrec⟩
    · exact Or.inl hk
    · exact Or.inr (Or.inl hr2)
    · exact Or.inr (Or.inr ⟨by omega, i, nested, wl, wu,
        (child_shaped key hs (by omega) i (by omega)).2, hrec⟩)
  · intro extra k_node k_first ord_end weights hs hd
    exact ieee_accumulate_weights_fuel_enough depth hm ord_end k_node k_first weights hs hd
      extra

/-- The hypotheses of the amended C23 hold for four processes on the tree of depth `1` in
keys of `2` levels, with the non-negative weights `uneven_weights`: with `ceil(log2(4)) = 2`
nested calls and seven rounds the bisection returns its three cuts. -/
theorem oct_tree_partition_private_terminates_witness :
    1 ≤ 2 ∧ 0 < 4 ∧ 7 ≤ 7 ∧ Nat.clog 2 (4 - 0) = 2 ∧
    ieee.NonNegative (ieee.of_rationals uneven_weights) ∧
    ieee.oct_tree_partition_private 7 2 0 4 1 (Ieee.real (1 / 4))
        (ieee.of_rationals uneven_weights) 4 [root 2, root 2, root 2, root 2] =
      Outcome.ok ⟨ieee.of_rationals [0, 5, 1, 0, 1, 0, 1, 0, 1, 0, 1, 0, 1, 0, 1, 0, 2, 0],
        [root 2, key_of_digits 2 [3], key_of_digits 2 [5], key_of_digits 2 [7]]⟩ ∧
    ieee.oct_tree_partition_private 7 2 0 4 1 (Ieee.real (1 / 4))
        (ieee.of_rationals uneven_weights) 4 [root 2, root 2, root 2, root 2] ≠
      Outcome.no_fuel :=
  ⟨by decide, by decide, by decide, Nat.clog_pow 2 2 (by norm_num),
    ieee_of_rationals_nonnegative uneven_weights (by decide!), by decide!,
    (oct_tree_partition_private_terminates 1 (by decide) 0 4 (by decide) 7 (le_refl _)).1 2
      (Ieee.real (1 / 4)) (ieee.of_rationals uneven_weights) 4
      [root 2, root 2, root 2, root 2] (by decide)
      (le_of_eq (Nat.clog_pow 2 2 (by norm_num)))
      (ieee_of_rationals_nonnegative uneven_weights (by decide!))⟩

/-! ## Numbers that `float` and `double` hold exactly -/

theorem binary_length_eq : ∀ (fuel n : Nat), n ≤ fuel → binary_length fuel n = Nat.log 2 n := by
  intro fuel
  induction fuel with
  | zero =>
    intro n h
    have : n = 0 := by omega
    subst this
    simp [binary_length]
  | succ f ih =>
    intro n h
    rw [binary_length]
    by_cases h2 : 2 ≤ n
    · rw [if_pos h2, ih (n / 2) (by omega), Nat.log_of_one_lt_of_le (by norm_num) h2]
    · rw [if_neg h2]
      exact (Nat.log_of_lt (by omega)).symm

theorem two_zpow_split (s : ℤ) :
    ((2 ^ s.toNat : Nat) : ℚ) / ((2 ^ (-s).toNat : Nat) : ℚ) = (2 : ℚ) ^ s := by
  rcases le_total 0 s with h | h
  · obtain ⟨k, rfl⟩ := Int.eq_ofNat_of_zero_le h
    simp
  · obtain ⟨k, rfl⟩ := Int.exists_eq_neg_ofNat h
    simp [zpow_neg]

/-- The exponent `leading_exponent n d` is the position of the leading binary digit of
`n / d`. -/
theorem leading_exponent_spec (n d : Nat) (hn : 0 < n) (hd : 0 < d) :
    (2 : ℚ) ^ leading_exponent n d ≤ (n : ℚ) / (d : ℚ) ∧
    (n : ℚ) / (d : ℚ) < (2 : ℚ) ^ (leading_exponent n d + 1) := by
  have hdq : (0 : ℚ) < d := by exact_mod_cast hd
  have hnq : (0 : ℚ) < n := by exact_mod_cast hn
  have ha1 : ((2 : ℚ) ^ (Nat.log 2 n)) ≤ n := by
    exact_mod_cast Nat.pow_log_le_self 2 hn.ne'
  have ha2 : (n : ℚ) < (2 : ℚ) ^ (Nat.log 2 n + 1) := by
    exact_mod_cast Nat.lt_pow_succ_log_self (by norm_num : 1 < 2) n
  have hb1 : ((2 : ℚ) ^ (Nat.log 2 d)) ≤ d := by
    exact_mod_cast Nat.pow_log_le_self 2 hd.ne'
  have hb2 : (d : ℚ) < (2 : ℚ) ^ (Nat.log 2 d + 1) := by
    exact_mod_cast Nat.lt_pow_succ_log_self (by norm_num : 1 < 2) d
  have hA : (0 : ℚ) < (2 : ℚ) ^ (Nat.log 2 n) := by positivity
  have hB : (0 : ℚ) < (2 : ℚ) ^ (Nat.log 2 d) := by positivity
  have he0 : (2 : ℚ) ^ ((Nat.log 2 n : ℤ) - (Nat.log 2 d : ℤ)) =
      (2 : ℚ) ^ (Nat.log 2 n) / (2 : ℚ) ^ (Nat.log 2 d) := by
    rw [zpow_sub₀ (by norm_num : (2 : ℚ) ≠ 0), zpow_natCast, zpow_natCast]
  have hup : (n : ℚ) / d < 2 * ((2 : ℚ) ^ (Nat.log 2 n) / (2 : ℚ) ^ (Nat.log 2 d)) := by
    rw [div_lt_iff₀ hdq]
    calc (n : ℚ) < (2 : ℚ) ^ (Nat.log 2 n + 1) := ha2
      _ = 2 * (2 : ℚ) ^ (Nat.log 2 n) := by rw [pow_succ]; ring
      _ = 2 * ((2 : ℚ) ^ (Nat.log 2 n) / (2 : ℚ) ^ (Nat.log 2 d)) * (2 : ℚ) ^ (Nat.log 2 d) := by
        field_simp
      _ ≤ 2 * ((2 : ℚ) ^ (Nat.log 2 n) / (2 : ℚ) ^ (Nat.log 2 d)) * d :=
        mul_le_mul_of_nonneg_left hb1 (by positivity)
  have hlow : ((2 : ℚ) ^ (Nat.log 2 n) / (2 : ℚ) ^ (Nat.log 2 d)) / 2 < (n : ℚ) / d := by
    rw [div_div, div_lt_div_iff₀ (by positivity) hdq]
    have : (2 : ℚ) ^ (Nat.log 2 d) * 2 = (2 : ℚ) ^ (Nat.log 2 d + 1) := by rw [pow_succ]
    rw [this]
    nlinarith
  unfold leading_exponent
  rw [binary_length_eq n n (le_refl _), binary_length_eq d d (le_refl _)]
  simp only []
  have htest : (d * 2 ^ ((Nat.log 2 n : ℤ) - (Nat.log 2 d : ℤ)).toNat ≤
      n * 2 ^ (-((Nat.log 2 n : ℤ) - (Nat.log 2 d : ℤ))).toNat) ↔
      (2 : ℚ) ^ ((Nat.log 2 n : ℤ) - (Nat.log 2 d : ℤ)) ≤ (n : ℚ) / d := by
    rw [← two_zpow_split, div_le_div_iff₀ (by positivity) hdq]
    constructor
    · intro h
      have : ((d * 2 ^ ((Nat.log 2 n : ℤ) - (Nat.log 2 d : ℤ)).toNat : Nat) : ℚ) ≤
          ((n * 2 ^ (-((Nat.log 2 n : ℤ) - (Nat.log 2 d : ℤ))).toNat : Nat) : ℚ) := by
        exact_mod_cast h
      push_cast at this ⊢
      linarith
    · intro h
      have : ((d * 2 ^ ((Nat.log 2 n : ℤ) - (Nat.log 2 d : ℤ)).toNat : Nat) : ℚ) ≤
          ((n * 2 ^ (-((Nat.log 2 n : ℤ) - (Nat.log 2 d : ℤ))).toNat : Nat) : ℚ) := by
        push_cast at h ⊢
        linarith
      exact_mod_cast this
  by_cases ht : d * 2 ^ ((Nat.log 2 n : ℤ) - (Nat.log 2 d : ℤ)).toNat ≤
      n * 2 ^ (-((Nat.log 2 n : ℤ) - (Nat.log 2 d : ℤ))).toNat
  · rw [if_pos ht]
    refine ⟨htest.1 ht, ?_⟩
    rw [zpow_add_one₀ (by norm_num : (2 : ℚ) ≠ 0), he0]
    linarith
  · rw [if_neg ht]
    have hlt : (n : ℚ) / d < (2 : ℚ) ^ ((Nat.log 2 n : ℤ) - (Nat.log 2 d : ℤ)) := by
      by_contra hc
      exact ht (htest.2 (not_lt.1 hc))
    constructor
    · rw [zpow_sub_one₀ (by norm_num : (2 : ℚ) ≠ 0), he0]
      rw [← div_eq_mul_inv]
      exact le_of_lt hlow
    · rw [sub_add_cancel]
      exact hlt

theorem rat_eq_natAbs_div (q : ℚ) (hq : 0 < q) :
    q = (q.num.natAbs : ℚ) / (q.den : ℚ) ∧ 0 < q.num.natAbs ∧ 0 < q.den := by
  have hnum : 0 < q.num := Rat.num_pos.2 hq
  refine ⟨?_, Int.natAbs_pos.2 hnum.ne', q.den_pos⟩
  rw [Nat.cast_natAbs, abs_of_pos hnum]
  exact (Rat.num_div_den q).symm

/-- A positive number `m * 2^t` with at most `p` binary digits, a last digit of weight at least
`2^(emin - (p - 1))` and a value below `2^(emax + 1)` is a value of the format: rounding keeps
it. -/
theorem round_to_exact (p : Nat) (emin emax : Int) (q : ℚ) (hq : 0 < q) (m : Nat) (t : Int)
    (hqm : q = (m : ℚ) * (2 : ℚ) ^ t) (hm : m < 2 ^ p) (ht : emin - ((p : Int) - 1) ≤ t)
    (hmax : q < ((2 ^ (emax + 1).toNat : Nat) : ℚ)) :
    round_to p emin emax q = Ieee.real q := by
  obtain ⟨hnd, hn, hd⟩ := rat_eq_natAbs_div q hq
  obtain ⟨hl1, hl2⟩ := leading_exponent_spec q.num.natAbs q.den hn hd
  rw [← hnd] at hl1 hl2
  unfold round_to
  rw [if_neg hq.ne']
  simp only []
  generalize hs : max (leading_exponent q.num.natAbs q.den) emin - ((p : Int) - 1) = s
  have hst : s ≤ t := by
    rcases le_total (leading_exponent q.num.natAbs q.den) emin with hc | hc
    · rw [max_eq_right hc] at hs; omega
    · rw [max_eq_left hc] at hs
      have h1 : (2 : ℚ) ^ leading_exponent q.num.natAbs q.den < (2 : ℚ) ^ ((p : Int) + t) := by
        apply lt_of_le_of_lt hl1
        rw [hqm, zpow_add₀ (by norm_num : (2 : ℚ) ≠ 0), zpow_natCast]
        apply mul_lt_mul_of_pos_right _ (by positivity)
        exact_mod_cast hm
      have h2 := (zpow_lt_zpow_iff_right₀ (by norm_num : (1 : ℚ) < 2)).1 h1
      omega
  obtain ⟨N, hN⟩ : ∃ N : Nat, q = (N : ℚ) * (2 : ℚ) ^ s := by
    refine ⟨m * 2 ^ (t - s).toNat, ?_⟩
    have : ((2 ^ (t - s).toNat : Nat) : ℚ) = (2 : ℚ) ^ (t - s) := by
      obtain ⟨k, hk⟩ := Int.eq_ofNat_of_zero_le (by omega : 0 ≤ t - s)
      rw [hk]; simp
    rw [Nat.cast_mul, this, hqm, mul_assoc, ← zpow_add₀ (by norm_num : (2 : ℚ) ≠ 0)]
    congr 2
    omega
  have hP1 : (0 : ℚ) < ((2 ^ s.toNat : Nat) : ℚ) := by positivity
  have hP2 : (0 : ℚ) < ((2 ^ (-s).toNat : Nat) : ℚ) := by positivity
  have hnum : q.num.natAbs * 2 ^ (-s).toNat = N * (q.den * 2 ^ s.toNat) := by
    have hdq : (0 : ℚ) < q.den := by exact_mod_cast hd
    have h1 : (q.num.natAbs : ℚ) / (q.den : ℚ) =
        (N : ℚ) * (((2 ^ s.toNat : Nat) : ℚ) / ((2 ^ (-s).toNat : Nat) : ℚ)) := by
      rw [← hnd, two_zpow_split]; exact hN
    have h2 : ((q.num.natAbs * 2 ^ (-s).toNat : Nat) : ℚ) =
        ((N * (q.den * 2 ^ s.toNat) : Nat) : ℚ) := by
      push_cast
      field_simp at h1
      linarith
    exact_mod_cast h2
  have hden : 0 < q.den * 2 ^ s.toNat := Nat.mul_pos hd (by positivity)
  rw [hnum, Nat.mul_div_cancel _ hden, Nat.mul_mod_left]
  have hfalse : ¬ (q.den * 2 ^ s.toNat < 2 * 0 ∨ q.den * 2 ^ s.toNat = 2 * 0 ∧ N % 2 = 1) := by
    omega
  rw [if_neg hfalse]
  have hv : (N : ℚ) * ((2 ^ s.toNat : Nat) : ℚ) / ((2 ^ (-s).toNat : Nat) : ℚ) = q := by
    rw [mul_div_assoc, two_zpow_split]; exact hN.symm
  rw [hv, if_neg (not_le.2 hmax), if_pos hq]

/-- A positive value of the format is a number `m * 2^t` with at most `p` binary digits and a
last digit of weight at least `2^(emin - (p - 1))`. -/
theorem round_to_exact_digits (p : Nat) (emin emax : Int) (q : ℚ) (hq : 0 < q)
    (h : round_to p emin emax q = Ieee.real q) :
    q < ((2 ^ (emax + 1).toNat : Nat) : ℚ) ∧
    ∃ (m : Nat) (t : Int), q = (m : ℚ) * (2 : ℚ) ^ t ∧ m < 2 ^ p ∧
      emin - ((p : Int) - 1) ≤ t := by
  obtain ⟨hnd, hn, hd⟩ := rat_eq_natAbs_div q hq
  obtain ⟨hl1, hl2⟩ := leading_exponent_spec q.num.natAbs q.den hn hd
  rw [← hnd] at hl1 hl2
  unfold round_to at h
  rw [if_neg hq.ne'] at h
  simp only [] at h
  generalize hs : max (leading_exponent q.num.natAbs q.den) emin - ((p : Int) - 1) = s at h
  generalize hdg : (if q.den * 2 ^ s.toNat <
      2 * (q.num.natAbs * 2 ^ (-s).toNat % (q.den * 2 ^ s.toNat)) ∨
      q.den * 2 ^ s.toNat = 2 * (q.num.natAbs * 2 ^ (-s).toNat % (q.den * 2 ^ s.toNat)) ∧
        q.num.natAbs * 2 ^ (-s).toNat / (q.den * 2 ^ s.toNat) % 2 = 1 then
      q.num.natAbs * 2 ^ (-s).toNat / (q.den * 2 ^ s.toNat) + 1
    else q.num.natAbs * 2 ^ (-s).toNat / (q.den * 2 ^ s.toNat)) = digits at h
  split at h
  · cases h
  · rename_i hover
    have hv0 := Ieee.real.inj h
    rw [hv0] at hover
    have hv : (digits : ℚ) * (2 : ℚ) ^ s = q := by
      rw [mul_div_assoc, two_zpow_split] at hv0
      exact hv0
    refine ⟨not_le.1 hover, digits, s, hv.symm, ?_, ?_⟩
    · have h1 : (digits : ℚ) * (2 : ℚ) ^ s < (2 : ℚ) ^ (p : ℕ) * (2 : ℚ) ^ s := by
        rw [hv]
        apply lt_of_lt_of_le hl2
        rw [← zpow_natCast, ← zpow_add₀ (by norm_num : (2 : ℚ) ≠ 0)]
        apply zpow_le_zpow_right₀ (by norm_num)
        have := le_max_left (leading_exponent q.num.natAbs q.den) emin
        omega
      have h2 := lt_of_mul_lt_mul_right h1 (by positivity)
      exact_mod_cast h2
    · have := le_max_right (leading_exponent q.num.natAbs q.den) emin
      omega

theorem to_float_zero : to_float 0 = Ieee.real 0 := by
  simp [to_float, round_to]

theorem to_double_zero : to_double 0 = Ieee.real 0 := by
  simp [to_double, round_to]

/-- A whole number below `2^24` is a `float`. -/
theorem to_float_nat (n : Nat) (h : n < 2 ^ 24) : to_float (n : ℚ) = Ieee.real (n : ℚ) := by
  rcases Nat.eq_zero_or_pos n with h0 | h0
  · subst h0
    simpa using to_float_zero
  · apply round_to_exact 24 (-126) 127 _ (by exact_mod_cast h0) n 0 (by simp) h (by norm_num)
    have e : ((127 : Int) + 1).toNat = 128 := rfl
    rw [e]
    have : n < 2 ^ 128 := lt_trans h (by norm_num)
    exact_mod_cast this

/-- A whole number below `2^53` is a `double`. -/
theorem to_double_nat (n : Nat) (h : n < 2 ^ 53) : to_double (n : ℚ) = Ieee.real (n : ℚ) := by
  rcases Nat.eq_zero_or_pos n with h0 | h0
  · subst h0
    simpa using to_double_zero
  · apply round_to_exact 53 (-1022) 1023 _ (by exact_mod_cast h0) n 0 (by simp) h (by norm_num)
    have e : ((1023 : Int) + 1).toNat = 1024 := rfl
    rw [e]
    have : n < 2 ^ 1024 := lt_trans h (by norm_num)
    exact_mod_cast this

/-- A `float` times a power of two is a `float` as long as it is in range. -/
theorem to_float_scale (x : ℚ) (hx : 0 < x) (hf : to_float x = Ieee.real x) (k : Nat)
    (hfit : (2 : ℚ) ^ k * x ≤ FLT_MAX) :
    to_float ((2 : ℚ) ^ k * x) = Ieee.real ((2 : ℚ) ^ k * x) := by
  obtain ⟨_, m, t, hxm, hm, ht⟩ := round_to_exact_digits 24 (-126) 127 x hx hf
  apply round_to_exact 24 (-126) 127 _ (by positivity) m (t + k) _ hm (by omega)
  · have e : ((127 : Int) + 1).toNat = 128 := rfl
    rw [e]
    apply lt_of_le_of_lt hfit
    unfold FLT_MAX
    norm_num
  · rw [hxm, zpow_add₀ (by norm_num : (2 : ℚ) ≠ 0), zpow_natCast]
    ring

/-- A small multiple of a `float` is a `double`. -/
theorem to_double_multiple (x : ℚ) (hx : 0 < x) (hf : to_float x = Ieee.real x) (j : Nat)
    (hj : j < 2 ^ 29) : to_double ((j : ℚ) * x) = Ieee.real ((j : ℚ) * x) := by
  rcases Nat.eq_zero_or_pos j with h0 | h0
  · subst h0
    simpa using to_double_zero
  obtain ⟨hmax, m, t, hxm, hm, ht⟩ := round_to_exact_digits 24 (-126) 127 x hx hf
  have hjq : (0 : ℚ) < j := by exact_mod_cast h0
  apply round_to_exact 53 (-1022) 1023 _ (by positivity) (j * m) t _ _ (by omega)
  · have e : ((1023 : Int) + 1).toNat = 1024 := rfl
    have e2 : ((127 : Int) + 1).toNat = 128 := rfl
    rw [e]
    rw [e2] at hmax
    have h1 : (j : ℚ) < 2 ^ 29 := by exact_mod_cast hj
    have h2 : (j : ℚ) * x < 2 ^ 29 * 2 ^ 128 := by
      push_cast at hmax
      nlinarith
    apply lt_trans h2
    norm_num
  · rw [hxm]; push_cast; ring
  · calc j * m < 2 ^ 29 * 2 ^ 24 := Nat.mul_lt_mul'' hj hm
      _ ≤ 2 ^ 53 := by norm_num

/-! ## Weight accumulation in IEEE arithmetic: from keys to offsets -/

theorem ieee_accumulate_children_eq {MaxDepth : Nat} (depth ord_end : Nat)
    (k_node : OctTreeKey MaxDepth) (hk : k_node.WellFormed) (hd : k_node.depth < depth)
    (hm : depth ≤ MaxDepth)
    (recurse : OctTreeKey MaxDepth → ieee.Weights → ieee.Weights)
    (recurse2 : Nat → ieee.Weights → ieee.Weights) :
    ∀ (l : List Nat) (st : ieee.AccState MaxDepth),
      (∀ i, i ∈ l → 1 ≤ i ∧ ∀ w, recurse (k_node.set_index (k_node.depth + 1) i) w =
        recurse2 (oct_tree_offset depth k_node + 1 +
          (i - 1) * oct_tree_size (depth - k_node.depth - 1)) w) →
      (∀ i, st.k_node.set_index (k_node.depth + 1) i = k_node.set_index (k_node.depth + 1) i) →
      ((ieee.accumulate_children recurse (k_node.depth + 1) ord_end depth l st).w,
        (ieee.accumulate_children recurse (k_node.depth + 1) ord_end depth l st).weights) =
      ieee.offset_children recurse2 (oct_tree_offset depth k_node) (depth - k_node.depth - 1)
        ord_end l (st.w, st.weights) := by
  intro l
  induction l with
  | nil => intro st _ _; rfl
  | cons i rest ih =>
    intro st hrec hst
    have hi := hrec i (List.mem_cons_self _ _)
    have hoff := oct_tree_offset_child depth k_node hk hd (by omega) i hi.1
    simp only [ieee.accumulate_children, ieee.offset_children, child_offset, hst i, hoff]
    by_cases hlt : oct_tree_offset depth k_node + 1 +
        (i - 1) * oct_tree_size (depth - k_node.depth - 1) < ord_end
    · simp only [hlt, if_true]
      rw [ih _ (fun j hj => hrec j (List.mem_cons_of_mem _ hj))
        (fun j => by
          show (k_node.set_index (k_node.depth + 1) i).set_index (k_node.depth + 1) j = _
          exact OctTreeKey.set_index_set_index _ _ _ _)]
      simp only [hi.2]
    · simp only [hlt, if_false]
      rw [ih _ (fun j hj => hrec j (List.mem_cons_of_mem _ hj))
        (fun j => by
          show (k_node.set_index (k_node.depth + 1) i).set_index (k_node.depth + 1) j = _
          exact OctTreeKey.set_index_set_index _ _ _ _)]

theorem ieee_accumulate_weights_fuel_eq {MaxDepth : Nat} (depth ord_end : Nat)
    (hm : depth ≤ MaxDepth) :
    ∀ (fuel : Nat) (k_node k_first : OctTreeKey MaxDepth) (weights : ieee.Weights),
      k_node.WellFormed → k_first.WellFormed → k_node.depth ≤ depth →
      depth - k_node.depth < fuel →
      ieee.accumulate_weights_fuel fuel k_node k_first ord_end depth weights =
        ieee.offset_accumulate (depth - k_node.depth) (oct_tree_offset depth k_node)
          (k_first.digits.drop k_node.depth) ord_end weights := by
  intro fuel
  induction fuel with
  | zero => intro _ _ _ _ _ _ hf; omega
  | succ fuel ih =>
    intro k_node k_first weights hk hf hd hfuel
    rw [ieee.accumulate_weights_fuel]
    by_cases hlt : k_node.depth < depth
    · obtain ⟨h, hh⟩ : ∃ h, depth - k_node.depth = h + 1 := ⟨depth - k_node.depth - 1, by omega⟩
      have hh2 : depth - k_node.depth - 1 = h := by omega
      rw [hh, ieee.offset_accumulate]
      simp only [hlt, if_true, ← OctTreeKey.index_succ, child_offset]
      have hidx := OctTreeKey.wf_index k_first hf (k_node.depth + 1)
      have hlen : (k_first.digits.drop k_node.depth).length - 1 = MaxDepth - (k_node.depth + 1) := by
        rw [List.length_drop, k_first.length_eq]; omega
      have hchild : ∀ i, 1 ≤ i → i ≤ 8 → ∀ (kf : OctTreeKey MaxDepth) w, kf.WellFormed →
          ieee.accumulate_weights_fuel fuel (k_node.set_index (k_node.depth + 1) i) kf ord_end
            depth w =
          ieee.offset_accumulate h (oct_tree_offset depth k_node + 1 + (i - 1) * oct_tree_size h)
            (kf.digits.drop (k_node.depth + 1)) ord_end w := by
        intro i h1 h8 kf w hkf
        obtain ⟨hcw, hcd⟩ := OctTreeKey.child_wf k_node hk (by omega) i h1 h8
        rw [ih _ kf w hcw hkf (by omega) (by omega), hcd,
          oct_tree_offset_child depth k_node hk hlt (by omega) i h1, hh2]
        have e : depth - (k_node.depth + 1) = h := by omega
        rw [e]
      have hrange : ∀ i, i ∈ List.range' (k_first.index (k_node.depth + 1) + 1)
          (8 - k_first.index (k_node.depth + 1)) → 1 ≤ i ∧ i ≤ 8 := by
        intro i hi
        rw [List.mem_range'_1] at hi
        omega
      by_cases hi0 : k_first.index (k_node.depth + 1) = 0
      · simp only [hi0, ne_eq, not_true_eq_false, if_false]
        have hloop := ieee_accumulate_children_eq depth ord_end k_node hk hlt hm
          (fun k w => ieee.accumulate_weights_fuel fuel k k_first ord_end depth w)
          (fun ord w => ieee.offset_accumulate h ord (k_first.digits.drop k_node.depth).tail
            ord_end w)
          (List.range' (0 + 1) (8 - 0)) ⟨k_node, Ieee.real 0, weights⟩
          (fun i hi => by
            have hr : 1 ≤ i ∧ i ≤ 8 := by
              rw [List.mem_range'_1] at hi; omega
            refine ⟨hr.1, fun w => ?_⟩
            beta_reduce
            rw [hchild i hr.1 hr.2 k_first w hf, hh2, List.tail_drop])
          (fun i => rfl)
        rw [hh2] at hloop
        simp only [Prod.ext_iff] at hloop
        rw [hloop.1, hloop.2]
      · simp only [hi0, ne_eq, not_false_eq_true, if_true]
        have h1 : 1 ≤ k_first.index (k_node.depth + 1) := by omega
        rw [hchild _ h1 hidx.1 k_first weights hf, List.tail_drop]
        have hloop := ieee_accumulate_children_eq depth ord_end k_node hk hlt hm
          (fun k w => ieee.accumulate_weights_fuel fuel k (OctTreeKey.root MaxDepth) ord_end
            depth w)
          (fun ord w => ieee.offset_accumulate h ord
            (List.replicate ((k_first.digits.drop k_node.depth).length - 1) 0) ord_end w)
          (List.range' (k_first.index (k_node.depth + 1) + 1)
            (8 - k_first.index (k_node.depth + 1)))
          ⟨k_node.set_index (k_node.depth + 1) (k_first.index (k_node.depth + 1)),
            Ieee.add to_double (Ieee.real 0) (Ieee.add to_float
              ((ieee.offset_accumulate h (oct_tree_offset depth k_node + 1 +
                (k_first.index (k_node.depth + 1) - 1) * oct_tree_size h)
                (k_first.digits.drop (k_node.depth + 1)) ord_end weights).at
                ((oct_tree_offset depth k_node + 1 +
                  (k_first.index (k_node.depth + 1) - 1) * oct_tree_size h) * 2))
              ((ieee.offset_accumulate h (oct_tree_offset depth k_node + 1 +
                (k_first.index (k_node.depth + 1) - 1) * oct_tree_size h)
                (k_first.digits.drop (k_node.depth + 1)) ord_end weights).at
                ((oct_tree_offset depth k_node + 1 +
                  (k_first.index (k_node.depth + 1) - 1) * oct_tree_size h) * 2 + 1))),
            ieee.offset_accumulate h (oct_tree_offset depth k_node + 1 +
                (k_first.index (k_node.depth + 1) - 1) * oct_tree_size h)
                (k_first.digits.drop (k_node.depth + 1)) ord_end weights⟩
          (fun i hi => by
            have hr := hrange i hi
            refine ⟨hr.1, fun w => ?_⟩
            beta_reduce
            rw [hchild i hr.1 hr.2 (OctTreeKey.root MaxDepth) w (OctTreeKey.root_wf MaxDepth),
              hh2, hlen]
            simp [OctTreeKey.root, List.drop_replicate])
          (fun i => by
            show (k_node.set_index (k_node.depth + 1) _).set_index (k_node.depth + 1) i = _
            exact OctTreeKey.set_index_set_index _ _ _ _)
        rw [hh2] at hloop
        rw [oct_tree_offset_child depth k_node hk hlt (by omega) _ h1, hh2]
        simp only [Prod.ext_iff] at hloop
        rw [hloop.1, hloop.2]
    · have h0 : depth - k_node.depth = 0 := by omega
      rw [h0, ieee.offset_accumulate]
      simp only [hlt, if_false]

theorem ieee_accumulate_weights_eq {MaxDepth : Nat} (depth ord_end : Nat) (hm : depth ≤ MaxDepth)
    (k_first : OctTreeKey MaxDepth) (hk : k_first.WellFormed) (w : ieee.Weights) :
    ieee.accumulate_weights (OctTreeKey.root MaxDepth) k_first ord_end depth w =
      ieee.offset_accumulate depth 0 k_first.digits ord_end w := by
  unfold ieee.accumulate_weights
  rw [ieee_accumulate_weights_fuel_eq depth ord_end hm (depth + 1) (OctTreeKey.root MaxDepth)
    k_first w (OctTreeKey.root_wf _) hk (by rw [OctTreeKey.root_depth]; omega)
    (by rw [OctTreeKey.root_depth]; omega)]
  rw [OctTreeKey.root_depth, oct_tree_offset_root]
  rfl

/-! ## Weight accumulation in IEEE arithmetic: sums that are exact -/

theorem ieee_at_of_rationals (w : Weights) (idx : Nat) :
    (ieee.of_rationals w).at idx = Ieee.real (w.at idx) := by
  unfold ieee.Weights.at ieee.of_rationals Weights.at
  rw [List.getD_eq_getElem?_getD, List.getD_eq_getElem?_getD, List.getElem?_map]
  cases w[idx]? <;> rfl

theorem ieee_put_of_rationals (w : Weights) (i : Nat) (v : ℚ) :
    (ieee.of_rationals w).put i (Ieee.real v) = ieee.of_rationals (w.put i v) := by
  unfold ieee.Weights.put ieee.of_rationals Weights.put
  exact List.map_set.symm

theorem ieee_add_float_nat (x y : ℚ) (m : Nat) (h : x + y = m) (hm : m < 2 ^ 24) :
    Ieee.add to_float (Ieee.real x) (Ieee.real y) = Ieee.real (x + y) := by
  show to_float (x + y) = _
  rw [h]
  exact to_float_nat m hm

theorem ieee_add_double_nat (x y : ℚ) (m : Nat) (h : x + y = m) (hm : m < 2 ^ 53) :
    Ieee.add to_double (Ieee.real x) (Ieee.real y) = Ieee.real (x + y) := by
  show to_double (x + y) = _
  rw [h]
  exact to_double_nat m hm

/-- The child loop of the accumulation when the own weights are whole numbers with a total
of at most `T < 2^24`: every sum is exact, and the loop in IEEE arithmetic does what the loop
with exact sums does. -/
theorem ieee_offset_children_counts (hi T : Nat) (hT : T < 2 ^ 24) (h o : Nat) (w : Weights)
    (hlen : 2 * (o + oct_tree_size (h + 1)) ≤ w.length)
    (hown : ∀ n, ∃ m : Nat, w.at (2 * n) = m)
    (hleaf : ∀ l, l ∈ leaf_offsets (h + 1) o → w.at (2 * l + 1) = 0)
    (hsum : node_weight_sum w (o + 1) (o + oct_tree_size (h + 1)) ≤ (T : ℚ))
    (ih : ∀ (o2 : Nat) (ds : List Nat) (w2 : Weights), wf_digits ds = true →
      2 * (o2 + oct_tree_size h) ≤ w2.length → (∀ n, ∃ m : Nat, w2.at (2 * n) = m) →
      (∀ l, l ∈ leaf_offsets h o2 → w2.at (2 * l + 1) = 0) →
      node_weight_sum w2 o2 (o2 + oct_tree_size h) ≤ (T : ℚ) →
      ieee.offset_accumulate h o2 ds hi (ieee.of_rationals w2) =
        ieee.of_rationals (offset_accumulate h o2 ds hi w2) ∧
      ∃ m : Nat, (offset_accumulate h o2 ds hi w2).at (2 * o2) +
          (offset_accumulate h o2 ds hi w2).at (2 * o2 + 1) = m ∧
        (m : ℚ) ≤ node_weight_sum w2 o2 (o2 + oct_tree_size h))
    (ds2 : List Nat) (hds2 : wf_digits ds2 = true) :
    ∀ (n a : Nat) (s : Nat) (wc : Weights), 1 ≤ a → a + n = 9 →
      wc.length = w.length → (∀ idx, 2 * child_offset o h a ≤ idx → wc.at idx = w.at idx) →
      (∀ n2, wc.at (2 * n2) = w.at (2 * n2)) →
      (s : ℚ) + node_weight_sum w (child_offset o h a) (child_offset o h 9) ≤
        node_weight_sum w (o + 1) (o + oct_tree_size (h + 1)) →
      ieee.offset_children (fun ord w => ieee.offset_accumulate h ord ds2 hi w) o h hi
          (List.range' a n) (Ieee.real s, ieee.of_rationals wc) =
        (Ieee.real (offset_children (fun ord w => offset_accumulate h ord ds2 hi w) o h hi
            (List.range' a n) ((s : ℚ), wc)).1,
          ieee.of_rationals (offset_children (fun ord w => offset_accumulate h ord ds2 hi w)
            o h hi (List.range' a n) ((s : ℚ), wc)).2) ∧
      (∃ r : Nat, (offset_children (fun ord w => offset_accumulate h ord ds2 hi w) o h hi
            (List.range' a n) ((s : ℚ), wc)).1 = r ∧
          (r : ℚ) ≤ node_weight_sum w (o + 1) (o + oct_tree_size (h + 1))) ∧
      (offset_children (fun ord w => offset_accumulate h ord ds2 hi w) o h hi
        (List.range' a n) ((s : ℚ), wc)).2.length = w.length ∧
      ∀ n2, (offset_children (fun ord w => offset_accumulate h ord ds2 hi w) o h hi
        (List.range' a n) ((s : ℚ), wc)).2.at (2 * n2) = w.at (2 * n2) := by
  have hnn : ∀ n, 0 ≤ w.at (2 * n) := by
    intro n
    obtain ⟨m, hm⟩ := hown n
    rw [hm]
    exact Nat.cast_nonneg m
  intro n
  induction n with
  | zero =>
    intro a s wc _ _ hl _ hsame hs
    have e1 : List.range' a 0 = [] := rfl
    rw [e1]
    refine ⟨rfl, ⟨s, rfl, ?_⟩, hl, hsame⟩
    have := node_weight_sum_nonneg w hnn (child_offset o h a) (child_offset o h 9)
    linarith
  | succ n ihn =>
    intro a s wc ha1 han hl hrest hsame hs
    have ha8 : a ≤ 8 := by omega
    have hcb := child_offset_bounds o h a ha1 ha8
    have hcs := child_offset_succ o h a ha1
    have hsz := oct_tree_size_pos h
    have hsplit : node_weight_sum w (child_offset o h a) (child_offset o h 9) =
        node_weight_sum w (child_offset o h a) (child_offset o h (a + 1)) +
          node_weight_sum w (child_offset o h (a + 1)) (child_offset o h 9) :=
      node_weight_sum_add w _ _ _ (child_offset_mono o h _ _ (by omega))
        (child_offset_mono o h _ _ (by omega))
    have hn1 := node_weight_sum_nonneg w hnn (child_offset o h a) (child_offset o h (a + 1))
    have hn2 := node_weight_sum_nonneg w hnn (child_offset o h (a + 1)) (child_offset o h 9)
    simp only [List.range', ieee.offset_children, offset_children]
    by_cases hlt : child_offset o h a < hi
    · simp only [hlt, if_true]
      have hwc : node_weight_sum wc (child_offset o h a) (child_offset o h a + oct_tree_size h)
          = node_weight_sum w (child_offset o h a) (child_offset o h (a + 1)) := by
        rw [hcs]
        exact node_weight_sum_congr w wc hsame _ _
      obtain ⟨hsim, m, hpair, hmle⟩ := ih (child_offset o h a) ds2 wc hds2
        (by rw [hl]; omega)
        (fun k => by
          obtain ⟨m, hm⟩ := hown k
          exact ⟨m, by rw [hsame, hm]⟩)
        (fun l hl2 => by
          obtain ⟨b1, b2, b3⟩ := leaf_offsets_bounds h _ l hl2
          rw [hrest _ (by omega)]
          exact hleaf l (mem_leaf_offsets_of_below _ _ _ (Below.step o h a _ _ ha1 ha8 b3)))
        (by rw [hwc]; linarith)
      rw [hwc] at hmle
      have hmT : m < 2 ^ 24 := by
        have : (m : ℚ) ≤ (T : ℚ) := by linarith
        have : m ≤ T := by exact_mod_cast this
        omega
      have hsmT : s + m < 2 ^ 53 := by
        have : ((s + m : Nat) : ℚ) ≤ (T : ℚ) := by push_cast; linarith
        have : s + m ≤ T := by exact_mod_cast this
        omega
      have hpair2 : (offset_accumulate h (child_offset o h a) ds2 hi wc).at
            (child_offset o h a * 2) +
          (offset_accumulate h (child_offset o h a) ds2 hi wc).at
            (child_offset o h a * 2 + 1) = (m : ℚ) := by
        rw [Nat.mul_comm]; exact hpair
      rw [hsim, ieee_at_of_rationals, ieee_at_of_rationals,
        ieee_add_float_nat _ _ m hpair2 hmT, hpair2,
        ieee_add_double_nat (s : ℚ) (m : ℚ) (s + m) (by push_cast; rfl) hsmT]
      have hadd : (s : ℚ) + (m : ℚ) = ((s + m : Nat) : ℚ) := by push_cast; rfl
      rw [hadd]
      obtain ⟨hRl, hRf⟩ := offset_accumulate_inner hi h (child_offset o h a) ds2 wc hds2
      have hframe : ∀ idx, (2 * child_offset o h (a + 1) ≤ idx ∨ idx % 2 = 0) →
          (offset_accumulate h (child_offset o h a) ds2 hi wc).at idx = wc.at idx := by
        intro idx hidx
        by_contra hne
        obtain ⟨o2, h2, hb, he⟩ := hRf idx hne
        have := hb.bounds
        have := oct_tree_size_pos (h2 + 1)
        omega
      exact ihn (a + 1) (s + m) _ (by omega) (by omega) (by rw [hRl, hl])
        (fun idx hidx => by
          rw [hframe idx (Or.inl hidx)]
          exact hrest idx (by omega))
        (fun n2 => by
          rw [hframe (2 * n2) (Or.inr (by omega))]
          exact hsame n2)
        (by push_cast; linarith)
    · simp only [hlt, if_false]
      exact ihn (a + 1) s wc (by omega) (by omega) hl
        (fun idx hidx => hrest idx (by omega)) hsame (by linarith)

/-- The accumulation when the own weights are whole numbers with a total of at most
`T < 2^24` and the descendant slots of the leaves are zero: every sum is a whole number below
`2^24`, exact in `float` and in `double`, so the accumulation in IEEE arithmetic leaves the
array that the accumulation with exact sums leaves; own plus descendant weight of the
position is at most the total own weight of its subtree. -/
theorem ieee_offset_accumulate_counts (hi T : Nat) (hT : T < 2 ^ 24) :
    ∀ (h o : Nat) (ds : List Nat) (w : Weights), wf_digits ds = true →
      2 * (o + oct_tree_size h) ≤ w.length → (∀ n, ∃ m : Nat, w.at (2 * n) = m) →
      (∀ l, l ∈ leaf_offsets h o → w.at (2 * l + 1) = 0) →
      node_weight_sum w o (o + oct_tree_size h) ≤ (T : ℚ) →
      ieee.offset_accumulate h o ds hi (ieee.of_rationals w) =
        ieee.of_rationals (offset_accumulate h o ds hi w) ∧
      ∃ m : Nat, (offset_accumulate h o ds hi w).at (2 * o) +
          (offset_accumulate h o ds hi w).at (2 * o + 1) = m ∧
        (m : ℚ) ≤ node_weight_sum w o (o + oct_tree_size h) := by
  intro h
  induction h with
  | zero =>
    intro o ds w _ _ hown hleaf _
    refine ⟨rfl, ?_⟩
    obtain ⟨m, hm⟩ := hown o
    refine ⟨m, ?_, ?_⟩
    · simp only [offset_accumulate]
      rw [hleaf o (by simp [leaf_offsets]), add_zero, hm]
    · show (m : ℚ) ≤ node_weight_sum w o (o + 1)
      rw [node_weight_sum_single, hm]
  | succ h ih =>
    intro o ds w hwf hlen hown hleaf hsum
    have hnn : ∀ n, 0 ≤ w.at (2 * n) := by
      intro n
      obtain ⟨m, hm⟩ := hown n
      rw [hm]
      exact Nat.cast_nonneg m
    have hsz := oct_tree_size_pos h
    have hsz1 := oct_tree_size_succ h
    have hU : node_weight_sum w o (o + oct_tree_size (h + 1)) =
        w.at (2 * o) + node_weight_sum w (o + 1) (o + oct_tree_size (h + 1)) := by
      rw [node_weight_sum_add w o (o + 1) _ (by omega) (by omega), node_weight_sum_single]
    have hsum2 : node_weight_sum w (o + 1) (o + oct_tree_size (h + 1)) ≤ (T : ℚ) := by
      have := hnn o
      linarith
    have hloop := ieee_offset_children_counts hi T hT h o w hlen hown hleaf hsum2 ih
    obtain ⟨m0, hm0⟩ := hown o
    -- what the final assignment gives
    have hfinish : ∀ (r : Nat) (W2 : Weights) (x : ℚ), x = (r : ℚ) →
        (r : ℚ) ≤ node_weight_sum w (o + 1) (o + oct_tree_size (h + 1)) →
        W2.length = w.length → (∀ n2, W2.at (2 * n2) = w.at (2 * n2)) →
        (ieee.of_rationals W2).put (2 * o + 1) (Ieee.cast_float (Ieee.real x)) =
          ieee.of_rationals (W2.put (2 * o + 1) x) ∧
        ∃ m : Nat, (W2.put (2 * o + 1) x).at (2 * o) + (W2.put (2 * o + 1) x).at (2 * o + 1) =
            m ∧ (m : ℚ) ≤ node_weight_sum w o (o + oct_tree_size (h + 1)) := by
      intro r W2 x hx hr hl hsame
      have hrT : r < 2 ^ 24 := by
        have : (r : ℚ) ≤ (T : ℚ) := by linarith
        have : r ≤ T := by exact_mod_cast this
        omega
      constructor
      · have : Ieee.cast_float (Ieee.real x) = Ieee.real x := by
          show to_float x = _
          rw [hx]
          exact to_float_nat r hrT
        rw [this, ieee_put_of_rationals]
      · refine ⟨m0 + r, ?_, ?_⟩
        · rw [Weights.at_put_ne _ _ _ _ (by omega), Weights.at_put_self _ _ _ (by omega),
            hsame, hm0, hx]
          push_cast; rfl
        · rw [hU, hm0]
          push_cast
          linarith
    rw [ieee.offset_accumulate, offset_accumulate]
    simp only []
    by_cases hi0 : ds.headD 0 = 0
    · simp only [hi0, ne_eq, not_true_eq_false, if_false]
      obtain ⟨hsim, ⟨r, hr, hrle⟩, hrl, hrown⟩ := hloop ds.tail (wf_digits_tail ds hwf) 8 1 0 w
        (le_refl _) rfl rfl (fun _ _ => rfl) (fun _ => rfl)
        (by rw [child_offset_one, child_offset_nine]; simp)
      simp only [Nat.cast_zero] at hsim hr hrl hrown
      rw [hsim]
      exact hfinish r _ _ hr hrle hrl hrown
    · simp only [hi0, ne_eq, not_false_eq_true, if_true]
      have h1 : 1 ≤ ds.headD 0 := by omega
      have h8 := wf_digits_head ds hwf
      have hcb := child_offset_bounds o h (ds.headD 0) h1 h8
      have hcs := child_offset_succ o h (ds.headD 0) h1
      have hmono := child_offset_mono o h
      have hc1 := child_offset_one o h
      have hc9 := child_offset_nine o h
      have hm1 := hmono 1 (ds.headD 0) h1
      have hm9 := hmono (ds.headD 0 + 1) 9 (by omega)
      have hsplit1 : node_weight_sum w (o + 1) (o + oct_tree_size (h + 1)) =
          node_weight_sum w (o + 1) (child_offset o h (ds.headD 0)) +
            (node_weight_sum w (child_offset o h (ds.headD 0))
                (child_offset o h (ds.headD 0 + 1)) +
              node_weight_sum w (child_offset o h (ds.headD 0 + 1)) (child_offset o h 9)) := by
        rw [← hc9, node_weight_sum_add w (o + 1) (child_offset o h (ds.headD 0)) _ (by omega)
          (by omega), node_weight_sum_add w (child_offset o h (ds.headD 0))
          (child_offset o h (ds.headD 0 + 1)) _ (by omega) hm9]
      have hn0 := node_weight_sum_nonneg w hnn (o + 1) (child_offset o h (ds.headD 0))
      have hn1 := node_weight_sum_nonneg w hnn (child_offset o h (ds.headD 0))
        (child_offset o h (ds.headD 0 + 1))
      have hn2 := node_weight_sum_nonneg w hnn (child_offset o h (ds.headD 0 + 1))
        (child_offset o h 9)
      obtain ⟨hsim1, m1, hpair, hmle⟩ := ih (child_offset o h (ds.headD 0)) ds.tail w
        (wf_digits_tail ds hwf) (by omega) hown
        (fun l hl2 => by
          obtain ⟨b1, b2, b3⟩ := leaf_offsets_bounds h _ l hl2
          exact hleaf l (mem_leaf_offsets_of_below _ _ _ (Below.step o h _ _ _ h1 h8 b3)))
        (by rw [← hcs]; linarith)
      rw [← hcs] at hmle
      have hmT : m1 < 2 ^ 24 := by
        have : (m1 : ℚ) ≤ (T : ℚ) := by linarith
        have : m1 ≤ T := by exact_mod_cast this
        omega
      have hpair2 : (offset_accumulate h (child_offset o h (ds.headD 0)) ds.tail hi w).at
            (child_offset o h (ds.headD 0) * 2) +
          (offset_accumulate h (child_offset o h (ds.headD 0)) ds.tail hi w).at
            (child_offset o h (ds.headD 0) * 2 + 1) = (m1 : ℚ) := by
        rw [Nat.mul_comm]; exact hpair
      obtain ⟨hRl, hRf⟩ := offset_accumulate_inner hi h (child_offset o h (ds.headD 0)) ds.tail
        w (wf_digits_tail ds hwf)
      have hframe : ∀ idx, (2 * child_offset o h (ds.headD 0 + 1) ≤ idx ∨ idx % 2 = 0) →
          (offset_accumulate h (child_offset o h (ds.headD 0)) ds.tail hi w).at idx =
            w.at idx := by
        intro idx hidx
        by_contra hne
        obtain ⟨o2, h2, hb, he⟩ := hRf idx hne
        have := hb.bounds
        have := oct_tree_size_pos (h2 + 1)
        omega
      obtain ⟨hsim, ⟨r, hr, hrle⟩, hrl, hrown⟩ := hloop (List.replicate (ds.length - 1) 0)
        (wf_digits_replicate _) (8 - ds.headD 0) (ds.headD 0 + 1) m1
        (offset_accumulate h (child_offset o h (ds.headD 0)) ds.tail hi w)
        (by omega) (by omega) hRl (fun idx hidx => hframe idx (Or.inl hidx))
        (fun n2 => hframe (2 * n2) (Or.inr (by omega))) (by linarith)
      rw [hsim1, ieee_at_of_rationals, ieee_at_of_rationals,
        ieee_add_float_nat _ _ m1 hpair2 hmT, hpair2,
        ieee_add_double_nat 0 (m1 : ℚ) m1 (by simp) (lt_trans hmT (by norm_num)), zero_add,
        hsim]
      exact hfinish r _ _ hr hrle hrl hrown

theorem node_weight_sum_count (w : Weights) (hown : ∀ n, ∃ m : Nat, w.at (2 * n) = m)
    (a b : Nat) : ∃ t : Nat, node_weight_sum w a b = t := by
  unfold node_weight_sum
  generalize List.range' a (b - a) = l
  induction l with
  | nil => exact ⟨0, by simp⟩
  | cons x l ih =>
    obtain ⟨t, ht⟩ := ih
    obtain ⟨m, hm⟩ := hown x
    exact ⟨m + t, by rw [List.map_cons, List.sum_cons, ht, hm]; push_cast; rfl⟩

/-- With whole numbers as own weights on the maximum-depth leaves, of a total below `2^24`,
the accumulation in IEEE arithmetic leaves the array of the accumulation with exact sums. -/
theorem ieee_accumulate_weights_counts {MaxDepth : Nat} (depth ord_end : Nat)
    (hm : depth ≤ MaxDepth) (k_first : OctTreeKey MaxDepth) (hk : k_first.WellFormed)
    (w : Weights) (hw : LeafWeights depth w) (hown : ∀ n, ∃ m : Nat, w.at (2 * n) = m)
    (htotal : node_weight_sum w 0 (oct_tree_size depth) < 2 ^ 24) :
    ieee.accumulate_weights (root MaxDepth) k_first ord_end depth (ieee.of_rationals w) =
      ieee.of_rationals (accumulate_weights (root MaxDepth) k_first ord_end depth w) := by
  obtain ⟨T, hT⟩ := node_weight_sum_count w hown 0 (oct_tree_size depth)
  rw [hT] at htotal
  have hT24 : T < 2 ^ 24 := by exact_mod_cast htotal
  rw [ieee_accumulate_weights_eq depth ord_end hm k_first hk,
    accumulate_weights_eq depth ord_end hm k_first hk]
  exact (ieee_offset_accumulate_counts ord_end T hT24 depth 0 k_first.digits w hk
    (by rw [Nat.zero_add]; exact hw.1) hown
    (fun l hl => hw.2.2 l (leaf_offsets_bounds depth 0 l hl).2.2)
    (by rw [Nat.zero_add, hT])).1

theorem to_float_pow_eight (c : ℚ) (hc : 0 < c) (hf : to_float c = Ieee.real c) (h : Nat)
    (hfit : (8 : ℚ) ^ h * c ≤ FLT_MAX) :
    to_float ((8 : ℚ) ^ h * c) = Ieee.real ((8 : ℚ) ^ h * c) := by
  have e : (8 : ℚ) ^ h = (2 : ℚ) ^ (3 * h) := by
    rw [pow_mul]; norm_num
  rw [e] at hfit ⊢
  exact to_float_scale c hc hf (3 * h) hfit

/-- The child loop of the accumulation over a whole subtree whose leaves carry the same own
weight `c`, a `float`, with `8^(h+1) * c` in the range of `float`: every child adds
`8^h * c`, and every sum is exact. -/
theorem ieee_offset_children_uniform (c : ℚ) (hc : 0 < c) (hf : to_float c = Ieee.real c)
    (hi h o : Nat) (w : Weights) (hfull : o + oct_tree_size (h + 1) ≤ hi)
    (hlen : 2 * (o + oct_tree_size (h + 1)) ≤ w.length)
    (hleaf : ∀ l, l ∈ leaf_offsets (h + 1) o → w.at (2 * l) = c ∧ w.at (2 * l + 1) = 0)
    (hinner : ∀ o2 h2, Below o (h + 1) o2 (h2 + 1) → w.at (2 * o2) = 0)
    (hfit : (8 : ℚ) ^ (h + 1) * c ≤ FLT_MAX)
    (ih : ∀ (o2 : Nat) (k : Nat) (w2 : Weights), o2 + oct_tree_size h ≤ hi →
      2 * (o2 + oct_tree_size h) ≤ w2.length →
      (∀ l, l ∈ leaf_offsets h o2 → w2.at (2 * l) = c ∧ w2.at (2 * l + 1) = 0) →
      (∀ o3 h3, Below o2 h o3 (h3 + 1) → w2.at (2 * o3) = 0) →
      ieee.offset_accumulate h o2 (List.replicate k 0) hi (ieee.of_rationals w2) =
        ieee.of_rationals (offset_accumulate h o2 (List.replicate k 0) hi w2) ∧
      (offset_accumulate h o2 (List.replicate k 0) hi w2).at (2 * o2) +
          (offset_accumulate h o2 (List.replicate k 0) hi w2).at (2 * o2 + 1) =
        (8 : ℚ) ^ h * c)
    (k : Nat) :
    ∀ (n a : Nat) (wc : Weights), 1 ≤ a → a + n = 9 →
      wc.length = w.length → (∀ idx, 2 * child_offset o h a ≤ idx → wc.at idx = w.at idx) →
      (∀ n2, wc.at (2 * n2) = w.at (2 * n2)) →
      ieee.offset_children (fun ord w => ieee.offset_accumulate h ord (List.replicate k 0) hi w)
          o h hi (List.range' a n)
          (Ieee.real (((a - 1 : Nat) : ℚ) * ((8 : ℚ) ^ h * c)), ieee.of_rationals wc) =
        (Ieee.real (offset_children
            (fun ord w => offset_accumulate h ord (List.replicate k 0) hi w) o h hi
            (List.range' a n) (((a - 1 : Nat) : ℚ) * ((8 : ℚ) ^ h * c), wc)).1,
          ieee.of_rationals (offset_children
            (fun ord w => offset_accumulate h ord (List.replicate k 0) hi w) o h hi
            (List.range' a n) (((a - 1 : Nat) : ℚ) * ((8 : ℚ) ^ h * c), wc)).2) ∧
      (offset_children (fun ord w => offset_accumulate h ord (List.replicate k 0) hi w) o h hi
        (List.range' a n) (((a - 1 : Nat) : ℚ) * ((8 : ℚ) ^ h * c), wc)).1 =
          (8 : ℚ) ^ (h + 1) * c ∧
      (offset_children (fun ord w => offset_accumulate h ord (List.replicate k 0) hi w) o h hi
        (List.range' a n) (((a - 1 : Nat) : ℚ) * ((8 : ℚ) ^ h * c), wc)).2.length = w.length ∧
      ∀ n2, (offset_children (fun ord w => offset_accumulate h ord (List.replicate k 0) hi w)
        o h hi (List.range' a n) (((a - 1 : Nat) : ℚ) * ((8 : ℚ) ^ h * c), wc)).2.at (2 * n2) =
          w.at (2 * n2) := by
  have hX : (0 : ℚ) < (8 : ℚ) ^ h * c := by positivity
  have hfit0 : (8 : ℚ) ^ h * c ≤ FLT_MAX := by
    apply le_trans _ hfit
    rw [pow_succ]
    nlinarith
  have hXf := to_float_pow_eight c hc hf h hfit0
  intro n
  induction n with
  | zero =>
    intro a wc _ han hl _ hsame
    have e1 : List.range' a 0 = [] := rfl
    have ha : a = 9 := by omega
    rw [e1]
    refine ⟨rfl, ?_, hl, hsame⟩
    show ((a - 1 : Nat) : ℚ) * ((8 : ℚ) ^ h * c) = _
    rw [ha, pow_succ]
    push_cast
    ring
  | succ n ihn =>
    intro a wc ha1 han hl hrest hsame
    have ha8 : a ≤ 8 := by omega
    have hcb := child_offset_bounds o h a ha1 ha8
    have hcs := child_offset_succ o h a ha1
    have hsz := oct_tree_size_pos h
    have hlt : child_offset o h a < hi := by omega
    simp only [List.range', ieee.offset_children, offset_children]
    simp only [hlt, if_true]
    obtain ⟨hsim, hpair⟩ := ih (child_offset o h a) k wc (by omega) (by rw [hl]; omega)
      (fun l hl2 => by
        obtain ⟨b1, b2, b3⟩ := leaf_offsets_bounds h _ l hl2
        have hmem := mem_leaf_offsets_of_below _ _ _ (Below.step o h a _ _ ha1 ha8 b3)
        exact ⟨by rw [hsame]; exact (hleaf l hmem).1,
          by rw [hrest _ (by omega)]; exact (hleaf l hmem).2⟩)
      (fun o3 h3 hb => by
        rw [hsame]
        exact hinner o3 h3 (Below.step o h a _ _ ha1 ha8 hb))
    have hpair2 : (offset_accumulate h (child_offset o h a) (List.replicate k 0) hi wc).at
          (child_offset o h a * 2) +
        (offset_accumulate h (child_offset o h a) (List.replicate k 0) hi wc).at
          (child_offset o h a * 2 + 1) = (8 : ℚ) ^ h * c := by
      rw [Nat.mul_comm]; exact hpair
    have hnext : ((a - 1 : Nat) : ℚ) * ((8 : ℚ) ^ h * c) + (8 : ℚ) ^ h * c =
        ((a + 1 - 1 : Nat) : ℚ) * ((8 : ℚ) ^ h * c) := by
      rw [Nat.add_sub_cancel]
      obtain ⟨b, rfl⟩ : ∃ b, a = b + 1 := ⟨a - 1, by omega⟩
      rw [Nat.add_sub_cancel]
      push_cast
      ring
    have hfl : Ieee.add to_float
        (Ieee.real ((offset_accumulate h (child_offset o h a) (List.replicate k 0) hi wc).at
          (child_offset o h a * 2)))
        (Ieee.real ((offset_accumulate h (child_offset o h a) (List.replicate k 0) hi wc).at
          (child_offset o h a * 2 + 1))) = Ieee.real ((8 : ℚ) ^ h * c) := by
      show to_float _ = _
      rw [hpair2]
      exact hXf
    have hdb : Ieee.add to_double (Ieee.real (((a - 1 : Nat) : ℚ) * ((8 : ℚ) ^ h * c)))
        (Ieee.real ((8 : ℚ) ^ h * c)) =
          Ieee.real (((a + 1 - 1 : Nat) : ℚ) * ((8 : ℚ) ^ h * c)) := by
      show to_double _ = _
      rw [hnext]
      exact to_double_multiple _ hX hXf _ (lt_of_le_of_lt (by omega : a + 1 - 1 ≤ 8)
        (by norm_num))
    rw [hsim, ieee_at_of_rationals, ieee_at_of_rationals, hfl, hdb, hpair2, hnext]
    obtain ⟨hRl, hRf⟩ := offset_accumulate_inner hi h (child_offset o h a) (List.replicate k 0)
      wc (wf_digits_replicate k)
    have hframe : ∀ idx, (2 * child_offset o h (a + 1) ≤ idx ∨ idx % 2 = 0) →
        (offset_accumulate h (child_offset o h a) (List.replicate k 0) hi wc).at idx =
          wc.at idx := by
      intro idx hidx
      by_contra hne
      obtain ⟨o2, h2, hb, he⟩ := hRf idx hne
      have := hb.bounds
      have := oct_tree_size_pos (h2 + 1)
      omega
    exact ihn (a + 1) _ (by omega) (by omega) (by rw [hRl, hl])
      (fun idx hidx => by
        rw [hframe idx (Or.inl hidx)]
        exact hrest idx (by omega))
      (fun n2 => by
        rw [hframe (2 * n2) (Or.inr (by omega))]
        exact hsame n2)

/-- The accumulation over a whole subtree whose leaves carry the same own weight `c`, a
`float`, with `8^h * c` in the range of `float`: in IEEE arithmetic it leaves the array of the
accumulation with exact sums, and the position carries `8^h * c`. -/
theorem ieee_offset_accumulate_uniform (c : ℚ) (hc : 0 < c) (hf : to_float c = Ieee.real c)
    (hi : Nat) :
    ∀ (h o k : Nat) (w : Weights), o + oct_tree_size h ≤ hi →
      2 * (o + oct_tree_size h) ≤ w.length →
      (∀ l, l ∈ leaf_offsets h o → w.at (2 * l) = c ∧ w.at (2 * l + 1) = 0) →
      (∀ o2 h2, Below o h o2 (h2 + 1) → w.at (2 * o2) = 0) →
      (8 : ℚ) ^ h * c ≤ FLT_MAX →
      ieee.offset_accumulate h o (List.replicate k 0) hi (ieee.of_rationals w) =
        ieee.of_rationals (offset_accumulate h o (List.replicate k 0) hi w) ∧
      (offset_accumulate h o (List.replicate k 0) hi w).at (2 * o) +
          (offset_accumulate h o (List.replicate k 0) hi w).at (2 * o + 1) =
        (8 : ℚ) ^ h * c := by
  intro h
  induction h with
  | zero =>
    intro o k w _ _ hleaf _ _
    refine ⟨rfl, ?_⟩
    simp only [offset_accumulate]
    obtain ⟨h1, h2⟩ := hleaf o (by simp [leaf_offsets])
    rw [h1, h2]
    simp
  | succ h ih =>
    intro o k w hfull hlen hleaf hinner hfit
    have hfit0 : (8 : ℚ) ^ h * c ≤ FLT_MAX := by
      apply le_trans _ hfit
      rw [pow_succ]
      have : (0 : ℚ) < (8 : ℚ) ^ h * c := by positivity
      nlinarith
    have hloop := ieee_offset_children_uniform c hc hf hi h o w hfull hlen hleaf hinner hfit
      (fun o2 k2 w2 a b c2 d => ih o2 k2 w2 a b c2 d hfit0)
    rw [ieee.offset_accumulate, offset_accumulate]
    have hhead : (List.replicate k 0).headD 0 = 0 := by
      cases k <;> rfl
    have htail : (List.replicate k 0).tail = List.replicate (k - 1) 0 := by
      cases k <;> rfl
    simp only [hhead, ne_eq, not_true_eq_false, if_false, htail, Nat.zero_add, Nat.sub_zero]
    obtain ⟨hsim, hval, hrl, hrown⟩ := hloop (k - 1) 8 1 w (le_refl _) rfl rfl
      (fun _ _ => rfl) (fun _ => rfl)
    simp only [Nat.sub_self, Nat.cast_zero, zero_mul] at hsim hval hrl hrown
    rw [hsim, hval]
    have hXf := to_float_pow_eight c hc hf (h + 1) hfit
    have hcast : Ieee.cast_float (Ieee.real ((8 : ℚ) ^ (h + 1) * c)) =
        Ieee.real ((8 : ℚ) ^ (h + 1) * c) := hXf
    have hsz := oct_tree_size_pos (h + 1)
    rw [hcast, ieee_put_of_rationals]
    refine ⟨rfl, ?_⟩
    rw [Weights.at_put_ne _ _ _ _ (by omega), Weights.at_put_self _ _ _ (by omega), hrown,
      hinner o h (Below.refl _ _), zero_add]

/-! ## Two processes on equal leaf weights in IEEE arithmetic -/

/-- The loop `while ( i < j )` of `partition` in IEEE arithmetic, for the target ratio `1`,
when each of the eight children carries the same weight `X > 0` and the multiples of `X` up
to `8 * X` are `double`s: after `p` children were added to `w_lower` and `q` to `w_upper`,
with `q = p` or `q = p + 1`, the loop ends with `i = j = 4`, `w_lower = 3 * X` and
`w_upper = 4 * X`. -/
theorem ieee_balance_loop_uniform {MaxDepth : Nat} (key : OctTreeKey MaxDepth) (d1 depth : Nat)
    (weights : ieee.Weights) (X : ℚ) (hX : 0 < X)
    (hD : ∀ k : Nat, k ≤ 8 → to_double ((k : ℚ) * X) = Ieee.real ((k : ℚ) * X))
    (hV : ∀ i, 1 ≤ i → i ≤ 8 →
      Ieee.add to_float (weights.at (2 * oct_tree_offset depth (key.set_index d1 i)))
        (weights.at (2 * oct_tree_offset depth (key.set_index d1 i) + 1)) = Ieee.real X) :
    ∀ (n p q rounds : Nat), p + q + n = 7 → n ≤ rounds → (q = p ∨ q = p + 1) →
      ieee.balance_loop key d1 depth weights (Ieee.real 1) rounds
          ⟨1 + p, 8 - q, Ieee.real ((p : ℚ) * X), Ieee.real ((q : ℚ) * X)⟩ =
        some ⟨4, 4, Ieee.real (((3 : Nat) : ℚ) * X), Ieee.real (((4 : Nat) : ℚ) * X)⟩ := by
  intro n
  induction n with
  | zero =>
    intro p q rounds hpq _ hq
    have hp3 : p = 3 := by omega
    have hq4 : q = 4 := by omega
    subst hp3 hq4
    cases rounds with
    | zero => rw [ieee.balance_loop, if_neg (by show ¬ (1 + 3 < 8 - 4); omega)]
    | succ r => rw [ieee.balance_loop, if_neg (by show ¬ (1 + 3 < 8 - 4); omega)]
  | succ n ih =>
    intro p q rounds hpq hr hq
    obtain ⟨r, rfl⟩ : ∃ r, rounds = r + 1 := ⟨rounds - 1, by omega⟩
    have hij : 1 + p < 8 - q := by omega
    have hadd : ∀ k : Nat, k + 1 ≤ 8 →
        Ieee.add to_double (Ieee.real ((k : ℚ) * X)) (Ieee.real X) =
          Ieee.real (((k + 1 : Nat) : ℚ) * X) := by
      intro k hk
      show to_double _ = _
      have e : (k : ℚ) * X + X = ((k + 1 : Nat) : ℚ) * X := by push_cast; ring
      rw [e]
      exact hD (k + 1) hk
    have hmul : ∀ k : Nat, k ≤ 8 →
        Ieee.mul to_double (Ieee.real 1) (Ieee.real ((k : ℚ) * X)) =
          Ieee.real ((k : ℚ) * X) := by
      intro k hk
      show to_double _ = _
      rw [one_mul]
      exact hD k hk
    have hpos : Ieee.lt (Ieee.real 0) (Ieee.real X) = true := by
      show decide ((0 : ℚ) < X) = true
      exact decide_eq_true hX
    rw [ieee.balance_loop]
    simp only [hij, if_true, hV (1 + p) (by omega) (by omega), hV (8 - q) (by omega) (by omega),
      hpos, and_self, hadd p (by omega), hadd q (by omega), hmul (q + 1) (by omega)]
    rcases hq with hq | hq
    · -- `q = p`: the child at `j` goes to the upper sum
      have hlt : Ieee.lt (Ieee.real (((p + 1 : Nat) : ℚ) * X))
          (Ieee.real (((q + 1 : Nat) : ℚ) * X)) = false := by
        show decide (_ < _) = false
        rw [hq]
        exact decide_eq_false (lt_irrefl _)
      rw [hlt]
      simp only [Bool.false_eq_true, if_false]
      exact ih p (q + 1) r (by omega) (by omega) (Or.inr (by omega))
    · -- `q = p + 1`: the child at `i` goes to the lower sum
      have hlt : Ieee.lt (Ieee.real (((p + 1 : Nat) : ℚ) * X))
          (Ieee.real (((q + 1 : Nat) : ℚ) * X)) = true := by
        show decide (_ < _) = true
        apply decide_eq_true
        apply mul_lt_mul_of_pos_right _ hX
        exact_mod_cast (by omega : p + 1 < q + 1)
      rw [hlt]
      simp only [if_true]
      have := ih (p + 1) q r (by omega) (by omega) (Or.inl (by omega))
      rw [show 1 + (p + 1) = 1 + p + 1 from rfl] at this
      exact this

theorem ieee_within_tolerance_zero (tolerance : Ieee)
    (htol : Ieee.lt (Ieee.real 0) tolerance = true) :
    ieee.within_tolerance (Ieee.real 0) tolerance = true := by
  unfold ieee.within_tolerance
  rw [htol, Bool.and_true]
  cases tolerance with
  | real t =>
    have ht : (0 : ℚ) < t := of_decide_eq_true htol
    show decide (-t < 0) = true
    exact decide_eq_true (by linarith)
  | pos_inf => rfl
  | neg_inf => cases htol
  | nan => cases htol

/-- A call of `partition` at the root in IEEE arithmetic for the target ratio `1`, on the
whole tree, when each of the eight children of the root carries the same weight `X > 0` and
the multiples of `X` up to `8 * X` are `double`s: the split is accepted at the root, with
four children on each side. -/
theorem ieee_partition_uniform {MaxDepth : Nat} (depth : Nat) (hd1 : 1 ≤ depth)
    (rounds : Nat) (hr : 7 ≤ rounds) (fuel : Nat) (weights : ieee.Weights) (tolerance : Ieee)
    (htol : Ieee.lt (Ieee.real 0) tolerance = true) (X : ℚ) (hX : 0 < X)
    (hD : ∀ k : Nat, k ≤ 8 → to_double ((k : ℚ) * X) = Ieee.real ((k : ℚ) * X))
    (hfind : find_j (oct_tree_size depth) depth 1 (root MaxDepth) 8 = some 8)
    (hV : ∀ i, 1 ≤ i → i ≤ 8 →
      Ieee.add to_float
          (weights.at (2 * oct_tree_offset depth ((root MaxDepth).set_index 1 i)))
          (weights.at (2 * oct_tree_offset depth ((root MaxDepth).set_index 1 i) + 1)) =
        Ieee.real X) :
    ieee.partition rounds (fuel + 1) (root MaxDepth) (oct_tree_size depth) (root MaxDepth) depth
        weights tolerance (Ieee.real 1) (Ieee.real 0) (Ieee.real 0) =
      Outcome.ok ((root MaxDepth).set_index 1 5) := by
  have hloop := ieee_balance_loop_uniform (root MaxDepth) 1 depth weights X hX hD hV 7 0 0
    rounds rfl hr (Or.inl rfl)
  simp only [Nat.cast_zero, zero_mul, Nat.add_zero, Nat.sub_zero] at hloop
  have hsplit : oct_key_split (root MaxDepth) (4 + 1) = (root MaxDepth).set_index 1 5 := by
    unfold oct_key_split
    simp only [root_depth]
    rw [if_neg (by omega), if_neg (by omega)]
  have hshort : ¬ (oct_tree_size depth = 1 ∨
      oct_tree_size depth = oct_tree_offset depth (root MaxDepth)) := by
    obtain ⟨d, rfl⟩ : ∃ d, depth = d + 1 := ⟨depth - 1, by omega⟩
    have := oct_tree_size_succ d
    have := oct_tree_size_pos d
    rw [oct_tree_offset_root]
    omega
  have h4 : to_double ((4 : ℚ) * X) = Ieee.real ((4 : ℚ) * X) := by
    have := hD 4 (by norm_num)
    simpa using this
  have hle : Ieee.le (Ieee.real X) (Ieee.real 0) = false := by
    show decide (X ≤ 0) = false
    exact decide_eq_false (not_le.2 hX)
  have hmul : Ieee.mul to_double (Ieee.real (((4 : Nat) : ℚ) * X)) (Ieee.real 1) =
      Ieee.real ((4 : ℚ) * X) := by
    show to_double _ = _
    rw [mul_one]
    simpa using h4
  have hlt : Ieee.lt (Ieee.real (((3 : Nat) : ℚ) * X)) (Ieee.real ((4 : ℚ) * X)) = true := by
    show decide (_ < _) = true
    apply decide_eq_true
    push_cast
    linarith
  have hadd : Ieee.add to_double (Ieee.real (((3 : Nat) : ℚ) * X)) (Ieee.real X) =
      Ieee.real ((4 : ℚ) * X) := by
    show to_double _ = _
    have e : ((3 : Nat) : ℚ) * X + X = (4 : ℚ) * X := by push_cast; ring
    rw [e]
    exact h4
  have hdiv : Ieee.div to_double (Ieee.real ((4 : ℚ) * X)) (Ieee.real (((4 : Nat) : ℚ) * X)) =
      Ieee.real 1 := by
    have hne : ((4 : Nat) : ℚ) * X ≠ 0 := by positivity
    show (if ((4 : Nat) : ℚ) * X = 0 then _ else to_double _) = _
    rw [if_neg hne]
    have e : (4 : ℚ) * X / (((4 : Nat) : ℚ) * X) = ((1 : Nat) : ℚ) := by
      push_cast
      field_simp
    rw [e]
    simpa using to_double_nat 1 (by norm_num)
  have hsub : Ieee.sub to_double (Ieee.real 1) (Ieee.real 1) = Ieee.real 0 := by
    show to_double (1 + -1) = _
    norm_num
    exact to_double_zero
  rw [ieee.partition]
  simp only [hshort, if_false, root_depth, Nat.zero_add, hfind, ne_eq, not_true_eq_false,
    root_index]
  rw [if_neg (by omega : ¬ (0 = depth))]
  simp only [hloop, hV 4 (by norm_num) (by norm_num), hle, Bool.false_eq_true, if_false, hmul,
    hlt, if_true, hadd, hdiv, hsub, ieee_within_tolerance_zero tolerance htol, hsplit]

/-- C15, amended (partition balance): for every depth `d ≥ 1`, every weight `c > 0` that is a
`float` with `8^d * c ≤ FLT_MAX` (the sum of all leaves, the largest sum of the accumulation,
is in the range of `float`) and every tolerance `> 0`, if all `8^d` maximum-depth leaves
carry the own weight `c` and every other slot is zero, then in IEEE arithmetic
`oct_tree_partition_private(0, 2, d, tolerance, weights, 2, cuts)` with `cuts[0]` the root
returns with `cuts[1]` the key with the single digit `5`, which has `8^d / 2` leaves on each
side. -/
theorem oct_tree_partition_private_balanced {MaxDepth : Nat} (d : Nat) (hd : 1 ≤ d)
    (hm : d ≤ MaxDepth) (c : ℚ) (hc : 0 < c) (hfloat : to_float c = Ieee.real c)
    (hfit : (8 : ℚ) ^ d * c ≤ FLT_MAX)
    (tolerance : Ieee) (htol : Ieee.lt (Ieee.real 0) tolerance = true)
    (weights : Weights) (hlen : weights.length = 2 * oct_tree_size d)
    (hleaf : ∀ l, l ∈ leaf_offsets d 0 → weights.at (2 * l) = c)
    (hzero : ∀ idx, (∀ l, l ∈ leaf_offsets d 0 → idx ≠ 2 * l) → weights.at idx = 0)
    (cuts : List (OctTreeKey MaxDepth)) (hcl : cuts.length = 2)
    (h0 : cuts.getD 0 (root MaxDepth) = root MaxDepth) (rounds : Nat) (hr : 7 ≤ rounds)
    (fuel : Nat) :
    (leaf_offsets d 0).length = 8 ^ d ∧
    ∃ r, ieee.oct_tree_partition_private rounds (fuel + 1) 0 2 d tolerance
        (ieee.of_rationals weights) 2 cuts = Outcome.ok r ∧
      r.cuts = [root MaxDepth, (root MaxDepth).set_index 1 5] ∧
      ((leaf_offsets d 0).filter (fun l =>
        decide (l < oct_tree_offset d (r.cuts.getD 1 (root MaxDepth))))).length = 8 ^ d / 2 ∧
      ((leaf_offsets d 0).filter (fun l =>
        decide (oct_tree_offset d (r.cuts.getD 1 (root MaxDepth)) ≤ l))).length = 8 ^ d / 2 := by
  refine ⟨leaf_offsets_length d 0, ?_⟩
  have hw := leaf_weights_of_slots d weights hlen hzero
  obtain ⟨d', rfl⟩ : ∃ d', d = d' + 1 := ⟨d - 1, by omega⟩
  have hsz := oct_tree_size_succ d'
  have hsz' := oct_tree_size_pos d'
  have hX : (0 : ℚ) < (8 : ℚ) ^ (d' + 1 - 1) * c := mul_pos (by positivity) hc
  have hXfit : (8 : ℚ) ^ (d' + 1 - 1) * c ≤ FLT_MAX := by
    apply le_trans _ hfit
    rw [Nat.add_sub_cancel, pow_succ]
    have : (0 : ℚ) < (8 : ℚ) ^ d' * c := by positivity
    nlinarith
  have hXf := to_float_pow_eight c hc hfloat (d' + 1 - 1) hXfit
  have hoff8 := oct_tree_offset_octant (by omega : 1 ≤ MaxDepth) (d' + 1) hd 8 (by norm_num)
  -- the accumulation is exact
  have hacc : ieee.accumulate_weights (root MaxDepth) (root MaxDepth) (oct_tree_size (d' + 1))
      (d' + 1) (ieee.of_rationals weights) =
      ieee.of_rationals (accumulate_weights (root MaxDepth) (root MaxDepth)
        (oct_tree_size (d' + 1)) (d' + 1) weights) := by
    rw [ieee_accumulate_weights_eq (d' + 1) _ hm (root MaxDepth) (root_wf _),
      accumulate_weights_eq (d' + 1) _ hm (root MaxDepth) (root_wf _)]
    exact (ieee_offset_accumulate_uniform c hc hfloat (oct_tree_size (d' + 1)) (d' + 1) 0
      MaxDepth weights (by omega) (by omega)
      (fun l hl => ⟨hleaf l hl, hw.2.2 l (leaf_offsets_bounds _ _ l hl).2.2⟩)
      (fun o2 h2 hb => hw.2.1 o2 h2 hb) hfit).1
  have hpart := ieee_partition_uniform (d' + 1) hd rounds hr (d' + 1)
    (ieee.of_rationals (accumulate_weights (root MaxDepth) (root MaxDepth)
      (oct_tree_size (d' + 1)) (d' + 1) weights))
    tolerance htol _ hX
    (fun k hk => to_double_multiple _ hX hXf k (lt_of_le_of_lt hk (by norm_num)))
    (find_j_eq _ _ _ _ 8 (by
        rw [hoff8, Nat.add_sub_cancel]; unfold child_offset; omega) 8 (le_refl _)
      (fun j h1 h2 => by omega))
    (fun i h1 h8 => by
      rw [ieee_at_of_rationals, ieee_at_of_rationals]
      show to_float _ = _
      rw [accumulate_uniform_children (d' + 1) hd hm weights c hw hleaf i h1 h8]
      exact hXf)
  have hratio : Ieee.div to_double
      (Ieee.div to_double (Ieee.real ((((2 + 0) / 2 - 0 : Nat)) : ℚ))
        (Ieee.real (((2 - 0 : Nat)) : ℚ)))
      (Ieee.sub to_double (Ieee.real 1)
        (Ieee.div to_double (Ieee.real ((((2 + 0) / 2 - 0 : Nat)) : ℚ))
          (Ieee.real (((2 - 0 : Nat)) : ℚ)))) = Ieee.real 1 := by
    decide!
  obtain ⟨c0, c1, rfl⟩ : ∃ c0 c1, cuts = [c0, c1] := by
    match cuts, hcl with
    | [a, b], _ => exact ⟨a, b, rfl⟩
  simp only [List.getD_cons_zero] at h0
  subst h0
  refine ⟨⟨ieee.of_rationals (accumulate_weights (root MaxDepth) (root MaxDepth)
    (oct_tree_size (d' + 1)) (d' + 1) weights),
    [root MaxDepth, (root MaxDepth).set_index 1 5]⟩, ?_, rfl, ?_⟩
  · rw [ieee.oct_tree_partition_private]
    simp only [List.getD_cons_zero, Nat.lt_irrefl, if_false, hratio, hacc, hpart]
    rfl
  · simp only [List.getD_cons_succ, List.getD_cons_zero]
    have e5 := oct_tree_offset_octant (by omega : 1 ≤ MaxDepth) (d' + 1) hd 5 (by norm_num)
    rw [Nat.add_sub_cancel] at e5
    simp only [e5]
    have h2 : 8 ^ (d' + 1) / 2 = 4 * 8 ^ d' := by
      rw [pow_succ]; omega
    rw [h2]
    exact leaf_offsets_halves d'

/-- The hypotheses of the amended C15 hold on the tree of depth `1` with the own weight `3`
on its eight leaves and the tolerance `0.001`: in IEEE arithmetic the cut of two processes is
the key `(5)`, with four leaves on each side. -/
theorem oct_tree_partition_private_balanced_witness :
    1 ≤ 1 ∧ 1 ≤ 2 ∧ (0 : ℚ) < 3 ∧ to_float 3 = Ieee.real 3 ∧ (8 : ℚ) ^ 1 * 3 ≤ FLT_MAX ∧
    Ieee.lt (Ieee.real 0) (to_double (1 / 1000)) = true ∧
    (octant_weights 3).length = 2 * oct_tree_size 1 ∧ 7 ≤ 7 ∧
    ∃ r, ieee.oct_tree_partition_private 7 1 0 2 1 (to_double (1 / 1000))
        (ieee.of_rationals (octant_weights 3)) 2 [root 2, root 2] = Outcome.ok r ∧
      r.cuts = [root 2, (root 2).set_index 1 5] ∧
      ((leaf_offsets 1 0).filter (fun l =>
        decide (l < oct_tree_offset 1 (r.cuts.getD 1 (root 2))))).length = 8 ^ 1 / 2 ∧
      ((leaf_offsets 1 0).filter (fun l =>
        decide (oct_tree_offset 1 (r.cuts.getD 1 (root 2)) ≤ l))).length = 8 ^ 1 / 2 :=
  ⟨le_refl _, by decide, by norm_num, by decide!, by decide!, by decide!, rfl, le_refl _,
    (oct_tree_partition_private_balanced 1 (le_refl _) (by decide) 3 (by norm_num) (by decide!)
      (by decide!) (to_double (1 / 1000)) (by decide!) (octant_weights 3) rfl
      (octant_weights_leaf 3) (octant_weights_zero 3) [root 2, root 2] rfl rfl 7 (le_refl _)
      0).2⟩

/-! ## The key search in IEEE arithmetic and the way it ends -/

/-- The key of `ieee.partition_end` is the key of `ieee.partition`. -/
theorem ieee_partition_end_key {MaxDepth : Nat} (rounds depth : Nat) (i_end : Nat)
    (weights : ieee.Weights) (tolerance target_ratio : Ieee) :
    ∀ (fuel : Nat) (k_first key : OctTreeKey MaxDepth) (w_lower w_upper : Ieee),
      ieee.partition rounds fuel k_first i_end key depth weights tolerance target_ratio
          w_lower w_upper =
        match ieee.partition_end rounds fuel k_first i_end key depth weights tolerance
            target_ratio w_lower w_upper with
        | Outcome.ok p => Outcome.ok p.1
        | Outcome.raised => Outcome.raised
        | Outcome.no_fuel => Outcome.no_fuel := by
  intro fuel
  induction fuel with
  | zero => intro _ _ _ _; rfl
  | succ fuel ih =>
    intro k_first key w_lower w_upper
    rw [ieee.partition, ieee.partition_end]
    simp only []
    by_cases h1 : i_end = 1 ∨ i_end = oct_tree_offset depth k_first
    · rw [if_pos h1, if_pos h1]
    rw [if_neg h1, if_neg h1]
    cases hj : find_j i_end depth (key.depth + 1) key 8 with
    | none => rfl
    | some j =>
      simp only []
      by_cases hdep : key.depth = depth
      · rw [if_pos hdep, if_pos hdep]
        split <;> rfl
      · rw [if_neg hdep, if_neg hdep]
        generalize ieee.balance_loop key (key.depth + 1) depth weights target_ratio _ _ = ost
        cases ost with
        | none => rfl
        | some st =>
          simp only []
          by_cases hv : Ieee.le (Ieee.add to_float
              (weights.at (2 * oct_tree_offset depth (key.set_index (key.depth + 1) st.i)))
              (weights.at (2 * oct_tree_offset depth (key.set_index (key.depth + 1) st.i) + 1)))
              (Ieee.real 0) = true
          · rw [if_pos hv, if_pos hv]
          · rw [if_neg hv, if_neg hv]
            by_cases hc : Ieee.lt st.w_lower (Ieee.mul to_double st.w_upper target_ratio) = true
            · simp only [hc, if_true]
              generalize ieee.within_tolerance _ tolerance = b
              cases b
              · simp only [Bool.false_eq_true, if_false]
                exact ih _ _ _ _
              · simp only [if_true]
            · simp only [hc, if_false]
              generalize ieee.within_tolerance _ tolerance = b
              cases b
              · simp only [Bool.false_eq_true, if_false]
                exact ih _ _ _ _
              · simp only [if_true]

/-- The key search in IEEE arithmetic ends at a node of the maximum depth without the
tolerance test. -/
theorem ieee_partition_end_leaf {MaxDepth : Nat} (rounds fuel : Nat)
    (k_first : OctTreeKey MaxDepth) (i_end : Nat) (key : OctTreeKey MaxDepth) (depth : Nat)
    (weights : ieee.Weights) (tolerance target_ratio w_lower w_upper : Ieee)
    (hd : key.depth = depth) (k : OctTreeKey MaxDepth) :
    ieee.partition_end rounds fuel k_first i_end key depth weights tolerance target_ratio
      w_lower w_upper ≠ Outcome.ok (k, SearchEnd.split) := by
  cases fuel with
  | zero => simp [ieee.partition_end]
  | succ n =>
    rw [ieee.partition_end]
    simp only []
    by_cases hs : i_end = 1 ∨ i_end = oct_tree_offset depth k_first
    · rw [if_pos hs]
      simp
    · rw [if_neg hs]
      cases hj : find_j i_end depth (key.depth + 1) key 8 with
      | none => simp
      | some j =>
        simp only [hd, if_true]
        by_cases hc : k_first = key ∧ oct_tree_offset depth key + 1 ≠ oct_tree_size depth
        · rw [if_pos hc]
          simp
        · rw [if_neg hc]
          simp

/-! ## The child loop of the key search in IEEE arithmetic, with exact sums -/

theorem ieee_lt_real (a b : ℚ) : (Ieee.lt (Ieee.real a) (Ieee.real b) = true) = (a < b) := by
  show (decide (a < b) = true) = _
  simp

theorem ieee_le_real (a b : ℚ) : (Ieee.le (Ieee.real a) (Ieee.real b) = true) = (a ≤ b) := by
  show (decide (a ≤ b) = true) = _
  simp

theorem ieee_balance_loop_done {MaxDepth : Nat} (key : OctTreeKey MaxDepth) (d1 depth : Nat)
    (weights : ieee.Weights) (target_ratio : Ieee) (rounds : Nat) (st : ieee.SplitState)
    (h : ¬ st.i < st.j) :
    ieee.balance_loop key d1 depth weights target_ratio rounds st = some st := by
  cases rounds with
  | zero => rw [ieee.balance_loop, if_neg h]
  | succ n => rw [ieee.balance_loop]; simp only [h, if_false]

/-- The loop `while ( i < j )` of `partition` in IEEE arithmetic when the weight `V c` of the
child `c` is the increase `G (c + 1) - G c` of a lower sum and the decrease `H c - H (c + 1)`
of an upper sum, and these sums are `double`s: whatever the comparisons give, `w_lower` stays
`G i` and `w_upper` stays `H (j + 1)`, and the loop ends with `i = j`, or one past it at a
child without weight. -/
theorem ieee_balance_loop_sums {MaxDepth : Nat} (key : OctTreeKey MaxDepth) (d1 depth : Nat)
    (weights : ieee.Weights) (target_ratio : Ieee) (V G H : Nat → ℚ) (i0 j0 : Nat)
    (hVdef : ∀ c, i0 ≤ c → c ≤ j0 →
      Ieee.add to_float (weights.at (2 * oct_tree_offset depth (key.set_index d1 c)))
        (weights.at (2 * oct_tree_offset depth (key.set_index d1 c) + 1)) = Ieee.real (V c))
    (hG : ∀ c, i0 ≤ c → c ≤ j0 → V c = G (c + 1) - G c)
    (hH : ∀ c, i0 ≤ c → c ≤ j0 → V c = H c - H (c + 1))
    (hV : ∀ c, i0 ≤ c → c ≤ j0 → 0 ≤ V c)
    (hGd : ∀ c, to_double (G c) = Ieee.real (G c))
    (hHd : ∀ c, to_double (H c) = Ieee.real (H c)) :
    ∀ (rounds : Nat) (st : ieee.SplitState), i0 ≤ st.i → st.i ≤ st.j → st.j ≤ j0 →
      st.w_lower = Ieee.real (G st.i) → st.w_upper = Ieee.real (H (st.j + 1)) →
      ∀ st2, ieee.balance_loop key d1 depth weights target_ratio rounds st = some st2 →
        i0 ≤ st2.i ∧ st2.i ≤ j0 ∧ st2.w_lower = Ieee.real (G st2.i) ∧
        st2.w_upper = Ieee.real (H (st2.j + 1)) ∧
        (st2.i = st2.j ∨ (st2.i = st2.j + 1 ∧ V st2.i ≤ 0)) := by
  intro rounds
  induction rounds with
  | zero =>
    intro st h1 h2 h3 h4 h5 st2 hres
    rw [ieee.balance_loop] at hres
    split at hres
    · cases hres
    · simp only [Option.some.injEq] at hres
      subst hres
      exact ⟨h1, by omega, h4, h5, Or.inl (by omega)⟩
  | succ n ih =>
    intro st h1 h2 h3 h4 h5 st2 hres
    by_cases hij : st.i < st.j
    · have hGi := hG st.i h1 (by omega)
      have hHj := hH st.j (by omega) h3
      have hj1 : st.j - 1 + 1 = st.j := by omega
      have hlow : Ieee.add to_double (Ieee.real (G st.i)) (Ieee.real (V st.i)) =
          Ieee.real (G (st.i + 1)) := by
        show to_double _ = _
        rw [show G st.i + V st.i = G (st.i + 1) by rw [hGi]; ring]
        exact hGd _
      have hupp : Ieee.add to_double (Ieee.real (H (st.j + 1))) (Ieee.real (V st.j)) =
          Ieee.real (H st.j) := by
        show to_double _ = _
        rw [show H (st.j + 1) + V st.j = H st.j by rw [hHj]; ring]
        exact hHd _
      rw [ieee.balance_loop] at hres
      simp only [hij, if_true, hVdef st.i h1 (by omega), hVdef st.j (by omega) h3, h4, h5,
        ieee_lt_real, ieee_le_real, hlow, hupp] at hres
      by_cases hpos : 0 < V st.i ∧ 0 < V st.j
      · rw [if_pos hpos] at hres
        split at hres
        · exact ih ⟨st.i + 1, st.j, Ieee.real (G (st.i + 1)), Ieee.real (H (st.j + 1))⟩
            (by show i0 ≤ st.i + 1; omega) (by show st.i + 1 ≤ st.j; omega) h3 rfl rfl st2 hres
        · exact ih ⟨st.i, st.j - 1, Ieee.real (G st.i), Ieee.real (H st.j)⟩ h1
            (by show st.i ≤ st.j - 1; omega) (by show st.j - 1 ≤ j0; omega) rfl
            (by show Ieee.real (H st.j) = Ieee.real (H (st.j - 1 + 1)); rw [hj1]) st2 hres
      · rw [if_neg hpos] at hres
        by_cases hvi : V st.i ≤ 0
        · have hi0 : V st.i = 0 := le_antisymm hvi (hV st.i h1 (by omega))
          have hG1 : G (st.i + 1) = G st.i := by linarith
          by_cases hvj : V st.j ≤ 0
          · have hj0 : V st.j = 0 := le_antisymm hvj (hV st.j (by omega) h3)
            have hH1 : H st.j = H (st.j + 1) := by linarith
            simp only [hvi, hvj, if_true] at hres
            by_cases hlast : st.i + 1 = st.j
            · rw [ieee_balance_loop_done key d1 depth weights target_ratio n
                ⟨st.i + 1, st.j - 1, Ieee.real (G st.i), Ieee.real (H (st.j + 1))⟩
                (by show ¬ (st.i + 1 < st.j - 1); omega)] at hres
              simp only [Option.some.injEq] at hres
              subst hres
              simp only []
              refine ⟨by omega, by omega, by rw [hG1], by rw [hj1, hH1],
                Or.inr ⟨by omega, ?_⟩⟩
              rw [hlast]
              exact hvj
            · exact ih ⟨st.i + 1, st.j - 1, Ieee.real (G st.i), Ieee.real (H (st.j + 1))⟩
                (by show i0 ≤ st.i + 1; omega) (by show st.i + 1 ≤ st.j - 1; omega)
                (by show st.j - 1 ≤ j0; omega)
                (by show Ieee.real (G st.i) = Ieee.real (G (st.i + 1)); rw [hG1])
                (by show Ieee.real (H (st.j + 1)) = Ieee.real (H (st.j - 1 + 1)); rw [hj1, hH1])
                st2 hres
          · simp only [hvi, hvj, if_true, if_false] at hres
            exact ih ⟨st.i + 1, st.j, Ieee.real (G st.i), Ieee.real (H (st.j + 1))⟩
              (by show i0 ≤ st.i + 1; omega) (by show st.i + 1 ≤ st.j; omega) h3
              (by show Ieee.real (G st.i) = Ieee.real (G (st.i + 1)); rw [hG1]) rfl st2 hres
        · have hvj : V st.j ≤ 0 := by
            by_contra hc
            exact hpos ⟨not_le.1 hvi, not_le.1 hc⟩
          have hj0 : V st.j = 0 := le_antisymm hvj (hV st.j (by omega) h3)
          have hH1 : H st.j = H (st.j + 1) := by linarith
          simp only [hvi, hvj, if_true, if_false] at hres
          exact ih ⟨st.i, st.j - 1, Ieee.real (G st.i), Ieee.real (H (st.j + 1))⟩ h1
            (by show st.i ≤ st.j - 1; omega) (by show st.j - 1 ≤ j0; omega) rfl
            (by show Ieee.real (H (st.j + 1)) = Ieee.real (H (st.j - 1 + 1)); rw [hj1, hH1])
            st2 hres
    · rw [ieee_balance_loop_done _ _ _ _ _ _ _ hij] at hres
      simp only [Option.some.injEq] at hres
      subst hres
      exact ⟨h1, by omega, h4, h5, Or.inl (by omega)⟩

/-! ## The tolerance test of the key search in IEEE arithmetic -/

/-- With a zero divisor the quotient is an infinity or "not a number", and the tolerance test
fails. -/
theorem ieee_within_tolerance_zero_divisor (num : ℚ) (hnum : 0 ≤ num)
    (target_ratio tolerance : Ieee) :
    ieee.within_tolerance (Ieee.sub to_double
      (Ieee.div to_double (Ieee.real num) (Ieee.real 0)) target_ratio) tolerance = false := by
  have hform : Ieee.div to_double (Ieee.real num) (Ieee.real 0) =
      (if 0 < num then Ieee.pos_inf else if num < 0 then Ieee.neg_inf else Ieee.nan) := by
    show (if (0 : ℚ) = 0 then (if 0 < num then Ieee.pos_inf else if num < 0 then Ieee.neg_inf
      else Ieee.nan) else to_double (num / 0)) = _
    rw [if_pos rfl]
  have hd : Ieee.div to_double (Ieee.real num) (Ieee.real 0) = Ieee.pos_inf ∨
      Ieee.div to_double (Ieee.real num) (Ieee.real 0) = Ieee.nan := by
    rw [hform]
    by_cases h : 0 < num
    · left; rw [if_pos h]
    · right; rw [if_neg h, if_neg (not_lt.2 hnum)]
  rcases hd with hd | hd <;> rw [hd] <;> cases target_ratio <;> cases tolerance <;> rfl

theorem ieee_within_tolerance_den (num den : ℚ) (hnum : 0 ≤ num)
    (target_ratio tolerance : Ieee)
    (h : ieee.within_tolerance (Ieee.sub to_double
      (Ieee.div to_double (Ieee.real num) (Ieee.real den)) target_ratio) tolerance = true) :
    den ≠ 0 := by
  intro h0
  rw [h0, ieee_within_tolerance_zero_divisor num hnum] at h
  cases h

theorem ieee_div_zero_real (d : ℚ) (hd : d ≠ 0) :
    Ieee.div to_double (Ieee.real 0) (Ieee.real d) = Ieee.real 0 := by
  show (if d = 0 then _ else to_double (0 / d)) = _
  rw [if_neg hd, zero_div]
  exact to_double_zero

/-- The quotient the tolerance test of `partition` accepts in IEEE arithmetic is the quotient,
taken in `double`, of the weights below and from the returned key: `x` is the offset of the
key, `x2` the offset up to which the children were counted as lower, and the nodes between
the two have no own weight. -/
theorem ieee_ratio_of_cut (w : Weights) (hnn : ∀ o, 0 ≤ w.at (2 * o)) (lo hi x x2 : Nat)
    (hx : x ≤ x2) (hz : ∀ t, x ≤ t → t < x2 → w.at (2 * t) = 0) (num den : ℚ)
    (hnum : num = node_weight_sum w lo (min hi x2))
    (hden : den = node_weight_sum w (max lo x2) hi) (tolerance target_ratio : Ieee)
    (hacc : ieee.within_tolerance (Ieee.sub to_double
      (Ieee.div to_double (Ieee.real num) (Ieee.real den)) target_ratio) tolerance = true) :
    node_weight_sum w x hi ≠ 0 ∧
      ieee.within_tolerance (Ieee.sub to_double
        (Ieee.div to_double (Ieee.real (node_weight_sum w lo x))
          (Ieee.real (node_weight_sum w x hi))) target_ratio) tolerance = true := by
  have hnum0 : 0 ≤ num := hnum ▸ node_weight_sum_nonneg w hnn _ _
  have hne : den ≠ 0 := ieee_within_tolerance_den num den hnum0 target_ratio tolerance hacc
  have hlt : max lo x2 < hi := by
    by_contra hc
    exact hne (hden.trans (node_weight_sum_empty w _ _ (by omega)))
  rw [show min hi x2 = x2 by omega] at hnum
  have hzero : node_weight_sum w x x2 = 0 := node_weight_sum_zero w x x2 hz
  by_cases hlo : lo ≤ x
  · have e1 : node_weight_sum w lo x = num := by
      rw [hnum, node_weight_sum_add w lo x x2 hlo hx, hzero, add_zero]
    have e2 : node_weight_sum w x hi = den := by
      rw [hden, node_weight_sum_add w x x2 hi hx (by omega), hzero, zero_add,
        show max lo x2 = x2 by omega]
    rw [e1, e2]
    exact ⟨hne, hacc⟩
  · have e1 : node_weight_sum w lo x = 0 := node_weight_sum_empty w lo x (by omega)
    have e0 : num = 0 := by
      rw [hnum]
      by_cases h2 : x2 ≤ lo
      · exact node_weight_sum_empty w lo x2 h2
      · exact node_weight_sum_zero w lo x2 (fun t h1 h2 => hz t (by omega) h2)
    have hpos : 0 < den := lt_of_le_of_ne (hden ▸ node_weight_sum_nonneg w hnn _ _)
      (Ne.symm hne)
    have e2 : den ≤ node_weight_sum w x hi := by
      rw [node_weight_sum_add w x (max lo x2) hi (by omega) (by omega), ← hden]
      have := node_weight_sum_nonneg w hnn x (max lo x2)
      linarith
    have hne2 : node_weight_sum w x hi ≠ 0 := by
      intro h0; rw [h0] at e2; linarith
    refine ⟨hne2, ?_⟩
    rw [e1, ieee_div_zero_real _ hne2]
    rw [e0, ieee_div_zero_real _ hne] at hacc
    exact hacc

/-- A key the search accepts by its tolerance test in IEEE arithmetic, when the own weights
are whole numbers with every sum below `2^24` (so that every sum of the run is exact): the
quotient of the weight below the key and the weight from it, taken in `double`, differs
from the target ratio by less than the tolerance, the difference taken in `double`.  `w`
holds the weights before the accumulation over `[lo, hi)`, `W1` the weights after it. -/
theorem ieee_partition_end_split {MaxDepth : Nat} (depth : Nat) (hm : depth ≤ MaxDepth)
    (w : Weights) (hw : LeafWeights depth w) (hnn : ∀ o, 0 ≤ w.at (2 * o))
    (hex : ∀ a b, b ≤ oct_tree_size depth →
      ∃ t : Nat, node_weight_sum w a b = t ∧ t < 2 ^ 24)
    (lo hi : Nat) (hlo : lo < hi) (hhi : hi ≤ oct_tree_size depth) (W1 : Weights)
    (hown : ∀ o, W1.at (2 * o) = w.at (2 * o))
    (hacc : ∀ h o, Below 0 depth o h → Meets o (oct_tree_size h) lo hi →
      W1.at (2 * o) + W1.at (2 * o + 1) =
        node_weight_sum w (max lo o) (min hi (o + oct_tree_size h)))
    (tolerance target_ratio : Ieee) (rounds : Nat) :
    ∀ (fuel : Nat) (key k_first : OctTreeKey MaxDepth) (w_lower w_upper : ℚ) (h : Nat),
      key.WellFormed → key.depth + (h + 1) = depth → oct_tree_offset depth key + 1 < hi →
      FirstKeyAt k_first key.depth lo (oct_tree_offset depth key) h →
      w_lower = node_weight_sum w lo (min hi (oct_tree_offset depth key)) →
      w_upper =
        node_weight_sum w (max lo (oct_tree_offset depth key + oct_tree_size (h + 1))) hi →
      ∀ k, ieee.partition_end rounds fuel k_first hi key depth (ieee.of_rationals W1) tolerance
          target_ratio (Ieee.real w_lower) (Ieee.real w_upper) =
          Outcome.ok (k, SearchEnd.split) →
        node_weight_sum w (oct_tree_offset depth k) hi ≠ 0 ∧
        ieee.within_tolerance (Ieee.sub to_double (Ieee.div to_double
            (Ieee.real (node_weight_sum w lo (oct_tree_offset depth k)))
            (Ieee.real (node_weight_sum w (oct_tree_offset depth k) hi)))
          target_ratio) tolerance = true := by
  have hfl : ∀ a b, b ≤ oct_tree_size depth →
      to_float (node_weight_sum w a b) = Ieee.real (node_weight_sum w a b) := by
    intro a b hb
    obtain ⟨t, ht, ht24⟩ := hex a b hb
    rw [ht]
    exact to_float_nat t ht24
  have hdb : ∀ a b, b ≤ oct_tree_size depth →
      to_double (node_weight_sum w a b) = Ieee.real (node_weight_sum w a b) := by
    intro a b hb
    obtain ⟨t, ht, ht24⟩ := hex a b hb
    rw [ht]
    exact to_double_nat t (lt_trans ht24 (by norm_num))
  intro fuel
  induction fuel with
  | zero =>
    intro key k_first w_lower w_upper h _ _ _ _ _ _ k hres
    simp [ieee.partition_end] at hres
  | succ fuel ih =>
    intro key k_first w_lower w_upper h hk hd ho hf hwl hwu k hres
    rw [ieee.partition_end] at hres
    simp only [] at hres
    by_cases hs : hi = 1 ∨ hi = oct_tree_offset depth k_first
    · rw [if_pos hs] at hres
      simp at hres
    rw [if_neg hs] at hres
    cases hj : find_j hi depth (key.depth + 1) key 8 with
    | none =>
      rw [hj] at hres
      simp at hres
    | some j0 =>
      rw [hj] at hres
      simp only [] at hres
      rw [if_neg (by omega : ¬ key.depth = depth)] at hres
      obtain ⟨o, ho_def⟩ : ∃ o, oct_tree_offset depth key = o := ⟨_, rfl⟩
      rw [ho_def] at hres ho hf hwl hwu
      have hbelow : Below 0 depth o (h + 1) := by
        have := below_of_key depth key hk (by omega)
        rw [ho_def, show depth - key.depth = h + 1 by omega] at this
        exact this
      have hchild : ∀ c, 1 ≤ c →
          oct_tree_offset depth (key.set_index (key.depth + 1) c) = child_offset o h c := by
        intro c hc
        rw [oct_tree_offset_child depth key hk (by omega) (by omega) c hc, ho_def,
          show depth - key.depth - 1 = h by omega]
        rfl
      have hmono := child_offset_mono o h
      have hsz := oct_tree_size_pos h
      have hown0 : W1.at (o * 2) = 0 := by
        rw [Nat.mul_comm, hown]
        exact hw.2.1 o h hbelow
      have e1 : (if key ≠ root MaxDepth then
          Ieee.add to_double (Ieee.real w_lower) ((ieee.of_rationals W1).at (o * 2))
          else Ieee.real w_lower) = Ieee.real w_lower := by
        rw [ieee_at_of_rationals, hown0]
        split
        · show to_double (w_lower + 0) = _
          rw [add_zero, hwl]
          exact hdb _ _ (by omega)
        · rfl
      have e2 : (if key ≠ root MaxDepth then
          Ieee.add to_double (Ieee.real w_upper) ((ieee.of_rationals W1).at (o * 2))
          else Ieee.real w_upper) = Ieee.real w_upper := by
        rw [ieee_at_of_rationals, hown0]
        split
        · show to_double (w_upper + 0) = _
          rw [add_zero, hwu]
          exact hdb _ _ hhi
        · rfl
      rw [e1, e2] at hres
      have hA := first_key_child k_first key.depth lo hi o h hf hlo ho
      obtain ⟨i0, hi0⟩ : ∃ i0,
          (if k_first.index (key.depth + 1) ≠ 0 then k_first.index (key.depth + 1) else 1) = i0 :=
        ⟨_, rfl⟩
      rw [hi0] at hres hA
      obtain ⟨hi1, hi8, hci0, hlo1, hcase⟩ := hA
      obtain ⟨hj8, hjlt, hjmax⟩ := find_j_spec hi depth (key.depth + 1) key 8 j0 hj
      have hij : i0 ≤ j0 := by
        by_contra hc
        have := hjmax i0 (by omega) hi8
        rw [hchild i0 hi1] at this
        omega
      have hcj : child_offset o h j0 < hi := by
        rw [hchild j0 (by omega)] at hjlt
        omega
      have hVeq : ∀ c, i0 ≤ c → c ≤ j0 →
          W1.at (2 * child_offset o h c) + W1.at (2 * child_offset o h c + 1) =
            node_weight_sum w (max lo (child_offset o h c))
              (min hi (child_offset o h (c + 1))) := by
        intro c h1 h2
        rw [child_offset_succ o h c (by omega)]
        apply hacc h _ (hbelow.child c (by omega) (by omega))
        have := hmono c j0 h2
        have := hmono (i0 + 1) (c + 1) (by omega)
        rw [child_offset_succ o h c (by omega)] at this
        unfold Meets
        omega
      have hwl2 : w_lower = node_weight_sum w lo (min hi (child_offset o h i0)) := by
        rcases hcase with hle | ⟨hle, h01⟩
        · have := (child_offset_bounds o h i0 hi1 hi8).1
          rw [hwl, node_weight_sum_empty w lo _ (by omega),
            node_weight_sum_empty w lo _ (by omega)]
        · rw [h01, child_offset_one, hwl, show min hi (o + 1) = o + 1 by omega,
            show min hi o = o by omega, node_weight_sum_add w lo o (o + 1) hle (by omega),
            node_weight_sum_single, hw.2.1 o h hbelow, add_zero]
      have hwu2 : w_upper = node_weight_sum w (max lo (child_offset o h (j0 + 1))) hi := by
        by_cases h8 : j0 = 8
        · rw [h8, show 8 + 1 = 9 by rfl, child_offset_nine]
          exact hwu
        · have h1 := hjmax (j0 + 1) (by omega) (by omega)
          rw [hchild (j0 + 1) (by omega)] at h1
          have h2 := hmono (j0 + 1) 9 (by omega)
          rw [child_offset_nine] at h2
          rw [hwu, node_weight_sum_empty w _ hi (by omega),
            node_weight_sum_empty w _ hi (by omega)]
      have hpair : ∀ c, i0 ≤ c → c ≤ j0 →
          Ieee.add to_float
            ((ieee.of_rationals W1).at
              (2 * oct_tree_offset depth (key.set_index (key.depth + 1) c)))
            ((ieee.of_rationals W1).at
              (2 * oct_tree_offset depth (key.set_index (key.depth + 1) c) + 1)) =
          Ieee.real (node_weight_sum w (max lo (child_offset o h c))
            (min hi (child_offset o h (c + 1)))) := by
        intro c h1 h2
        rw [ieee_at_of_rationals, ieee_at_of_rationals, hchild c (by omega)]
        show to_float _ = _
        rw [hVeq c h1 h2]
        exact hfl _ _ (by omega)
      cases hbl : ieee.balance_loop key (key.depth + 1) depth (ieee.of_rationals W1)
          target_ratio rounds ⟨i0, j0, Ieee.real w_lower, Ieee.real w_upper⟩ with
      | none =>
        rw [hbl] at hres
        cases hres
      | some st =>
        rw [hbl] at hres
        simp only [] at hres
        have hloop := ieee_balance_loop_sums key (key.depth + 1) depth (ieee.of_rationals W1)
          target_ratio
          (fun c => node_weight_sum w (max lo (child_offset o h c))
            (min hi (child_offset o h (c + 1))))
          (fun c => node_weight_sum w lo (min hi (child_offset o h c)))
          (fun c => node_weight_sum w (max lo (child_offset o h c)) hi) i0 j0 hpair
          (by
            intro c h1 h2
            simp only []
            rw [node_weight_sum_lower w lo hi _ _ (hmono c (c + 1) (by omega))]
            ring)
          (by
            intro c h1 h2
            simp only []
            rw [node_weight_sum_upper w lo hi _ _ (hmono c (c + 1) (by omega))]
            ring)
          (by
            intro c h1 h2
            exact node_weight_sum_nonneg w hnn _ _)
          (fun c => hdb _ _ (by omega))
          (fun c => hdb _ _ hhi)
          rounds ⟨i0, j0, Ieee.real w_lower, Ieee.real w_upper⟩ (le_refl _) hij (le_refl _)
          (by rw [hwl2]) (by rw [hwu2]) st hbl
        obtain ⟨hsi0, hsj0, hswl, hswu, hend⟩ := hloop
        simp only [] at hswl hswu hend
        have hVi := hpair st.i hsi0 hsj0
        simp only [hVi, ieee_le_real] at hres
        by_cases hv : node_weight_sum w (max lo (child_offset o h st.i))
            (min hi (child_offset o h (st.i + 1))) ≤ 0
        · rw [if_pos hv] at hres
          simp at hres
        rw [if_neg hv] at hres
        have hieq : st.j = st.i := by
          rcases hend with e | ⟨_, e⟩
          · exact e.symm
          · exact absurd e hv
        rw [hieq] at hswu
        have hnum1 : Ieee.add to_double
            (Ieee.real (node_weight_sum w lo (min hi (child_offset o h st.i))))
            (Ieee.real (node_weight_sum w (max lo (child_offset o h st.i))
              (min hi (child_offset o h (st.i + 1))))) =
            Ieee.real (node_weight_sum w lo (min hi (child_offset o h (st.i + 1)))) := by
          show to_double _ = _
          rw [← node_weight_sum_lower w lo hi _ _ (hmono st.i (st.i + 1) (by omega))]
          exact hdb _ _ (by omega)
        have hden2 : Ieee.add to_double
            (Ieee.real (node_weight_sum w (max lo (child_offset o h (st.i + 1))) hi))
            (Ieee.real (node_weight_sum w (max lo (child_offset o h st.i))
              (min hi (child_offset o h (st.i + 1))))) =
            Ieee.real (node_weight_sum w (max lo (child_offset o h st.i)) hi) := by
          show to_double _ = _
          rw [node_weight_sum_upper w lo hi (child_offset o h st.i) (child_offset o h (st.i + 1))
            (hmono st.i (st.i + 1) (by omega)),
            add_comm (node_weight_sum w (max lo (child_offset o h (st.i + 1))) hi)]
          rw [← node_weight_sum_upper w lo hi (child_offset o h st.i)
            (child_offset o h (st.i + 1)) (hmono st.i (st.i + 1) (by omega))]
          exact hdb _ _ hhi
        rw [hswl, hswu] at hres
        have hnest : ∀ k, ieee.partition_end rounds fuel
            (if k_first.index (key.depth + 1) = st.i then k_first else root MaxDepth) hi
            (key.set_index (key.depth + 1) st.i) depth (ieee.of_rationals W1) tolerance
            target_ratio
            (Ieee.real (node_weight_sum w lo (min hi (child_offset o h st.i))))
            (Ieee.real (node_weight_sum w (max lo (child_offset o h (st.i + 1))) hi)) =
              Outcome.ok (k, SearchEnd.split) →
            node_weight_sum w (oct_tree_offset depth k) hi ≠ 0 ∧
            ieee.within_tolerance (Ieee.sub to_double (Ieee.div to_double
                (Ieee.real (node_weight_sum w lo (oct_tree_offset depth k)))
                (Ieee.real (node_weight_sum w (oct_tree_offset depth k) hi)))
              target_ratio) tolerance = true := by
          intro k2 hres2
          obtain ⟨hkw, hkd⟩ := child_wf key hk (by omega) st.i (by omega) (by omega)
          cases h with
          | zero =>
            exact absurd hres2 (ieee_partition_end_leaf rounds fuel _ hi _ depth _ tolerance
              target_ratio _ _ (by omega) k2)
          | succ h2 =>
            have hb2 := hbelow.child st.i (by omega) (by omega)
            have ho2 : child_offset o (h2 + 1) st.i + 1 < hi := by
              by_contra hc
              apply hv
              rw [node_weight_sum_zero w _ _ (fun t ht1 ht2 => by
                have : t = child_offset o (h2 + 1) st.i := by omega
                rw [this]
                exact hw.2.1 _ h2 hb2)]
            have hf2 := first_key_nested k_first key.depth lo hi o h2 hf hlo ho st.i
              (by rw [hi0]; exact hsi0)
            refine ih (key.set_index (key.depth + 1) st.i) _ _ _ h2 hkw
              (by omega) ?_ ?_ ?_ ?_ k2 hres2
            · rw [hchild st.i (by omega)]; exact ho2
            · rw [hchild st.i (by omega), hkd]; exact hf2
            · rw [hchild st.i (by omega)]
            · rw [hchild st.i (by omega), ← child_offset_succ o (h2 + 1) st.i (by omega)]
        by_cases hc : Ieee.lt (Ieee.real (node_weight_sum w lo (min hi (child_offset o h st.i))))
            (Ieee.mul to_double
              (Ieee.real (node_weight_sum w (max lo (child_offset o h (st.i + 1))) hi))
              target_ratio) = true
        · simp only [hc, if_true, hnum1] at hres
          by_cases hacc1 : ieee.within_tolerance (Ieee.sub to_double (Ieee.div to_double
              (Ieee.real (node_weight_sum w lo (min hi (child_offset o h (st.i + 1)))))
              (Ieee.real (node_weight_sum w (max lo (child_offset o h (st.i + 1))) hi)))
              target_ratio) tolerance = true
          · rw [if_pos hacc1] at hres
            have hk_eq : oct_key_split key (st.i + 1) = k := by simpa using hres
            have hne := ieee_within_tolerance_den _ _ (node_weight_sum_nonneg w hnn _ _) _ _
              hacc1
            have hin : child_offset o h (st.i + 1) < hi := by
              by_contra hcc
              exact hne (node_weight_sum_empty w _ hi (by omega))
            rw [← hk_eq, oct_key_split_offset depth hm key hk h hd (st.i + 1) (by omega)
              (by omega) (by rw [ho_def]; omega), ho_def]
            exact ieee_ratio_of_cut w hnn lo hi _ _ (le_refl _)
              (fun t h1 h2 => absurd h2 (by omega)) _ _ rfl rfl tolerance target_ratio hacc1
          · rw [if_neg hacc1] at hres
            exact hnest k hres
        · simp only [hc, Bool.false_eq_true, if_false, hden2] at hres
          by_cases hacc1 : ieee.within_tolerance (Ieee.sub to_double (Ieee.div to_double
              (Ieee.real (node_weight_sum w lo (min hi (child_offset o h st.i))))
              (Ieee.real (node_weight_sum w (max lo (child_offset o h st.i)) hi)))
              target_ratio) tolerance = true
          · rw [if_pos hacc1] at hres
            have hk_eq : oct_key_split key st.i = k := by simpa using hres
            by_cases h1 : st.i = 1
            · have hone := oct_key_split_one depth key hk (by omega)
              rw [h1] at hk_eq
              rw [ho_def, hk_eq] at hone
              rw [h1, child_offset_one] at hacc1
              exact ieee_ratio_of_cut w hnn lo hi _ (o + 1) (by omega)
                (fun t ht1 ht2 => by
                  obtain ⟨ht, hbt⟩ := hone.2 t ht1 (by omega)
                  exact hw.2.1 t ht hbt)
                _ _ rfl rfl tolerance target_ratio hacc1
            · rw [← hk_eq, oct_key_split_offset depth hm key hk h hd st.i (by omega) (by omega)
                (by rw [ho_def]; have := hmono st.i j0 hsj0; omega), ho_def]
              exact ieee_ratio_of_cut w hnn lo hi _ _ (le_refl _)
                (fun t h1 h2 => absurd h2 (by omega)) _ _ rfl rfl tolerance target_ratio hacc1
          · rw [if_neg hacc1] at hres
            exact hnest k hres

/-! ## The key stored for the middle process, in IEEE arithmetic -/

/-- A call of `oct_tree_partition_private` in IEEE arithmetic on a range of two or more
processes keeps the length of the cut array and the cuts outside `(p_first, p_end)`. -/
theorem ieee_partition_private_frame {MaxDepth : Nat} (rounds : Nat) :
    ∀ (fuel p_first p_end depth : Nat) (tolerance : Ieee) (weights : ieee.Weights)
      (cuts_length : Nat) (cuts : List (OctTreeKey MaxDepth))
      (r : ieee.PartitionResult MaxDepth),
      2 ≤ p_end - p_first →
      ieee.oct_tree_partition_private rounds fuel p_first p_end depth tolerance weights
        cuts_length cuts = Outcome.ok r →
      r.cuts.length = cuts.length ∧
      (∀ q, q ≤ p_first ∨ p_end ≤ q →
        r.cuts.getD q (root MaxDepth) = cuts.getD q (root MaxDepth)) := by
  intro fuel
  induction fuel with
  | zero =>
    intro p_first p_end depth tolerance weights cuts_length cuts r _ h
    simp [ieee.oct_tree_partition_private] at h
  | succ fuel ih =>
    intro p_first p_end depth tolerance weights cuts_length cuts r hsize h
    rw [ieee.oct_tree_partition_private] at h
    simp only [] at h
    split at h
    · cases h
    · cases h
    · rename_i k_upper hpart
      have hup1 : p_first < (p_end + p_first) / 2 := by omega
      have hup2 : (p_end + p_first) / 2 < p_end := by omega
      split at h
      · cases h
      · cases h
      · rename_i r1 hlower
        have hl : r1.cuts.length = cuts.length ∧
            (∀ q, q ≤ p_first ∨ (p_end + p_first) / 2 ≤ q → r1.cuts.getD q (root MaxDepth) =
              (cuts.set ((p_end + p_first) / 2) k_upper).getD q (root MaxDepth)) := by
          by_cases hc : p_first + 1 < (p_end + p_first) / 2
          · simp only [hc, if_true] at hlower
            obtain ⟨a, b⟩ := ih _ _ _ _ _ _ _ _ (by omega) hlower
            exact ⟨by rw [a, List.length_set], b⟩
          · simp only [hc, if_false, Outcome.ok.injEq] at hlower
            subst hlower
            exact ⟨List.length_set _ _ _, fun _ _ => rfl⟩
        have hu : r.cuts.length = cuts.length ∧
            (∀ q, q ≤ (p_end + p_first) / 2 ∨ p_end ≤ q → r.cuts.getD q (root MaxDepth) =
              r1.cuts.getD q (root MaxDepth)) := by
          by_cases hc : (p_end + p_first) / 2 + 1 < p_end
          · simp only [hc, if_true] at h
            obtain ⟨a, b⟩ := ih _ _ _ _ _ _ _ _ (by omega) h
            exact ⟨by rw [a, hl.1], b⟩
          · simp only [hc, if_false, Outcome.ok.injEq] at h
            subst h
            exact ⟨hl.1, fun _ _ => rfl⟩
        refine ⟨hu.1, ?_⟩
        intro q hq
        rw [hu.2 q (by omega), hl.2 q (by omega)]
        exact getD_set_ne _ _ _ _ _ (by omega)

/-- The key a call of `oct_tree_partition_private` in IEEE arithmetic leaves in
`cuts[p_upper]` is the key its search `partition` returned. -/
theorem ieee_partition_private_stores {MaxDepth : Nat} (rounds fuel p_first p_end depth : Nat)
    (tolerance : Ieee) (weights : ieee.Weights) (cuts_length : Nat)
    (cuts : List (OctTreeKey MaxDepth)) (r : ieee.PartitionResult MaxDepth)
    (hup : (p_end + p_first) / 2 < cuts.length)
    (h : ieee.oct_tree_partition_private rounds fuel p_first p_end depth tolerance weights
      cuts_length cuts = Outcome.ok r) :
    ieee.partition rounds (depth + 1) (cuts.getD p_first (root MaxDepth))
        (if p_end < cuts_length then oct_tree_offset depth (cuts.getD p_end (root MaxDepth))
          else oct_tree_size depth)
        (root MaxDepth) depth
        (ieee.accumulate_weights (root MaxDepth) (cuts.getD p_first (root MaxDepth))
          (if p_end < cuts_length then oct_tree_offset depth (cuts.getD p_end (root MaxDepth))
            else oct_tree_size depth) depth weights)
        tolerance
        (Ieee.div to_double
          (Ieee.div to_double (Ieee.real ((((p_end + p_first) / 2 - p_first : Nat)) : ℚ))
            (Ieee.real (((p_end - p_first : Nat)) : ℚ)))
          (Ieee.sub to_double (Ieee.real 1)
            (Ieee.div to_double (Ieee.real ((((p_end + p_first) / 2 - p_first : Nat)) : ℚ))
              (Ieee.real (((p_end - p_first : Nat)) : ℚ)))))
        (Ieee.real 0) (Ieee.real 0) =
      Outcome.ok (r.cuts.getD ((p_end + p_first) / 2) (root MaxDepth)) := by
  cases fuel with
  | zero => simp [ieee.oct_tree_partition_private] at h
  | succ fuel =>
    rw [ieee.oct_tree_partition_private] at h
    simp only [] at h
    split at h
    · cases h
    · cases h
    · rename_i k_upper hpart
      rw [hpart]
      split at h
      · cases h
      · cases h
      · rename_i r1 hlower
        have hl : r1.cuts.getD ((p_end + p_first) / 2) (root MaxDepth) = k_upper := by
          by_cases hc : p_first + 1 < (p_end + p_first) / 2
          · simp only [hc, if_true] at hlower
            obtain ⟨_, b⟩ := ieee_partition_private_frame _ _ _ _ _ _ _ _ _ _
              (by omega) hlower
            rw [b _ (Or.inr (le_refl _))]
            exact getD_set_self _ _ _ _ hup
          · simp only [hc, if_false, Outcome.ok.injEq] at hlower
            subst hlower
            exact getD_set_self _ _ _ _ hup
        by_cases hc : (p_end + p_first) / 2 + 1 < p_end
        · simp only [hc, if_true] at h
          obtain ⟨_, b⟩ := ieee_partition_private_frame _ _ _ _ _ _ _ _ _ _
            (by omega) h
          rw [b _ (Or.inl (le_refl _)), hl]
        · simp only [hc, if_false, Outcome.ok.injEq] at h
          subst h
          rw [hl]

/-- Whole numbers as own weights with a total below `2^24` over the tree: the weight of every
range of offsets of the tree is a whole number below `2^24`. -/
theorem node_weight_sum_small (depth : Nat) (w : Weights)
    (hown : ∀ n, ∃ m : Nat, w.at (2 * n) = m)
    (htotal : node_weight_sum w 0 (oct_tree_size depth) < 2 ^ 24) (a b : Nat)
    (hb : b ≤ oct_tree_size depth) : ∃ t : Nat, node_weight_sum w a b = t ∧ t < 2 ^ 24 := by
  have hnn : ∀ n, 0 ≤ w.at (2 * n) := by
    intro n
    obtain ⟨m, hm⟩ := hown n
    rw [hm]
    exact Nat.cast_nonneg m
  obtain ⟨t, ht⟩ := node_weight_sum_count w hown a b
  refine ⟨t, ht, ?_⟩
  have hle : node_weight_sum w a b ≤ node_weight_sum w 0 (oct_tree_size depth) := by
    by_cases hab : a ≤ b
    · rw [node_weight_sum_add w 0 a _ (Nat.zero_le _) (by omega),
        node_weight_sum_add w a b _ hab hb]
      have := node_weight_sum_nonneg w hnn 0 a
      have := node_weight_sum_nonneg w hnn b (oct_tree_size depth)
      linarith
    · rw [node_weight_sum_empty w a b (by omega)]
      exact node_weight_sum_nonneg w hnn _ _
  have : (t : ℚ) < 2 ^ 24 := by
    rw [← ht]
    exact lt_of_le_of_lt hle htotal
  exact_mod_cast this

/-- C17 (amended): for weights that are whole numbers, non-zero only on maximum-depth leaves
and with a total below `2^24`, every sum of the run is exact in `float` and in `double`:
`oct_tree_partition_private` in IEEE arithmetic accumulates the weights over
`[cuts[p_first], i_end)` without rounding, and when its key search `partition` chooses the
key `k` for `cuts[p_upper]` by the tolerance test `- tolerance < diff && diff < tolerance`
(the branch that returns `oct_key_split`), then `k` is the key the search returns and the
call stores in `cuts[p_upper]`, the total weight of the nodes with offset in
`[offset(k), i_end)` is not zero, and the total weight of the nodes with offset in
`[offset(cuts[p_first]), offset(k))` divided by it, the quotient taken in `double`, differs
from the target ratio as the code computes it in `double` by less than `tolerance`, the
difference taken in `double`. -/
theorem oct_tree_partition_private_tolerance {MaxDepth : Nat} (depth : Nat)
    (hm : depth ≤ MaxDepth) (p_first p_end : Nat) (tolerance : Ieee) (weights : Weights)
    (cuts_length : Nat) (cuts : List (OctTreeKey MaxDepth)) (hw : LeafWeights depth weights)
    (hcount : ∀ o, ∃ m : Nat, weights.at (2 * o) = m)
    (htotal : node_weight_sum weights 0 (oct_tree_size depth) < 2 ^ 24)
    (p_upper : Nat) (hpu : p_upper = (p_end + p_first) / 2)
    (k_first : OctTreeKey MaxDepth) (hkf : k_first = cuts.getD p_first (root MaxDepth))
    (hkw : k_first.WellFormed) (i_end : Nat)
    (hie : i_end = if p_end < cuts_length then
      oct_tree_offset depth (cuts.getD p_end (root MaxDepth)) else oct_tree_size depth)
    (hrange : oct_tree_offset depth k_first < i_end) (hend : i_end ≤ oct_tree_size depth)
    (target_ratio : Ieee)
    (htr : target_ratio = Ieee.div to_double
      (Ieee.div to_double (Ieee.real ((p_upper - p_first : Nat) : ℚ))
        (Ieee.real ((p_end - p_first : Nat) : ℚ)))
      (Ieee.sub to_double (Ieee.real 1)
        (Ieee.div to_double (Ieee.real ((p_upper - p_first : Nat) : ℚ))
          (Ieee.real ((p_end - p_first : Nat) : ℚ)))))
    (rounds : Nat) (k : OctTreeKey MaxDepth)
    (hsplit : ieee.partition_end rounds (depth + 1) k_first i_end (root MaxDepth) depth
        (ieee.accumulate_weights (root MaxDepth) k_first i_end depth
          (ieee.of_rationals weights)) tolerance target_ratio (Ieee.real 0) (Ieee.real 0) =
      Outcome.ok (k, SearchEnd.split)) :
    ieee.accumulate_weights (root MaxDepth) k_first i_end depth (ieee.of_rationals weights) =
      ieee.of_rationals (accumulate_weights (root MaxDepth) k_first i_end depth weights) ∧
    ieee.partition rounds (depth + 1) k_first i_end (root MaxDepth) depth
        (ieee.accumulate_weights (root MaxDepth) k_first i_end depth
          (ieee.of_rationals weights)) tolerance target_ratio (Ieee.real 0) (Ieee.real 0) =
      Outcome.ok k ∧
    (∀ fuel r, p_upper < cuts.length →
      ieee.oct_tree_partition_private rounds fuel p_first p_end depth tolerance
        (ieee.of_rationals weights) cuts_length cuts = Outcome.ok r →
      r.cuts.getD p_upper (root MaxDepth) = k) ∧
    node_weight_sum weights (oct_tree_offset depth k) i_end ≠ 0 ∧
    ieee.within_tolerance (Ieee.sub to_double (Ieee.div to_double
        (Ieee.real (node_weight_sum weights (oct_tree_offset depth k_first)
          (oct_tree_offset depth k)))
        (Ieee.real (node_weight_sum weights (oct_tree_offset depth k) i_end)))
      target_ratio) tolerance = true := by
  have hexact := ieee_accumulate_weights_counts depth i_end hm k_first hkw weights hw hcount
    htotal
  have hpart : ieee.partition rounds (depth + 1) k_first i_end (root MaxDepth) depth
      (ieee.accumulate_weights (root MaxDepth) k_first i_end depth
        (ieee.of_rationals weights)) tolerance target_ratio (Ieee.real 0) (Ieee.real 0) =
      Outcome.ok k := by
    rw [ieee_partition_end_key, hsplit]
  refine ⟨hexact, hpart, ?_, ?_⟩
  · intro fuel r hup h
    subst hpu
    have hs := ieee_partition_private_stores rounds fuel p_first p_end depth tolerance
      (ieee.of_rationals weights) cuts_length cuts r hup h
    rw [← hkf, ← hie, ← htr, hpart] at hs
    simp only [Outcome.ok.injEq] at hs
    exact hs.symm
  · have hnn : ∀ n, 0 ≤ weights.at (2 * n) := by
      intro n
      obtain ⟨m, hm⟩ := hcount n
      rw [hm]
      exact Nat.cast_nonneg m
    rw [hexact] at hsplit
    cases depth with
    | zero =>
      exact absurd hsplit (ieee_partition_end_leaf _ _ _ _ _ _ _ _ _ _ _ (root_depth MaxDepth) k)
    | succ h =>
      by_cases h1 : i_end = 1
      · rw [ieee.partition_end] at hsplit
        simp [h1] at hsplit
      · obtain ⟨_, hown, hacc⟩ := accumulate_leaf_weights (h + 1) i_end hm k_first hkw weights
          hw hrange
        refine ieee_partition_end_split (h + 1) hm weights hw hnn
          (node_weight_sum_small (h + 1) weights hcount htotal)
          (oct_tree_offset (h + 1) k_first)
          i_end hrange hend _ hown ?_ tolerance target_ratio rounds (h + 1 + 1) (root MaxDepth)
          k_first 0 0 h (root_wf MaxDepth) (by rw [root_depth]; omega) ?_ ?_ ?_ ?_ k hsplit
        · intro h2 o hb hmeets
          rw [hacc h2 o hb hmeets]
          exact leaf_weight_sum_range (h + 1) weights hw _ _ h2 o hb
        · rw [oct_tree_offset_root]; omega
        · rw [oct_tree_offset_root, root_depth]
          by_cases h0 : k_first.index 1 = 0
          · refine Or.inl ⟨h0, ?_⟩
            have : oct_tree_offset (h + 1) k_first = 0 :=
              offset_of_digits_head_zero (h + 1) k_first.digits (by
                rw [← getD_zero_headD]; exact h0)
            omega
          · refine Or.inr ⟨k_first.digits, hkw, ?_, by simp [oct_tree_offset], fun n => ?_⟩
            · rw [← getD_zero_headD]; exact h0
            · rw [show 0 + 1 + n = n + 1 by omega]
              rfl
        · rw [oct_tree_offset_root, Nat.min_zero]
          exact (node_weight_sum_empty weights _ _ (Nat.zero_le _)).symm
        · rw [oct_tree_offset_root]
          exact (node_weight_sum_empty weights _ _ (by omega)).symm

theorem six_leaf_weights_slots :
    LeafWeights 1 six_leaf_weights ∧ (∀ o, ∃ m : Nat, six_leaf_weights.at (2 * o) = m) := by
  constructor
  · refine leaf_weights_of_slots 1 six_leaf_weights rfl ?_
    intro idx h
    rw [leaf_offsets_one] at h
    by_cases hlt : idx < 18
    · interval_cases idx
      all_goals first
        | rfl
        | exact absurd rfl (h 1 (by simp))
        | exact absurd rfl (h 2 (by simp))
        | exact absurd rfl (h 3 (by simp))
        | exact absurd rfl (h 4 (by simp))
        | exact absurd rfl (h 5 (by simp))
        | exact absurd rfl (h 6 (by simp))
    · unfold Weights.at six_leaf_weights
      rw [List.getD_eq_getElem?_getD, List.getElem?_eq_none (by simp; omega)]
      rfl
  · intro o
    by_cases hlt : o < 9
    · interval_cases o
      all_goals first
        | exact ⟨0, by decide!⟩
        | exact ⟨1, by decide!⟩
    · refine ⟨0, ?_⟩
      unfold Weights.at six_leaf_weights
      rw [List.getD_eq_getElem?_getD, List.getElem?_eq_none (by simp; omega)]
      simp

/-- The hypotheses of the amended C17 hold on the tree of depth `1` with the own weight `1`
on the leaves `(1)` to `(6)`, for the three processes `0`, `1`, `2` and the tolerance
`0.001`: the target ratio comes out as `0.5 - 2^-54`, the search accepts the key `(3)` by its
tolerance test, with the weight `2` before it and the weight `4` from it on. -/
theorem oct_tree_partition_private_tolerance_witness :
    LeafWeights 1 six_leaf_weights ∧ (∀ o, ∃ m : Nat, six_leaf_weights.at (2 * o) = m) ∧
    node_weight_sum six_leaf_weights 0 (oct_tree_size 1) < 2 ^ 24 ∧
    Ieee.div to_double
        (Ieee.div to_double (Ieee.real ((1 - 0 : Nat) : ℚ)) (Ieee.real ((3 - 0 : Nat) : ℚ)))
        (Ieee.sub to_double (Ieee.real 1)
          (Ieee.div to_double (Ieee.real ((1 - 0 : Nat) : ℚ))
            (Ieee.real ((3 - 0 : Nat) : ℚ)))) = Ieee.real (1 / 2 - 1 / 2 ^ 54) ∧
    ieee.partition_end 7 2 (root 2) 9 (root 2) 1
        (ieee.accumulate_weights (root 2) (root 2) 9 1 (ieee.of_rationals six_leaf_weights))
        (to_double (1 / 1000)) (Ieee.real (1 / 2 - 1 / 2 ^ 54)) (Ieee.real 0) (Ieee.real 0) =
      Outcome.ok (key_of_digits 2 [3], SearchEnd.split) ∧
    oct_tree_offset 1 (root 2) = 0 ∧ oct_tree_offset 1 (key_of_digits 2 [3]) = 3 ∧
    node_weight_sum six_leaf_weights 0 3 = 2 ∧ node_weight_sum six_leaf_weights 3 9 = 4 ∧
    (ieee.accumulate_weights (root 2) (root 2) 9 1 (ieee.of_rationals six_leaf_weights) =
      ieee.of_rationals (accumulate_weights (root 2) (root 2) 9 1 six_leaf_weights) ∧
    ieee.partition 7 2 (root 2) 9 (root 2) 1
        (ieee.accumulate_weights (root 2) (root 2) 9 1 (ieee.of_rationals six_leaf_weights))
        (to_double (1 / 1000)) (Ieee.real (1 / 2 - 1 / 2 ^ 54)) (Ieee.real 0) (Ieee.real 0) =
      Outcome.ok (key_of_digits 2 [3]) ∧
    (∀ fuel r, 1 < [root 2, root 2, root 2].length →
      ieee.oct_tree_partition_private 7 fuel 0 3 1 (to_double (1 / 1000))
        (ieee.of_rationals six_leaf_weights) 3 [root 2, root 2, root 2] = Outcome.ok r →
      r.cuts.getD 1 (root 2) = key_of_digits 2 [3]) ∧
    node_weight_sum six_leaf_weights (oct_tree_offset 1 (key_of_digits 2 [3])) 9 ≠ 0 ∧
    ieee.within_tolerance (Ieee.sub to_double (Ieee.div to_double
        (Ieee.real (node_weight_sum six_leaf_weights (oct_tree_offset 1 (root 2))
          (oct_tree_offset 1 (key_of_digits 2 [3]))))
        (Ieee.real (node_weight_sum six_leaf_weights
          (oct_tree_offset 1 (key_of_digits 2 [3])) 9)))
      (Ieee.real (1 / 2 - 1 / 2 ^ 54))) (to_double (1 / 1000)) = true) :=
  ⟨six_leaf_weights_slots.1, six_leaf_weights_slots.2, by decide!, by decide!, by decide!,
    by decide, by decide, by decide!, by decide!,
    oct_tree_partition_private_tolerance 1 (by decide) 0 3 (to_double (1 / 1000))
      six_leaf_weights 3 [root 2, root 2, root 2] six_leaf_weights_slots.1
      six_leaf_weights_slots.2 (by decide!) 1 rfl (root 2) rfl (by decide) 9 rfl (by decide)
      (by decide) (Ieee.real (1 / 2 - 1 / 2 ^ 54)) (by decide!) 7 (key_of_digits 2 [3])
      (by decide!)⟩

/-! ## A bisection that does not end -/

/-- A round of the loop `while ( i < j )` in which the sum of the child `i` is "not a number"
and the sum of the child `j` is above zero changes nothing: every test of the round is
false, and the loop never ends. -/
theorem ieee_balance_loop_stall {MaxDepth : Nat} (key : OctTreeKey MaxDepth) (d1 depth : Nat)
    (weights : ieee.Weights) (target_ratio : Ieee) (st : ieee.SplitState) (hij : st.i < st.j)
    (hi : Ieee.add to_float (weights.at (2 * oct_tree_offset depth (key.set_index d1 st.i)))
      (weights.at (2 * oct_tree_offset depth (key.set_index d1 st.i) + 1)) = Ieee.nan)
    (hj : Ieee.lt (Ieee.real 0)
      (Ieee.add to_float (weights.at (2 * oct_tree_offset depth (key.set_index d1 st.j)))
        (weights.at (2 * oct_tree_offset depth (key.set_index d1 st.j) + 1))) = true) :
    ∀ rounds, ieee.balance_loop key d1 depth weights target_ratio rounds st = none := by
  have hj2 : ¬ Ieee.le
      (Ieee.add to_float (weights.at (2 * oct_tree_offset depth (key.set_index d1 st.j)))
        (weights.at (2 * oct_tree_offset depth (key.set_index d1 st.j) + 1)))
      (Ieee.real 0) = true := by
    generalize Ieee.add to_float (weights.at (2 * oct_tree_offset depth (key.set_index d1 st.j)))
      (weights.at (2 * oct_tree_offset depth (key.set_index d1 st.j) + 1)) = v at hj
    cases v with
    | real q =>
      simp only [Ieee.lt, decide_eq_true_eq] at hj
      simp only [Ieee.le, decide_eq_true_eq, not_le]
      exact hj
    | pos_inf => simp [Ieee.le]
    | neg_inf => simp [Ieee.lt] at hj
    | nan => simp [Ieee.lt] at hj
  intro rounds
  induction rounds with
  | zero => rw [ieee.balance_loop, if_pos hij]
  | succ n ih =>
    rw [ieee.balance_loop]
    simp only [hij, if_true, hi]
    rw [if_neg (by simp [Ieee.lt]), if_neg (by simp [Ieee.le]), if_neg hj2]
    exact ih

/-- Storing the value a slot already holds changes nothing. -/
theorem ieee_put_same (w : ieee.Weights) (i : Nat) (v : Ieee) (h : w.at i = v) :
    w.put i v = w := by
  unfold ieee.Weights.put
  unfold ieee.Weights.at at h
  apply List.ext_getElem?
  intro j
  rw [List.getElem?_set]
  by_cases hij : i = j
  · subst hij
    by_cases hl : i < w.length
    · rw [if_pos rfl, if_pos hl, ← h, List.getD_eq_getElem?_getD, List.getElem?_eq_getElem hl]
      rfl
    · rw [if_pos rfl, if_neg hl, List.getElem?_eq_none (by omega)]
  · rw [if_neg hij]

/-- A child loop whose nested calls leave the array as it is leaves the array as it is. -/
theorem ieee_offset_children_fixed (recurse : Nat → ieee.Weights → ieee.Weights)
    (o h ord_end : Nat) (w : ieee.Weights) :
    ∀ (l : List Nat) (s : Ieee), (∀ i, i ∈ l → recurse (child_offset o h i) w = w) →
      (ieee.offset_children recurse o h ord_end l (s, w)).2 = w := by
  intro l
  induction l with
  | nil => intro s _; rfl
  | cons i rest ih =>
    intro s hrec
    simp only [ieee.offset_children]
    by_cases hlt : child_offset o h i < ord_end
    · simp only [hlt, if_true, hrec i (List.mem_cons_self _ _)]
      exact ih _ (fun j hj => hrec j (List.mem_cons_of_mem _ hj))
    · simp only [hlt, if_false]
      exact ih _ (fun j hj => hrec j (List.mem_cons_of_mem _ hj))

/-- A child loop over children without weight, whose nested calls leave the array as it is,
ends with the sum zero. -/
theorem ieee_offset_children_zero (recurse : Nat → ieee.Weights → ieee.Weights)
    (o h ord_end : Nat) (w : ieee.Weights) :
    ∀ (l : List Nat), (∀ i, i ∈ l → recurse (child_offset o h i) w = w ∧
        w.at (child_offset o h i * 2) = Ieee.real 0 ∧
        w.at (child_offset o h i * 2 + 1) = Ieee.real 0) →
      ieee.offset_children recurse o h ord_end l (Ieee.real 0, w) = (Ieee.real 0, w) := by
  intro l
  induction l with
  | nil => intro _; rfl
  | cons i rest ih =>
    intro hrec
    obtain ⟨h1, h2, h3⟩ := hrec i (List.mem_cons_self _ _)
    have hsum : Ieee.add to_double (Ieee.real 0)
        (Ieee.add to_float (Ieee.real 0) (Ieee.real 0)) = Ieee.real 0 := by
      have e1 : Ieee.add to_float (Ieee.real 0) (Ieee.real 0) = Ieee.real 0 := by
        show to_float (0 + 0) = _
        rw [add_zero]
        exact to_float_zero
      rw [e1]
      show to_double (0 + 0) = _
      rw [add_zero]
      exact to_double_zero
    simp only [ieee.offset_children]
    by_cases hlt : child_offset o h i < ord_end
    · simp only [hlt, if_true, h1, h2, h3, hsum]
      exact ih (fun j hj => hrec j (List.mem_cons_of_mem _ hj))
    · simp only [hlt, if_false]
      exact ih (fun j hj => hrec j (List.mem_cons_of_mem _ hj))

/-- The accumulation below a node whose descendants all have the two slots zero, and whose
own descendant slot is zero, leaves the array as it is. -/
theorem ieee_offset_accumulate_zero (ord_end : Nat) :
    ∀ (h o n : Nat) (w : ieee.Weights),
      (∀ idx, 2 * o + 1 ≤ idx → idx < 2 * (o + oct_tree_size h) → w.at idx = Ieee.real 0) →
      ieee.offset_accumulate h o (List.replicate n 0) ord_end w = w := by
  intro h
  induction h with
  | zero => intro o n w _; rfl
  | succ h ih =>
    intro o n w hz
    have hsz := oct_tree_size_succ h
    have hpos := oct_tree_size_pos h
    have hhead : (List.replicate n 0).headD 0 = 0 := by
      cases n <;> rfl
    have htail : (List.replicate n 0).tail = List.replicate (n - 1) 0 := by
      cases n <;> rfl
    have hchild : ∀ i, i ∈ List.range' 1 8 →
        ieee.offset_accumulate h (child_offset o h i) (List.replicate (n - 1) 0) ord_end w = w ∧
        w.at (child_offset o h i * 2) = Ieee.real 0 ∧
        w.at (child_offset o h i * 2 + 1) = Ieee.real 0 := by
      intro i hi
      rw [List.mem_range'_1] at hi
      have hb : (i - 1) * oct_tree_size h ≤ 7 * oct_tree_size h :=
        Nat.mul_le_mul_right _ (by omega)
      have hco : child_offset o h i = o + 1 + (i - 1) * oct_tree_size h := rfl
      refine ⟨ih _ _ w (fun idx h1 h2 => hz idx (by omega) (by omega)),
        hz _ (by omega) (by omega), hz _ (by omega) (by omega)⟩
    rw [ieee.offset_accumulate]
    simp only [hhead, ne_eq, not_true_eq_false, if_false, htail, Nat.zero_add, Nat.sub_zero]
    rw [ieee_offset_children_zero _ o h ord_end w (List.range' 1 8) hchild]
    exact ieee_put_same w _ _ (by
      rw [hz _ (by omega) (by omega)]
      exact to_float_zero.symm)

/-- Beyond the slots of the node `(1)` and its descendants the array `opposite_sums` is zero,
but for the own slot of the node `(8)`. -/
theorem ieee_opposite_sums_rest (idx : Nat) (h1 : 27 ≤ idx) (h2 : idx ≠ 1024) :
    ieee.opposite_sums.at idx = Ieee.real 0 := by
  unfold ieee.Weights.at ieee.opposite_sums ieee.opposite_weights
  rw [List.getD_eq_getElem?_getD]
  rw [List.getElem?_set_ne (by omega), List.getElem?_set_ne (by omega),
    List.getElem?_set_ne (by omega), List.getElem?_set_ne (by omega),
    List.getElem?_set_ne (by omega), List.getElem?_set_ne (by omega),
    List.getElem?_set_ne (by omega), List.getElem?_set_ne (by omega)]
  rw [List.getElem?_replicate]
  split <;> rfl

set_option maxRecDepth 100000 in
/-- The accumulation below the node `(1)`: the two floats of `(1,1)` overflow to `+infinity`,
those of `(1,2)` to `-infinity`, and the sum stored for `(1)` is "not a number". -/
theorem ieee_opposite_first :
    ieee.offset_accumulate 2 1 [0, 0] 585 ieee.opposite_weights = ieee.opposite_sums := by
  decide!

/-- The child loop after a first child below `ord_end`, when the nested calls of the other
children leave the array of the first as it is. -/
theorem ieee_offset_children_first (recurse : Nat → ieee.Weights → ieee.Weights)
    (o h ord_end : Nat) (w w1 : ieee.Weights) (i : Nat) (rest : List Nat) (s : Ieee)
    (hlt : child_offset o h i < ord_end) (hfirst : recurse (child_offset o h i) w = w1)
    (hrest : ∀ j, j ∈ rest → recurse (child_offset o h j) w1 = w1) :
    (ieee.offset_children recurse o h ord_end (i :: rest) (s, w)).2 = w1 := by
  simp only [ieee.offset_children, hlt, if_true, hfirst]
  exact ieee_offset_children_fixed recurse o h ord_end w1 rest _ hrest

/-- The slots of the array after `accumulate_weights` at a node, but for the slot of the node,
are those the loop over its children leaves. -/
theorem ieee_offset_accumulate_at (h o n ord_end : Nat) (w : ieee.Weights) (idx : Nat)
    (hidx : idx ≠ 2 * o + 1) :
    (ieee.offset_accumulate (h + 1) o (List.replicate n 0) ord_end w).at idx =
      (ieee.offset_children
        (fun ord w => ieee.offset_accumulate h ord (List.replicate (n - 1) 0) ord_end w)
        o h ord_end (List.range' 1 8) (Ieee.real 0, w)).2.at idx := by
  have hhead : (List.replicate n 0).headD 0 = 0 := by
    cases n <;> rfl
  have htail : (List.replicate n 0).tail = List.replicate (n - 1) 0 := by
    cases n <;> rfl
  rw [ieee.offset_accumulate]
  simp only [hhead, ne_eq, not_true_eq_false, if_false, htail, Nat.zero_add, Nat.sub_zero]
  rw [ieee_at_put, if_neg (by omega)]

/-- The accumulated sums of `opposite_weights` over the whole tree, but for the slot of the
root. -/
theorem ieee_opposite_accumulate (idx : Nat) (h : idx ≠ 1) :
    (ieee.accumulate_weights (root 3) (root 3) 585 3 ieee.opposite_weights).at idx =
      ieee.opposite_sums.at idx := by
  rw [ieee_accumulate_weights_eq 3 585 (le_refl _) (root 3) (root_wf 3)]
  have hd : (root 3).digits = List.replicate 3 0 := rfl
  have hl : List.range' 1 8 = 1 :: List.range' 2 7 := rfl
  have hsize : oct_tree_size 2 = 73 := by decide
  rw [hd, ieee_offset_accumulate_at 2 0 3 585 ieee.opposite_weights idx (by omega), hl,
    ieee_offset_children_first _ 0 2 585 ieee.opposite_weights ieee.opposite_sums 1 (List.range' 2 7) _
      (by decide) ieee_opposite_first]
  intro j hj
  rw [List.mem_range'_1] at hj
  have hco : child_offset 0 2 j = 0 + 1 + (j - 1) * oct_tree_size 2 := rfl
  refine ieee_offset_accumulate_zero 585 2 _ 2 ieee.opposite_sums (fun i h1 h2 => ?_)
  rw [hco, hsize] at h1 h2
  by_cases h8 : j = 8
  · subst h8
    exact ieee_opposite_sums_rest i (by omega) (by omega)
  · exact ieee_opposite_sums_rest i (by omega) (by omega)

/-- On the accumulated sums of `opposite_weights` the loop `while ( i < j )` of `partition` at
the root starts with `i = 1`, whose sum is "not a number", and `j = 8`, whose sum is `1`: it
never ends. -/
theorem ieee_partition_opposite (rounds : Nat) (tolerance target_ratio : Ieee) :
    ieee.partition rounds (3 + 1) (root 3) 585 (root 3) 3
        (ieee.accumulate_weights (root 3) (root 3) 585 3 ieee.opposite_weights)
        tolerance target_ratio (Ieee.real 0) (Ieee.real 0) = Outcome.no_fuel := by
  have hfj : find_j 585 3 ((root 3).depth + 1) (root 3) 8 = some 8 := by decide
  have hi0 : (if (root 3).index ((root 3).depth + 1) ≠ 0 then
      (root 3).index ((root 3).depth + 1) else 1) = 1 := by decide
  have ho1 : oct_tree_offset 3 ((root 3).set_index ((root 3).depth + 1) 1) = 1 := by decide
  have ho8 : oct_tree_offset 3 ((root 3).set_index ((root 3).depth + 1) 8) = 512 := by decide
  have hstall := ieee_balance_loop_stall (root 3) ((root 3).depth + 1) 3
    (ieee.accumulate_weights (root 3) (root 3) 585 3 ieee.opposite_weights) target_ratio
    ⟨if (root 3).index ((root 3).depth + 1) ≠ 0 then (root 3).index ((root 3).depth + 1) else 1,
      8, Ieee.real 0, Ieee.real 0⟩ (by decide)
    (by
      show Ieee.add to_float
        ((ieee.accumulate_weights (root 3) (root 3) 585 3 ieee.opposite_weights).at
          (2 * oct_tree_offset 3 ((root 3).set_index ((root 3).depth + 1)
            (if (root 3).index ((root 3).depth + 1) ≠ 0 then
              (root 3).index ((root 3).depth + 1) else 1))))
        ((ieee.accumulate_weights (root 3) (root 3) 585 3 ieee.opposite_weights).at
          (2 * oct_tree_offset 3 ((root 3).set_index ((root 3).depth + 1)
            (if (root 3).index ((root 3).depth + 1) ≠ 0 then
              (root 3).index ((root 3).depth + 1) else 1)) + 1)) = Ieee.nan
      rw [hi0, ho1, ieee_opposite_accumulate _ (by decide), ieee_opposite_accumulate _ (by decide)]
      decide!)
    (by
      show Ieee.lt (Ieee.real 0) (Ieee.add to_float
        ((ieee.accumulate_weights (root 3) (root 3) 585 3 ieee.opposite_weights).at
          (2 * oct_tree_offset 3 ((root 3).set_index ((root 3).depth + 1) 8)))
        ((ieee.accumulate_weights (root 3) (root 3) 585 3 ieee.opposite_weights).at
          (2 * oct_tree_offset 3 ((root 3).set_index ((root 3).depth + 1) 8) + 1))) = true
      rw [ho8, ieee_opposite_accumulate _ (by decide), ieee_opposite_accumulate _ (by decide)]
      decide!) rounds
  rw [ieee.partition]
  simp only [hfj]
  rw [if_neg (by decide), if_neg (by decide)]
  simp only [ne_eq, not_true_eq_false, if_false]
  rw [hstall]

/-- C23 as stated fails: on the tree of depth `3` with the finite own weights of
`opposite_weights` (`FLT_MAX` on two leaves below `(1,1)`, `-FLT_MAX` on two leaves below
`(1,2)`, `1` on the node `(8)`) the accumulation stores `+infinity` for `(1,1)`,
`-infinity` for `(1,2)` and "not a number" for `(1)`. In the loop `while ( i < j )` of
`partition` at the root, with `i = 1` and `j = 8`, every test is then false and neither `i`
nor `j` moves: whatever the number of rounds and of nested calls provided for, the call of
`oct_tree_partition_private` for two processes does not end. -/
theorem ieee_partition_private_stalls :
    ieee.opposite_weights.all Ieee.finite = true ∧
    (ieee.accumulate_weights (root 3) (root 3) 585 3 ieee.opposite_weights).at 5 =
      Ieee.pos_inf ∧
    (ieee.accumulate_weights (root 3) (root 3) 585 3 ieee.opposite_weights).at 23 =
      Ieee.neg_inf ∧
    (ieee.accumulate_weights (root 3) (root 3) 585 3 ieee.opposite_weights).at 3 = Ieee.nan ∧
    ∀ rounds fuel, ieee.oct_tree_partition_private rounds (fuel + 1) 0 2 3 (Ieee.real (1 / 10))
      ieee.opposite_weights 2 [root 3, root 3] = Outcome.no_fuel := by
  refine ⟨by decide!, ?_, ?_, ?_, ?_⟩
  · rw [ieee_opposite_accumulate _ (by decide)]
    decide!
  · rw [ieee_opposite_accumulate _ (by decide)]
    decide!
  · rw [ieee_opposite_accumulate _ (by decide)]
    decide!
  · intro rounds fuel
    have e585 : oct_tree_size 3 = 585 := by decide
    rw [ieee.oct_tree_partition_private]
    simp only [List.getD_cons_zero, Nat.lt_irrefl, if_false, e585, ieee_partition_opposite]

end stk

namespace Zoltan2

/-! ## The constructor with bounds and the range check (C24) -/

/-- The members the constructor leaves for `validMin < validMax`: exchanged. -/
theorem construct_members (validMin validMax : Int) (h : validMin < validMax) :
    (IntegerRangeListValidator.construct validMin validMax).min_ = validMax ∧
    (IntegerRangeListValidator.construct validMin validMax).max_ = validMin := by
  unfold IntegerRangeListValidator.construct
  simp only [h, if_true, and_self]

/-- Whatever the arguments, the constructor leaves `max_ ≤ min_`. -/
theorem construct_ordered (validMin validMax : Int) :
    (IntegerRangeListValidator.construct validMin validMax).max_ ≤
      (IntegerRangeListValidator.construct validMin validMax).min_ := by
  unfold IntegerRangeListValidator.construct
  simp only []
  split
  · simp only []; omega
  · simp only []; omega

/-- A validator with `max_ < min_` validates as the validator for which any integer is valid:
the range check is skipped. -/
theorem validate_unchecked (v : IntegerRangeListValidator) (h : v.max_ < v.min_)
    (entry : ParameterEntry) :
    v.validate entry = IntegerRangeListValidator.any.validate entry := by
  cases entry with
  | array a => rfl
  | string s =>
    unfold IntegerRangeListValidator.validate
    simp only [ge_iff_le, not_le.2 h, if_false, IntegerRangeListValidator.any]
    simp

/-- The validator built for `validMin < validMax` validates as the validator for which any
integer is valid. -/
theorem construct_validate (validMin validMax : Int) (h : validMin < validMax)
    (entry : ParameterEntry) :
    (IntegerRangeListValidator.construct validMin validMax).validate entry =
      IntegerRangeListValidator.any.validate entry := by
  apply validate_unchecked
  obtain ⟨h1, h2⟩ := construct_members validMin validMax h
  rw [h1, h2]
  exact h

/-- C24 fails on the code: the constructor `IntegerRangeListValidator(1, 3)` exchanges the two
bounds (`min_ = 3`, `max_ = 1`), so the test `max_ >= min_` that guards the range check fails
and `validate` and `validateAndModify` return for the range list `"5"`, which names the
integer `5` above `validMax = 3`; a validator holding `min_ = 1` and `max_ = 3`, as the
constructor is documented to leave, throws for it. -/
theorem validate_out_of_range_accepted :
    (IntegerRangeListValidator.construct 1 3).min_ = 3 ∧
    (IntegerRangeListValidator.construct 1 3).max_ = 1 ∧
    range_bounds ['5'] = (5, 5) ∧
    (IntegerRangeListValidator.construct 1 3).validate (ParameterEntry.string ['5']) =
      some () ∧
    (IntegerRangeListValidator.construct 1 3).validateAndModify (ParameterEntry.string ['5']) =
      some (ParameterEntry.array [5, RANGE_IS_LISTED]) ∧
    IntegerRangeListValidator.validate ⟨1, 3⟩ (ParameterEntry.string ['5']) = none ∧
    IntegerRangeListValidator.validateAndModify ⟨1, 3⟩ (ParameterEntry.string ['5']) = none := by
  refine ⟨?_, ?_, ?_, ?_, ?_, ?_, ?_⟩ <;> decide

end Zoltan2

